import Mathlib

/-!
Shallow embedding of the `red-black-tree-rs` crate: a sentinel-based red-black
tree (`RBTree` in `src/lib.rs`) whose nodes live behind raw pointers.

The pointer graph is modelled as a store mapping node indices (`Nat`) to node
records.  Index `0` plays the role of the `nil` sentinel pointer and index `1`
the `header` sentinel, matching the two leaked sentinel boxes created by
`RBTree::new`.  Freshly allocated nodes receive indices `2, 3, …` from the
`fresh` counter (modelling heap allocation of distinct pointers).

Rust panics (`panic!`, `assert!`, `unreachable!`) are modelled as the
`Fault.abort` value of an `Except` monad; loops and recursion that follow raw
pointers are given explicit fuel, with `Fault.fuel` signalling exhaustion.
Keys and values are specialised to `Int` (the crate is generic over any
totally ordered key type; `i32` is the type exercised by its test-suite).
-/

namespace RBT

/-- Color of a node, from `src/node.rs` (`enum Color { Red, Black }`). -/
inductive Color where
  | Red : Color
  | Black : Color
deriving DecidableEq, Repr

/-- One node of the tree, from `src/node.rs` (`struct RBNode`): key, value,
color and the three structural links.  The `MaybeUninit` payload of the two
sentinels is modelled by junk values (`0`). -/
structure RBNode where
  key : Int
  value : Int
  color : Color
  left : Nat
  right : Nat
  parent : Nat
deriving DecidableEq, Repr

/-- Junk contents of an unallocated / sentinel slot. -/
def defaultNode : RBNode :=
  { key := 0, value := 0, color := Color.Black, left := 0, right := 0, parent := 0 }

/-- The tree, from `src/lib.rs` (`struct RBTree`): the pointer store plus the
`len` counter.  `fresh` is the allocator: the next unused index. -/
structure RBTree where
  store : Nat → RBNode
  fresh : Nat
  len : Nat

/-- Index of the `nil` sentinel (the `nil` field of the Rust struct). -/
def nilIdx : Nat := 0

/-- Index of the `header` sentinel (the `header` field of the Rust struct). -/
def headerIdx : Nat := 1

/-- Dereference a node pointer. -/
def getN (t : RBTree) (i : Nat) : RBNode := t.store i

/-- Overwrite the node behind a pointer. -/
def setN (t : RBTree) (i : Nat) (n : RBNode) : RBTree :=
  { t with store := fun j => if j = i then n else t.store j }

/-- Assignment `node.left = l`. -/
def setLeft (t : RBTree) (i : Nat) (l : Nat) : RBTree :=
  setN t i { getN t i with left := l }

/-- Assignment `node.right = r`. -/
def setRight (t : RBTree) (i : Nat) (r : Nat) : RBTree :=
  setN t i { getN t i with right := r }

/-- Assignment `node.parent = p`. -/
def setParent (t : RBTree) (i : Nat) (p : Nat) : RBTree :=
  setN t i { getN t i with parent := p }

/-- Assignment `node.color = c` (`color_red` / `color_black` in `src/lib.rs`). -/
def setColor (t : RBTree) (i : Nat) (c : Color) : RBTree :=
  setN t i { getN t i with color := c }

/-- Faults: `abort` models a Rust panic (with its message), `fuel` models
exhaustion of the explicit fuel given to a loop. -/
inductive Fault where
  | abort : String → Fault
  | fuel : Fault
deriving DecidableEq, Repr

/-- `RBTree::new` from `src/lib.rs`: both sentinels are Black, the nil
sentinel's links all point to itself, and the header's links all point to nil;
no live node exists, `len == 0`.  (In the store model both sentinel slots, and
every unallocated slot, hold exactly these contents.) -/
def RBTree.new : RBTree :=
  { store := fun _ => defaultNode, fresh := 2, len := 0 }

/-- `is_nil` from `src/lib.rs`: pointer comparison with the nil sentinel. -/
def isNil (i : Nat) : Prop := i = nilIdx

instance (i : Nat) : Decidable (isNil i) := by unfold isNil; infer_instance

/-- `is_header` from `src/lib.rs`: pointer comparison with the header. -/
def isHeader (i : Nat) : Prop := i = headerIdx

instance (i : Nat) : Decidable (isHeader i) := by unfold isHeader; infer_instance

/-- `NodePosition` from `src/binary_tree.rs`. -/
inductive NodePosition where
  | Left : NodePosition
  | Right : NodePosition
deriving DecidableEq, Repr

/-- `get_parent_node_position` from `src/binary_tree.rs`: position of `child`
under `parent`; the header's (only) child is by convention a Right child;
panics when `parent` links to neither side. -/
def get_parent_node_position (t : RBTree) (parent child : Nat) :
    Except Fault NodePosition :=
  if isHeader parent then Except.ok NodePosition.Right
  else
    let parentNode := getN t parent
    if parentNode.left = child then Except.ok NodePosition.Left
    else if parentNode.right = child then Except.ok NodePosition.Right
    else Except.error (Fault.abort "parent does not point to the child")

/-- `get_node_position` from `src/binary_tree.rs`: panics on nil, otherwise
looks the position up through the child's parent pointer. -/
def get_node_position (t : RBTree) (child : Nat) : Except Fault NodePosition :=
  if isNil child then Except.error (Fault.abort "child cannot be nil")
  else get_parent_node_position t (getN t child).parent child

/-- `rotate_left` from `src/binary_tree.rs`.  Panics when the rotated-about
node has no right child; otherwise performs the exact pointer surgery of the
source, in source order. -/
def rotate_left (t : RBTree) (node : Nat) : Except Fault RBTree := do
  let parent := (getN t node).parent
  let right := (getN t node).right
  if isNil right then
    throw (Fault.abort "node without right child cannot rotate left")
  else
    let position ← get_parent_node_position t parent node
    let right_left := (getN t right).left
    let t := setLeft t right node
    let t := setParent t node right
    let t := setRight t node right_left
    let t := if isNil right_left then t else setParent t right_left node
    match position with
    | NodePosition.Left => pure (setParent (setLeft t parent right) right parent)
    | NodePosition.Right => pure (setParent (setRight t parent right) right parent)

/-- `rotate_right` from `src/binary_tree.rs`, mirror image of `rotate_left`. -/
def rotate_right (t : RBTree) (node : Nat) : Except Fault RBTree := do
  let parent := (getN t node).parent
  let left := (getN t node).left
  if isNil left then
    throw (Fault.abort "node without left child cannot rotate right")
  else
    let position ← get_parent_node_position t parent node
    let left_right := (getN t left).right
    let t := setRight t left node
    let t := setParent t node left
    let t := setLeft t node left_right
    let t := if isNil left_right then t else setParent t left_right node
    match position with
    | NodePosition.Left => pure (setParent (setLeft t parent left) left parent)
    | NodePosition.Right => pure (setParent (setRight t parent left) left parent)

/-- `grandparent` from `src/binary_tree.rs`: `node.parent.parent`. -/
def grandparent (t : RBTree) (node : Nat) : Nat :=
  (getN t (getN t node).parent).parent

/-- `sibling_of_nil` from `src/binary_tree.rs`: the other child of `parent`
(nil when `parent` is the header). -/
def sibling_of_nil (t : RBTree) (parent node : Nat) : Except Fault Nat :=
  if isHeader parent then Except.ok nilIdx
  else do
    match ← get_parent_node_position t parent node with
    | NodePosition.Left => pure (getN t parent).right
    | NodePosition.Right => pure (getN t parent).left

/-- `sibling` from `src/binary_tree.rs`. -/
def sibling (t : RBTree) (node : Nat) : Except Fault Nat :=
  sibling_of_nil t (getN t node).parent node

/-- `uncle` from `src/binary_tree.rs`: the grandparent's other child, nil when
`node` or its parent is the header. -/
def uncle (t : RBTree) (node : Nat) : Except Fault Nat :=
  let parent := (getN t node).parent
  if isHeader node ∨ isHeader parent then Except.ok nilIdx
  else
    let gp := (getN t parent).parent
    do
      match ← get_parent_node_position t gp parent with
      | NodePosition.Left => pure (getN t gp).right
      | NodePosition.Right => pure (getN t gp).left

/-- Descending loop of `inorder_predecessor`: walk `right` links until the
right child is nil. -/
def downRight (t : RBTree) (cur : Nat) : Nat → Except Fault Nat
  | 0 => Except.error Fault.fuel
  | fuel+1 =>
    let r := (getN t cur).right
    if isNil r then Except.ok cur else downRight t r fuel

/-- Ascending loop of `inorder_predecessor`: climb while the current node is a
left child; landing on the header means no predecessor exists. -/
def upFromLeft (t : RBTree) (x p : Nat) : Nat → Except Fault Nat
  | 0 => Except.error Fault.fuel
  | fuel+1 =>
    if ¬ isHeader p ∧ x = (getN t p).left then
      upFromLeft t p (getN t p).parent fuel
    else if isHeader p then Except.ok nilIdx
    else Except.ok p

/-- `inorder_predecessor` from `src/binary_tree.rs`: rightmost node of the
left subtree, or the nearest ancestor of which the node lies in the right
subtree, or nil. -/
def inorder_predecessor (t : RBTree) (node : Nat) (fuel : Nat) : Except Fault Nat :=
  let cur := (getN t node).left
  if isNil cur then upFromLeft t node (getN t node).parent fuel
  else downRight t cur fuel

/-- Descending loop of `inorder_successor`: walk `left` links until the left
child is nil. -/
def downLeft (t : RBTree) (cur : Nat) : Nat → Except Fault Nat
  | 0 => Except.error Fault.fuel
  | fuel+1 =>
    let l := (getN t cur).left
    if isNil l then Except.ok cur else downLeft t l fuel

/-- Ascending loop of `inorder_successor`: climb while the current node is a
right child; landing on the header means no successor exists. -/
def upFromRight (t : RBTree) (x p : Nat) : Nat → Except Fault Nat
  | 0 => Except.error Fault.fuel
  | fuel+1 =>
    if ¬ isHeader p ∧ x = (getN t p).right then
      upFromRight t p (getN t p).parent fuel
    else if isHeader p then Except.ok nilIdx
    else Except.ok p

/-- `inorder_successor` from `src/binary_tree.rs`: leftmost node of the right
subtree, or the nearest ancestor of which the node lies in the left subtree,
or nil. -/
def inorder_successor (t : RBTree) (node : Nat) (fuel : Nat) : Except Fault Nat :=
  let cur := (getN t node).right
  if isNil cur then upFromRight t node (getN t node).parent fuel
  else downLeft t cur fuel

/-- Result of `bs_insert`, from `src/binary_search_tree/mod.rs`
(`enum InsertResult`): either the previous value of an existing key, or the
pointer to the freshly linked Red node. -/
inductive InsertResult where
  | Old : Int → InsertResult
  | New : Nat → InsertResult
deriving DecidableEq, Repr

/-- Descent loop of `search` from `src/binary_search_tree/mod.rs`. -/
def searchLoop (t : RBTree) (key : Int) (cur : Nat) : Nat → Except Fault (Option Int)
  | 0 => Except.error Fault.fuel
  | fuel+1 =>
    if isNil cur then Except.ok none
    else
      let curNode := getN t cur
      if key = curNode.key then Except.ok (some curNode.value)
      else if key < curNode.key then searchLoop t key curNode.left fuel
      else searchLoop t key curNode.right fuel

/-- `search` from `src/binary_search_tree/mod.rs` (also `RBTree::get`): BST
descent from `header.right`. -/
def RBTree.search (t : RBTree) (key : Int) (fuel : Nat) : Except Fault (Option Int) :=
  searchLoop t key (getN t headerIdx).right fuel

/-- `new_node` from `src/lib.rs`: allocate a Red node whose three links all
point at the nil sentinel. -/
def new_node (t : RBTree) (key value : Int) : RBTree × Nat :=
  let idx := t.fresh
  let n : RBNode :=
    { key := key, value := value, color := Color.Red,
      left := nilIdx, right := nilIdx, parent := nilIdx }
  ({ t with store := fun j => if j = idx then n else t.store j, fresh := t.fresh + 1 }, idx)

/-- Descent loop of `bs_insert` from `src/binary_search_tree/mod.rs`,
tracking the running `parent` and `node_position` exactly as the source does.
On an equal key the value is replaced in place; otherwise a new Red node is
linked at the empty position that ended the descent. -/
def bsInsertLoop (t : RBTree) (key value : Int) (parent cur : Nat)
    (node_position : NodePosition) : Nat → Except Fault (InsertResult × RBTree)
  | 0 => Except.error Fault.fuel
  | fuel+1 =>
    if isNil cur then
      let (t, idx) := new_node t key value
      let t := setParent t idx parent
      let t :=
        match node_position with
        | NodePosition.Left => setLeft t parent idx
        | NodePosition.Right => setRight t parent idx
      Except.ok (InsertResult.New idx, t)
    else
      let curNode := getN t cur
      if key = curNode.key then
        Except.ok (InsertResult.Old curNode.value, setN t cur { curNode with value := value })
      else if key < curNode.key then
        bsInsertLoop t key value cur curNode.left NodePosition.Left fuel
      else
        bsInsertLoop t key value cur curNode.right NodePosition.Right fuel

/-- `bs_insert` from `src/binary_search_tree/mod.rs`: descent starts at the
header with `node_position = Right`, so an insertion into an empty tree lands
in the header's right slot. -/
def bs_insert (t : RBTree) (key value : Int) (fuel : Nat) :
    Except Fault (InsertResult × RBTree) :=
  bsInsertLoop t key value headerIdx (getN t headerIdx).right NodePosition.Right fuel

/-- `insert_fixup_straight_line` from `src/lib.rs`: rotate the black
grandparent away from the straight red chain, then swap the grandparent's and
parent's colors.  The three `assert_eq!` color checks of the source are
modelled as fault branches. -/
def insert_fixup_straight_line (t : RBTree) (red_child red_p black_g : Nat)
    (position : NodePosition) : Except Fault RBTree := do
  if (getN t red_child).color ≠ Color.Red then
    throw (Fault.abort "assertion failed: red_child.color == Red")
  else if (getN t red_p).color ≠ Color.Red then
    throw (Fault.abort "assertion failed: red_p.color == Red")
  else if (getN t black_g).color ≠ Color.Black then
    throw (Fault.abort "assertion failed: black_g.color == Black")
  else
    let t ←
      match position with
      | NodePosition.Left => rotate_right t black_g
      | NodePosition.Right => rotate_left t black_g
    let t := setColor t black_g Color.Red
    pure (setColor t red_p Color.Black)

/-- `insert_fixup` from `src/lib.rs`: the complete red-red conflict
resolution — root case, black-parent case, black-uncle straight/broken lines,
and the red-uncle recolor-and-recurse case (recursion bounded by fuel). -/
def insert_fixup (t : RBTree) (red_node : Nat) : Nat → Except Fault RBTree
  | 0 => Except.error Fault.fuel
  | fuel+1 =>
    let parent := (getN t red_node).parent
    if isHeader parent then Except.ok (setColor t red_node Color.Black)
    else
      match (getN t parent).color with
      | Color.Black => Except.ok t
      | Color.Red => do
        let gp := grandparent t red_node
        if isNil gp then
          throw (Fault.abort "assertion failed: !self.is_nil(grandparent)")
        else
          let u ← uncle t red_node
          match (getN t u).color with
          | Color.Black => do
            let g_position ← get_node_position t parent
            let n_position ← get_node_position t red_node
            match g_position, n_position with
            | NodePosition.Left, NodePosition.Left =>
              insert_fixup_straight_line t red_node parent gp NodePosition.Left
            | NodePosition.Right, NodePosition.Right =>
              insert_fixup_straight_line t red_node parent gp NodePosition.Right
            | NodePosition.Left, NodePosition.Right => do
              let t ← rotate_left t parent
              insert_fixup_straight_line t parent red_node gp NodePosition.Left
            | NodePosition.Right, NodePosition.Left => do
              let t ← rotate_right t parent
              insert_fixup_straight_line t parent red_node gp NodePosition.Right
          | Color.Red => do
            if isNil u then
              throw (Fault.abort "assertion failed: !self.is_nil(uncle)")
            else
              let t := setColor t parent Color.Black
              let t := setColor t u Color.Black
              let t := setColor t gp Color.Red
              insert_fixup t gp fuel

/-- `RBTree::insert` from `src/lib.rs`: BST insertion, then fixup and a `len`
increment for a genuinely new key; an existing key only has its value
replaced (no fixup, no `len` change). -/
def RBTree.insert (t : RBTree) (key value : Int) (fuel : Nat) :
    Except Fault (RBTree × Option Int) := do
  match ← bs_insert t key value fuel with
  | (InsertResult.Old old_value, t) => pure (t, some old_value)
  | (InsertResult.New red_node, t) => do
    let t ← insert_fixup t red_node fuel
    pure ({ t with len := t.len + 1 }, none)

/-- `remove_node_with_no_child` from `src/binary_search_tree/mod.rs`: detach
a leaf by pointing its parent's slot at nil. -/
def remove_node_with_no_child (t : RBTree) (node : Nat) : Except Fault RBTree :=
  if isNil node then Except.ok t
  else do
    let parent := (getN t node).parent
    match ← get_parent_node_position t parent node with
    | NodePosition.Left => pure (setLeft t parent nilIdx)
    | NodePosition.Right => pure (setRight t parent nilIdx)

/-- `remove_node_with_one_child` from `src/binary_search_tree/mod.rs`: splice
the node out by linking its parent directly to its sole child (panics when
both children turn out to be nil). -/
def remove_node_with_one_child (t : RBTree) (node : Nat) : Except Fault RBTree :=
  if isNil node then Except.ok t
  else do
    let parent := (getN t node).parent
    let left := (getN t node).left
    let right := (getN t node).right
    let child ←
      if ¬ isNil left then pure left
      else if ¬ isNil right then pure right
      else throw (Fault.abort "removed node has two children")
    match ← get_parent_node_position t parent node with
    | NodePosition.Left => pure (setParent (setLeft t parent child) child parent)
    | NodePosition.Right => pure (setParent (setRight t parent child) child parent)

/-- `remove_node_with_no_or_one_child` from `src/binary_search_tree/mod.rs`:
dispatch on how many non-nil children the node has; two children is
`unreachable!()`. -/
def remove_node_with_no_or_one_child (t : RBTree) (node : Nat) : Except Fault RBTree :=
  if isNil node then Except.ok t
  else
    let left := (getN t node).left
    let right := (getN t node).right
    match decide (isNil left), decide (isNil right) with
    | true, true => remove_node_with_no_child t node
    | false, false => throw (Fault.abort "internal error: entered unreachable code")
    | _, _ => remove_node_with_one_child t node

/-- Descent loop of `bs_remove` from `src/binary_search_tree/mod.rs`.  When
the key is found on a node with two non-nil children, the key/value payloads
(only) of that node and its in-order predecessor are swapped and the
predecessor becomes the node to splice out; the structural removal is then
delegated to `remove_node_with_no_or_one_child`.  Returns the pointer of the
physically removed node (nil when the key is absent).  `auxFuel` bounds the
predecessor walk. -/
def bsRemoveLoop (t : RBTree) (key : Int) (cur : Nat) (auxFuel : Nat) :
    Nat → Except Fault (Nat × RBTree)
  | 0 => Except.error Fault.fuel
  | fuel+1 =>
    if isNil cur then Except.ok (cur, t)
    else
      let curNode := getN t cur
      if curNode.key = key then do
        let (node_to_remove, t) ←
          if ¬ isNil (getN t cur).left ∧ ¬ isNil (getN t cur).right then do
            let ip ← inorder_predecessor t cur auxFuel
            let ipNode := getN t ip
            let cNode := getN t cur
            let t := setN t ip { ipNode with key := cNode.key, value := cNode.value }
            let t := setN t cur { cNode with key := ipNode.key, value := ipNode.value }
            pure (ip, t)
          else pure (cur, t)
        let t ← remove_node_with_no_or_one_child t node_to_remove
        pure (node_to_remove, t)
      else if key < curNode.key then bsRemoveLoop t key curNode.left auxFuel fuel
      else bsRemoveLoop t key curNode.right auxFuel fuel

/-- `bs_remove` from `src/binary_search_tree/mod.rs`: descent starts at the
header's right child. -/
def bs_remove (t : RBTree) (key : Int) (fuel : Nat) : Except Fault (Nat × RBTree) :=
  bsRemoveLoop t key (getN t headerIdx).right fuel fuel

/-- `remove_fixup_far_red_nephew` from `src/lib.rs` (case 1-2): rotate the
parent toward the double-black side, swap sibling/parent colors, recolor the
double-black node and the far nephew Black. -/
def remove_fixup_far_red_nephew (t : RBTree)
    (parent sib double_black far_nephew : Nat) : Except Fault RBTree := do
  let t ←
    match ← get_parent_node_position t parent sib with
    | NodePosition.Left => rotate_right t parent
    | NodePosition.Right => rotate_left t parent
  let sib_color := (getN t sib).color
  let parent_color := (getN t parent).color
  let t := setColor t sib parent_color
  let t := setColor t parent sib_color
  let t := setColor t double_black Color.Black
  pure (setColor t far_nephew Color.Black)

mutual

/-- `remove_fixup` from `src/lib.rs`: terminal case (double-black at the root
or Red), otherwise dispatch on the sibling's color, reducing a Red sibling to
the Black-sibling cases by a rotation and recolor (the `assert!` statements of
the source are fault branches). -/
def remove_fixup (t : RBTree) (double_black parent : Nat) :
    Nat → Except Fault RBTree
  | 0 => Except.error Fault.fuel
  | fuel+1 =>
    if isHeader parent ∨ (getN t double_black).color = Color.Red then
      Except.ok (setColor t double_black Color.Black)
    else do
      let sib ← sibling_of_nil t parent double_black
      if isNil sib then
        throw (Fault.abort "assertion failed: !self.is_nil(sibing)")
      else
        match (getN t sib).color with
        | Color.Black => remove_fixup_black_sibling t double_black parent fuel
        | Color.Red => do
          let t ←
            match ← get_parent_node_position t parent sib with
            | NodePosition.Left => rotate_right t parent
            | NodePosition.Right => rotate_left t parent
          let t := setColor t sib Color.Black
          let t := setColor t parent Color.Red
          let new_sib ← sibling_of_nil t parent double_black
          if (getN t new_sib).color ≠ Color.Black then
            throw (Fault.abort "assertion failed: new_sibing.color == Black")
          else remove_fixup_black_sibling t double_black parent fuel

/-- `remove_fixup_black_sibling` from `src/lib.rs`: both nephews Black pushes
the deficit to the parent (recursing upward); a Red far nephew terminates via
`remove_fixup_far_red_nephew`; a Red near nephew is first rotated up to
become the new sibling. -/
def remove_fixup_black_sibling (t : RBTree) (double_black parent : Nat) :
    Nat → Except Fault RBTree
  | 0 => Except.error Fault.fuel
  | fuel+1 => do
    let sib ← sibling_of_nil t parent double_black
    let left_nephew := (getN t sib).left
    let right_nephew := (getN t sib).right
    let fn ←
      match ← get_parent_node_position t parent double_black with
      | NodePosition.Left => pure (right_nephew, left_nephew)
      | NodePosition.Right => pure (left_nephew, right_nephew)
    let far_nephew := fn.1
    let near_nephew := fn.2
    match (getN t far_nephew).color, (getN t near_nephew).color with
    | Color.Black, Color.Black => do
      let t := setColor t sib Color.Red
      let t := setColor t double_black Color.Black
      remove_fixup t parent (getN t parent).parent fuel
    | Color.Red, _ =>
      remove_fixup_far_red_nephew t parent sib double_black far_nephew
    | Color.Black, Color.Red => do
      let t ←
        match ← get_parent_node_position t sib near_nephew with
        | NodePosition.Left => rotate_right t sib
        | NodePosition.Right => rotate_left t sib
      let t := setColor t sib Color.Red
      let t := setColor t near_nephew Color.Black
      remove_fixup_far_red_nephew t parent near_nephew double_black sib

end

/-- `RBTree::remove` from `src/lib.rs`: structural BST removal, early return
for an absent key (nil) or a Red removed node, otherwise removal fixup
starting from the removed node's replacing child ("double black") and its
parent; `len` is decremented and the removed node's value returned. -/
def RBTree.remove (t : RBTree) (key : Int) (fuel : Nat) :
    Except Fault (RBTree × Option Int) := do
  let (removed, t) ← bs_remove t key fuel
  if isNil removed then pure (t, none)
  else if (getN t removed).color = Color.Red then
    pure ({ t with len := t.len - 1 }, some (getN t removed).value)
  else do
    let left := (getN t removed).left
    let right := (getN t removed).right
    let double_black := if ¬ isNil left then left else right
    let t ← remove_fixup t double_black (getN t removed).parent fuel
    pure ({ t with len := t.len - 1 }, some (getN t removed).value)

/-- Shared start of all three iterator constructors in `src/iter.rs`
(`iter`, `iter_mut`, `into_iter`): the first pointer is
`inorder_successor(header)`. -/
def iterFirst (t : RBTree) (fuel : Nat) : Except Fault Nat :=
  inorder_successor t headerIdx fuel

/-- One `next()` step shared by `RBTreeIter`, `RBTreeIterMut` and
`RBTreeIntoIter` in `src/iter.rs`: `None` on the nil pointer, otherwise yield
the node's payload and advance to its in-order successor. -/
def iterNext (t : RBTree) (ptr : Nat) (fuel : Nat) :
    Except Fault (Option ((Int × Int) × Nat)) :=
  if isNil ptr then Except.ok none
  else do
    let nxt ← inorder_successor t ptr fuel
    pure (some (((getN t ptr).key, (getN t ptr).value), nxt))

/-- Exhaustive run of the iterator from a given pointer: the in-order entry
sequence the `Iterator` implementations of `src/iter.rs` produce. -/
def iterList (t : RBTree) (ptr : Nat) (auxFuel : Nat) :
    Nat → Except Fault (List (Int × Int))
  | 0 => Except.error Fault.fuel
  | fuel+1 =>
    if isNil ptr then Except.ok []
    else do
      let nxt ← inorder_successor t ptr auxFuel
      let rest ← iterList t nxt auxFuel fuel
      pure (((getN t ptr).key, (getN t ptr).value) :: rest)

/-- Entire key/value sequence of `RBTree::iter` from `src/iter.rs`. -/
def RBTree.iterEntries (t : RBTree) (fuel : Nat) : Except Fault (List (Int × Int)) := do
  let first ← iterFirst t fuel
  iterList t first fuel fuel

/-- `validate_bst_recursive` from `src/binary_search_tree/validate.rs`:
bound-tightening descent checking every key lies strictly between the
tightest ancestor bounds. -/
def validate_bst_recursive (t : RBTree) (node : Nat) (min_bound max_bound : Option Int) :
    Nat → Except Fault (Except String Unit)
  | 0 => Except.error Fault.fuel
  | fuel+1 =>
    if isNil node then Except.ok (Except.ok ())
    else
      let key := (getN t node).key
      if min_bound.any (fun m => decide (key ≤ m)) then
        Except.ok (Except.error ("BST violation: node key " ++ toString key ++
          " should be greater than " ++ toString (min_bound.getD 0)))
      else if max_bound.any (fun m => decide (key ≥ m)) then
        Except.ok (Except.error ("BST violation: node key " ++ toString key ++
          " should be less than " ++ toString (max_bound.getD 0)))
      else do
        match ← validate_bst_recursive t (getN t node).left min_bound (some key) fuel with
        | Except.error e => pure (Except.error e)
        | Except.ok () =>
          validate_bst_recursive t (getN t node).right (some key) max_bound fuel

/-- `validate_parent_child_consistency` from
`src/binary_search_tree/validate.rs`: every non-nil child points back to its
parent, recursively. -/
def validate_parent_child_consistency (t : RBTree) (node : Nat) :
    Nat → Except Fault (Except String Unit)
  | 0 => Except.error Fault.fuel
  | fuel+1 =>
    if isNil node then Except.ok (Except.ok ())
    else do
      let nodeRec := getN t node
      let leftRes ←
        if ¬ isNil nodeRec.left then
          if (getN t nodeRec.left).parent ≠ node then
            pure (Except.error
              "Parent-child inconsistency: left child doesn't point back to parent")
          else validate_parent_child_consistency t nodeRec.left fuel
        else pure (Except.ok ())
      match leftRes with
      | Except.error e => pure (Except.error e)
      | Except.ok () =>
        if ¬ isNil nodeRec.right then
          if (getN t nodeRec.right).parent ≠ node then
            pure (Except.error
              "Parent-child inconsistency: right child doesn't point back to parent")
          else validate_parent_child_consistency t nodeRec.right fuel
        else pure (Except.ok ())

/-- `validate_structure` from `src/binary_search_tree/validate.rs`: empty
trees pass; otherwise the root's parent must be the header, then parent/child
links are checked recursively. -/
def validate_structure (t : RBTree) (fuel : Nat) : Except Fault (Except String Unit) :=
  let root := (getN t headerIdx).right
  if isNil root then Except.ok (Except.ok ())
  else if (getN t root).parent ≠ headerIdx then
    Except.ok (Except.error "Root node's parent should be header")
  else validate_parent_child_consistency t root fuel

/-- `detect_cycle_util` from `src/binary_search_tree/validate.rs`: DFS with a
visited set and a recursion-stack set. -/
def detect_cycle_util (t : RBTree) (node : Nat) (visited rec_stack : List Nat) :
    Nat → Except Fault (Except String (List Nat))
  | 0 => Except.error Fault.fuel
  | fuel+1 =>
    if isNil node then Except.ok (Except.ok visited)
    else if node ∈ rec_stack then
      Except.ok (Except.error "Cycle detected in tree structure")
    else if node ∈ visited then Except.ok (Except.ok visited)
    else do
      let visited := node :: visited
      let rec_stack := node :: rec_stack
      match ← detect_cycle_util t (getN t node).left visited rec_stack fuel with
      | Except.error e => pure (Except.error e)
      | Except.ok visited =>
        detect_cycle_util t (getN t node).right visited rec_stack fuel

/-- `validate_no_cycles` from `src/binary_search_tree/validate.rs`. -/
def validate_no_cycles (t : RBTree) (fuel : Nat) : Except Fault (Except String Unit) :=
  let root := (getN t headerIdx).right
  if isNil root then Except.ok (Except.ok ())
  else do
    match ← detect_cycle_util t root [] [] fuel with
    | Except.error e => pure (Except.error e)
    | Except.ok _ => pure (Except.ok ())

/-- `validate_bst` from `src/binary_search_tree/validate.rs`: structure
check, then bounds check, then cycle check. -/
def validate_bst (t : RBTree) (fuel : Nat) : Except Fault (Except String Unit) := do
  match ← validate_structure t fuel with
  | Except.error e => pure (Except.error e)
  | Except.ok () =>
    let root := (getN t headerIdx).right
    let bstRes ←
      if ¬ isNil root then validate_bst_recursive t root none none fuel
      else pure (Except.ok ())
    match bstRes with
    | Except.error e => pure (Except.error e)
    | Except.ok () => validate_no_cycles t fuel

/-- `RBTreeError` from `src/validate.rs`: the structured validator failures. -/
inductive RBTreeError where
  | RootNotBlack : Int → RBTreeError
  | RedParentRedChild : Int → Int → RBTreeError
  | BlackHeightMismatch : Int → Nat → Nat → RBTreeError
  | BSTViolation : String → RBTreeError
deriving DecidableEq, Repr

/-- `validate_subtree` from `src/validate.rs`: checks that no Red node has a
Red child and that the black heights of the two subtrees of every node agree,
returning the subtree's black height (nil counts 1). -/
def validate_subtree (t : RBTree) (node : Nat) :
    Nat → Except Fault (Except RBTreeError Nat)
  | 0 => Except.error Fault.fuel
  | fuel+1 =>
    if isNil node then Except.ok (Except.ok 1)
    else
      let nodeRec := getN t node
      if nodeRec.color = Color.Red ∧ (getN t nodeRec.left).color = Color.Red then
        Except.ok (Except.error (RBTreeError.RedParentRedChild nodeRec.key (getN t nodeRec.left).key))
      else if nodeRec.color = Color.Red ∧ (getN t nodeRec.right).color = Color.Red then
        Except.ok (Except.error (RBTreeError.RedParentRedChild nodeRec.key (getN t nodeRec.right).key))
      else do
        match ← validate_subtree t nodeRec.left fuel with
        | Except.error e => pure (Except.error e)
        | Except.ok left_b_height =>
          match ← validate_subtree t nodeRec.right fuel with
          | Except.error e => pure (Except.error e)
          | Except.ok right_b_height =>
            if left_b_height ≠ right_b_height then
              pure (Except.error
                (RBTreeError.BlackHeightMismatch nodeRec.key left_b_height right_b_height))
            else
              pure (Except.ok
                (left_b_height + if nodeRec.color = Color.Black then 1 else 0))

/-- `RBTree::validate` from `src/validate.rs`: BST checks, then the
root-is-black check, then the red-red and black-height checks. -/
def RBTree.validate (t : RBTree) (fuel : Nat) : Except Fault (Except RBTreeError Unit) := do
  match ← validate_bst t fuel with
  | Except.error msg => pure (Except.error (RBTreeError.BSTViolation msg))
  | Except.ok () =>
    let root := (getN t headerIdx).right
    if isNil root then pure (Except.ok ())
    else if (getN t root).color = Color.Red then
      pure (Except.error (RBTreeError.RootNotBlack (getN t root).key))
    else do
      match ← validate_subtree t root fuel with
      | Except.error e => pure (Except.error e)
      | Except.ok _ => pure (Except.ok ())

/-! ### Concrete scenario runs -/

/-- Insert a key (with the key itself as value) into an already-built tree,
propagating faults; used to chain concrete scenarios. -/
def insStep (t : Except Fault RBTree) (k : Int) : Except Fault RBTree := do
  let (t, _) ← RBTree.insert (← t) k k 100
  pure t

/-- Build a tree by inserting the listed keys in order, starting empty. -/
def buildTree (ks : List Int) : Except Fault RBTree :=
  ks.foldl insStep (Except.ok RBTree.new)

/-- Observations for the `{10,5}` + insert-3 scenario: the branch conditions
selecting the straight-line (Left,Left) black-uncle fixup case as they stand
just after `bs_insert` links the new node 3 (parent's color, uncle's color,
the two positions), followed by the root key/color and its two children's
keys/colors after the full `insert`. -/
def scenarioLeftLeft :
    Except Fault (Color × Color × NodePosition × NodePosition ×
      (Int × Color) × (Int × Color) × (Int × Color)) := do
  let t ← buildTree [10, 5]
  let (res, t3) ← bs_insert t 3 3 100
  match res with
  | InsertResult.Old _ => throw (Fault.abort "unexpected: key 3 already present")
  | InsertResult.New n => do
    let parentColor := (getN t3 (getN t3 n).parent).color
    let u ← uncle t3 n
    let g_position ← get_node_position t3 (getN t3 n).parent
    let n_position ← get_node_position t3 n
    let (tf, _) ← RBTree.insert t 3 3 100
    let root := (getN tf headerIdx).right
    pure (parentColor, (getN t3 u).color, g_position, n_position,
      ((getN tf root).key, (getN tf root).color),
      ((getN tf (getN tf root).left).key, (getN tf (getN tf root).left).color),
      ((getN tf (getN tf root).right).key, (getN tf (getN tf root).right).color))

/-- Claim C9: from the empty balanced tree, after insert(10) and insert(5),
insert(3) reaches the fixup with a Red parent, Black uncle and a Left-Left
straight line (the left-left black-uncle case), and afterwards the root is
key 5 colored Black with children 3 and 10 both colored Red. -/
theorem claim_C9 :
    scenarioLeftLeft =
      Except.ok (Color.Red, Color.Black, NodePosition.Left, NodePosition.Left,
        (5, Color.Black), (3, Color.Red), (10, Color.Red)) := by
  rfl

/-- Claim C10: on an empty tree (header's right child is the nil sentinel,
with the constructed sentinel links: header's parent is nil and the nil
sentinel's right link points to itself), the iterator start shared by
`iter()`, `iter_mut()` and `into_iter()` — the successor walk from the
header — lands on the nil sentinel, so the first `next()` yields nothing. -/
theorem claim_C10 (t : RBTree) (fuel : Nat)
    (hroot : (getN t headerIdx).right = nilIdx)
    (hpar : (getN t headerIdx).parent = nilIdx)
    (hnil : (getN t nilIdx).right = nilIdx) :
    iterFirst t (fuel + 1) = Except.ok nilIdx ∧
      iterNext t nilIdx (fuel + 1) = Except.ok none := by
  constructor
  · unfold iterFirst inorder_successor
    rw [hroot]
    simp only [isNil, nilIdx, if_pos rfl]
    rw [hpar]
    unfold upFromRight
    rw [hnil]
    simp [isHeader, headerIdx, nilIdx]
  · unfold iterNext
    simp [isNil, nilIdx]

/-- Witness for claim C10 at the freshly constructed empty tree. -/
theorem claim_C10_witness :
    iterFirst RBTree.new 5 = Except.ok nilIdx ∧
      iterNext RBTree.new nilIdx 5 = Except.ok none :=
  claim_C10 RBTree.new 4 rfl rfl rfl

/-! ### Store access lemmas -/

theorem getN_setN_self (t : RBTree) (i : Nat) (n : RBNode) :
    getN (setN t i n) i = n := by
  simp [getN, setN]

theorem getN_setN_of_ne (t : RBTree) (i : Nat) (n : RBNode) (j : Nat) (h : j ≠ i) :
    getN (setN t i n) j = getN t j := by
  simp [getN, setN, h]

theorem getN_setLeft_of_ne (t : RBTree) (i l j : Nat) (h : j ≠ i) :
    getN (setLeft t i l) j = getN t j := getN_setN_of_ne _ _ _ _ h

theorem getN_setLeft_self (t : RBTree) (i l : Nat) :
    getN (setLeft t i l) i = { getN t i with left := l } := getN_setN_self _ _ _

theorem getN_setRight_of_ne (t : RBTree) (i r j : Nat) (h : j ≠ i) :
    getN (setRight t i r) j = getN t j := getN_setN_of_ne _ _ _ _ h

theorem getN_setRight_self (t : RBTree) (i r : Nat) :
    getN (setRight t i r) i = { getN t i with right := r } := getN_setN_self _ _ _

theorem getN_setParent_of_ne (t : RBTree) (i p j : Nat) (h : j ≠ i) :
    getN (setParent t i p) j = getN t j := getN_setN_of_ne _ _ _ _ h

theorem getN_setParent_self (t : RBTree) (i p : Nat) :
    getN (setParent t i p) i = { getN t i with parent := p } := getN_setN_self _ _ _

theorem getN_setColor_of_ne (t : RBTree) (i : Nat) (c : Color) (j : Nat) (h : j ≠ i) :
    getN (setColor t i c) j = getN t j := getN_setN_of_ne _ _ _ _ h

theorem getN_setColor_self (t : RBTree) (i : Nat) (c : Color) :
    getN (setColor t i c) i = { getN t i with color := c } := getN_setN_self _ _ _

theorem len_setN (t : RBTree) (i : Nat) (n : RBNode) : (setN t i n).len = t.len := rfl

theorem fresh_setN (t : RBTree) (i : Nat) (n : RBNode) : (setN t i n).fresh = t.fresh := rfl

/-! ### Absent keys: the removal descent mirrors the search descent -/

/-- When the search loop reports the key absent, the removal loop follows the
identical comparisons, reaches nil, and returns the untouched tree. -/
theorem searchLoop_none_bsRemoveLoop (t : RBTree) (key : Int) :
    ∀ (fuel cur aux : Nat), searchLoop t key cur fuel = Except.ok none →
      bsRemoveLoop t key cur aux fuel = Except.ok (nilIdx, t) := by
  intro fuel
  induction fuel with
  | zero =>
    intro cur aux h
    simp [searchLoop] at h
  | succ f ih =>
    intro cur aux h
    unfold searchLoop at h
    unfold bsRemoveLoop
    by_cases hc : isNil cur
    · rw [if_pos hc] at h ⊢
      have hcur : cur = nilIdx := hc
      rw [hcur]
    · rw [if_neg hc] at h ⊢
      by_cases hk : key = (getN t cur).key
      · rw [if_pos hk] at h
        simp at h
      · rw [if_neg hk] at h
        have hk2 : ¬ (getN t cur).key = key := fun he => hk he.symm
        rw [if_neg hk2]
        by_cases hlt : key < (getN t cur).key
        · rw [if_pos hlt] at h ⊢
          exact ih _ _ h
        · rw [if_neg hlt] at h ⊢
          exact ih _ _ h

/-- Claim C3: if `search`/`get` reports a key absent, then `remove` of that
key returns `None` and an unchanged tree (same store, same `len`, every
stored key still mapping to the same value), raising no fault. -/
theorem claim_C3 (t : RBTree) (key : Int) (fuel : Nat)
    (h : RBTree.search t key fuel = Except.ok none) :
    RBTree.remove t key fuel = Except.ok (t, none) := by
  unfold RBTree.search at h
  have hb : bs_remove t key fuel = Except.ok (nilIdx, t) :=
    searchLoop_none_bsRemoveLoop t key fuel _ fuel h
  unfold RBTree.remove
  rw [hb]
  rfl

/-- Small concrete tree with the single entry `10 ↦ 7` at index 2, used as a
witness input. -/
def demoTree : RBTree :=
  { store := fun j =>
      if j = headerIdx then { defaultNode with right := 2 }
      else if j = 2 then
        { key := 10, value := 7, color := Color.Black, left := 0, right := 0, parent := 1 }
      else defaultNode,
    fresh := 3, len := 1 }

/-- Witness for claim C3 on the one-entry tree and the absent key 11. -/
theorem claim_C3_witness : RBTree.remove demoTree 11 5 = Except.ok (demoTree, none) :=
  claim_C3 demoTree 11 5 rfl

/-! ### Present keys: the insertion descent mirrors the search descent -/

/-- When the search loop finds a key (with value `oldv`), the insertion loop
follows the identical comparisons to the same node, replaces exactly that
node's value in place, and returns `Old oldv`; re-running the search on the
updated store yields the new value. -/
theorem searchLoop_some_bsInsertLoop (t : RBTree) (key v : Int) :
    ∀ (fuel cur : Nat) (oldv : Int), searchLoop t key cur fuel = Except.ok (some oldv) →
      ∃ idx, (getN t idx).key = key ∧ (getN t idx).value = oldv ∧
        (∀ p pos, bsInsertLoop t key v p cur pos fuel =
          Except.ok (InsertResult.Old oldv, setN t idx { getN t idx with value := v })) ∧
        searchLoop (setN t idx { getN t idx with value := v }) key cur fuel =
          Except.ok (some v) := by
  intro fuel
  induction fuel with
  | zero =>
    intro cur oldv h
    simp [searchLoop] at h
  | succ f ih =>
    intro cur oldv h
    unfold searchLoop at h
    by_cases hc : isNil cur
    · rw [if_pos hc] at h
      simp at h
    · rw [if_neg hc] at h
      by_cases hk : key = (getN t cur).key
      · rw [if_pos hk] at h
        have hval : (getN t cur).value = oldv := by
          simpa using h
        refine ⟨cur, hk.symm, hval, ?_, ?_⟩
        · intro p pos
          unfold bsInsertLoop
          rw [if_neg hc]
          have hk2 : (getN t cur).key = key := hk.symm
          rw [if_pos hk]
          rw [hval]
        · unfold searchLoop
          rw [if_neg hc]
          rw [getN_setN_self]
          have hkey : key = ({ getN t cur with value := v } : RBNode).key := hk
          rw [if_pos hkey]
      · rw [if_neg hk] at h
        by_cases hlt : key < (getN t cur).key
        · rw [if_pos hlt] at h
          obtain ⟨idx, hkeyi, hvali, hins, hsearch⟩ := ih _ _ h
          have hne : cur ≠ idx := by
            intro he
            rw [← he] at hkeyi
            exact hk hkeyi.symm
          refine ⟨idx, hkeyi, hvali, ?_, ?_⟩
          · intro p pos
            unfold bsInsertLoop
            rw [if_neg hc, if_neg hk, if_pos hlt]
            exact hins cur NodePosition.Left
          · unfold searchLoop
            rw [if_neg hc]
            rw [getN_setN_of_ne t idx _ cur hne]
            rw [if_neg hk, if_pos hlt]
            exact hsearch
        · rw [if_neg hlt] at h
          obtain ⟨idx, hkeyi, hvali, hins, hsearch⟩ := ih _ _ h
          have hne : cur ≠ idx := by
            intro he
            rw [← he] at hkeyi
            exact hk hkeyi.symm
          refine ⟨idx, hkeyi, hvali, ?_, ?_⟩
          · intro p pos
            unfold bsInsertLoop
            rw [if_neg hc, if_neg hk, if_neg hlt]
            exact hins cur NodePosition.Right
          · unfold searchLoop
            rw [if_neg hc]
            rw [getN_setN_of_ne t idx _ cur hne]
            rw [if_neg hk, if_neg hlt]
            exact hsearch

/-- Claim C2: inserting a key that `get` currently maps to `oldv` replaces
that node's value in place (the store differs at exactly that node, and only
in its value field: links, colors, keys, allocation counter and `len` are
untouched — no structural change, no rebalancing) and returns the previous
value; `get` then reports the new value. -/
theorem claim_C2 (t : RBTree) (key v : Int) (fuel : Nat) (oldv : Int)
    (h : RBTree.search t key fuel = Except.ok (some oldv)) :
    ∃ idx t',
      RBTree.insert t key v fuel = Except.ok (t', some oldv) ∧
      t' = setN t idx { getN t idx with value := v } ∧
      (getN t idx).key = key ∧ (getN t idx).value = oldv ∧
      t'.len = t.len ∧ t'.fresh = t.fresh ∧
      (∀ j, (getN t' j).left = (getN t j).left ∧
            (getN t' j).right = (getN t j).right ∧
            (getN t' j).parent = (getN t j).parent ∧
            (getN t' j).color = (getN t j).color ∧
            (getN t' j).key = (getN t j).key) ∧
      RBTree.search t' key fuel = Except.ok (some v) := by
  unfold RBTree.search at h
  obtain ⟨idx, hkeyi, hvali, hins, hsearch⟩ :=
    searchLoop_some_bsInsertLoop t key v fuel _ oldv h
  refine ⟨idx, setN t idx { getN t idx with value := v }, ?_, rfl, hkeyi, hvali,
    len_setN t idx _, fresh_setN t idx _, ?_, ?_⟩
  · unfold RBTree.insert bs_insert
    rw [hins headerIdx NodePosition.Right]
    rfl
  · intro j
    by_cases hj : j = idx
    · rw [hj, getN_setN_self]
      exact ⟨rfl, rfl, rfl, rfl, rfl⟩
    · rw [getN_setN_of_ne t idx _ j hj]
      exact ⟨rfl, rfl, rfl, rfl, rfl⟩
  · unfold RBTree.search
    have hroot : (getN (setN t idx { getN t idx with value := v }) headerIdx).right =
        (getN t headerIdx).right := by
      by_cases hj : headerIdx = idx
      · rw [hj, getN_setN_self, ← hj]
      · rw [getN_setN_of_ne t idx _ headerIdx hj]
    rw [hroot]
    exact hsearch

/-- Witness for claim C2 on the one-entry tree: key 10 is present with value
7; inserting `10 ↦ 99` replaces in place. -/
theorem claim_C2_witness :
    ∃ idx t',
      RBTree.insert demoTree 10 99 5 = Except.ok (t', some 7) ∧
      t' = setN demoTree idx { getN demoTree idx with value := 99 } ∧
      (getN demoTree idx).key = 10 ∧ (getN demoTree idx).value = 7 ∧
      t'.len = demoTree.len ∧ t'.fresh = demoTree.fresh ∧
      (∀ j, (getN t' j).left = (getN demoTree j).left ∧
            (getN t' j).right = (getN demoTree j).right ∧
            (getN t' j).parent = (getN demoTree j).parent ∧
            (getN t' j).color = (getN demoTree j).color ∧
            (getN t' j).key = (getN demoTree j).key) ∧
      RBTree.search t' 10 5 = Except.ok (some 99) :=
  claim_C2 demoTree 10 99 5 7 rfl

/-! ### Algebraic view of the pointer structure

The pointer store is related to ordinary algebraic binary trees by a
representation predicate, so that the behaviour of the descent- and
pointer-walking algorithms can be stated against the tree they lay out. -/

/-- Algebraic binary tree with colored nodes and key/value payloads. -/
inductive ATree where
  | nil : ATree
  | node : Color → ATree → Int → Int → ATree → ATree
deriving DecidableEq, Repr

/-- In-order entry sequence of an algebraic tree. -/
def ATree.inorder : ATree → List (Int × Int)
  | ATree.nil => []
  | ATree.node _ l k v r => l.inorder ++ (k, v) :: r.inorder

/-- Keys of a tree, in in-order sequence. -/
def ATree.keys (T : ATree) : List Int := T.inorder.map Prod.fst

/-- Height of a tree. -/
def ATree.height : ATree → Nat
  | ATree.nil => 0
  | ATree.node _ l _ _ r => max l.height r.height + 1

/-- Number of nodes of a tree. -/
def ATree.size : ATree → Nat
  | ATree.nil => 0
  | ATree.node _ l _ _ r => l.size + r.size + 1

/-- Strict binary-search-tree ordering. -/
def ATree.BST : ATree → Prop
  | ATree.nil => True
  | ATree.node _ l k _ r =>
      ATree.BST l ∧ ATree.BST r ∧
      (∀ e ∈ l.inorder, e.1 < k) ∧ (∀ e ∈ r.inorder, k < e.1)

/-- `IsRep t i p T F` : starting at pointer `i`, whose parent pointer is `p`,
the store of `t` lays out exactly the algebraic tree `T`, using exactly the
set `F` of (pairwise distinct, non-sentinel) indices.  Parent/child link
consistency is built into the `node` case. -/
inductive IsRep (t : RBTree) : Nat → Nat → ATree → Finset Nat → Prop where
  | nil (p : Nat) : IsRep t nilIdx p ATree.nil ∅
  | node (i p : Nat) (c : Color) (L R : ATree) (k v : Int) (li ri : Nat)
      (Fl Fr : Finset Nat)
      (hi2 : 2 ≤ i)
      (hrec : getN t i =
        { key := k, value := v, color := c, left := li, right := ri, parent := p })
      (hL : IsRep t li i L Fl) (hR : IsRep t ri i R Fr)
      (hdisj : Disjoint Fl Fr) (hiL : i ∉ Fl) (hiR : i ∉ Fr) :
      IsRep t i p (ATree.node c L k v R) (insert i (Fl ∪ Fr))

/-- Link invariants of the two sentinel slots maintained by every operation:
the nil sentinel's three links point to itself, and the header's left link
and parent point to nil.  (Only links are constrained: no operation ever
writes a sentinel's links, while a removal fixup may harmlessly recolor the
nil sentinel.) -/
structure SentinelInv (t : RBTree) : Prop where
  nil_left : (getN t nilIdx).left = nilIdx
  nil_right : (getN t nilIdx).right = nilIdx
  nil_parent : (getN t nilIdx).parent = nilIdx
  header_left : (getN t headerIdx).left = nilIdx
  header_parent : (getN t headerIdx).parent = nilIdx

/-- The whole tree state represents the algebraic tree `T`: the header's
right child lays out `T` and the sentinels are intact. -/
structure TreeRep (t : RBTree) (T : ATree) (F : Finset Nat) : Prop where
  sentinel : SentinelInv t
  root : IsRep t (getN t headerIdx).right headerIdx T F

/-- Every index in a representation footprint is a non-sentinel index. -/
theorem IsRep.mem_ge_two {t : RBTree} {i p : Nat} {T : ATree} {F : Finset Nat}
    (h : IsRep t i p T F) : ∀ j ∈ F, 2 ≤ j := by
  induction h with
  | nil => simp
  | node i p c L R k v li ri Fl Fr hi2 hrec hL hR hdisj hiL hiR ihL ihR =>
    intro j hj
    rcases Finset.mem_insert.mp hj with hj | hj
    · rw [hj]; exact hi2
    · rcases Finset.mem_union.mp hj with hj | hj
      · exact ihL j hj
      · exact ihR j hj

/-- A non-nil represented tree is rooted at a member of its footprint. -/
theorem IsRep.root_mem {t : RBTree} {i p : Nat} {c : Color} {L R : ATree}
    {k v : Int} {F : Finset Nat}
    (h : IsRep t i p (ATree.node c L k v R) F) : i ∈ F := by
  cases h with
  | node _ _ _ _ _ _ _ li ri Fl Fr hi2 hrec hL hR hdisj hiL hiR =>
    exact Finset.mem_insert_self _ _

/-- Frame rule: a representation only looks at the slots of its footprint,
so any store agreeing on the footprint carries the same representation. -/
theorem IsRep.frame {t t' : RBTree} {i p : Nat} {T : ATree} {F : Finset Nat}
    (h : IsRep t i p T F) (hagree : ∀ j ∈ F, getN t' j = getN t j) :
    IsRep t' i p T F := by
  induction h with
  | nil => exact IsRep.nil _
  | node i p c L R k v li ri Fl Fr hi2 hrec hL hR hdisj hiL hiR ihL ihR =>
    refine IsRep.node i p c L R k v li ri Fl Fr hi2 ?_ ?_ ?_ hdisj hiL hiR
    · rw [hagree i (Finset.mem_insert_self _ _)]; exact hrec
    · exact ihL fun j hj =>
        hagree j (Finset.mem_insert_of_mem (Finset.mem_union_left _ hj))
    · exact ihR fun j hj =>
        hagree j (Finset.mem_insert_of_mem (Finset.mem_union_right _ hj))

/-- Value lookup by the standard BST descent on the algebraic tree. -/
def findEntry (key : Int) : ATree → Option Int
  | ATree.nil => none
  | ATree.node _ l k v r =>
      if key = k then some v
      else if key < k then findEntry key l
      else findEntry key r

/-- The search loop, run on a represented subtree with fuel exceeding its
height, terminates and computes exactly the algebraic BST lookup. -/
theorem searchLoop_rep {t : RBTree} {T : ATree} :
    ∀ {i p fuel : Nat} {F : Finset Nat}, IsRep t i p T F → T.height < fuel →
      searchLoop t key i fuel = Except.ok (findEntry key T) := by
  induction T with
  | nil =>
    intro i p fuel F h hfuel
    cases h
    match fuel, hfuel with
    | fuel+1, _ => simp [searchLoop, findEntry, isNil, nilIdx]
  | node c l k v r ihl ihr =>
    intro i p fuel F h hfuel
    cases h with
    | node _ _ _ _ _ _ _ li ri Fl Fr hi2 hrec hL hR hdisj hiL hiR =>
      match fuel, hfuel with
      | fuel+1, hfuel =>
        unfold searchLoop
        have hne : ¬ isNil i := by
          intro hh
          have : (2 : Nat) ≤ 0 := by
            have := hi2; rw [hh] at this; exact this
          omega
        rw [if_neg hne, hrec]
        have hfl : l.height < fuel := by
          have := hfuel; unfold ATree.height at this; omega
        have hfr : r.height < fuel := by
          have := hfuel; unfold ATree.height at this; omega
        by_cases hk : key = k
        · rw [if_pos hk]
          simp [findEntry, hk]
        · rw [if_neg hk]
          by_cases hlt : key < k
          · rw [if_pos hlt]
            rw [ihl hL hfl]
            simp [findEntry, hk, hlt]
          · rw [if_neg hlt]
            rw [ihr hR hfr]
            simp [findEntry, hk, hlt]

/-! ### Ordering lemmas on algebraic trees -/

theorem keys_node (c : Color) (l : ATree) (k v : Int) (r : ATree) :
    (ATree.node c l k v r).keys = l.keys ++ k :: r.keys := by
  simp [ATree.keys, ATree.inorder]

theorem mem_keys_iff {T : ATree} {k : Int} :
    k ∈ T.keys ↔ ∃ e ∈ T.inorder, e.1 = k := by
  simp [ATree.keys, List.mem_map]

/-- The in-order key sequence of a BST-ordered tree is strictly ascending. -/
theorem bst_sorted_keys {T : ATree} (h : T.BST) : T.keys.Sorted (· < ·) := by
  induction T with
  | nil => simp [ATree.keys, ATree.inorder]
  | node c l k v r ihl ihr =>
    obtain ⟨hbl, hbr, hlk, hrk⟩ := h
    rw [keys_node]
    refine List.pairwise_append.mpr ⟨ihl hbl, ?_, ?_⟩
    · refine List.pairwise_cons.mpr ⟨?_, ihr hbr⟩
      intro b hb
      obtain ⟨e, he, hek⟩ := mem_keys_iff.mp hb
      rw [← hek]; exact hrk e he
    · intro a ha b hb
      obtain ⟨e, he, hek⟩ := mem_keys_iff.mp ha
      have hak : a < k := hek ▸ hlk e he
      rcases List.mem_cons.mp hb with hb | hb
      · rw [hb]; exact hak
      · obtain ⟨e', he', hek'⟩ := mem_keys_iff.mp hb
        exact lt_trans hak (hek' ▸ hrk e' he')

/-- On a BST-ordered tree, the BST descent finds exactly the entries of the
in-order sequence. -/
theorem findEntry_eq_some_iff {T : ATree} (h : T.BST) (key v : Int) :
    findEntry key T = some v ↔ (key, v) ∈ T.inorder := by
  induction T with
  | nil => simp [findEntry, ATree.inorder]
  | node c l k w r ihl ihr =>
    obtain ⟨hbl, hbr, hlk, hrk⟩ := h
    unfold findEntry
    by_cases hk : key = k
    · rw [if_pos hk]
      simp only [ATree.inorder, List.mem_append, List.mem_cons]
      constructor
      · intro hv
        refine Or.inr (Or.inl ?_)
        cases hv
        rw [hk]
      · rintro (hmem | hmem | hmem)
        · exact absurd (hlk _ hmem) (by simp [hk])
        · cases hmem; rfl
        · exact absurd (hrk _ hmem) (by simp [hk])
    · rw [if_neg hk]
      by_cases hlt : key < k
      · rw [if_pos hlt]
        rw [ihl hbl]
        simp only [ATree.inorder, List.mem_append, List.mem_cons]
        constructor
        · exact fun hm => Or.inl hm
        · rintro (hmem | hmem | hmem)
          · exact hmem
          · exact absurd (Prod.ext_iff.mp hmem).1 hk
          · exact absurd (hrk _ hmem) (by simp; exact le_of_lt hlt)
      · rw [if_neg hlt]
        rw [ihr hbr]
        simp only [ATree.inorder, List.mem_append, List.mem_cons]
        constructor
        · exact fun hm => Or.inr (Or.inr hm)
        · rintro (hmem | hmem | hmem)
          · have := hlk _ hmem
            exact absurd this (by simp at hlt ⊢; exact le_trans hlt (le_of_eq rfl))
          · exact absurd (Prod.ext_iff.mp hmem).1 hk
          · exact hmem

/-- On a BST-ordered tree, the BST descent misses exactly the keys outside
the key sequence. -/
theorem findEntry_eq_none_iff {T : ATree} (h : T.BST) (key : Int) :
    findEntry key T = none ↔ key ∉ T.keys := by
  constructor
  · intro hnone hmem
    obtain ⟨e, he, hek⟩ := mem_keys_iff.mp hmem
    have : findEntry key T = some e.2 := by
      rw [findEntry_eq_some_iff h]
      rw [← hek]
      exact he
    rw [this] at hnone
    cases hnone
  · intro hmem
    cases hfind : findEntry key T with
    | none => rfl
    | some v =>
      exfalso
      apply hmem
      rw [mem_keys_iff]
      exact ⟨(key, v), (findEntry_eq_some_iff h key v).mp hfind, rfl⟩

/-! ### Contexts (zippers): describing a node's position inside the tree -/

/-- One-hole context in an algebraic tree, recorded from the hole upward. -/
inductive Ctx where
  | top : Ctx
  | inL : Ctx → Color → Int → Int → ATree → Ctx
  | inR : Ctx → Color → Int → Int → ATree → Ctx
deriving DecidableEq, Repr

/-- Fill the hole of a context with a subtree. -/
def Ctx.plug : Ctx → ATree → ATree
  | Ctx.top, T => T
  | Ctx.inL up c k v R, T => Ctx.plug up (ATree.node c T k v R)
  | Ctx.inR up c k v L, T => Ctx.plug up (ATree.node c L k v T)

/-- Entries of the surrounding tree that come before the hole, in order. -/
def Ctx.leftList : Ctx → List (Int × Int)
  | Ctx.top => []
  | Ctx.inL up _ _ _ _ => up.leftList
  | Ctx.inR up c k v L => up.leftList ++ (L.inorder ++ [(k, v)])

/-- Entries of the surrounding tree that come after the hole, in order. -/
def Ctx.rightList : Ctx → List (Int × Int)
  | Ctx.top => []
  | Ctx.inL up c k v R => ((k, v) :: R.inorder) ++ up.rightList
  | Ctx.inR up _ _ _ _ => up.rightList

/-- Number of ancestors recorded in a context. -/
def Ctx.depth : Ctx → Nat
  | Ctx.top => 0
  | Ctx.inL up _ _ _ _ => up.depth + 1
  | Ctx.inR up _ _ _ _ => up.depth + 1

/-- In-order entries of a plugged context: everything left of the hole, then
the subtree's entries, then everything right of the hole. -/
theorem plug_inorder (C : Ctx) (T : ATree) :
    (C.plug T).inorder = C.leftList ++ T.inorder ++ C.rightList := by
  induction C generalizing T with
  | top => simp [Ctx.plug, Ctx.leftList, Ctx.rightList]
  | inL up c k v R ih =>
    simp only [Ctx.plug, Ctx.leftList, Ctx.rightList]
    rw [ih]
    simp [ATree.inorder]
  | inR up c k v L ih =>
    simp only [Ctx.plug, Ctx.leftList, Ctx.rightList]
    rw [ih]
    simp [ATree.inorder]

/-- `CtxRep t C hi hp Fc` : the store of `t` lays out the context `C` around
a hole; `hi` is the pointer stored in the hole's child slot, `hp` the index
of the hole's parent (the header for the empty context), `Fc` the context's
footprint. -/
inductive CtxRep (t : RBTree) : Ctx → Nat → Nat → Finset Nat → Prop where
  | top (hi : Nat) (hroot : (getN t headerIdx).right = hi) :
      CtxRep t Ctx.top hi headerIdx ∅
  | inL (up : Ctx) (c : Color) (k v : Int) (R : ATree) (i pp hi ri : Nat)
      (Fup Fr : Finset Nat)
      (hup : CtxRep t up i pp Fup)
      (hi2 : 2 ≤ i)
      (hrec : getN t i =
        { key := k, value := v, color := c, left := hi, right := ri, parent := pp })
      (hR : IsRep t ri i R Fr)
      (hdisj : Disjoint Fup Fr) (hiU : i ∉ Fup) (hiR : i ∉ Fr) :
      CtxRep t (Ctx.inL up c k v R) hi i (insert i (Fup ∪ Fr))
  | inR (up : Ctx) (c : Color) (k v : Int) (L : ATree) (i pp hi li : Nat)
      (Fup Fl : Finset Nat)
      (hup : CtxRep t up i pp Fup)
      (hi2 : 2 ≤ i)
      (hrec : getN t i =
        { key := k, value := v, color := c, left := li, right := hi, parent := pp })
      (hL : IsRep t li i L Fl)
      (hdisj : Disjoint Fup Fl) (hiU : i ∉ Fup) (hiL : i ∉ Fl) :
      CtxRep t (Ctx.inR up c k v L) hi i (insert i (Fup ∪ Fl))

/-- Context footprints also consist of non-sentinel indices. -/
theorem CtxRep.mem_ge_two_ctx {t : RBTree} {C : Ctx} {hi hp : Nat} {Fc : Finset Nat}
    (h : CtxRep t C hi hp Fc) : ∀ j ∈ Fc, 2 ≤ j := by
  induction h with
  | top => simp
  | inL up c k v R i pp hi ri Fup Fr hup hi2 hrec hR hdisj hiU hiR ih =>
    intro j hj
    rcases Finset.mem_insert.mp hj with hj | hj
    · rw [hj]; exact hi2
    · rcases Finset.mem_union.mp hj with hj | hj
      · exact ih j hj
      · exact hR.mem_ge_two j hj
  | inR up c k v L i pp hi li Fup Fl hup hi2 hrec hL hdisj hiU hiL ih =>
    intro j hj
    rcases Finset.mem_insert.mp hj with hj | hj
    · rw [hj]; exact hi2
    · rcases Finset.mem_union.mp hj with hj | hj
      · exact ih j hj
      · exact hL.mem_ge_two j hj

/-- Gluing: filling a represented context's hole with a represented subtree
yields a representation of the plugged tree at the root. -/
theorem CtxRep.plug_rep {t : RBTree} {C : Ctx} {hi hp : Nat} {Fc : Finset Nat}
    (h : CtxRep t C hi hp Fc) :
    ∀ {T : ATree} {Ft : Finset Nat}, IsRep t hi hp T Ft → Disjoint Fc Ft →
      IsRep t (getN t headerIdx).right headerIdx (C.plug T) (Fc ∪ Ft) := by
  induction h with
  | top hi hroot =>
    intro T Ft hrep hdisj
    rw [hroot, Ctx.plug]
    simpa using hrep
  | inL up c k v R i pp hi ri Fup Fr hup hi2 hrec hR hdisj hiU hiR ih =>
    intro T Ft hrep hdisjT
    have hFup : Disjoint Fup Ft := by
      refine Finset.disjoint_left.mpr fun a ha => ?_
      have : a ∈ insert i (Fup ∪ Fr) :=
        Finset.mem_insert_of_mem (Finset.mem_union_left _ ha)
      exact Finset.disjoint_left.mp hdisjT this
    have hFr : Disjoint Ft Fr := by
      refine Finset.disjoint_left.mpr fun a ha => ?_
      intro hmem
      have : a ∈ insert i (Fup ∪ Fr) :=
        Finset.mem_insert_of_mem (Finset.mem_union_right _ hmem)
      exact Finset.disjoint_left.mp hdisjT this ha
    have hiT : i ∉ Ft :=
      Finset.disjoint_left.mp hdisjT (Finset.mem_insert_self _ _)
    have hnode : IsRep t i pp (ATree.node c T k v R) (insert i (Ft ∪ Fr)) :=
      IsRep.node i pp c T R k v hi ri Ft Fr hi2 hrec hrep hR hFr hiT hiR
    have hd2 : Disjoint Fup (insert i (Ft ∪ Fr)) := by
      refine Finset.disjoint_left.mpr fun a ha => ?_
      intro hmem
      rcases Finset.mem_insert.mp hmem with hmem | hmem
      · rw [hmem] at ha; exact hiU ha
      · rcases Finset.mem_union.mp hmem with hmem | hmem
        · exact Finset.disjoint_left.mp hFup ha hmem
        · exact Finset.disjoint_left.mp hdisj ha hmem
    have hres := ih hnode hd2
    have hset : Fup ∪ insert i (Ft ∪ Fr) = insert i (Fup ∪ Fr) ∪ Ft := by
      ext a
      simp only [Finset.mem_union, Finset.mem_insert]
      tauto
    rw [Ctx.plug]
    rwa [hset] at hres
  | inR up c k v L i pp hi li Fup Fl hup hi2 hrec hL hdisj hiU hiL ih =>
    intro T Ft hrep hdisjT
    have hFup : Disjoint Fup Ft := by
      refine Finset.disjoint_left.mpr fun a ha => ?_
      have : a ∈ insert i (Fup ∪ Fl) :=
        Finset.mem_insert_of_mem (Finset.mem_union_left _ ha)
      exact Finset.disjoint_left.mp hdisjT this
    have hFl : Disjoint Fl Ft := by
      refine Finset.disjoint_left.mpr fun a ha => ?_
      have : a ∈ insert i (Fup ∪ Fl) :=
        Finset.mem_insert_of_mem (Finset.mem_union_right _ ha)
      exact Finset.disjoint_left.mp hdisjT this
    have hiT : i ∉ Ft :=
      Finset.disjoint_left.mp hdisjT (Finset.mem_insert_self _ _)
    have hnode : IsRep t i pp (ATree.node c L k v T) (insert i (Fl ∪ Ft)) :=
      IsRep.node i pp c L T k v li hi Fl Ft hi2 hrec hL hrep hFl hiL hiT
    have hd2 : Disjoint Fup (insert i (Fl ∪ Ft)) := by
      refine Finset.disjoint_left.mpr fun a ha => ?_
      intro hmem
      rcases Finset.mem_insert.mp hmem with hmem | hmem
      · rw [hmem] at ha; exact hiU ha
      · rcases Finset.mem_union.mp hmem with hmem | hmem
        · exact Finset.disjoint_left.mp hdisj ha hmem
        · exact Finset.disjoint_left.mp hFup ha hmem
    have hres := ih hnode hd2
    have hset : Fup ∪ insert i (Fl ∪ Ft) = insert i (Fup ∪ Fl) ∪ Ft := by
      ext a
      simp only [Finset.mem_union, Finset.mem_insert]
      tauto
    rw [Ctx.plug]
    rwa [hset] at hres

/-- Decomposition (auxiliary): inside a represented subtree sitting in a
represented context, every footprint member is the root of a represented
subtree in a correspondingly extended context. -/
theorem rep_decompose_aux {t : RBTree} :
    ∀ {T : ATree} {r p : Nat} {F : Finset Nat}, IsRep t r p T F →
      ∀ {C : Ctx} {Fc : Finset Nat}, CtxRep t C r p Fc → Disjoint F Fc →
        ∀ i ∈ F, ∃ (C₂ : Ctx) (S : ATree) (Fc₂ Fs : Finset Nat),
          CtxRep t C₂ i (getN t i).parent Fc₂ ∧
          IsRep t i (getN t i).parent S Fs ∧
          C₂.plug S = C.plug T ∧ Fc₂ ∪ Fs = Fc ∪ F ∧ Disjoint Fc₂ Fs ∧
          C₂.depth + S.height ≤ C.depth + T.height ∧
          (∃ c L k v R, S = ATree.node c L k v R) := by
  intro T
  induction T with
  | nil =>
    intro r p F h
    cases h
    intro C Fc hc hdisj i hi
    simp at hi
  | node c l k v r ihl ihr =>
    intro ri p F h
    cases h with
    | node _ _ _ _ _ _ _ li rri Fl Fr hi2 hrec hL hR hdisj hiL hiR =>
      intro C Fc hc hdisjC i hi
      rcases Finset.mem_insert.mp hi with hieq | hi
      · subst hieq
        refine ⟨C, ATree.node c l k v r, Fc, insert i (Fl ∪ Fr), ?_, ?_, rfl, ?_, ?_, ?_,
          ⟨c, l, k, v, r, rfl⟩⟩
        · rw [hrec]; exact hc
        · rw [hrec]
          exact IsRep.node i p c l r k v li rri Fl Fr hi2 hrec hL hR hdisj hiL hiR
        · rfl
        · exact hdisjC.symm
        · omega
      rcases Finset.mem_union.mp hi with hi | hi
      · -- descend into the left subtree
        have hcL : CtxRep t (Ctx.inL C c k v r) li ri (insert ri (Fc ∪ Fr)) := by
          refine CtxRep.inL C c k v r ri p li rri Fc Fr hc hi2 hrec hR ?_ ?_ hiR
          · refine Finset.disjoint_left.mpr fun a ha => ?_
            intro hmem
            exact Finset.disjoint_left.mp hdisjC
              (Finset.mem_insert_of_mem (Finset.mem_union_right _ hmem)) ha
          · exact fun hmem =>
              Finset.disjoint_left.mp hdisjC (Finset.mem_insert_self _ _) hmem
        have hdL : Disjoint Fl (insert ri (Fc ∪ Fr)) := by
          refine Finset.disjoint_left.mpr fun a ha => ?_
          intro hmem
          rcases Finset.mem_insert.mp hmem with hmem | hmem
          · rw [hmem] at ha; exact hiL ha
          · rcases Finset.mem_union.mp hmem with hmem | hmem
            · exact Finset.disjoint_left.mp hdisjC
                (Finset.mem_insert_of_mem (Finset.mem_union_left _ ha)) hmem
            · exact Finset.disjoint_left.mp hdisj ha hmem
        obtain ⟨C₂, S, Fc₂, Fs, h1, h2, h3, h4, h5, h6, h7⟩ := ihl hL hcL hdL i hi
        refine ⟨C₂, S, Fc₂, Fs, h1, h2, h3, ?_, h5, ?_, h7⟩
        · rw [h4]
          ext a
          simp only [Finset.mem_union, Finset.mem_insert]
          tauto
        · have hdepth : (Ctx.inL C c k v r).depth = C.depth + 1 := rfl
          rw [hdepth] at h6
          have hh : (ATree.node c l k v r).height = max l.height r.height + 1 := rfl
          omega
      · -- descend into the right subtree
        have hcR : CtxRep t (Ctx.inR C c k v l) rri ri (insert ri (Fc ∪ Fl)) := by
          refine CtxRep.inR C c k v l ri p rri li Fc Fl hc hi2 hrec hL ?_ ?_ hiL
          · refine Finset.disjoint_left.mpr fun a ha => ?_
            intro hmem
            exact Finset.disjoint_left.mp hdisjC
              (Finset.mem_insert_of_mem (Finset.mem_union_left _ hmem)) ha
          · exact fun hmem =>
              Finset.disjoint_left.mp hdisjC (Finset.mem_insert_self _ _) hmem
        have hdR : Disjoint Fr (insert ri (Fc ∪ Fl)) := by
          refine Finset.disjoint_left.mpr fun a ha => ?_
          intro hmem
          rcases Finset.mem_insert.mp hmem with hmem | hmem
          · rw [hmem] at ha; exact hiR ha
          · rcases Finset.mem_union.mp hmem with hmem | hmem
            · exact Finset.disjoint_left.mp hdisjC
                (Finset.mem_insert_of_mem (Finset.mem_union_right _ ha)) hmem
            · exact Finset.disjoint_left.mp hdisj.symm ha hmem
        obtain ⟨C₂, S, Fc₂, Fs, h1, h2, h3, h4, h5, h6, h7⟩ := ihr hR hcR hdR i hi
        refine ⟨C₂, S, Fc₂, Fs, h1, h2, h3, ?_, h5, ?_, h7⟩
        · rw [h4]
          ext a
          simp only [Finset.mem_union, Finset.mem_insert]
          tauto
        · have hdepth : (Ctx.inR C c k v l).depth = C.depth + 1 := rfl
          rw [hdepth] at h6
          have hh : (ATree.node c l k v r).height = max l.height r.height + 1 := rfl
          omega

/-- Decomposition: every footprint member of a represented whole tree is the
root of a represented non-empty subtree inside a represented context. -/
theorem TreeRep.decompose {t : RBTree} {T : ATree} {F : Finset Nat}
    (h : TreeRep t T F) :
    ∀ i ∈ F, ∃ (C : Ctx) (S : ATree) (Fc Fs : Finset Nat),
      CtxRep t C i (getN t i).parent Fc ∧
      IsRep t i (getN t i).parent S Fs ∧
      C.plug S = T ∧ Fc ∪ Fs = F ∧ Disjoint Fc Fs ∧
      C.depth + S.height ≤ T.height ∧
      (∃ c L k v R, S = ATree.node c L k v R) := by
  intro i hi
  have htop : CtxRep t Ctx.top (getN t headerIdx).right headerIdx ∅ :=
    CtxRep.top _ rfl
  obtain ⟨C₂, S, Fc₂, Fs, h1, h2, h3, h4, h5, h6, h7⟩ :=
    rep_decompose_aux h.root htop (Finset.disjoint_empty_right _) i hi
  refine ⟨C₂, S, Fc₂, Fs, h1, h2, ?_, ?_, h5, ?_, h7⟩
  · rw [h3]; rfl
  · rw [h4]; simp
  · simpa [Ctx.depth] using h6

/-! ### Predecessor / successor walks against the representation -/

/-- Key/value entry stored at a pointer. -/
def entryOf (t : RBTree) (i : Nat) : Int × Int := ((getN t i).key, (getN t i).value)

/-- The descending phase of `inorder_successor`: from a non-empty represented
subtree it reaches the leftmost node, which holds the subtree's first
in-order entry and has no left child. -/
theorem downLeft_rep {t : RBTree} :
    ∀ {L : ATree} {c : Color} {k v : Int} {R : ATree} {i p fuel : Nat} {F : Finset Nat},
      IsRep t i p (ATree.node c L k v R) F → (ATree.node c L k v R).height < fuel →
      ∃ j rest, downLeft t i fuel = Except.ok j ∧ j ∈ F ∧
        (getN t j).left = nilIdx ∧
        (ATree.node c L k v R).inorder = entryOf t j :: rest := by
  intro L
  induction L with
  | nil =>
    intro c k v R i p fuel F h hfuel
    cases h with
    | node _ _ _ _ _ _ _ li ri Fl Fr hi2 hrec hL hR hdisj hiL hiR =>
      cases hL
      match fuel, hfuel with
      | fuel+1, _ =>
        refine ⟨i, R.inorder, ?_, Finset.mem_insert_self _ _, ?_, ?_⟩
        · unfold downLeft
          rw [hrec]
          rfl
        · rw [hrec]
        · simp [ATree.inorder, entryOf, hrec]
  | node c' l' k' v' r' ihl _ =>
    intro c k v R i p fuel F h hfuel
    cases h with
    | node _ _ _ _ _ _ _ li ri Fl Fr hi2 hrec hL hR hdisj hiL hiR =>
      match fuel, hfuel with
      | fuel+1, hfuel =>
        have hli2 : 2 ≤ li := hL.mem_ge_two li hL.root_mem
        have hfl : (ATree.node c' l' k' v' r').height < fuel := by
          have : (ATree.node c (ATree.node c' l' k' v' r') k v R).height =
              max (ATree.node c' l' k' v' r').height R.height + 1 := rfl
          omega
        obtain ⟨j, rest, hrun, hjF, hjl, hord⟩ := ihl hL hfl
        refine ⟨j, rest ++ (k, v) :: R.inorder, ?_, ?_, hjl, ?_⟩
        · unfold downLeft
          rw [hrec]
          have : ¬ isNil li := by
            intro hh
            unfold isNil nilIdx at hh
            omega
          simp only [if_neg this]
          exact hrun
        · exact Finset.mem_insert_of_mem (Finset.mem_union_left _ hjF)
        · show (ATree.node c' l' k' v' r').inorder ++ (k, v) :: R.inorder = _
          rw [hord]
          simp

/-- The descending phase of `inorder_predecessor`: from a non-empty
represented subtree it reaches the rightmost node, which holds the subtree's
last in-order entry and has no right child. -/
theorem downRight_rep {t : RBTree} :
    ∀ {R : ATree} {c : Color} {k v : Int} {L : ATree} {i p fuel : Nat} {F : Finset Nat},
      IsRep t i p (ATree.node c L k v R) F → (ATree.node c L k v R).height < fuel →
      ∃ j init, downRight t i fuel = Except.ok j ∧ j ∈ F ∧
        (getN t j).right = nilIdx ∧
        (ATree.node c L k v R).inorder = init ++ [entryOf t j] := by
  intro R
  induction R with
  | nil =>
    intro c k v L i p fuel F h hfuel
    cases h with
    | node _ _ _ _ _ _ _ li ri Fl Fr hi2 hrec hL hR hdisj hiL hiR =>
      cases hR
      match fuel, hfuel with
      | fuel+1, _ =>
        refine ⟨i, L.inorder, ?_, Finset.mem_insert_self _ _, ?_, ?_⟩
        · unfold downRight
          rw [hrec]
          rfl
        · rw [hrec]
        · simp [ATree.inorder, entryOf, hrec]
  | node c' l' k' v' r' _ ihr =>
    intro c k v L i p fuel F h hfuel
    cases h with
    | node _ _ _ _ _ _ _ li ri Fl Fr hi2 hrec hL hR hdisj hiL hiR =>
      match fuel, hfuel with
      | fuel+1, hfuel =>
        have hri2 : 2 ≤ ri := hR.mem_ge_two ri hR.root_mem
        have hfr : (ATree.node c' l' k' v' r').height < fuel := by
          have : (ATree.node c L k v (ATree.node c' l' k' v' r')).height =
              max L.height (ATree.node c' l' k' v' r').height + 1 := rfl
          omega
        obtain ⟨j, init, hrun, hjF, hjr, hord⟩ := ihr hR hfr
        refine ⟨j, L.inorder ++ (k, v) :: init, ?_, ?_, hjr, ?_⟩
        · unfold downRight
          rw [hrec]
          have : ¬ isNil ri := by
            intro hh
            unfold isNil nilIdx at hh
            omega
          simp only [if_neg this]
          exact hrun
        · exact Finset.mem_insert_of_mem (Finset.mem_union_right _ hjF)
        · show L.inorder ++ (k, v) :: (ATree.node c' l' k' v' r').inorder = _
          rw [hord]
          simp

/-- The climbing phase of `inorder_successor`: starting from a hole with a
represented context, the walk stops at the node holding the first entry to
the right of the hole, or at nil when nothing lies to the right. -/
theorem upFromRight_ctx {t : RBTree} {C : Ctx} {x p : Nat} {Fc : Finset Nat}
    (h : CtxRep t C x p Fc) :
    ∀ {fuel : Nat}, 2 ≤ x → x ∉ Fc → C.depth < fuel →
      ∃ j, upFromRight t x p fuel = Except.ok j ∧
        ((C.rightList = [] ∧ j = nilIdx) ∨
          (∃ rest, C.rightList = entryOf t j :: rest ∧ j ∈ Fc)) := by
  induction h with
  | top hi hroot =>
    intro fuel hx2 hxF hfuel
    match fuel, hfuel with
    | fuel+1, _ =>
      refine ⟨nilIdx, ?_, Or.inl ⟨rfl, rfl⟩⟩
      unfold upFromRight
      rfl
  | inL up c k v R i pp hi ri Fup Fr hup hi2 hrec hR hdisj hiU hiR ih =>
    intro fuel hx2 hxF hfuel
    match fuel, hfuel with
    | fuel+1, _ =>
      have hne : hi ≠ ri := by
        cases R with
        | nil =>
          cases hR
          unfold nilIdx
          omega
        | node c' l' k' v' r' =>
          intro he
          apply hxF
          rw [he]
          exact Finset.mem_insert_of_mem (Finset.mem_union_right _ hR.root_mem)
      refine ⟨i, ?_, Or.inr ⟨R.inorder ++ up.rightList, ?_, Finset.mem_insert_self _ _⟩⟩
      · unfold upFromRight
        have hcond : ¬ (¬ isHeader i ∧ hi = (getN t i).right) := by
          rw [hrec]
          intro hh
          exact hne hh.2
        rw [if_neg hcond]
        have : ¬ isHeader i := by
          unfold isHeader headerIdx
          omega
        rw [if_neg this]
      · simp [Ctx.rightList, entryOf, hrec]
  | inR up c k v L i pp hi li Fup Fl hup hi2 hrec hL hdisj hiU hiL ih =>
    intro fuel hx2 hxF hfuel
    match fuel, hfuel with
    | fuel+1, hfuel =>
      have hdep : up.depth < fuel := by
        have : (Ctx.inR up c k v L).depth = up.depth + 1 := rfl
        omega
      obtain ⟨j, hrun, hres⟩ := ih hi2 hiU hdep
      refine ⟨j, ?_, ?_⟩
      · unfold upFromRight
        have hcond : ¬ isHeader i ∧ hi = (getN t i).right := by
          rw [hrec]
          exact ⟨by unfold isHeader headerIdx; omega, rfl⟩
        rw [if_pos hcond, hrec]
        exact hrun
      · rcases hres with ⟨hnilL, hj⟩ | ⟨rest, hlist, hj⟩
        · exact Or.inl ⟨hnilL, hj⟩
        · exact Or.inr ⟨rest, hlist, Finset.mem_insert_of_mem (Finset.mem_union_left _ hj)⟩

/-- The climbing phase of `inorder_predecessor`: starting from a hole with a
represented context, the walk stops at the node holding the last entry to
the left of the hole, or at nil when nothing lies to the left. -/
theorem upFromLeft_ctx {t : RBTree} {C : Ctx} {x p : Nat} {Fc : Finset Nat}
    (h : CtxRep t C x p Fc) :
    ∀ {fuel : Nat}, 2 ≤ x → x ∉ Fc → C.depth < fuel →
      ∃ j, upFromLeft t x p fuel = Except.ok j ∧
        ((C.leftList = [] ∧ j = nilIdx) ∨
          (∃ init, C.leftList = init ++ [entryOf t j] ∧ j ∈ Fc)) := by
  induction h with
  | top hi hroot =>
    intro fuel hx2 hxF hfuel
    match fuel, hfuel with
    | fuel+1, _ =>
      refine ⟨nilIdx, ?_, Or.inl ⟨rfl, rfl⟩⟩
      unfold upFromLeft
      rfl
  | inL up c k v R i pp hi ri Fup Fr hup hi2 hrec hR hdisj hiU hiR ih =>
    intro fuel hx2 hxF hfuel
    match fuel, hfuel with
    | fuel+1, hfuel =>
      have hdep : up.depth < fuel := by
        have : (Ctx.inL up c k v R).depth = up.depth + 1 := rfl
        omega
      obtain ⟨j, hrun, hres⟩ := ih hi2 hiU hdep
      refine ⟨j, ?_, ?_⟩
      · unfold upFromLeft
        have hcond : ¬ isHeader i ∧ hi = (getN t i).left := by
          rw [hrec]
          exact ⟨by unfold isHeader headerIdx; omega, rfl⟩
        rw [if_pos hcond, hrec]
        exact hrun
      · rcases hres with ⟨hnilL, hj⟩ | ⟨init, hlist, hj⟩
        · exact Or.inl ⟨hnilL, hj⟩
        · exact Or.inr ⟨init, hlist, Finset.mem_insert_of_mem (Finset.mem_union_left _ hj)⟩
  | inR up c k v L i pp hi li Fup Fl hup hi2 hrec hL hdisj hiU hiL ih =>
    intro fuel hx2 hxF hfuel
    match fuel, hfuel with
    | fuel+1, _ =>
      have hne : hi ≠ li := by
        cases L with
        | nil =>
          cases hL
          unfold nilIdx
          omega
        | node c' l' k' v' r' =>
          intro he
          apply hxF
          rw [he]
          exact Finset.mem_insert_of_mem (Finset.mem_union_right _ hL.root_mem)
      refine ⟨i, ?_, Or.inr ⟨up.leftList ++ L.inorder, ?_, Finset.mem_insert_self _ _⟩⟩
      · unfold upFromLeft
        have hcond : ¬ (¬ isHeader i ∧ hi = (getN t i).left) := by
          rw [hrec]
          intro hh
          exact hne hh.2
        rw [if_neg hcond]
        have : ¬ isHeader i := by
          unfold isHeader headerIdx
          omega
        rw [if_neg this]
      · simp [Ctx.leftList, entryOf, hrec]

/-- `inorder_successor` computes the holder of the first entry after the
node's own entry (right subtree first, context otherwise), or nil. -/
theorem inorder_successor_rep {t : RBTree} {C : Ctx} {i p : Nat} {Fc Fs : Finset Nat}
    {c : Color} {L R : ATree} {k v : Int} {fuel : Nat}
    (hC : CtxRep t C i p Fc) (hS : IsRep t i p (ATree.node c L k v R) Fs)
    (hdisj : Disjoint Fc Fs)
    (hfuel : (ATree.node c L k v R).height + C.depth < fuel) :
    ∃ j, inorder_successor t i fuel = Except.ok j ∧
      ((R.inorder ++ C.rightList = [] ∧ j = nilIdx) ∨
        (∃ rest, R.inorder ++ C.rightList = entryOf t j :: rest ∧ j ∈ Fc ∪ Fs)) := by
  cases hS with
  | node _ _ _ _ _ _ _ li ri Fl Fr hi2 hrec hL hR hdisjLR hiL hiR =>
    have hiFs : i ∈ insert i (Fl ∪ Fr) := Finset.mem_insert_self _ _
    have hiFc : i ∉ Fc := fun hmem => Finset.disjoint_left.mp hdisj hmem hiFs
    unfold inorder_successor
    rw [hrec]
    cases R with
    | nil =>
      cases hR
      have hdep : C.depth < fuel := by
        have : (ATree.node c L k v ATree.nil).height =
            max L.height ATree.nil.height + 1 := rfl
        omega
      obtain ⟨j, hrun, hres⟩ := upFromRight_ctx hC hi2 hiFc hdep
      refine ⟨j, ?_, ?_⟩
      · simp only [isNil, nilIdx, if_pos rfl]
        exact hrun
      · rcases hres with ⟨hl, hj⟩ | ⟨rest, hlist, hj⟩
        · exact Or.inl ⟨by simp [ATree.inorder, hl], hj⟩
        · refine Or.inr ⟨rest, by simp [ATree.inorder, hlist], Finset.mem_union_left _ hj⟩
    | node c' l' k' v' r' =>
      have hri2 : 2 ≤ ri := hR.mem_ge_two ri hR.root_mem
      have hrine : ¬ isNil ri := by
        unfold isNil nilIdx
        omega
      rw [if_neg hrine]
      have hfr : (ATree.node c' l' k' v' r').height < fuel := by
        have : (ATree.node c L k v (ATree.node c' l' k' v' r')).height =
            max L.height (ATree.node c' l' k' v' r').height + 1 := rfl
        omega
      obtain ⟨j, rest, hrun, hjF, hjl, hord⟩ := downLeft_rep hR hfr
      refine ⟨j, hrun, Or.inr ⟨rest ++ C.rightList, ?_, ?_⟩⟩
      · rw [hord]
        simp
      · exact Finset.mem_union_right _
          (Finset.mem_insert_of_mem (Finset.mem_union_right _ hjF))

/-- `inorder_predecessor` computes the holder of the last entry before the
node's own entry (left subtree first, context otherwise), or nil. -/
theorem inorder_predecessor_rep {t : RBTree} {C : Ctx} {i p : Nat} {Fc Fs : Finset Nat}
    {c : Color} {L R : ATree} {k v : Int} {fuel : Nat}
    (hC : CtxRep t C i p Fc) (hS : IsRep t i p (ATree.node c L k v R) Fs)
    (hdisj : Disjoint Fc Fs)
    (hfuel : (ATree.node c L k v R).height + C.depth < fuel) :
    ∃ j, inorder_predecessor t i fuel = Except.ok j ∧
      ((C.leftList ++ L.inorder = [] ∧ j = nilIdx) ∨
        (∃ init, C.leftList ++ L.inorder = init ++ [entryOf t j] ∧ j ∈ Fc ∪ Fs)) := by
  cases hS with
  | node _ _ _ _ _ _ _ li ri Fl Fr hi2 hrec hL hR hdisjLR hiL hiR =>
    have hiFs : i ∈ insert i (Fl ∪ Fr) := Finset.mem_insert_self _ _
    have hiFc : i ∉ Fc := fun hmem => Finset.disjoint_left.mp hdisj hmem hiFs
    unfold inorder_predecessor
    rw [hrec]
    cases L with
    | nil =>
      cases hL
      have hdep : C.depth < fuel := by
        have : (ATree.node c ATree.nil k v R).height =
            max ATree.nil.height R.height + 1 := rfl
        omega
      obtain ⟨j, hrun, hres⟩ := upFromLeft_ctx hC hi2 hiFc hdep
      refine ⟨j, ?_, ?_⟩
      · simp only [isNil, nilIdx, if_pos rfl]
        exact hrun
      · rcases hres with ⟨hl, hj⟩ | ⟨init, hlist, hj⟩
        · exact Or.inl ⟨by simp [ATree.inorder, hl], hj⟩
        · refine Or.inr ⟨init, by simp [ATree.inorder, hlist], Finset.mem_union_left _ hj⟩
    | node c' l' k' v' r' =>
      have hli2 : 2 ≤ li := hL.mem_ge_two li hL.root_mem
      have hline : ¬ isNil li := by
        unfold isNil nilIdx
        omega
      rw [if_neg hline]
      have hfl : (ATree.node c' l' k' v' r').height < fuel := by
        have : (ATree.node c (ATree.node c' l' k' v' r') k v R).height =
            max (ATree.node c' l' k' v' r').height R.height + 1 := rfl
        omega
      obtain ⟨j, init, hrun, hjF, hjr, hord⟩ := downRight_rep hL hfl
      refine ⟨j, hrun, Or.inr ⟨C.leftList ++ init, ?_, ?_⟩⟩
      · rw [hord]
        simp
      · exact Finset.mem_union_right _
          (Finset.mem_insert_of_mem (Finset.mem_union_left _ hjF))

/-- Claim C6: for every node of a represented tree, `inorder_predecessor` and
`inorder_successor` return the holder of the entry immediately before
(respectively after) the node's entry in the in-order sequence — computed via
the left/right subtree when it exists, otherwise by the ancestor walk — and
return the nil sentinel exactly when no such entry exists. -/
theorem claim_C6 (t : RBTree) (T : ATree) (F : Finset Nat) (h : TreeRep t T F)
    (i : Nat) (hi : i ∈ F) (fuel : Nat) (hfuel : T.height < fuel) :
    ∃ before after,
      T.inorder = before ++ entryOf t i :: after ∧
      (∃ jp, inorder_predecessor t i fuel = Except.ok jp ∧
        ((before = [] ∧ jp = nilIdx) ∨
          (∃ init, before = init ++ [entryOf t jp] ∧ jp ∈ F))) ∧
      (∃ js, inorder_successor t i fuel = Except.ok js ∧
        ((after = [] ∧ js = nilIdx) ∨
          (∃ rest, after = entryOf t js :: rest ∧ js ∈ F))) := by
  obtain ⟨C, S, Fc, Fs, hC, hS, hplug, hF, hdisj, hdepth, c, L, k, v, R, hnode⟩ :=
    h.decompose i hi
  subst hnode
  have hfuel2 : (ATree.node c L k v R).height + C.depth < fuel := by omega
  have hentry : entryOf t i = (k, v) := by
    cases hS with
    | node _ _ _ _ _ _ _ li ri Fl Fr hi2 hrec hL hR hd hiL hiR =>
      unfold entryOf
      rw [hrec]
  refine ⟨C.leftList ++ L.inorder, R.inorder ++ C.rightList, ?_, ?_, ?_⟩
  · rw [← hplug, plug_inorder, hentry]
    simp [ATree.inorder]
  · obtain ⟨jp, hrun, hres⟩ := inorder_predecessor_rep hC hS hdisj hfuel2
    refine ⟨jp, hrun, ?_⟩
    rcases hres with hres | ⟨init, hlist, hj⟩
    · exact Or.inl hres
    · exact Or.inr ⟨init, hlist, hF ▸ hj⟩
  · obtain ⟨js, hrun, hres⟩ := inorder_successor_rep hC hS hdisj hfuel2
    refine ⟨js, hrun, ?_⟩
    rcases hres with hres | ⟨rest, hlist, hj⟩
    · exact Or.inl hres
    · exact Or.inr ⟨rest, hlist, hF ▸ hj⟩

/-- The one-entry demo tree is represented: its algebraic view is a single
Black node `10 ↦ 7`. -/
theorem demoTree_rep :
    TreeRep demoTree (ATree.node Color.Black ATree.nil 10 7 ATree.nil) {2} := by
  have hset : (insert 2 (∅ ∪ ∅) : Finset Nat) = {2} := by simp
  refine ⟨⟨rfl, rfl, rfl, rfl, rfl⟩, ?_⟩
  rw [← hset]
  have hrec : getN demoTree 2 =
      { key := 10, value := 7, color := Color.Black,
        left := nilIdx, right := nilIdx, parent := headerIdx } := rfl
  exact IsRep.node 2 headerIdx Color.Black ATree.nil ATree.nil 10 7 nilIdx nilIdx ∅ ∅
    (by omega) hrec (IsRep.nil 2) (IsRep.nil 2) (by simp) (by simp) (by simp)

/-- Witness for claim C6 at the sole node of the one-entry demo tree: both
walks land on the nil sentinel. -/
theorem claim_C6_witness :
    ∃ before after,
      (ATree.node Color.Black ATree.nil 10 7 ATree.nil).inorder =
        before ++ entryOf demoTree 2 :: after ∧
      (∃ jp, inorder_predecessor demoTree 2 2 = Except.ok jp ∧
        ((before = [] ∧ jp = nilIdx) ∨
          (∃ init, before = init ++ [entryOf demoTree jp] ∧ jp ∈ ({2} : Finset Nat)))) ∧
      (∃ js, inorder_successor demoTree 2 2 = Except.ok js ∧
        ((after = [] ∧ js = nilIdx) ∨
          (∃ rest, after = entryOf demoTree js :: rest ∧ js ∈ ({2} : Finset Nat)))) :=
  claim_C6 demoTree (ATree.node Color.Black ATree.nil 10 7 ATree.nil) {2}
    demoTree_rep 2 (Finset.mem_singleton_self 2) 2 (by decide)

/-! ### Mutation lemmas: how pointer surgery transforms representations -/

/-- Writing a slot's current contents back leaves the tree unchanged. -/
theorem setN_eq_self {t : RBTree} {i : Nat} {n : RBNode} (h : getN t i = n) :
    setN t i n = t := by
  cases t with
  | mk store fresh len =>
    unfold setN
    congr 1
    funext j
    by_cases hj : j = i
    · rw [if_pos hj, hj]
      exact h.symm
    · rw [if_neg hj]

/-- Re-rooting a represented subtree under a new parent: only the root slot's
parent field changes. -/
theorem IsRep.reparent {t t' : RBTree} {i p : Nat} {T : ATree} {F : Finset Nat}
    (h : IsRep t i p T F) (p' : Nat)
    (hroot : T ≠ ATree.nil → getN t' i = { getN t i with parent := p' })
    (hagree : ∀ j ∈ F, j ≠ i → getN t' j = getN t j) :
    IsRep t' i p' T F := by
  cases h with
  | nil => exact IsRep.nil p'
  | node _ _ c L R k v li ri Fl Fr hi2 hrec hL hR hdisj hiL hiR =>
    refine IsRep.node i p' c L R k v li ri Fl Fr hi2 ?_ ?_ ?_ hdisj hiL hiR
    · rw [hroot (by intro hh; cases hh), hrec]
    · refine hL.frame fun j hj => ?_
      have hji : j ≠ i := fun he => hiL (he ▸ hj)
      exact hagree j (Finset.mem_insert_of_mem (Finset.mem_union_left _ hj)) hji
    · refine hR.frame fun j hj => ?_
      have hji : j ≠ i := fun he => hiR (he ▸ hj)
      exact hagree j (Finset.mem_insert_of_mem (Finset.mem_union_right _ hj)) hji

/-- Frame rule for contexts: a store agreeing on the context footprint and on
the header's right link carries the same context representation. -/
theorem CtxRep.frame_ctx {t t' : RBTree} {C : Ctx} {hi p : Nat} {Fc : Finset Nat}
    (h : CtxRep t C hi p Fc)
    (hagree : ∀ j ∈ Fc, getN t' j = getN t j)
    (hhead : (getN t' headerIdx).right = (getN t headerIdx).right) :
    CtxRep t' C hi p Fc := by
  induction h with
  | top hi hroot =>
    exact CtxRep.top hi (by rw [hhead, hroot])
  | inL up c k v R i pp hi ri Fup Fr hup hi2 hrec hR hdisj hiU hiR ih =>
    refine CtxRep.inL up c k v R i pp hi ri Fup Fr ?_ hi2 ?_ ?_ hdisj hiU hiR
    · exact ih fun j hj =>
        hagree j (Finset.mem_insert_of_mem (Finset.mem_union_left _ hj))
    · rw [hagree i (Finset.mem_insert_self _ _)]; exact hrec
    · exact hR.frame fun j hj =>
        hagree j (Finset.mem_insert_of_mem (Finset.mem_union_right _ hj))
  | inR up c k v L i pp hi li Fup Fl hup hi2 hrec hL hdisj hiU hiL ih =>
    refine CtxRep.inR up c k v L i pp hi li Fup Fl ?_ hi2 ?_ ?_ hdisj hiU hiL
    · exact ih fun j hj =>
        hagree j (Finset.mem_insert_of_mem (Finset.mem_union_left _ hj))
    · rw [hagree i (Finset.mem_insert_self _ _)]; exact hrec
    · exact hL.frame fun j hj =>
        hagree j (Finset.mem_insert_of_mem (Finset.mem_union_right _ hj))

/-- Retargeting a context's hole pointer: the hole's parent slot has its
hole-side child link redirected to `hi'`, everything else agreeing. -/
theorem CtxRep.retarget {t t' : RBTree} {C : Ctx} {hi p : Nat} {Fc : Finset Nat}
    (h : CtxRep t C hi p Fc) (hi' : Nat)
    (hagree : ∀ j ∈ Fc, j ≠ p → getN t' j = getN t j)
    (htop : C = Ctx.top → (getN t' headerIdx).right = hi')
    (hpleft : ∀ up c k v R, C = Ctx.inL up c k v R →
      getN t' p = { getN t p with left := hi' })
    (hpright : ∀ up c k v L, C = Ctx.inR up c k v L →
      getN t' p = { getN t p with right := hi' })
    (hhead : p ≠ headerIdx → (getN t' headerIdx).right = (getN t headerIdx).right) :
    CtxRep t' C hi' p Fc := by
  cases h with
  | top _ hroot =>
    exact CtxRep.top hi' (htop rfl)
  | inL up c k v R _ pp _ ri Fup Fr hup hi2 hrec hR hdisj hiU hiR =>
    have hpne : p ≠ headerIdx := by unfold headerIdx; omega
    have hrec' : getN t' p =
        { key := k, value := v, color := c, left := hi', right := ri, parent := pp } := by
      rw [hpleft up c k v R rfl, hrec]
    refine CtxRep.inL up c k v R p pp hi' ri Fup Fr ?_ hi2 hrec' ?_ hdisj hiU hiR
    · refine hup.frame_ctx (fun j hj => hagree j
        (Finset.mem_insert_of_mem (Finset.mem_union_left _ hj))
        (fun he => hiU (he ▸ hj))) (hhead hpne)
    · exact hR.frame fun j hj => hagree j
        (Finset.mem_insert_of_mem (Finset.mem_union_right _ hj))
        (fun he => hiR (he ▸ hj))
  | inR up c k v L _ pp _ li Fup Fl hup hi2 hrec hL hdisj hiU hiL =>
    have hpne : p ≠ headerIdx := by unfold headerIdx; omega
    have hrec' : getN t' p =
        { key := k, value := v, color := c, left := li, right := hi', parent := pp } := by
      rw [hpright up c k v L rfl, hrec]
    refine CtxRep.inR up c k v L p pp hi' li Fup Fl ?_ hi2 hrec' ?_ hdisj hiU hiL
    · refine hup.frame_ctx (fun j hj => hagree j
        (Finset.mem_insert_of_mem (Finset.mem_union_left _ hj))
        (fun he => hiU (he ▸ hj))) (hhead hpne)
    · exact hL.frame fun j hj => hagree j
        (Finset.mem_insert_of_mem (Finset.mem_union_right _ hj))
        (fun he => hiL (he ▸ hj))

/-- Two stores agree on every key and value field (mutations that only touch
links and colors). -/
def samePayload (t t' : RBTree) : Prop :=
  ∀ j, (getN t' j).key = (getN t j).key ∧ (getN t' j).value = (getN t j).value

/-- Two stores agree on every color field. -/
def sameColors (t t' : RBTree) : Prop :=
  ∀ j, (getN t' j).color = (getN t j).color

theorem samePayload.trans {t₁ t₂ t₃ : RBTree}
    (h1 : samePayload t₁ t₂) (h2 : samePayload t₂ t₃) : samePayload t₁ t₃ :=
  fun j => ⟨(h2 j).1.trans (h1 j).1, (h2 j).2.trans (h1 j).2⟩

theorem sameColors.trans_col {t₁ t₂ t₃ : RBTree}
    (h1 : sameColors t₁ t₂) (h2 : sameColors t₂ t₃) : sameColors t₁ t₃ :=
  fun j => (h2 j).trans (h1 j)

theorem samePayload.refl (t : RBTree) : samePayload t t := fun _ => ⟨rfl, rfl⟩

theorem sameColors.refl_col (t : RBTree) : sameColors t t := fun _ => rfl

/-- Update the child link of a record on the given side. -/
def childUpdate (pos : NodePosition) (rec : RBNode) (x : Nat) : RBNode :=
  match pos with
  | NodePosition.Left => { rec with left := x }
  | NodePosition.Right => { rec with right := x }

/-- Pointer-level effect of a successful `rotate_left` about `i` whose right
child is `r`: the five writes of the source, under pointer distinctness. -/
theorem rotate_left_surgery {t : RBTree} {i p r ai bi di : Nat}
    {k v k' v' : Int} {c c' : Color} {pos : NodePosition}
    (hrec : getN t i =
      { key := k, value := v, color := c, left := ai, right := r, parent := p })
    (hrecR : getN t r =
      { key := k', value := v', color := c', left := bi, right := di, parent := i })
    (hpos : get_parent_node_position t p i = Except.ok pos)
    (hr0 : r ≠ 0) (hir : i ≠ r) (hip : i ≠ p) (hrp : r ≠ p)
    (hbir : bi ≠ r) (hbii : bi ≠ i) (hbip : bi ≠ p) :
    ∃ t', rotate_left t i = Except.ok t' ∧
      getN t' i =
        { key := k, value := v, color := c, left := ai, right := bi, parent := r } ∧
      getN t' r =
        { key := k', value := v', color := c', left := i, right := di, parent := p } ∧
      (bi ≠ 0 → getN t' bi = { getN t bi with parent := i }) ∧
      (∀ j, j ≠ i → j ≠ r → j ≠ p → (j = bi → bi = 0) → getN t' j = getN t j) ∧
      getN t' p = childUpdate pos (getN t p) r ∧
      samePayload t t' ∧ sameColors t t' ∧
      t'.fresh = t.fresh ∧ t'.len = t.len := by
  have hnr : ¬ isNil r := hr0
  -- name the successive stores of the source's pointer surgery
  set t1 := setLeft t r i with ht1
  set t2 := setParent t1 i r with ht2
  set t3 := setRight t2 i bi with ht3
  set t4 := if isNil bi then t3 else setParent t3 bi i with ht4
  obtain ⟨t5, ht5⟩ : ∃ x, x = (match pos with
    | NodePosition.Left => setParent (setLeft t4 p r) r p
    | NodePosition.Right => setParent (setRight t4 p r) r p) := ⟨_, rfl⟩
  have hrun : rotate_left t i = Except.ok t5 := by
    unfold rotate_left
    rw [hrec]
    simp only [if_neg hnr]
    rw [hpos]
    show Except.bind (Except.ok pos) _ = _
    rw [hrecR]
    cases pos with
    | Left =>
      rw [ht5]
      rfl
    | Right =>
      rw [ht5]
      rfl
  -- slot computations
  have e1 : ∀ x, x ≠ r → getN t1 x = getN t x := by
    intro x hx
    exact getN_setN_of_ne _ _ _ _ hx
  have e1r : getN t1 r = { getN t r with left := i } := getN_setN_self _ _ _
  have e2 : ∀ x, x ≠ i → getN t2 x = getN t1 x := by
    intro x hx
    exact getN_setN_of_ne _ _ _ _ hx
  have e2i : getN t2 i = { getN t1 i with parent := r } := getN_setN_self _ _ _
  have e3 : ∀ x, x ≠ i → getN t3 x = getN t2 x := by
    intro x hx
    exact getN_setN_of_ne _ _ _ _ hx
  have e3i : getN t3 i = { getN t2 i with right := bi } := getN_setN_self _ _ _
  have e4 : ∀ x, x ≠ bi → getN t4 x = getN t3 x := by
    intro x hx
    rw [ht4]
    split
    · rfl
    · exact getN_setN_of_ne _ _ _ _ hx
  have e4bi : bi ≠ 0 → getN t4 bi = { getN t3 bi with parent := i } := by
    intro hb0
    rw [ht4]
    split
    · rename_i hnb
      exact absurd hnb hb0
    · exact getN_setN_self _ _ _
  have e4nil : bi = 0 → getN t4 bi = getN t3 bi := by
    intro hb0
    rw [ht4]
    split
    · rfl
    · rename_i hnb
      exact absurd hb0 hnb
  have e5 : ∀ x, x ≠ p → x ≠ r → getN t5 x = getN t4 x := by
    intro x hxp hxr
    cases pos with
    | Left =>
      rw [ht5]
      show getN (setParent (setLeft t4 p r) r p) x = _
      rw [getN_setParent_of_ne _ _ _ _ hxr, getN_setLeft_of_ne _ _ _ _ hxp]
    | Right =>
      rw [ht5]
      show getN (setParent (setRight t4 p r) r p) x = _
      rw [getN_setParent_of_ne _ _ _ _ hxr, getN_setRight_of_ne _ _ _ _ hxp]
  have e5r : getN t5 r = { getN t4 r with parent := p } := by
    cases pos with
    | Left =>
      rw [ht5]
      show getN (setParent (setLeft t4 p r) r p) r = _
      rw [getN_setParent_self, getN_setLeft_of_ne _ _ _ _ hrp]
    | Right =>
      rw [ht5]
      show getN (setParent (setRight t4 p r) r p) r = _
      rw [getN_setParent_self, getN_setRight_of_ne _ _ _ _ hrp]
  have e5p : getN t5 p = childUpdate pos (getN t4 p) r := by
    cases pos with
    | Left =>
      rw [ht5]
      show getN (setParent (setLeft t4 p r) r p) p = _
      rw [getN_setParent_of_ne _ _ _ _ (Ne.symm hrp), getN_setLeft_self]
      rfl
    | Right =>
      rw [ht5]
      show getN (setParent (setRight t4 p r) r p) p = _
      rw [getN_setParent_of_ne _ _ _ _ (Ne.symm hrp), getN_setRight_self]
      rfl
  refine ⟨t5, hrun, ?_, ?_, ?_, ?_, ?_, ?_, ?_, ?_, ?_⟩
  · rw [e5 i hip hir, e4 i hbii.symm, e3i, e2i, e1 i hir, hrec]
  · rw [e5r, e4 r hbir.symm, e3 r hir.symm, e2 r hir.symm, e1r, hrecR]
  · intro hb0
    rw [e5 bi hbip hbir, e4bi hb0, e3 bi hbii, e2 bi hbii, e1 bi hbir]
  · intro j hji hjr hjp hjbi
    by_cases hjb : j = bi
    · have hb0 : bi = 0 := hjbi hjb
      rw [e5 j hjp hjr]
      have h4 : getN t4 j = getN t3 j := hjb ▸ e4nil hb0
      rw [h4, e3 j hji, e2 j hji, e1 j hjr]
    · rw [e5 j hjp hjr, e4 j hjb, e3 j hji, e2 j hji, e1 j hjr]
  · rw [e5p]
    have h4p : getN t4 p = getN t p := by
      rw [e4 p hbip.symm, e3 p hip.symm, e2 p hip.symm, e1 p hrp.symm]
    rw [h4p]
  · intro j
    by_cases hji : j = i
    · subst hji
      rw [e5 j hip hir, e4 j hbii.symm, e3i, e2i, e1 j hir, hrec]
      exact ⟨rfl, rfl⟩
    by_cases hjr : j = r
    · subst hjr
      rw [e5r, e4 j hbir.symm, e3 j hji, e2 j hji, e1r, hrecR]
      exact ⟨rfl, rfl⟩
    by_cases hjp : j = p
    · subst hjp
      rw [e5p]
      have h4 : getN t4 j = getN t j := by
        rw [e4 j hbip.symm, e3 j hji, e2 j hji, e1 j hjr]
      rw [h4]
      cases pos with
      | Left => exact ⟨rfl, rfl⟩
      | Right => exact ⟨rfl, rfl⟩
    by_cases hjbi : j = bi
    · subst hjbi
      by_cases hb0 : j = 0
      · rw [e5 j hjp hjr]
        have h4 : getN t4 j = getN t3 j := e4nil hb0
        rw [h4, e3 j hji, e2 j hji, e1 j hjr]
        exact ⟨rfl, rfl⟩
      · rw [e5 j hjp hjr, e4bi hb0, e3 j hji, e2 j hji, e1 j hjr]
        exact ⟨rfl, rfl⟩
    · rw [e5 j hjp hjr, e4 j hjbi, e3 j hji, e2 j hji, e1 j hjr]
      exact ⟨rfl, rfl⟩
  · intro j
    by_cases hji : j = i
    · subst hji
      rw [e5 j hip hir, e4 j hbii.symm, e3i, e2i, e1 j hir, hrec]
    by_cases hjr : j = r
    · subst hjr
      rw [e5r, e4 j hbir.symm, e3 j hji, e2 j hji, e1r, hrecR]
    by_cases hjp : j = p
    · subst hjp
      rw [e5p]
      have h4 : getN t4 j = getN t j := by
        rw [e4 j hbip.symm, e3 j hji, e2 j hji, e1 j hjr]
      rw [h4]
      cases pos with
      | Left => rfl
      | Right => rfl
    by_cases hjbi : j = bi
    · subst hjbi
      by_cases hb0 : j = 0
      · rw [e5 j hjp hjr]
        have h4 : getN t4 j = getN t3 j := e4nil hb0
        rw [h4, e3 j hji, e2 j hji, e1 j hjr]
      · rw [e5 j hjp hjr, e4bi hb0, e3 j hji, e2 j hji, e1 j hjr]
    · rw [e5 j hjp hjr, e4 j hjbi, e3 j hji, e2 j hji, e1 j hjr]
  · have f4 : t4.fresh = t.fresh := by
      rw [ht4]
      split
      · rw [ht3, ht2, ht1]
        rfl
      · rw [ht3, ht2, ht1]
        rfl
    cases pos with
    | Left =>
      rw [ht5]
      show t4.fresh = t.fresh
      exact f4
    | Right =>
      rw [ht5]
      show t4.fresh = t.fresh
      exact f4
  · have f4 : t4.len = t.len := by
      rw [ht4]
      split
      · rw [ht3, ht2, ht1]
        rfl
      · rw [ht3, ht2, ht1]
        rfl
    cases pos with
    | Left =>
      rw [ht5]
      show t4.len = t.len
      exact f4
    | Right =>
      rw [ht5]
      show t4.len = t.len
      exact f4

/-- Pointer-level effect of a successful `rotate_right` about `i` whose left
child is `l`: mirror image of `rotate_left_surgery`. -/
theorem rotate_right_surgery {t : RBTree} {i p l bi ci di : Nat}
    {k v k' v' : Int} {c c' : Color} {pos : NodePosition}
    (hrec : getN t i =
      { key := k, value := v, color := c, left := l, right := di, parent := p })
    (hrecL : getN t l =
      { key := k', value := v', color := c', left := bi, right := ci, parent := i })
    (hpos : get_parent_node_position t p i = Except.ok pos)
    (hl0 : l ≠ 0) (hil : i ≠ l) (hip : i ≠ p) (hlp : l ≠ p)
    (hcil : ci ≠ l) (hcii : ci ≠ i) (hcip : ci ≠ p) :
    ∃ t', rotate_right t i = Except.ok t' ∧
      getN t' i =
        { key := k, value := v, color := c, left := ci, right := di, parent := l } ∧
      getN t' l =
        { key := k', value := v', color := c', left := bi, right := i, parent := p } ∧
      (ci ≠ 0 → getN t' ci = { getN t ci with parent := i }) ∧
      (∀ j, j ≠ i → j ≠ l → j ≠ p → (j = ci → ci = 0) → getN t' j = getN t j) ∧
      getN t' p = childUpdate pos (getN t p) l ∧
      samePayload t t' ∧ sameColors t t' ∧
      t'.fresh = t.fresh ∧ t'.len = t.len := by
  have hnl : ¬ isNil l := hl0
  set t1 := setRight t l i with ht1
  set t2 := setParent t1 i l with ht2
  set t3 := setLeft t2 i ci with ht3
  set t4 := if isNil ci then t3 else setParent t3 ci i with ht4
  obtain ⟨t5, ht5⟩ : ∃ x, x = (match pos with
    | NodePosition.Left => setParent (setLeft t4 p l) l p
    | NodePosition.Right => setParent (setRight t4 p l) l p) := ⟨_, rfl⟩
  have hrun : rotate_right t i = Except.ok t5 := by
    unfold rotate_right
    rw [hrec]
    simp only [if_neg hnl]
    rw [hpos]
    show Except.bind (Except.ok pos) _ = _
    rw [hrecL]
    cases pos with
    | Left =>
      rw [ht5]
      rfl
    | Right =>
      rw [ht5]
      rfl
  have e1 : ∀ x, x ≠ l → getN t1 x = getN t x := by
    intro x hx
    exact getN_setN_of_ne _ _ _ _ hx
  have e1l : getN t1 l = { getN t l with right := i } := getN_setN_self _ _ _
  have e2 : ∀ x, x ≠ i → getN t2 x = getN t1 x := by
    intro x hx
    exact getN_setN_of_ne _ _ _ _ hx
  have e2i : getN t2 i = { getN t1 i with parent := l } := getN_setN_self _ _ _
  have e3 : ∀ x, x ≠ i → getN t3 x = getN t2 x := by
    intro x hx
    exact getN_setN_of_ne _ _ _ _ hx
  have e3i : getN t3 i = { getN t2 i with left := ci } := getN_setN_self _ _ _
  have e4 : ∀ x, x ≠ ci → getN t4 x = getN t3 x := by
    intro x hx
    rw [ht4]
    split
    · rfl
    · exact getN_setN_of_ne _ _ _ _ hx
  have e4ci : ci ≠ 0 → getN t4 ci = { getN t3 ci with parent := i } := by
    intro hc0
    rw [ht4]
    split
    · rename_i hnb
      exact absurd hnb hc0
    · exact getN_setN_self _ _ _
  have e4nil : ci = 0 → getN t4 ci = getN t3 ci := by
    intro hc0
    rw [ht4]
    split
    · rfl
    · rename_i hnb
      exact absurd hc0 hnb
  have e5 : ∀ x, x ≠ p → x ≠ l → getN t5 x = getN t4 x := by
    intro x hxp hxl
    cases pos with
    | Left =>
      rw [ht5]
      show getN (setParent (setLeft t4 p l) l p) x = _
      rw [getN_setParent_of_ne _ _ _ _ hxl, getN_setLeft_of_ne _ _ _ _ hxp]
    | Right =>
      rw [ht5]
      show getN (setParent (setRight t4 p l) l p) x = _
      rw [getN_setParent_of_ne _ _ _ _ hxl, getN_setRight_of_ne _ _ _ _ hxp]
  have e5l : getN t5 l = { getN t4 l with parent := p } := by
    cases pos with
    | Left =>
      rw [ht5]
      show getN (setParent (setLeft t4 p l) l p) l = _
      rw [getN_setParent_self, getN_setLeft_of_ne _ _ _ _ hlp]
    | Right =>
      rw [ht5]
      show getN (setParent (setRight t4 p l) l p) l = _
      rw [getN_setParent_self, getN_setRight_of_ne _ _ _ _ hlp]
  have e5p : getN t5 p = childUpdate pos (getN t4 p) l := by
    cases pos with
    | Left =>
      rw [ht5]
      show getN (setParent (setLeft t4 p l) l p) p = _
      rw [getN_setParent_of_ne _ _ _ _ (Ne.symm hlp), getN_setLeft_self]
      rfl
    | Right =>
      rw [ht5]
      show getN (setParent (setRight t4 p l) l p) p = _
      rw [getN_setParent_of_ne _ _ _ _ (Ne.symm hlp), getN_setRight_self]
      rfl
  refine ⟨t5, hrun, ?_, ?_, ?_, ?_, ?_, ?_, ?_, ?_, ?_⟩
  · rw [e5 i hip hil, e4 i hcii.symm, e3i, e2i, e1 i hil, hrec]
  · rw [e5l, e4 l hcil.symm, e3 l hil.symm, e2 l hil.symm, e1l, hrecL]
  · intro hc0
    rw [e5 ci hcip hcil, e4ci hc0, e3 ci hcii, e2 ci hcii, e1 ci hcil]
  · intro j hji hjl hjp hjci
    by_cases hjc : j = ci
    · have hc0 : ci = 0 := hjci hjc
      rw [e5 j hjp hjl]
      have h4 : getN t4 j = getN t3 j := hjc ▸ e4nil hc0
      rw [h4, e3 j hji, e2 j hji, e1 j hjl]
    · rw [e5 j hjp hjl, e4 j hjc, e3 j hji, e2 j hji, e1 j hjl]
  · rw [e5p]
    have h4p : getN t4 p = getN t p := by
      rw [e4 p hcip.symm, e3 p hip.symm, e2 p hip.symm, e1 p hlp.symm]
    rw [h4p]
  · intro j
    by_cases hji : j = i
    · subst hji
      rw [e5 j hip hil, e4 j hcii.symm, e3i, e2i, e1 j hil, hrec]
      exact ⟨rfl, rfl⟩
    by_cases hjl : j = l
    · subst hjl
      rw [e5l, e4 j hcil.symm, e3 j hji, e2 j hji, e1l, hrecL]
      exact ⟨rfl, rfl⟩
    by_cases hjp : j = p
    · subst hjp
      rw [e5p]
      have h4 : getN t4 j = getN t j := by
        rw [e4 j hcip.symm, e3 j hji, e2 j hji, e1 j hjl]
      rw [h4]
      cases pos with
      | Left => exact ⟨rfl, rfl⟩
      | Right => exact ⟨rfl, rfl⟩
    by_cases hjci : j = ci
    · subst hjci
      by_cases hc0 : j = 0
      · rw [e5 j hjp hjl]
        have h4 : getN t4 j = getN t3 j := e4nil hc0
        rw [h4, e3 j hji, e2 j hji, e1 j hjl]
        exact ⟨rfl, rfl⟩
      · rw [e5 j hjp hjl, e4ci hc0, e3 j hji, e2 j hji, e1 j hjl]
        exact ⟨rfl, rfl⟩
    · rw [e5 j hjp hjl, e4 j hjci, e3 j hji, e2 j hji, e1 j hjl]
      exact ⟨rfl, rfl⟩
  · intro j
    by_cases hji : j = i
    · subst hji
      rw [e5 j hip hil, e4 j hcii.symm, e3i, e2i, e1 j hil, hrec]
    by_cases hjl : j = l
    · subst hjl
      rw [e5l, e4 j hcil.symm, e3 j hji, e2 j hji, e1l, hrecL]
    by_cases hjp : j = p
    · subst hjp
      rw [e5p]
      have h4 : getN t4 j = getN t j := by
        rw [e4 j hcip.symm, e3 j hji, e2 j hji, e1 j hjl]
      rw [h4]
      cases pos with
      | Left => rfl
      | Right => rfl
    by_cases hjci : j = ci
    · subst hjci
      by_cases hc0 : j = 0
      · rw [e5 j hjp hjl]
        have h4 : getN t4 j = getN t3 j := e4nil hc0
        rw [h4, e3 j hji, e2 j hji, e1 j hjl]
      · rw [e5 j hjp hjl, e4ci hc0, e3 j hji, e2 j hji, e1 j hjl]
    · rw [e5 j hjp hjl, e4 j hjci, e3 j hji, e2 j hji, e1 j hjl]
  · have f4 : t4.fresh = t.fresh := by
      rw [ht4]
      split
      · rw [ht3, ht2, ht1]
        rfl
      · rw [ht3, ht2, ht1]
        rfl
    cases pos with
    | Left =>
      rw [ht5]
      show t4.fresh = t.fresh
      exact f4
    | Right =>
      rw [ht5]
      show t4.fresh = t.fresh
      exact f4
  · have f4 : t4.len = t.len := by
      rw [ht4]
      split
      · rw [ht3, ht2, ht1]
        rfl
      · rw [ht3, ht2, ht1]
        rfl
    cases pos with
    | Left =>
      rw [ht5]
      show t4.len = t.len
      exact f4
    | Right =>
      rw [ht5]
      show t4.len = t.len
      exact f4

/-- A represented subtree's pointer is either the nil sentinel or a footprint
member. -/
theorem IsRep.ptr_zero_or_mem {t : RBTree} {i p : Nat} {T : ATree} {F : Finset Nat}
    (h : IsRep t i p T F) : i = 0 ∨ i ∈ F := by
  cases h with
  | nil => exact Or.inl rfl
  | node => exact Or.inr (Finset.mem_insert_self _ _)

/-- A context's hole-parent is the header (for the empty context) or a
footprint member. -/
theorem CtxRep.parent_cases {t : RBTree} {C : Ctx} {hi p : Nat} {Fc : Finset Nat}
    (h : CtxRep t C hi p Fc) :
    (C = Ctx.top ∧ p = headerIdx) ∨ (2 ≤ p ∧ p ∈ Fc) := by
  cases h with
  | top => exact Or.inl ⟨rfl, rfl⟩
  | inL _ _ _ _ _ _ _ _ _ _ _ _ hi2 => exact Or.inr ⟨hi2, Finset.mem_insert_self _ _⟩
  | inR _ _ _ _ _ _ _ _ _ _ _ _ hi2 => exact Or.inr ⟨hi2, Finset.mem_insert_self _ _⟩

/-- Position lookup of a represented context's hole: `Right` under the
header, otherwise the side recorded by the context, never a fault. -/
theorem ctx_position {t : RBTree} {C : Ctx} {hi p : Nat} {Fc : Finset Nat}
    (h : CtxRep t C hi p Fc) (hhi2 : 2 ≤ hi) (hhiF : hi ∉ Fc) :
    ∃ pos, get_parent_node_position t p hi = Except.ok pos ∧
      (C = Ctx.top → pos = NodePosition.Right ∧ p = headerIdx) ∧
      (∀ up c k v R, C = Ctx.inL up c k v R → pos = NodePosition.Left) ∧
      (∀ up c k v L, C = Ctx.inR up c k v L → pos = NodePosition.Right) := by
  cases h with
  | top _ hroot =>
    refine ⟨NodePosition.Right, ?_, fun _ => ⟨rfl, rfl⟩, ?_, ?_⟩
    · unfold get_parent_node_position
      rw [if_pos (show isHeader headerIdx from rfl)]
    · intro up c k v R he
      cases he
    · intro up c k v L he
      cases he
  | inL up c k v R _ pp _ ri Fup Fr hup hi2 hrec hR hdisj hiU hiR =>
    refine ⟨NodePosition.Left, ?_, ?_, fun _ _ _ _ _ _ => rfl, ?_⟩
    · unfold get_parent_node_position
      have hph : ¬ isHeader p := by
        unfold isHeader headerIdx
        omega
      rw [if_neg hph]
      rw [hrec]
      show (if hi = hi then Except.ok NodePosition.Left
        else if ri = hi then Except.ok NodePosition.Right
        else Except.error (Fault.abort "parent does not point to the child")) = _
      rw [if_pos rfl]
    · intro he
      cases he
    · intro up' c' k' v' L' he
      cases he
  | inR up c k v L _ pp _ li Fup Fl hup hi2 hrec hL hdisj hiU hiL =>
    refine ⟨NodePosition.Right, ?_, ?_, ?_, fun _ _ _ _ _ _ => rfl⟩
    · unfold get_parent_node_position
      have hph : ¬ isHeader p := by
        unfold isHeader headerIdx
        omega
      rw [if_neg hph]
      rw [hrec]
      have hline : ¬ li = hi := by
        rcases hL.ptr_zero_or_mem with h0 | hm
        · omega
        · intro he
          exact hhiF (he ▸ Finset.mem_insert_of_mem (Finset.mem_union_right _ hm))
      show (if li = hi then _ else if hi = hi then _ else _) = _
      rw [if_neg hline, if_pos rfl]
    · intro he
      cases he
    · intro up' c' k' v' R' he
      cases he

/-- Transport a representation along an equality of footprints. -/
theorem IsRep.cast {t : RBTree} {i p : Nat} {T : ATree} {F F' : Finset Nat}
    (h : IsRep t i p T F) (he : F = F') : IsRep t i p T F' := he ▸ h

/-- A represented non-empty subtree sits at a non-sentinel pointer. -/
theorem IsRep.ne_nil_ptr {t : RBTree} {i p : Nat} {T : ATree} {F : Finset Nat}
    (h : IsRep t i p T F) (hne : T ≠ ATree.nil) : 2 ≤ i := by
  cases h with
  | nil => exact absurd rfl hne
  | node _ _ _ _ _ _ _ _ _ _ _ hi2 => exact hi2

/-- Representation-level effect of `rotate_left` at a node with a non-empty
right subtree, inside a represented context: the classic local re-bracketing,
with the same footprint, payloads, colors and sentinels. -/
theorem rotate_left_ctx {t : RBTree} {C : Ctx} {i p : Nat} {Fc Fs : Finset Nat}
    {c c' : Color} {A B D : ATree} {k v k' v' : Int}
    (hC : CtxRep t C i p Fc)
    (hS : IsRep t i p (ATree.node c A k v (ATree.node c' B k' v' D)) Fs)
    (hdisj : Disjoint Fc Fs) (hsent : SentinelInv t) :
    ∃ t' r, rotate_left t i = Except.ok t' ∧
      CtxRep t' C r p Fc ∧
      IsRep t' r p (ATree.node c' (ATree.node c A k v B) k' v' D) Fs ∧
      samePayload t t' ∧ sameColors t t' ∧ SentinelInv t' ∧
      t'.fresh = t.fresh ∧ t'.len = t.len ∧ r = (getN t i).right ∧
      (getN t' r).left = i ∧ (getN t' i).left = (getN t i).left := by
  cases hS with
  | node _ _ _ _ _ _ _ ai r Fa Frr hi2 hrec hA hRR hdisjS hiA hiR =>
    cases hRR with
    | node _ _ _ _ _ _ _ bi di Fb Fd hr2 hrecR hB hD hdisjR hrB hrD =>
      have hr0 : r ≠ 0 := by omega
      have hiFs : i ∈ insert i (Fa ∪ insert r (Fb ∪ Fd)) := Finset.mem_insert_self _ _
      have hrFs : r ∈ insert i (Fa ∪ insert r (Fb ∪ Fd)) :=
        Finset.mem_insert_of_mem
          (Finset.mem_union_right _ (Finset.mem_insert_self _ _))
      have hiFc : i ∉ Fc := fun hm => Finset.disjoint_left.mp hdisj hm hiFs
      have hrFc : r ∉ Fc := fun hm => Finset.disjoint_left.mp hdisj hm hrFs
      have hir : i ≠ r := fun he => hiR (he ▸ Finset.mem_insert_self _ _)
      have hiFb : i ∉ Fb := fun hm =>
        hiR (Finset.mem_insert_of_mem (Finset.mem_union_left _ hm))
      have hiFd : i ∉ Fd := fun hm =>
        hiR (Finset.mem_insert_of_mem (Finset.mem_union_right _ hm))
      have hrFa : r ∉ Fa := fun hm =>
        Finset.disjoint_left.mp hdisjS hm (Finset.mem_insert_self _ _)
      have hFaFb : Disjoint Fa Fb := by
        refine Finset.disjoint_left.mpr fun a ha hm => ?_
        exact Finset.disjoint_left.mp hdisjS ha
          (Finset.mem_insert_of_mem (Finset.mem_union_left _ hm))
      have hFaFd : Disjoint Fa Fd := by
        refine Finset.disjoint_left.mpr fun a ha hm => ?_
        exact Finset.disjoint_left.mp hdisjS ha
          (Finset.mem_insert_of_mem (Finset.mem_union_right _ hm))
      have hpcases := hC.parent_cases
      have hip : i ≠ p := by
        rcases hpcases with ⟨_, hp1⟩ | ⟨_, hpFc⟩
        · unfold headerIdx at hp1
          omega
        · exact fun he => hiFc (he ▸ hpFc)
      have hrp : r ≠ p := by
        rcases hpcases with ⟨_, hp1⟩ | ⟨_, hpFc⟩
        · unfold headerIdx at hp1
          omega
        · exact fun he => hrFc (he ▸ hpFc)
      have hbicases := hB.ptr_zero_or_mem
      have hbiFs : bi ∈ Fb → bi ∈ insert i (Fa ∪ insert r (Fb ∪ Fd)) := fun hm =>
        Finset.mem_insert_of_mem (Finset.mem_union_right _
          (Finset.mem_insert_of_mem (Finset.mem_union_left _ hm)))
      have hbir : bi ≠ r := by
        rcases hbicases with h0 | hm
        · omega
        · exact fun he => hrB (he ▸ hm)
      have hbii : bi ≠ i := by
        rcases hbicases with h0 | hm
        · omega
        · exact fun he => hiFb (he ▸ hm)
      have hbip : bi ≠ p := by
        rcases hbicases with h0 | hm
        · rcases hpcases with ⟨_, hp1⟩ | ⟨hp2, _⟩
          · unfold headerIdx at hp1
            omega
          · omega
        · rcases hpcases with ⟨_, hp1⟩ | ⟨_, hpFc⟩
          · have := hB.mem_ge_two bi hm
            unfold headerIdx at hp1
            omega
          · exact fun he => Finset.disjoint_left.mp hdisj (he ▸ hpFc) (hbiFs hm)
      obtain ⟨pos, hpos, htopc, hinlc, hinrc⟩ := ctx_position hC hi2 hiFc
      obtain ⟨t5, hrun, ei, er, ebi, eothers, ep, hpay, hcol, hfree, hlen⟩ :=
        rotate_left_surgery hrec hrecR hpos hr0 hir hip hrp hbir hbii hbip
      -- clause discharge helpers for `eothers`
      have hclause : ∀ j, j ∈ Fa ∨ j ∈ Fd ∨ j ∈ Fc → (j = bi → bi = 0) := by
        intro j hj he
        rcases hbicases with h0 | hm
        · exact h0
        · exfalso
          subst he
          rcases hj with hj | hj | hj
          · exact Finset.disjoint_left.mp hFaFb hj hm
          · exact Finset.disjoint_left.mp hdisjR hm hj
          · exact Finset.disjoint_left.mp hdisj hj (hbiFs hm)
      have hnp : ∀ j, 2 ≤ j → j ≠ p ∨ p = headerIdx ∨ (p ∈ Fc) := by
        intro j hj2
        rcases hpcases with ⟨_, hp1⟩ | ⟨_, hpFc⟩
        · exact Or.inr (Or.inl hp1)
        · exact Or.inr (Or.inr hpFc)
      have hA' : IsRep t5 ai i A Fa := by
        refine hA.frame fun j hj => ?_
        refine eothers j (fun he => hiA (he ▸ hj)) (fun he => hrFa (he ▸ hj)) ?_
          (hclause j (Or.inl hj))
        rcases hpcases with ⟨_, hp1⟩ | ⟨_, hpFc⟩
        · have := hA.mem_ge_two j hj
          unfold headerIdx at hp1
          omega
        · exact fun he => Finset.disjoint_left.mp hdisj (he ▸ hpFc)
            (Finset.mem_insert_of_mem (Finset.mem_union_left _ hj))
      have hB' : IsRep t5 bi i B Fb := by
        refine hB.reparent i ?_ ?_
        · intro hne
          have hbi2 : 2 ≤ bi := hB.ne_nil_ptr hne
          exact ebi (by omega)
        · intro j hj hjbi
          refine eothers j (fun he => hiFb (he ▸ hj)) (fun he => hrB (he ▸ hj)) ?_
            (fun he => absurd he hjbi)
          rcases hpcases with ⟨_, hp1⟩ | ⟨_, hpFc⟩
          · have := hB.mem_ge_two j hj
            unfold headerIdx at hp1
            omega
          · exact fun he => Finset.disjoint_left.mp hdisj (he ▸ hpFc)
              (Finset.mem_insert_of_mem (Finset.mem_union_right _
                (Finset.mem_insert_of_mem (Finset.mem_union_left _ hj))))
      have hD' : IsRep t5 di r D Fd := by
        refine hD.frame fun j hj => ?_
        refine eothers j (fun he => hiFd (he ▸ hj)) (fun he => hrD (he ▸ hj)) ?_
          (hclause j (Or.inr (Or.inl hj)))
        rcases hpcases with ⟨_, hp1⟩ | ⟨_, hpFc⟩
        · have := hD.mem_ge_two j hj
          unfold headerIdx at hp1
          omega
        · exact fun he => Finset.disjoint_left.mp hdisj (he ▸ hpFc)
            (Finset.mem_insert_of_mem (Finset.mem_union_right _
              (Finset.mem_insert_of_mem (Finset.mem_union_right _ hj))))
      have hinner : IsRep t5 i r (ATree.node c A k v B) (insert i (Fa ∪ Fb)) :=
        IsRep.node i r c A B k v ai bi Fa Fb hi2 ei hA' hB' hFaFb hiA hiFb
      have houter : IsRep t5 r p (ATree.node c' (ATree.node c A k v B) k' v' D)
          (insert r (insert i (Fa ∪ Fb) ∪ Fd)) := by
        refine IsRep.node r p c' (ATree.node c A k v B) D k' v' i di
          (insert i (Fa ∪ Fb)) Fd hr2 er hinner hD' ?_ ?_ hrD
        · refine Finset.disjoint_left.mpr fun a ha hm => ?_
          rcases Finset.mem_insert.mp ha with ha | ha
          · exact hiFd (ha ▸ hm)
          · rcases Finset.mem_union.mp ha with ha | ha
            · exact Finset.disjoint_left.mp hFaFd ha hm
            · exact Finset.disjoint_left.mp hdisjR ha hm
        · intro hm
          rcases Finset.mem_insert.mp hm with hm | hm
          · exact hir hm.symm
          · rcases Finset.mem_union.mp hm with hm | hm
            · exact hrFa hm
            · exact hrB hm
      have hseteq : insert r (insert i (Fa ∪ Fb) ∪ Fd) =
          insert i (Fa ∪ insert r (Fb ∪ Fd)) := by
        rw [Finset.insert_union, Finset.union_insert, Finset.union_assoc,
          Finset.Insert.comm]
      have h1i : (1 : Nat) ≠ i := by omega
      have h1r : (1 : Nat) ≠ r := by omega
      have h1bi : (1 : Nat) = bi → bi = 0 := by
        rcases hbicases with h0 | hm
        · exact fun _ => h0
        · have := hB.mem_ge_two bi hm
          omega
      have h0i : (0 : Nat) ≠ i := by omega
      have h0r : (0 : Nat) ≠ r := by omega
      have h0p : (0 : Nat) ≠ p := by
        rcases hpcases with ⟨_, hp1⟩ | ⟨hp2, _⟩
        · unfold headerIdx at hp1
          omega
        · omega
      have hC' : CtxRep t5 C r p Fc := by
        refine hC.retarget r ?_ ?_ ?_ ?_ ?_
        · intro j hj hjp
          refine eothers j (fun he => hiFc (he ▸ hj)) (fun he => hrFc (he ▸ hj)) hjp
            (hclause j (Or.inr (Or.inr hj)))
        · intro hCtop
          obtain ⟨hposR, hp1⟩ := htopc hCtop
          rw [hposR] at ep
          rw [hp1] at ep
          rw [ep]
          rfl
        · intro up c0 k0 v0 R0 he
          have hposL := hinlc up c0 k0 v0 R0 he
          rw [hposL] at ep
          rw [ep]
          rfl
        · intro up c0 k0 v0 L0 he
          have hposR := hinrc up c0 k0 v0 L0 he
          rw [hposR] at ep
          rw [ep]
          rfl
        · intro hpne
          have h := eothers 1 h1i h1r (fun he => hpne he.symm) h1bi
          show (getN t5 1).right = (getN t 1).right
          rw [h]
      have hsent' : SentinelInv t5 := by
        have hnilslot : getN t5 0 = getN t 0 :=
          eothers 0 h0i h0r h0p (fun he => he.symm)
        have hheadslot : ∀ hp1 : p = headerIdx, getN t5 1 = { getN t 1 with right := r } := by
          intro hp1
          rcases hpcases with ⟨hCtop, _⟩ | ⟨hp2, _⟩
          · obtain ⟨hposR, _⟩ := htopc hCtop
            rw [hposR] at ep
            rw [hp1] at ep
            exact ep
          · unfold headerIdx at hp1
            omega
        constructor
        · show (getN t5 0).left = nilIdx
          rw [hnilslot]
          exact hsent.nil_left
        · show (getN t5 0).right = nilIdx
          rw [hnilslot]
          exact hsent.nil_right
        · show (getN t5 0).parent = nilIdx
          rw [hnilslot]
          exact hsent.nil_parent
        · show (getN t5 1).left = nilIdx
          by_cases hp1 : p = headerIdx
          · rw [show getN t5 1 = { getN t 1 with right := r } from hheadslot hp1]
            exact hsent.header_left
          · rw [eothers 1 h1i h1r (fun he => hp1 he.symm) h1bi]
            exact hsent.header_left
        · show (getN t5 1).parent = nilIdx
          by_cases hp1 : p = headerIdx
          · rw [show getN t5 1 = { getN t 1 with right := r } from hheadslot hp1]
            exact hsent.header_parent
          · rw [eothers 1 h1i h1r (fun he => hp1 he.symm) h1bi]
            exact hsent.header_parent
      exact ⟨t5, r, hrun, hC', houter.cast hseteq, hpay, hcol, hsent', hfree, hlen,
        by rw [hrec], by rw [er], by rw [ei, hrec]⟩

/-- Representation-level effect of `rotate_right` at a node with a non-empty
left subtree, inside a represented context: mirror of `rotate_left_ctx`. -/
theorem rotate_right_ctx {t : RBTree} {C : Ctx} {i p : Nat} {Fc Fs : Finset Nat}
    {c c' : Color} {A B D : ATree} {k v k' v' : Int}
    (hC : CtxRep t C i p Fc)
    (hS : IsRep t i p (ATree.node c (ATree.node c' B k' v' D) k v A) Fs)
    (hdisj : Disjoint Fc Fs) (hsent : SentinelInv t) :
    ∃ t' l, rotate_right t i = Except.ok t' ∧
      CtxRep t' C l p Fc ∧
      IsRep t' l p (ATree.node c' B k' v' (ATree.node c D k v A)) Fs ∧
      samePayload t t' ∧ sameColors t t' ∧ SentinelInv t' ∧
      t'.fresh = t.fresh ∧ t'.len = t.len ∧ l = (getN t i).left ∧
      (getN t' l).right = i ∧ (getN t' i).right = (getN t i).right := by
  cases hS with
  | node _ _ _ _ _ _ _ l ad Fll Fa hi2 hrec hLL hA hdisjS hiL hiA =>
    cases hLL with
    | node _ _ _ _ _ _ _ bi ci Fb Fd hl2 hrecL hB hD hdisjL hlB hlD =>
      have hl0 : l ≠ 0 := by omega
      have hiFs : i ∈ insert i (insert l (Fb ∪ Fd) ∪ Fa) := Finset.mem_insert_self _ _
      have hlFs : l ∈ insert i (insert l (Fb ∪ Fd) ∪ Fa) :=
        Finset.mem_insert_of_mem
          (Finset.mem_union_left _ (Finset.mem_insert_self _ _))
      have hiFc : i ∉ Fc := fun hm => Finset.disjoint_left.mp hdisj hm hiFs
      have hlFc : l ∉ Fc := fun hm => Finset.disjoint_left.mp hdisj hm hlFs
      have hil : i ≠ l := fun he => hiL (he ▸ Finset.mem_insert_self _ _)
      have hiFb : i ∉ Fb := fun hm =>
        hiL (Finset.mem_insert_of_mem (Finset.mem_union_left _ hm))
      have hiFd : i ∉ Fd := fun hm =>
        hiL (Finset.mem_insert_of_mem (Finset.mem_union_right _ hm))
      have hlFa : l ∉ Fa := fun hm =>
        Finset.disjoint_left.mp hdisjS.symm hm (Finset.mem_insert_self _ _)
      have hFaFb : Disjoint Fa Fb := by
        refine Finset.disjoint_left.mpr fun a ha hm => ?_
        exact Finset.disjoint_left.mp hdisjS
          (Finset.mem_insert_of_mem (Finset.mem_union_left _ hm)) ha
      have hFaFd : Disjoint Fa Fd := by
        refine Finset.disjoint_left.mpr fun a ha hm => ?_
        exact Finset.disjoint_left.mp hdisjS
          (Finset.mem_insert_of_mem (Finset.mem_union_right _ hm)) ha
      have hpcases := hC.parent_cases
      have hip : i ≠ p := by
        rcases hpcases with ⟨_, hp1⟩ | ⟨_, hpFc⟩
        · unfold headerIdx at hp1
          omega
        · exact fun he => hiFc (he ▸ hpFc)
      have hlp : l ≠ p := by
        rcases hpcases with ⟨_, hp1⟩ | ⟨_, hpFc⟩
        · unfold headerIdx at hp1
          omega
        · exact fun he => hlFc (he ▸ hpFc)
      have hcicases := hD.ptr_zero_or_mem
      have hciFs : ci ∈ Fd → ci ∈ insert i (insert l (Fb ∪ Fd) ∪ Fa) := fun hm =>
        Finset.mem_insert_of_mem (Finset.mem_union_left _
          (Finset.mem_insert_of_mem (Finset.mem_union_right _ hm)))
      have hcil : ci ≠ l := by
        rcases hcicases with h0 | hm
        · omega
        · exact fun he => hlD (he ▸ hm)
      have hcii : ci ≠ i := by
        rcases hcicases with h0 | hm
        · omega
        · exact fun he => hiFd (he ▸ hm)
      have hcip : ci ≠ p := by
        rcases hcicases with h0 | hm
        · rcases hpcases with ⟨_, hp1⟩ | ⟨hp2, _⟩
          · unfold headerIdx at hp1
            omega
          · omega
        · rcases hpcases with ⟨_, hp1⟩ | ⟨_, hpFc⟩
          · have := hD.mem_ge_two ci hm
            unfold headerIdx at hp1
            omega
          · exact fun he => Finset.disjoint_left.mp hdisj (he ▸ hpFc) (hciFs hm)
      obtain ⟨pos, hpos, htopc, hinlc, hinrc⟩ := ctx_position hC hi2 hiFc
      obtain ⟨t5, hrun, ei, el, eci, eothers, ep, hpay, hcol, hfree, hlen⟩ :=
        rotate_right_surgery hrec hrecL hpos hl0 hil hip hlp hcil hcii hcip
      have hclause : ∀ j, j ∈ Fa ∨ j ∈ Fb ∨ j ∈ Fc → (j = ci → ci = 0) := by
        intro j hj he
        rcases hcicases with h0 | hm
        · exact h0
        · exfalso
          subst he
          rcases hj with hj | hj | hj
          · exact Finset.disjoint_left.mp hFaFd hj hm
          · exact Finset.disjoint_left.mp hdisjL hj hm
          · exact Finset.disjoint_left.mp hdisj hj (hciFs hm)
      have hA' : IsRep t5 ad i A Fa := by
        refine hA.frame fun j hj => ?_
        refine eothers j (fun he => hiA (he ▸ hj)) (fun he => hlFa (he ▸ hj)) ?_
          (hclause j (Or.inl hj))
        rcases hpcases with ⟨_, hp1⟩ | ⟨_, hpFc⟩
        · have := hA.mem_ge_two j hj
          unfold headerIdx at hp1
          omega
        · exact fun he => Finset.disjoint_left.mp hdisj (he ▸ hpFc)
            (Finset.mem_insert_of_mem (Finset.mem_union_right _ hj))
      have hD' : IsRep t5 ci i D Fd := by
        refine hD.reparent i ?_ ?_
        · intro hne
          have hci2 : 2 ≤ ci := hD.ne_nil_ptr hne
          exact eci (by omega)
        · intro j hj hjci
          refine eothers j (fun he => hiFd (he ▸ hj)) (fun he => hlD (he ▸ hj)) ?_
            (fun he => absurd he hjci)
          rcases hpcases with ⟨_, hp1⟩ | ⟨_, hpFc⟩
          · have := hD.mem_ge_two j hj
            unfold headerIdx at hp1
            omega
          · exact fun he => Finset.disjoint_left.mp hdisj (he ▸ hpFc)
              (Finset.mem_insert_of_mem (Finset.mem_union_left _
                (Finset.mem_insert_of_mem (Finset.mem_union_right _ hj))))
      have hB' : IsRep t5 bi l B Fb := by
        refine hB.frame fun j hj => ?_
        refine eothers j (fun he => hiFb (he ▸ hj)) (fun he => hlB (he ▸ hj)) ?_
          (hclause j (Or.inr (Or.inl hj)))
        rcases hpcases with ⟨_, hp1⟩ | ⟨_, hpFc⟩
        · have := hB.mem_ge_two j hj
          unfold headerIdx at hp1
          omega
        · exact fun he => Finset.disjoint_left.mp hdisj (he ▸ hpFc)
            (Finset.mem_insert_of_mem (Finset.mem_union_left _
              (Finset.mem_insert_of_mem (Finset.mem_union_left _ hj))))
      have hFdFa : Disjoint Fd Fa := hFaFd.symm
      have hinner : IsRep t5 i l (ATree.node c D k v A) (insert i (Fd ∪ Fa)) :=
        IsRep.node i l c D A k v ci ad Fd Fa hi2 ei hD' hA' hFdFa hiFd hiA
      have houter : IsRep t5 l p (ATree.node c' B k' v' (ATree.node c D k v A))
          (insert l (Fb ∪ insert i (Fd ∪ Fa))) := by
        refine IsRep.node l p c' B (ATree.node c D k v A) k' v' bi i
          Fb (insert i (Fd ∪ Fa)) hl2 el hB' hinner ?_ hlB ?_
        · refine Finset.disjoint_left.mpr fun a ha hm => ?_
          rcases Finset.mem_insert.mp hm with hm | hm
          · exact hiFb (hm ▸ ha)
          · rcases Finset.mem_union.mp hm with hm | hm
            · exact Finset.disjoint_left.mp hdisjL ha hm
            · exact Finset.disjoint_left.mp hFaFb hm ha
        · intro hm
          rcases Finset.mem_insert.mp hm with hm | hm
          · exact hil hm.symm
          · rcases Finset.mem_union.mp hm with hm | hm
            · exact hlD hm
            · exact hlFa hm
      have hseteq : insert l (Fb ∪ insert i (Fd ∪ Fa)) =
          insert i (insert l (Fb ∪ Fd) ∪ Fa) := by
        rw [Finset.union_insert, Finset.insert_union, Finset.union_assoc,
          Finset.Insert.comm]
      have h1i : (1 : Nat) ≠ i := by omega
      have h1l : (1 : Nat) ≠ l := by omega
      have h1ci : (1 : Nat) = ci → ci = 0 := by
        rcases hcicases with h0 | hm
        · exact fun _ => h0
        · have := hD.mem_ge_two ci hm
          omega
      have h0i : (0 : Nat) ≠ i := by omega
      have h0l : (0 : Nat) ≠ l := by omega
      have h0p : (0 : Nat) ≠ p := by
        rcases hpcases with ⟨_, hp1⟩ | ⟨hp2, _⟩
        · unfold headerIdx at hp1
          omega
        · omega
      have hC' : CtxRep t5 C l p Fc := by
        refine hC.retarget l ?_ ?_ ?_ ?_ ?_
        · intro j hj hjp
          refine eothers j (fun he => hiFc (he ▸ hj)) (fun he => hlFc (he ▸ hj)) hjp
            (hclause j (Or.inr (Or.inr hj)))
        · intro hCtop
          obtain ⟨hposR, hp1⟩ := htopc hCtop
          rw [hposR] at ep
          rw [hp1] at ep
          rw [ep]
          rfl
        · intro up c0 k0 v0 R0 he
          have hposL := hinlc up c0 k0 v0 R0 he
          rw [hposL] at ep
          rw [ep]
          rfl
        · intro up c0 k0 v0 L0 he
          have hposR := hinrc up c0 k0 v0 L0 he
          rw [hposR] at ep
          rw [ep]
          rfl
        · intro hpne
          have h := eothers 1 h1i h1l (fun he => hpne he.symm) h1ci
          show (getN t5 1).right = (getN t 1).right
          rw [h]
      have hsent' : SentinelInv t5 := by
        have hnilslot : getN t5 0 = getN t 0 :=
          eothers 0 h0i h0l h0p (fun he => he.symm)
        have hheadslot : ∀ hp1 : p = headerIdx, getN t5 1 = { getN t 1 with right := l } := by
          intro hp1
          rcases hpcases with ⟨hCtop, _⟩ | ⟨hp2, _⟩
          · obtain ⟨hposR, _⟩ := htopc hCtop
            rw [hposR] at ep
            rw [hp1] at ep
            exact ep
          · unfold headerIdx at hp1
            omega
        constructor
        · show (getN t5 0).left = nilIdx
          rw [hnilslot]
          exact hsent.nil_left
        · show (getN t5 0).right = nilIdx
          rw [hnilslot]
          exact hsent.nil_right
        · show (getN t5 0).parent = nilIdx
          rw [hnilslot]
          exact hsent.nil_parent
        · show (getN t5 1).left = nilIdx
          by_cases hp1 : p = headerIdx
          · rw [show getN t5 1 = { getN t 1 with right := l } from hheadslot hp1]
            exact hsent.header_left
          · rw [eothers 1 h1i h1l (fun he => hp1 he.symm) h1ci]
            exact hsent.header_left
        · show (getN t5 1).parent = nilIdx
          by_cases hp1 : p = headerIdx
          · rw [show getN t5 1 = { getN t 1 with right := l } from hheadslot hp1]
            exact hsent.header_parent
          · rw [eothers 1 h1i h1l (fun he => hp1 he.symm) h1ci]
            exact hsent.header_parent
      exact ⟨t5, l, hrun, hC', houter.cast hseteq, hpay, hcol, hsent', hfree, hlen,
        by rw [hrec], by rw [el], by rw [ei, hrec]⟩

/-- Whole-tree preservation by a successful `rotate_left` at a tree node:
some algebraic tree with the identical in-order entry sequence is
represented afterwards, on the same footprint. -/
theorem rotate_left_pres {t t' : RBTree} {T : ATree} {F : Finset Nat} {i : Nat}
    (h : TreeRep t T F) (hiF : i ∈ F)
    (hok : rotate_left t i = Except.ok t') :
    ∃ T', TreeRep t' T' F ∧ T'.inorder = T.inorder ∧
      samePayload t t' ∧ sameColors t t' ∧ t'.fresh = t.fresh ∧ t'.len = t.len := by
  obtain ⟨C, S, Fc, Fs, hC, hS, hplug, hF, hdisj, hdepth, c, L, k, v, R, hnode⟩ :=
    h.decompose i hiF
  subst hnode
  cases R with
  | nil =>
    exfalso
    cases hS with
    | node _ _ _ _ _ _ _ li ri Fl Fr hi2 hrec hL hR hdisjS hiL hiR =>
      cases hR
      have : rotate_left t i =
          Except.error (Fault.abort "node without right child cannot rotate left") := by
        unfold rotate_left
        rw [hrec]
        rfl
      rw [this] at hok
      cases hok
  | node c' B kk vv D =>
    obtain ⟨t5, r, hrun, hC', hS', hpay, hcol, hsent', hfree, hlen, _⟩ :=
      rotate_left_ctx hC hS hdisj h.sentinel
    have ht5 : t5 = t' := by
      rw [hok] at hrun
      exact ((Except.ok.injEq _ _).mp hrun).symm
    subst ht5
    refine ⟨C.plug (ATree.node c' (ATree.node c L k v B) kk vv D), ⟨hsent', ?_⟩, ?_,
      hpay, hcol, hfree, hlen⟩
    · rw [← hF]
      exact hC'.plug_rep hS' hdisj
    · rw [← hplug, plug_inorder, plug_inorder]
      simp [ATree.inorder]

/-- Whole-tree preservation by a successful `rotate_right` at a tree node. -/
theorem rotate_right_pres {t t' : RBTree} {T : ATree} {F : Finset Nat} {i : Nat}
    (h : TreeRep t T F) (hiF : i ∈ F)
    (hok : rotate_right t i = Except.ok t') :
    ∃ T', TreeRep t' T' F ∧ T'.inorder = T.inorder ∧
      samePayload t t' ∧ sameColors t t' ∧ t'.fresh = t.fresh ∧ t'.len = t.len := by
  obtain ⟨C, S, Fc, Fs, hC, hS, hplug, hF, hdisj, hdepth, c, L, k, v, R, hnode⟩ :=
    h.decompose i hiF
  subst hnode
  cases L with
  | nil =>
    exfalso
    cases hS with
    | node _ _ _ _ _ _ _ li ri Fl Fr hi2 hrec hL hR hdisjS hiL hiR =>
      cases hL
      have : rotate_right t i =
          Except.error (Fault.abort "node without left child cannot rotate right") := by
        unfold rotate_right
        rw [hrec]
        rfl
      rw [this] at hok
      cases hok
  | node c' B kk vv D =>
    obtain ⟨t5, l, hrun, hC', hS', hpay, hcol, hsent', hfree, hlen, _⟩ :=
      rotate_right_ctx hC hS hdisj h.sentinel
    have ht5 : t5 = t' := by
      rw [hok] at hrun
      exact ((Except.ok.injEq _ _).mp hrun).symm
    subst ht5
    refine ⟨C.plug (ATree.node c' B kk vv (ATree.node c D k v R)), ⟨hsent', ?_⟩, ?_,
      hpay, hcol, hfree, hlen⟩
    · rw [← hF]
      exact hC'.plug_rep hS' hdisj
    · rw [← hplug, plug_inorder, plug_inorder]
      simp [ATree.inorder]

/-- Recoloring a tree node preserves the representation, the in-order entry
sequence, payloads, sentinels and counters. -/
theorem setColor_pres {t : RBTree} {T : ATree} {F : Finset Nat} {i : Nat}
    (h : TreeRep t T F) (hiF : i ∈ F) (c0 : Color) :
    ∃ T', TreeRep (setColor t i c0) T' F ∧ T'.inorder = T.inorder ∧
      samePayload t (setColor t i c0) ∧
      (setColor t i c0).fresh = t.fresh ∧ (setColor t i c0).len = t.len := by
  obtain ⟨C, S, Fc, Fs, hC, hS, hplug, hF, hdisj, hdepth, c, L, k, v, R, hnode⟩ :=
    h.decompose i hiF
  subst hnode
  cases hS with
  | node _ _ _ _ _ _ _ li ri Fl Fr hi2 hrec hL hR hdisjS hiL hiR =>
    have hiFc : i ∉ Fc :=
      fun hm => Finset.disjoint_left.mp hdisj hm (Finset.mem_insert_self _ _)
    have h1i : (1 : Nat) ≠ i := by omega
    have h0i : (0 : Nat) ≠ i := by omega
    have hS' : IsRep (setColor t i c0) i (getN t i).parent
        (ATree.node c0 L k v R) (insert i (Fl ∪ Fr)) := by
      refine IsRep.node i _ c0 L R k v li ri Fl Fr hi2 ?_ ?_ ?_ hdisjS hiL hiR
      · rw [getN_setColor_self, hrec]
      · refine hL.frame fun j hj => getN_setColor_of_ne _ _ _ _ (fun he => hiL (he ▸ hj))
      · refine hR.frame fun j hj => getN_setColor_of_ne _ _ _ _ (fun he => hiR (he ▸ hj))
    have hC' : CtxRep (setColor t i c0) C i (getN t i).parent Fc := by
      refine hC.frame_ctx (fun j hj => getN_setColor_of_ne _ _ _ _ (fun he => hiFc (he ▸ hj))) ?_
      show (getN (setColor t i c0) 1).right = (getN t 1).right
      rw [getN_setColor_of_ne _ _ _ _ h1i]
    have hsent' : SentinelInv (setColor t i c0) := by
      constructor
      · show (getN (setColor t i c0) 0).left = nilIdx
        rw [getN_setColor_of_ne _ _ _ _ h0i]
        exact h.sentinel.nil_left
      · show (getN (setColor t i c0) 0).right = nilIdx
        rw [getN_setColor_of_ne _ _ _ _ h0i]
        exact h.sentinel.nil_right
      · show (getN (setColor t i c0) 0).parent = nilIdx
        rw [getN_setColor_of_ne _ _ _ _ h0i]
        exact h.sentinel.nil_parent
      · show (getN (setColor t i c0) 1).left = nilIdx
        rw [getN_setColor_of_ne _ _ _ _ h1i]
        exact h.sentinel.header_left
      · show (getN (setColor t i c0) 1).parent = nilIdx
        rw [getN_setColor_of_ne _ _ _ _ h1i]
        exact h.sentinel.header_parent
    refine ⟨C.plug (ATree.node c0 L k v R), ⟨hsent', ?_⟩, ?_, ?_, rfl, rfl⟩
    · rw [← hF]
      exact hC'.plug_rep hS' hdisj
    · rw [← hplug, plug_inorder, plug_inorder]
      simp [ATree.inorder]
    · intro j
      by_cases hj : j = i
      · subst hj
        rw [getN_setColor_self]
        exact ⟨rfl, rfl⟩
      · rw [getN_setColor_of_ne _ _ _ _ hj]
        exact ⟨rfl, rfl⟩

/-- Recoloring the nil sentinel (whose slot no representation reads beyond
its links, which a recolor keeps) preserves the whole representation. -/
theorem setColor_nil_pres {t : RBTree} {T : ATree} {F : Finset Nat}
    (h : TreeRep t T F) (c0 : Color) :
    TreeRep (setColor t nilIdx c0) T F ∧ samePayload t (setColor t nilIdx c0) ∧
      (setColor t nilIdx c0).fresh = t.fresh ∧ (setColor t nilIdx c0).len = t.len := by
  have h0 : ∀ j, j ∈ F → getN (setColor t nilIdx c0) j = getN t j := by
    intro j hj
    have h2 := h.root.mem_ge_two j hj
    refine getN_setColor_of_ne _ _ _ _ ?_
    unfold nilIdx
    omega
  have h1 : getN (setColor t nilIdx c0) 1 = getN t 1 :=
    getN_setColor_of_ne _ _ _ _ (by unfold nilIdx; omega)
  have h00 : (getN (setColor t nilIdx c0) 0).left = (getN t 0).left ∧
      (getN (setColor t nilIdx c0) 0).right = (getN t 0).right ∧
      (getN (setColor t nilIdx c0) 0).parent = (getN t 0).parent := by
    rw [show getN (setColor t nilIdx c0) 0 = { getN t 0 with color := c0 } from
      getN_setColor_self _ _ _]
    exact ⟨rfl, rfl, rfl⟩
  refine ⟨⟨⟨?_, ?_, ?_, ?_, ?_⟩, ?_⟩, ?_, rfl, rfl⟩
  · show (getN (setColor t nilIdx c0) 0).left = nilIdx
    rw [h00.1]
    exact h.sentinel.nil_left
  · show (getN (setColor t nilIdx c0) 0).right = nilIdx
    rw [h00.2.1]
    exact h.sentinel.nil_right
  · show (getN (setColor t nilIdx c0) 0).parent = nilIdx
    rw [h00.2.2]
    exact h.sentinel.nil_parent
  · show (getN (setColor t nilIdx c0) 1).left = nilIdx
    rw [h1]
    exact h.sentinel.header_left
  · show (getN (setColor t nilIdx c0) 1).parent = nilIdx
    rw [h1]
    exact h.sentinel.header_parent
  · show IsRep (setColor t nilIdx c0) (getN (setColor t nilIdx c0) headerIdx).right
      headerIdx T F
    rw [show (headerIdx : Nat) = 1 from rfl, h1]
    exact h.root.frame h0
  · intro j
    by_cases hj : j = nilIdx
    · subst hj
      rw [getN_setColor_self]
      exact ⟨rfl, rfl⟩
    · rw [getN_setColor_of_ne _ _ _ _ hj]
      exact ⟨rfl, rfl⟩

/-! ### Plumbing for reasoning about the fixup control flow -/

theorem bind_ok_inv {α β : Type} {x : Except Fault α} {f : α → Except Fault β} {b : β}
    (h : x >>= f = Except.ok b) : ∃ a, x = Except.ok a ∧ f a = Except.ok b := by
  cases x with
  | error e =>
    exfalso
    have he : (Except.error e : Except Fault α) >>= f = Except.error e := rfl
    rw [he] at h
    cases h
  | ok a =>
    refine ⟨a, rfl, ?_⟩
    have he : (Except.ok a : Except Fault α) >>= f = f a := rfl
    rwa [he] at h

theorem ok_bind {α β : Type} (a : α) (f : α → Except Fault β) :
    (Except.ok a : Except Fault α) >>= f = f a := rfl

/-- Successful position lookup: under the header it is `Right`; otherwise the
parent does link to the child on the reported side. -/
theorem get_parent_node_position_ok {t : RBTree} {p x : Nat} {pos : NodePosition}
    (h : get_parent_node_position t p x = Except.ok pos) :
    (p = headerIdx ∧ pos = NodePosition.Right) ∨
      (p ≠ headerIdx ∧
        ((pos = NodePosition.Left ∧ (getN t p).left = x) ∨
          (pos = NodePosition.Right ∧ (getN t p).right = x))) := by
  unfold get_parent_node_position at h
  by_cases hph : isHeader p
  · rw [if_pos hph] at h
    cases h
    exact Or.inl ⟨hph, rfl⟩
  · rw [if_neg hph] at h
    refine Or.inr ⟨hph, ?_⟩
    by_cases hl : (getN t p).left = x
    · rw [if_pos hl] at h
      cases h
      exact Or.inl ⟨rfl, hl⟩
    · rw [if_neg hl] at h
      by_cases hr : (getN t p).right = x
      · rw [if_pos hr] at h
        cases h
        exact Or.inr ⟨rfl, hr⟩
      · rw [if_neg hr] at h
        cases h

/-- The footprint of a whole-tree representation is closed under taking
children (children are members or nil). -/
theorem TreeRep.child_mem {t : RBTree} {T : ATree} {F : Finset Nat}
    (h : TreeRep t T F) {i : Nat} (hi : i ∈ F) :
    ((getN t i).left ∈ F ∨ (getN t i).left = 0) ∧
      ((getN t i).right ∈ F ∨ (getN t i).right = 0) := by
  obtain ⟨C, S, Fc, Fs, hC, hS, hplug, hF, hdisj, hdepth, c, L, k, v, R, hnode⟩ :=
    h.decompose i hi
  subst hnode
  cases hS with
  | node _ _ _ _ _ _ _ li ri Fl Fr hi2 hrec hL hR hdisjS hiL hiR =>
    constructor
    · rw [hrec]
      rcases hL.ptr_zero_or_mem with h0 | hm
      · exact Or.inr h0
      · refine Or.inl ?_
        rw [← hF]
        exact Finset.mem_union_right _
          (Finset.mem_insert_of_mem (Finset.mem_union_left _ hm))
    · rw [hrec]
      rcases hR.ptr_zero_or_mem with h0 | hm
      · exact Or.inr h0
      · refine Or.inl ?_
        rw [← hF]
        exact Finset.mem_union_right _
          (Finset.mem_insert_of_mem (Finset.mem_union_right _ hm))

/-- Children of a member-or-nil pointer are members or nil (the nil
sentinel's links point to itself). -/
theorem TreeRep.child_mem0 {t : RBTree} {T : ATree} {F : Finset Nat}
    (h : TreeRep t T F) {i : Nat} (hi : i ∈ F ∨ i = 0) :
    ((getN t i).left ∈ F ∨ (getN t i).left = 0) ∧
      ((getN t i).right ∈ F ∨ (getN t i).right = 0) := by
  rcases hi with hi | hi
  · exact h.child_mem hi
  · subst hi
    constructor
    · exact Or.inr h.sentinel.nil_left
    · exact Or.inr h.sentinel.nil_right

/-- The parent link of a tree node points to the header or to another tree
node. -/
theorem TreeRep.parent_mem {t : RBTree} {T : ATree} {F : Finset Nat}
    (h : TreeRep t T F) {i : Nat} (hi : i ∈ F) :
    (getN t i).parent ∈ F ∨ (getN t i).parent = headerIdx := by
  obtain ⟨C, S, Fc, Fs, hC, hS, hplug, hF, hdisj, hdepth, c, L, k, v, R, hnode⟩ :=
    h.decompose i hi
  rcases hC.parent_cases with ⟨_, hp⟩ | ⟨_, hpF⟩
  · exact Or.inr hp
  · refine Or.inl ?_
    rw [← hF]
    exact Finset.mem_union_left _ hpF

/-- A successful sibling lookup yields a tree node or nil. -/
theorem sibling_of_nil_ok_mem {t : RBTree} {T : ATree} {F : Finset Nat}
    (h : TreeRep t T F) {p x s : Nat} (hp : p ∈ F)
    (hok : sibling_of_nil t p x = Except.ok s) : s ∈ F ∨ s = 0 := by
  unfold sibling_of_nil at hok
  have hph : ¬ isHeader p := by
    have := h.root.mem_ge_two p hp
    unfold isHeader headerIdx
    omega
  rw [if_neg hph] at hok
  obtain ⟨pos, hpos, hres⟩ := bind_ok_inv hok
  cases pos with
  | Left =>
    have hs : s = (getN t p).right := by
      cases hres
      rfl
    rw [hs]
    exact (h.child_mem hp).2
  | Right =>
    have hs : s = (getN t p).left := by
      cases hres
      rfl
    rw [hs]
    exact (h.child_mem hp).1

/-- Recoloring a tree node or the nil sentinel preserves the representation
up to the in-order sequence. -/
theorem setColor_any_pres {t : RBTree} {T : ATree} {F : Finset Nat} {i : Nat}
    (h : TreeRep t T F) (hi : i ∈ F ∨ i = nilIdx) (c0 : Color) :
    ∃ T', TreeRep (setColor t i c0) T' F ∧ T'.inorder = T.inorder ∧
      samePayload t (setColor t i c0) ∧
      (setColor t i c0).fresh = t.fresh ∧ (setColor t i c0).len = t.len := by
  rcases hi with hi | hi
  · exact setColor_pres h hi c0
  · subst hi
    obtain ⟨h1, h2, h3, h4⟩ := setColor_nil_pres h c0
    exact ⟨T, h1, rfl, h2, h3, h4⟩

/-- Structural preservation: the second state again represents a tree with
the identical in-order entry sequence, on the same footprint, with all
payload fields and both counters untouched. -/
def StructPres (t t' : RBTree) (T : ATree) (F : Finset Nat) : Prop :=
  ∃ T', TreeRep t' T' F ∧ T'.inorder = T.inorder ∧ samePayload t t' ∧
    t'.fresh = t.fresh ∧ t'.len = t.len

theorem StructPres.trans' {t1 t2 t3 : RBTree} {T1 T2 : ATree} {F : Finset Nat}
    (h12 : TreeRep t2 T2 F) (hio : T2.inorder = T1.inorder)
    (hpay : samePayload t1 t2) (hf : t2.fresh = t1.fresh) (hl : t2.len = t1.len)
    (h23 : StructPres t2 t3 T2 F) : StructPres t1 t3 T1 F := by
  obtain ⟨T3, r3, io3, pay3, f3, l3⟩ := h23
  exact ⟨T3, r3, io3.trans hio, hpay.trans pay3, f3.trans hf, l3.trans hl⟩

theorem setColor_sp {t : RBTree} {T : ATree} {F : Finset Nat} {i : Nat}
    (h : TreeRep t T F) (hi : i ∈ F ∨ i = nilIdx) (c0 : Color) :
    StructPres t (setColor t i c0) T F := by
  obtain ⟨T', h1, h2, h3, h4, h5⟩ := setColor_any_pres h hi c0
  exact ⟨T', h1, h2, h3, h4, h5⟩

theorem rotate_left_sp {t t' : RBTree} {T : ATree} {F : Finset Nat} {i : Nat}
    (h : TreeRep t T F) (hi : i ∈ F) (hok : rotate_left t i = Except.ok t') :
    StructPres t t' T F := by
  obtain ⟨T', h1, h2, h3, _, h5, h6⟩ := rotate_left_pres h hi hok
  exact ⟨T', h1, h2, h3, h5, h6⟩

theorem rotate_right_sp {t t' : RBTree} {T : ATree} {F : Finset Nat} {i : Nat}
    (h : TreeRep t T F) (hi : i ∈ F) (hok : rotate_right t i = Except.ok t') :
    StructPres t t' T F := by
  obtain ⟨T', h1, h2, h3, _, h5, h6⟩ := rotate_right_pres h hi hok
  exact ⟨T', h1, h2, h3, h5, h6⟩

/-- A rotation about the nil sentinel always faults (its links are self
links). -/
theorem rotate_left_nil {t : RBTree} (h : SentinelInv t) :
    rotate_left t nilIdx =
      Except.error (Fault.abort "node without right child cannot rotate left") := by
  unfold rotate_left
  rw [show (getN t nilIdx).right = nilIdx from h.nil_right]
  rfl

theorem rotate_right_nil {t : RBTree} (h : SentinelInv t) :
    rotate_right t nilIdx =
      Except.error (Fault.abort "node without left child cannot rotate right") := by
  unfold rotate_right
  rw [show (getN t nilIdx).left = nilIdx from h.nil_left]
  rfl

theorem bind_ok_iff {α β : Type} {x : Except Fault α} {f : α → Except Fault β} {b : β} :
    (x >>= f = Except.ok b) ↔ ∃ a, x = Except.ok a ∧ f a = Except.ok b := by
  constructor
  · exact bind_ok_inv
  · rintro ⟨a, ha, hfa⟩
    rw [ha, ok_bind]
    exact hfa

theorem mem0_to_nil {F : Finset Nat} {i : Nat} (h : i ∈ F ∨ i = 0) :
    i ∈ F ∨ i = nilIdx := h

/-- Structural preservation of a successful `remove_fixup_far_red_nephew`:
one rotation at the parent plus four recolorings. -/
theorem remove_fixup_far_red_nephew_pres {t t' : RBTree} {T : ATree} {F : Finset Nat}
    {par sib db fn : Nat}
    (h : TreeRep t T F) (hpar : par ∈ F) (hsib : sib ∈ F ∨ sib = nilIdx)
    (hdb : db ∈ F ∨ db = nilIdx) (hfn : fn ∈ F ∨ fn = nilIdx)
    (hok : remove_fixup_far_red_nephew t par sib db fn = Except.ok t') :
    StructPres t t' T F := by
  unfold remove_fixup_far_red_nephew at hok
  obtain ⟨pos, hpos, hok⟩ := bind_ok_inv hok
  have step : ∃ t2, StructPres t t2 T F ∧ t' =
      setColor (setColor (setColor (setColor t2 sib (getN t2 par).color)
        par (getN t2 sib).color) db Color.Black) fn Color.Black := by
    cases pos with
    | Left =>
      obtain ⟨t2, hrot, hok2⟩ := bind_ok_inv hok
      refine ⟨t2, rotate_right_sp h hpar hrot, ?_⟩
      cases hok2
      rfl
    | Right =>
      obtain ⟨t2, hrot, hok2⟩ := bind_ok_inv hok
      refine ⟨t2, rotate_left_sp h hpar hrot, ?_⟩
      cases hok2
      rfl
  obtain ⟨t2, sp1, hokt'⟩ := step
  obtain ⟨T2, r2, io2, pay2, f2, l2⟩ := sp1
  refine StructPres.trans' r2 io2 pay2 f2 l2 ?_
  subst hokt'
  obtain ⟨T3, r3, io3, pay3, f3, l3⟩ := setColor_sp r2 hsib (getN t2 par).color
  refine StructPres.trans' r3 io3 pay3 f3 l3 ?_
  obtain ⟨T4, r4, io4, pay4, f4, l4⟩ := setColor_sp r3 (Or.inl hpar) (getN t2 sib).color
  refine StructPres.trans' r4 io4 pay4 f4 l4 ?_
  obtain ⟨T5, r5, io5, pay5, f5, l5⟩ := setColor_sp r4 hdb Color.Black
  refine StructPres.trans' r5 io5 pay5 f5 l5 ?_
  obtain ⟨T6, r6, io6, pay6, f6, l6⟩ := setColor_sp r5 hfn Color.Black
  exact ⟨T6, r6, io6, pay6, f6, l6⟩

/-- A store write that keeps the slot's key and value preserves all payloads. -/
theorem samePayload_setN {t : RBTree} {i : Nat} {n : RBNode}
    (hk : n.key = (getN t i).key) (hv : n.value = (getN t i).value) :
    samePayload t (setN t i n) := by
  intro j
  by_cases hj : j = i
  · subst hj
    rw [getN_setN_self]
    exact ⟨hk, hv⟩
  · rw [getN_setN_of_ne _ _ _ _ hj]
    exact ⟨rfl, rfl⟩

/-- A store write that keeps the slot's color preserves all colors. -/
theorem sameColors_setN {t : RBTree} {i : Nat} {n : RBNode}
    (hc : n.color = (getN t i).color) : sameColors t (setN t i n) := by
  intro j
  by_cases hj : j = i
  · subst hj
    rw [getN_setN_self]
    exact hc
  · rw [getN_setN_of_ne _ _ _ _ hj]

theorem samePayload_setLeft (t : RBTree) (i l : Nat) : samePayload t (setLeft t i l) :=
  samePayload_setN rfl rfl

theorem samePayload_setRight (t : RBTree) (i r : Nat) : samePayload t (setRight t i r) :=
  samePayload_setN rfl rfl

theorem samePayload_setParent (t : RBTree) (i p : Nat) : samePayload t (setParent t i p) :=
  samePayload_setN rfl rfl

theorem sameColors_setLeft (t : RBTree) (i l : Nat) : sameColors t (setLeft t i l) :=
  sameColors_setN rfl

theorem sameColors_setRight (t : RBTree) (i r : Nat) : sameColors t (setRight t i r) :=
  sameColors_setN rfl

theorem sameColors_setParent (t : RBTree) (i p : Nat) : sameColors t (setParent t i p) :=
  sameColors_setN rfl

/-- Converse ordering lemma: a tree whose in-order key sequence is strictly
ascending is BST-ordered. -/
theorem bst_of_sorted_keys : ∀ {T : ATree}, T.keys.Sorted (· < ·) → T.BST := by
  intro T
  induction T with
  | nil => intro _; trivial
  | node c l k v r ihl ihr =>
    intro h
    rw [keys_node] at h
    obtain ⟨hl, hkr, hcross⟩ := List.pairwise_append.mp h
    obtain ⟨hk, hr⟩ := List.pairwise_cons.mp hkr
    refine ⟨ihl hl, ihr hr, ?_, ?_⟩
    · intro e he
      exact hcross e.1 (mem_keys_iff.mpr ⟨e, he, rfl⟩) k (List.mem_cons_self _ _)
    · intro e he
      exact hk e.1 (mem_keys_iff.mpr ⟨e, he, rfl⟩)

/-- A strictly ascending key sequence has no duplicate keys. -/
theorem nodup_of_sorted {l : List Int} (h : l.Sorted (· < ·)) : l.Nodup :=
  h.imp ne_of_lt

/-- In a list with pairwise distinct keys, the split around an entry holding a
given key is unique. -/
theorem split_unique :
    ∀ {p1 : List (Int × Int)} {l s1 p2 s2 : List (Int × Int)} {e1 e2 : Int × Int},
      (l.map Prod.fst).Nodup → l = p1 ++ e1 :: s1 → l = p2 ++ e2 :: s2 → e1.1 = e2.1 →
      p1 = p2 ∧ e1 = e2 ∧ s1 = s2 := by
  intro p1
  induction p1 with
  | nil =>
    intro l s1 p2 s2 e1 e2 hnd h1 h2 hk
    subst h1
    cases p2 with
    | nil =>
      injection h2 with he hs
      exact ⟨rfl, he, hs⟩
    | cons b p2' =>
      exfalso
      injection h2 with he hs
      have hnd1 : e1.1 ∉ (s1.map Prod.fst) := by
        have : ((e1 :: s1).map Prod.fst).Nodup := hnd
        exact (List.nodup_cons.mp this).1
      apply hnd1
      rw [hk, hs]
      exact List.mem_map.mpr ⟨e2, List.mem_append_right _ (List.mem_cons_self _ _), rfl⟩
  | cons a p1' ih =>
    intro l s1 p2 s2 e1 e2 hnd h1 h2 hk
    subst h1
    cases p2 with
    | nil =>
      exfalso
      injection h2 with he hs
      have hnd1 : e2.1 ∉ ((p1' ++ e1 :: s1).map Prod.fst) := by
        have h0 : ((a :: (p1' ++ e1 :: s1)).map Prod.fst).Nodup := hnd
        have := (List.nodup_cons.mp h0).1
        rw [he] at this
        exact this
      apply hnd1
      rw [← hk]
      exact List.mem_map.mpr ⟨e1, List.mem_append_right _ (List.mem_cons_self _ _), rfl⟩
    | cons b p2' =>
      injection h2 with hab htail
      have hnd' : ((p1' ++ e1 :: s1).map Prod.fst).Nodup := by
        have h0 : ((a :: (p1' ++ e1 :: s1)).map Prod.fst).Nodup := hnd
        exact (List.nodup_cons.mp h0).2
      obtain ⟨hp, he, hs⟩ := ih hnd' rfl htail hk
      exact ⟨by rw [hab, hp], he, hs⟩

/-- The nil pointer only represents the empty tree. -/
theorem IsRep.eq_nil_of_zero {t : RBTree} {p : Nat} {T : ATree} {F : Finset Nat}
    (h : IsRep t nilIdx p T F) : T = ATree.nil ∧ F = ∅ := by
  cases h with
  | nil => exact ⟨rfl, rfl⟩
  | node _ _ _ _ _ _ _ _ _ _ _ hi2 =>
    exfalso
    unfold nilIdx at hi2
    omega

/-- Children of a footprint member stay in the footprint with the member
removed (a node is never its own child), or are nil. -/
theorem TreeRep.child_mem_erase {t : RBTree} {T : ATree} {F : Finset Nat}
    (h : TreeRep t T F) {i : Nat} (hi : i ∈ F) :
    ((getN t i).left ∈ F.erase i ∨ (getN t i).left = 0) ∧
      ((getN t i).right ∈ F.erase i ∨ (getN t i).right = 0) := by
  obtain ⟨C, S, Fc, Fs, hC, hS, hplug, hF, hdisj, hdepth, c, L, k, v, R, hnode⟩ :=
    h.decompose i hi
  subst hnode
  cases hS with
  | node _ _ _ _ _ _ _ li ri Fl Fr hi2 hrec hL hR hdisjS hiL hiR =>
    constructor
    · rcases hL.ptr_zero_or_mem with hz | hm
      · rw [hrec]; exact Or.inr hz
      · rw [hrec]
        refine Or.inl (Finset.mem_erase.mpr ⟨fun he => hiL (he ▸ hm), ?_⟩)
        rw [← hF]
        exact Finset.mem_union_right _ (Finset.mem_insert_of_mem (Finset.mem_union_left _ hm))
    · rcases hR.ptr_zero_or_mem with hz | hm
      · rw [hrec]; exact Or.inr hz
      · rw [hrec]
        refine Or.inl (Finset.mem_erase.mpr ⟨fun he => hiR (he ▸ hm), ?_⟩)
        rw [← hF]
        exact Finset.mem_union_right _ (Finset.mem_insert_of_mem (Finset.mem_union_right _ hm))

/-- The parent of a footprint member is a different footprint member or the
header. -/
theorem TreeRep.parent_mem_erase {t : RBTree} {T : ATree} {F : Finset Nat}
    (h : TreeRep t T F) {i : Nat} (hi : i ∈ F) :
    (getN t i).parent ∈ F.erase i ∨ (getN t i).parent = headerIdx := by
  obtain ⟨C, S, Fc, Fs, hC, hS, hplug, hF, hdisj, hdepth, c, L, k, v, R, hnode⟩ :=
    h.decompose i hi
  subst hnode
  rcases hC.parent_cases with ⟨_, hp⟩ | ⟨_, hpF⟩
  · exact Or.inr hp
  · refine Or.inl (Finset.mem_erase.mpr ⟨?_, ?_⟩)
    · intro he
      exact Finset.disjoint_left.mp hdisj (he ▸ hpF) hS.root_mem
    · rw [← hF]
      exact Finset.mem_union_left _ hpF

/-- The BST property restricts from a plugged tree to the plugged subtree. -/
theorem bst_of_plug : ∀ (C : Ctx) (S : ATree), (C.plug S).BST → S.BST := by
  intro C
  induction C with
  | top => exact fun S h => h
  | inL up c k v R ih =>
    intro S h
    exact (ih _ h).1
  | inR up c k v L ih =>
    intro S h
    exact (ih _ h).2.1

theorem CtxRep.top_inv {t : RBTree} {hi p : Nat} {Fc : Finset Nat}
    (h : CtxRep t Ctx.top hi p Fc) :
    p = headerIdx ∧ Fc = ∅ ∧ (getN t headerIdx).right = hi := by
  cases h with
  | top _ hroot => exact ⟨rfl, rfl, hroot⟩

theorem CtxRep.inL_inv {t : RBTree} {up : Ctx} {c : Color} {k v : Int} {R : ATree}
    {hi p : Nat} {Fc : Finset Nat} (h : CtxRep t (Ctx.inL up c k v R) hi p Fc) :
    ∃ pp ri Fup Fr, CtxRep t up p pp Fup ∧ 2 ≤ p ∧
      getN t p = { key := k, value := v, color := c, left := hi, right := ri, parent := pp } ∧
      IsRep t ri p R Fr ∧ Disjoint Fup Fr ∧ p ∉ Fup ∧ p ∉ Fr ∧
      Fc = insert p (Fup ∪ Fr) := by
  cases h with
  | inL _ _ _ _ _ _ pp _ ri Fup Fr hup hi2 hrec hR hdisj hiU hiR =>
    exact ⟨pp, ri, Fup, Fr, hup, hi2, hrec, hR, hdisj, hiU, hiR, rfl⟩

theorem CtxRep.inR_inv {t : RBTree} {up : Ctx} {c : Color} {k v : Int} {L : ATree}
    {hi p : Nat} {Fc : Finset Nat} (h : CtxRep t (Ctx.inR up c k v L) hi p Fc) :
    ∃ pp li Fup Fl, CtxRep t up p pp Fup ∧ 2 ≤ p ∧
      getN t p = { key := k, value := v, color := c, left := li, right := hi, parent := pp } ∧
      IsRep t li p L Fl ∧ Disjoint Fup Fl ∧ p ∉ Fup ∧ p ∉ Fl ∧
      Fc = insert p (Fup ∪ Fl) := by
  cases h with
  | inR _ _ _ _ _ _ pp _ li Fup Fl hup hi2 hrec hL hdisj hiU hiL =>
    exact ⟨pp, li, Fup, Fl, hup, hi2, hrec, hL, hdisj, hiU, hiL, rfl⟩

/-- Erasing the hole's own index from a footprint of the form
context ∪ (hole subtree). -/
theorem erase_union_insert {Fc G : Finset Nat} {i : Nat}
    (hiFc : i ∉ Fc) (hiG : i ∉ G) : (Fc ∪ insert i G).erase i = Fc ∪ G := by
  ext a
  by_cases ha : a = i
  · subst ha
    simp [hiFc, hiG]
  · simp [Finset.mem_erase, ha]

/-- A write to a non-sentinel slot keeps the sentinel links intact. -/
theorem SentinelInv.write_ge2 {t : RBTree} {j : Nat} {n : RBNode}
    (h : SentinelInv t) (hj : 2 ≤ j) : SentinelInv (setN t j n) := by
  have h0 : nilIdx ≠ j := by unfold nilIdx; omega
  have h1 : headerIdx ≠ j := by unfold headerIdx; omega
  exact ⟨by rw [getN_setN_of_ne _ _ _ _ h0]; exact h.nil_left,
    by rw [getN_setN_of_ne _ _ _ _ h0]; exact h.nil_right,
    by rw [getN_setN_of_ne _ _ _ _ h0]; exact h.nil_parent,
    by rw [getN_setN_of_ne _ _ _ _ h1]; exact h.header_left,
    by rw [getN_setN_of_ne _ _ _ _ h1]; exact h.header_parent⟩

/-- Rewriting the header's right link keeps the sentinel links intact (the
header's right child is not constrained). -/
theorem SentinelInv.setRight_header {t : RBTree} {ch : Nat}
    (h : SentinelInv t) : SentinelInv (setRight t headerIdx ch) := by
  have h0 : nilIdx ≠ headerIdx := by unfold nilIdx headerIdx; omega
  refine ⟨?_, ?_, ?_, ?_, ?_⟩
  · rw [getN_setRight_of_ne _ _ _ _ h0]; exact h.nil_left
  · rw [getN_setRight_of_ne _ _ _ _ h0]; exact h.nil_right
  · rw [getN_setRight_of_ne _ _ _ _ h0]; exact h.nil_parent
  · rw [getN_setRight_self]; exact h.header_left
  · rw [getN_setRight_self]; exact h.header_parent

/-- Joint structural preservation for the mutually recursive removal fixup: a
successful run only rotates and recolors inside the footprint (plus possibly
the nil sentinel's color), so it preserves the represented in-order entry
sequence, every payload field, and both counters. -/
theorem remove_fixup_pres_all : ∀ fuel : Nat,
    (∀ (t t' : RBTree) (T : ATree) (F : Finset Nat) (db par : Nat),
      TreeRep t T F → (db ∈ F ∨ db = nilIdx) → (par ∈ F ∨ par = headerIdx) →
      remove_fixup t db par fuel = Except.ok t' → StructPres t t' T F) ∧
    (∀ (t t' : RBTree) (T : ATree) (F : Finset Nat) (db par : Nat),
      TreeRep t T F → (db ∈ F ∨ db = nilIdx) → par ∈ F →
      remove_fixup_black_sibling t db par fuel = Except.ok t' → StructPres t t' T F) := by
  intro fuel
  induction fuel with
  | zero =>
    constructor
    · intro t t' T F db par _ _ _ hok
      simp only [remove_fixup] at hok
      cases hok
    · intro t t' T F db par _ _ _ hok
      simp only [remove_fixup_black_sibling] at hok
      cases hok
  | succ f ih =>
    obtain ⟨ihA, ihB⟩ := ih
    constructor
    · intro t t' T F db par h hdb hpar hok
      simp only [remove_fixup] at hok
      split at hok
      · rename_i hterm
        cases hok
        exact setColor_sp h hdb Color.Black
      · rename_i hterm
        have hparF : par ∈ F := by
          rcases hpar with hp | hp
          · exact hp
          · exact absurd (Or.inl hp) hterm
        simp only [bind_ok_iff] at hok
        obtain ⟨sib, hsib, hok⟩ := hok
        have hsibm : sib ∈ F ∨ sib = nilIdx :=
          mem0_to_nil (sibling_of_nil_ok_mem h hparF hsib)
        split at hok
        · cases hok
        · rename_i hs0
          split at hok
          · exact ihB t t' T F db par h hdb hparF hok
          · simp only [bind_ok_iff] at hok
            obtain ⟨pos, hpos, hok⟩ := hok
            have tail : ∀ t2 : RBTree, StructPres t t2 T F →
                ∀ ns : Nat,
                (if (getN (setColor (setColor t2 sib Color.Black) par Color.Red) ns).color
                      ≠ Color.Black then
                    (throw (Fault.abort "assertion failed: new_sibing.color == Black") :
                      Except Fault RBTree)
                  else remove_fixup_black_sibling
                    (setColor (setColor t2 sib Color.Black) par Color.Red) db par f) =
                  Except.ok t' →
                StructPres t t' T F := by
              intro t2 sp1 ns hrun
              obtain ⟨T2, r2, io2, pay2, f2, l2⟩ := sp1
              refine StructPres.trans' r2 io2 pay2 f2 l2 ?_
              obtain ⟨T3, r3, io3, pay3, f3, l3⟩ := setColor_sp r2 hsibm Color.Black
              refine StructPres.trans' r3 io3 pay3 f3 l3 ?_
              obtain ⟨T4, r4, io4, pay4, f4, l4⟩ := setColor_sp r3 (Or.inl hparF) Color.Red
              refine StructPres.trans' r4 io4 pay4 f4 l4 ?_
              split at hrun
              · cases hrun
              · exact ihB _ t' T4 F db par r4 hdb hparF hrun
            cases pos with
            | Left =>
              simp only [bind_ok_iff] at hok
              obtain ⟨t2, hrot, ns, hns, hok⟩ := hok
              exact tail t2 (rotate_right_sp h hparF hrot) ns hok
            | Right =>
              simp only [bind_ok_iff] at hok
              obtain ⟨t2, hrot, ns, hns, hok⟩ := hok
              exact tail t2 (rotate_left_sp h hparF hrot) ns hok
    · intro t t' T F db par h hdb hparF hok
      simp only [remove_fixup_black_sibling] at hok
      simp only [bind_ok_iff] at hok
      obtain ⟨sib, hsib, pos, hpos, hok⟩ := hok
      have hsibm : sib ∈ F ∨ sib = 0 := sibling_of_nil_ok_mem h hparF hsib
      have hln : (getN t sib).left ∈ F ∨ (getN t sib).left = 0 :=
        (h.child_mem0 hsibm).1
      have hrn : (getN t sib).right ∈ F ∨ (getN t sib).right = 0 :=
        (h.child_mem0 hsibm).2
      have bothBlack : remove_fixup (setColor (setColor t sib Color.Red) db Color.Black)
            par (getN (setColor (setColor t sib Color.Red) db Color.Black) par).parent f =
            Except.ok t' →
          StructPres t t' T F := by
        intro hrun
        obtain ⟨T2, r2, io2, pay2, f2, l2⟩ := setColor_sp h (mem0_to_nil hsibm) Color.Red
        refine StructPres.trans' r2 io2 pay2 f2 l2 ?_
        obtain ⟨T3, r3, io3, pay3, f3, l3⟩ := setColor_sp r2 hdb Color.Black
        refine StructPres.trans' r3 io3 pay3 f3 l3 ?_
        exact ihA _ t' T3 F par _ r3 (Or.inl hparF) (r3.parent_mem hparF) hrun
      have nearRed : ∀ near : Nat, near ∈ F ∨ near = 0 →
          ∀ pos2 : NodePosition,
          (match pos2 with
            | NodePosition.Left =>
              rotate_right t sib >>= fun y =>
                remove_fixup_far_red_nephew
                  (setColor (setColor y sib Color.Red) near Color.Black) par near db sib
            | NodePosition.Right =>
              rotate_left t sib >>= fun y =>
                remove_fixup_far_red_nephew
                  (setColor (setColor y sib Color.Red) near Color.Black) par near db sib) =
            Except.ok t' →
          StructPres t t' T F := by
        intro near hnear pos2 hrun
        rcases hsibm with hsF | hs0
        · have tail2 : ∀ t2 : RBTree, StructPres t t2 T F →
              remove_fixup_far_red_nephew
                (setColor (setColor t2 sib Color.Red) near Color.Black) par near db sib =
                Except.ok t' →
              StructPres t t' T F := by
            intro t2 sp1 hrun2
            obtain ⟨T2, r2, io2, pay2, f2, l2⟩ := sp1
            refine StructPres.trans' r2 io2 pay2 f2 l2 ?_
            obtain ⟨T3, r3, io3, pay3, f3, l3⟩ := setColor_sp r2 (Or.inl hsF) Color.Red
            refine StructPres.trans' r3 io3 pay3 f3 l3 ?_
            obtain ⟨T4, r4, io4, pay4, f4, l4⟩ := setColor_sp r3 (mem0_to_nil hnear) Color.Black
            refine StructPres.trans' r4 io4 pay4 f4 l4 ?_
            exact remove_fixup_far_red_nephew_pres r4 hparF (mem0_to_nil hnear) hdb
              (Or.inl hsF) hrun2
          cases pos2 with
          | Left =>
            obtain ⟨t2, hrot, hrun2⟩ := bind_ok_inv hrun
            exact tail2 t2 (rotate_right_sp h hsF hrot) hrun2
          | Right =>
            obtain ⟨t2, hrot, hrun2⟩ := bind_ok_inv hrun
            exact tail2 t2 (rotate_left_sp h hsF hrot) hrun2
        · exfalso
          subst hs0
          cases pos2 with
          | Left =>
            obtain ⟨t2, hrot, _⟩ := bind_ok_inv hrun
            have hcontr : rotate_right t 0 =
                Except.error (Fault.abort "node without left child cannot rotate right") :=
              rotate_right_nil h.sentinel
            rw [hcontr] at hrot
            cases hrot
          | Right =>
            obtain ⟨t2, hrot, _⟩ := bind_ok_inv hrun
            have hcontr : rotate_left t 0 =
                Except.error (Fault.abort "node without right child cannot rotate left") :=
              rotate_left_nil h.sentinel
            rw [hcontr] at hrot
            cases hrot
      cases pos with
      | Left =>
        simp only [pure_bind] at hok
        split at hok
        · exact bothBlack hok
        · exact remove_fixup_far_red_nephew_pres h hparF (mem0_to_nil hsibm) hdb
            (mem0_to_nil hrn) hok
        · simp only [bind_ok_iff] at hok
          obtain ⟨pos2, hpos2, hok⟩ := hok
          exact nearRed _ hln pos2 hok
      | Right =>
        simp only [pure_bind] at hok
        split at hok
        · exact bothBlack hok
        · exact remove_fixup_far_red_nephew_pres h hparF (mem0_to_nil hsibm) hdb
            (mem0_to_nil hln) hok
        · simp only [bind_ok_iff] at hok
          obtain ⟨pos2, hpos2, hok⟩ := hok
          exact nearRed _ hrn pos2 hok

/-- A represented subtree hanging off a non-nil pointer is non-empty, and its
root pointer is a footprint member. -/
theorem IsRep.nonnil_facts {t : RBTree} {li p : Nat} {L : ATree} {Fl : Finset Nat}
    (h : IsRep t li p L Fl) (hne : li ≠ nilIdx) :
    L ≠ ATree.nil ∧ li ∈ Fl ∧ 2 ≤ li := by
  cases h with
  | nil => exact absurd rfl hne
  | node _ _ _ _ _ _ _ _ _ _ _ hi2 =>
    refine ⟨?_, Finset.mem_insert_self _ _, hi2⟩
    intro hcon
    cases hcon

/-- Splicing out a leaf: `remove_node_with_no_child` points the parent's
child slot at nil, leaving a representation (on the footprint without the
node) whose in-order sequence is the old one with the node's entry deleted.
The detached node's own slot is untouched. -/
theorem remove_node_with_no_child_pres {t : RBTree} {T : ATree} {F : Finset Nat} {i : Nat}
    (h : TreeRep t T F) (hi : i ∈ F)
    (hl : (getN t i).left = nilIdx) (hr : (getN t i).right = nilIdx) :
    ∃ t', remove_node_with_no_child t i = Except.ok t' ∧
      getN t' i = getN t i ∧
      (∃ T' pre post, TreeRep t' T' (F.erase i) ∧
        T.inorder = pre ++ entryOf t i :: post ∧ T'.inorder = pre ++ post) ∧
      samePayload t t' ∧ sameColors t t' ∧ t'.fresh = t.fresh ∧ t'.len = t.len := by
  obtain ⟨C, S, Fc, Fs, hC, hS, hplug, hF, hdisj, hdepth, c, L, k, v, R, hnode⟩ :=
    h.decompose i hi
  subst hnode
  cases hS with
  | node _ _ _ _ _ _ _ li ri Fl Fr hi2 hrec hL hR hdisjS hiL hiR =>
    have hli : li = nilIdx := by have h0 := hl; rw [hrec] at h0; exact h0
    have hri : ri = nilIdx := by have h0 := hr; rw [hrec] at h0; exact h0
    subst hli hri
    obtain ⟨hLn, hFl⟩ := hL.eq_nil_of_zero
    obtain ⟨hRn, hFr⟩ := hR.eq_nil_of_zero
    subst hLn hFl hRn hFr
    have hiFc : i ∉ Fc :=
      fun hm => Finset.disjoint_left.mp hdisj hm (Finset.mem_insert_self _ _)
    have hnil : ¬ isNil i := by unfold isNil nilIdx; omega
    have hentry : entryOf t i = (k, v) := by unfold entryOf; rw [hrec]
    have hFei : F.erase i = Fc := by
      have h1 : (Fc ∪ insert i (∅ ∪ ∅)).erase i = Fc ∪ (∅ ∪ ∅) :=
        erase_union_insert hiFc (by simp)
      rw [← hF, h1]
      simp
    obtain ⟨pos, hpos, htop, hinl, hinr⟩ := ctx_position hC hi2 hiFc
    cases C with
    | top =>
      obtain ⟨hpHead, hFc, hroot⟩ := hC.top_inv
      obtain ⟨hposR, _⟩ := htop rfl
      subst hposR
      refine ⟨setRight t headerIdx nilIdx, ?_, ?_, ?_, ?_, ?_, ?_, ?_⟩
      · simp only [remove_node_with_no_child]
        rw [if_neg hnil, hpos, ok_bind, hpHead]
        rfl
      · exact getN_setRight_of_ne _ _ _ _ (by unfold headerIdx; omega)
      · refine ⟨ATree.nil, [], [], ?_, ?_, rfl⟩
        · rw [hFei, hFc]
          refine ⟨h.sentinel.setRight_header, ?_⟩
          have hride : (getN (setRight t headerIdx nilIdx) headerIdx).right = nilIdx := by
            rw [getN_setRight_self]
          rw [hride]
          exact IsRep.nil _
        · rw [← hplug, hentry]
          rfl
      · exact samePayload_setRight _ _ _
      · exact sameColors_setRight _ _ _
      · rfl
      · rfl
    | inL up c2 k2 v2 R2 =>
      obtain ⟨pp, ri2, Fup, Fr2, hup, hp2, hrecP, hR2, hdisj2, hpU, hpR, hFc⟩ := hC.inL_inv
      have hposL := hinl _ _ _ _ _ rfl
      subst hposL
      have hpmem : (getN t i).parent ∈ Fc := by
        rw [hFc]; exact Finset.mem_insert_self _ _
      have hip : i ≠ (getN t i).parent := fun he => hiFc (he ▸ hpmem)
      refine ⟨setLeft t (getN t i).parent nilIdx, ?_, ?_, ?_, ?_, ?_, ?_, ?_⟩
      · simp only [remove_node_with_no_child]
        rw [if_neg hnil, hpos, ok_bind]
        rfl
      · exact getN_setLeft_of_ne _ _ _ _ hip
      · refine ⟨(Ctx.inL up c2 k2 v2 R2).plug ATree.nil,
          (Ctx.inL up c2 k2 v2 R2).leftList, (Ctx.inL up c2 k2 v2 R2).rightList, ?_, ?_, ?_⟩
        · have hC' : CtxRep (setLeft t (getN t i).parent nilIdx)
              (Ctx.inL up c2 k2 v2 R2) nilIdx (getN t i).parent Fc := by
            refine hC.retarget nilIdx ?_ ?_ ?_ ?_ ?_
            · exact fun j _ hj => getN_setLeft_of_ne _ _ _ _ hj
            · intro hcon; cases hcon
            · exact fun _ _ _ _ _ _ => getN_setLeft_self _ _ _
            · intro _ _ _ _ _ hcon; cases hcon
            · intro _
              rw [getN_setLeft_of_ne _ _ _ _
                (show headerIdx ≠ (getN t i).parent by unfold headerIdx; omega)]
          refine ⟨h.sentinel.write_ge2 hp2, ?_⟩
          have hres := hC'.plug_rep (IsRep.nil (getN t i).parent)
            (Finset.disjoint_empty_right _)
          rw [Finset.union_empty] at hres
          rw [hFei]
          exact hres
        · rw [← hplug, plug_inorder, hentry]
          simp [ATree.inorder]
        · rw [plug_inorder]
          simp [ATree.inorder]
      · exact samePayload_setLeft _ _ _
      · exact sameColors_setLeft _ _ _
      · rfl
      · rfl
    | inR up c2 k2 v2 L2 =>
      obtain ⟨pp, li2, Fup, Fl2, hup, hp2, hrecP, hL2, hdisj2, hpU, hpL, hFc⟩ := hC.inR_inv
      have hposR := hinr _ _ _ _ _ rfl
      subst hposR
      have hpmem : (getN t i).parent ∈ Fc := by
        rw [hFc]; exact Finset.mem_insert_self _ _
      have hip : i ≠ (getN t i).parent := fun he => hiFc (he ▸ hpmem)
      refine ⟨setRight t (getN t i).parent nilIdx, ?_, ?_, ?_, ?_, ?_, ?_, ?_⟩
      · simp only [remove_node_with_no_child]
        rw [if_neg hnil, hpos, ok_bind]
        rfl
      · exact getN_setRight_of_ne _ _ _ _ hip
      · refine ⟨(Ctx.inR up c2 k2 v2 L2).plug ATree.nil,
          (Ctx.inR up c2 k2 v2 L2).leftList, (Ctx.inR up c2 k2 v2 L2).rightList, ?_, ?_, ?_⟩
        · have hC' : CtxRep (setRight t (getN t i).parent nilIdx)
              (Ctx.inR up c2 k2 v2 L2) nilIdx (getN t i).parent Fc := by
            refine hC.retarget nilIdx ?_ ?_ ?_ ?_ ?_
            · exact fun j _ hj => getN_setRight_of_ne _ _ _ _ hj
            · intro hcon; cases hcon
            · intro _ _ _ _ _ hcon; cases hcon
            · exact fun _ _ _ _ _ _ => getN_setRight_self _ _ _
            · intro _
              rw [getN_setRight_of_ne _ _ _ _
                (show headerIdx ≠ (getN t i).parent by unfold headerIdx; omega)]
          refine ⟨h.sentinel.write_ge2 hp2, ?_⟩
          have hres := hC'.plug_rep (IsRep.nil (getN t i).parent)
            (Finset.disjoint_empty_right _)
          rw [Finset.union_empty] at hres
          rw [hFei]
          exact hres
        · rw [← hplug, plug_inorder, hentry]
          simp [ATree.inorder]
        · rw [plug_inorder]
          simp [ATree.inorder]
      · exact samePayload_setRight _ _ _
      · exact sameColors_setRight _ _ _
      · rfl
      · rfl

/-- Gluing a splice: if the new store leaves everything but the hole's parent
slot and the moved child untouched, points the parent slot at the child and
reparents the child, then it represents the context plugged with the child's
subtree. -/
theorem splice_glue {t t' : RBTree} {C : Ctx} {i p li : Nat} {L : ATree}
    {Fc Fl : Finset Nat}
    (hC : CtxRep t C i p Fc) (hL : IsRep t li i L Fl)
    (hdisj : Disjoint Fc Fl) (hliFc : li ∉ Fc) (hpFl : p ∉ Fl)
    (hli : li = nilIdx ∨ 2 ≤ li)
    (hagree : ∀ j, j ≠ p → j ≠ li → getN t' j = getN t j)
    (hrootli : L ≠ ATree.nil → getN t' li = { getN t li with parent := p })
    (htopc : C = Ctx.top → (getN t' headerIdx).right = li)
    (hleftc : ∀ up c k v R, C = Ctx.inL up c k v R →
      getN t' p = { getN t p with left := li })
    (hrightc : ∀ up c k v L2, C = Ctx.inR up c k v L2 →
      getN t' p = { getN t p with right := li })
    (hsent : SentinelInv t') :
    TreeRep t' (C.plug L) (Fc ∪ Fl) := by
  have hhli : headerIdx ≠ li := by
    rcases hli with h0 | h2
    · rw [h0]; unfold headerIdx nilIdx; omega
    · unfold headerIdx; omega
  have hC' : CtxRep t' C li p Fc := by
    refine hC.retarget li ?_ htopc hleftc hrightc ?_
    · intro j hj hjp
      exact hagree j hjp (fun he => hliFc (he ▸ hj))
    · intro hp1
      rw [hagree headerIdx (Ne.symm hp1) hhli]
  have hL' : IsRep t' li p L Fl := by
    refine hL.reparent p hrootli ?_
    intro j hj hjli
    exact hagree j (fun he => hpFl (he ▸ hj)) hjli
  exact ⟨hsent, hC'.plug_rep hL' hdisj⟩

/-- Splicing out a node with only a left child: `remove_node_with_one_child`
links the parent directly to that child and reparents it; the node's entry is
deleted from the in-order sequence and its own slot is untouched. -/
theorem remove_node_with_one_child_left_pres {t : RBTree} {T : ATree} {F : Finset Nat}
    {i : Nat} (h : TreeRep t T F) (hi : i ∈ F)
    (hl : ¬ (getN t i).left = nilIdx) (hr : (getN t i).right = nilIdx) :
    ∃ t', remove_node_with_one_child t i = Except.ok t' ∧
      getN t' i = getN t i ∧
      (∃ T' pre post, TreeRep t' T' (F.erase i) ∧
        T.inorder = pre ++ entryOf t i :: post ∧ T'.inorder = pre ++ post) ∧
      samePayload t t' ∧ sameColors t t' ∧ t'.fresh = t.fresh ∧ t'.len = t.len := by
  obtain ⟨C, S, Fc, Fs, hC, hS, hplug, hF, hdisj, hdepth, c, L, k, v, R, hnode⟩ :=
    h.decompose i hi
  subst hnode
  cases hS with
  | node _ _ _ _ _ _ _ li ri Fl Fr hi2 hrec hL hR hdisjS hiL hiR =>
    have hri : ri = nilIdx := by have h0 := hr; rw [hrec] at h0; exact h0
    subst hri
    obtain ⟨hRn, hFr⟩ := hR.eq_nil_of_zero
    subst hRn hFr
    have hline : li ≠ nilIdx := by
      intro h0; apply hl; rw [hrec]; exact h0
    obtain ⟨hLne, hliFl, hli2⟩ := hL.nonnil_facts hline
    have hiFc : i ∉ Fc :=
      fun hm => Finset.disjoint_left.mp hdisj hm (Finset.mem_insert_self _ _)
    have hnil : ¬ isNil i := by unfold isNil nilIdx; omega
    have hentry : entryOf t i = (k, v) := by unfold entryOf; rw [hrec]
    have hlival : (getN t i).left = li := by rw [hrec]
    have hili : i ≠ li := fun he => hiL (he ▸ hliFl)
    have hdisjFcFl : Disjoint Fc Fl := by
      refine Finset.disjoint_left.mpr fun a ha hmem =>
        Finset.disjoint_left.mp hdisj ha
          (Finset.mem_insert_of_mem (Finset.mem_union_left _ hmem))
    have hliFc : li ∉ Fc := fun hm => Finset.disjoint_left.mp hdisjFcFl hm hliFl
    have hFei : F.erase i = Fc ∪ Fl := by
      have h1 : (Fc ∪ insert i (Fl ∪ ∅)).erase i = Fc ∪ (Fl ∪ ∅) :=
        erase_union_insert hiFc (by simp [hiL])
      rw [← hF, h1]
      simp
    obtain ⟨pos, hpos, htop, hinl, hinr⟩ := ctx_position hC hi2 hiFc
    cases C with
    | top =>
      obtain ⟨hpHead, hFc, hroot⟩ := hC.top_inv
      obtain ⟨hposR, _⟩ := htop rfl
      subst hposR
      have hlip : li ≠ (getN t i).parent := by
        rw [hpHead]; unfold headerIdx; omega
      have hiip : i ≠ (getN t i).parent := by
        rw [hpHead]; unfold headerIdx; omega
      refine ⟨setParent (setRight t (getN t i).parent li) li (getN t i).parent,
        ?_, ?_, ?_, ?_, ?_, ?_, ?_⟩
      · simp only [remove_node_with_one_child]
        rw [if_neg hnil, if_pos (show ¬ isNil (getN t i).left from hl)]
        simp only [pure_bind]
        rw [hpos, ok_bind, hlival]
        rfl
      · rw [getN_setParent_of_ne _ _ _ _ hili, getN_setRight_of_ne _ _ _ _ hiip]
      · refine ⟨Ctx.top.plug L, Ctx.top.leftList ++ L.inorder, Ctx.top.rightList,
          ?_, ?_, ?_⟩
        · rw [hFei]
          refine splice_glue hC hL hdisjFcFl hliFc ?_ (Or.inr hli2) ?_ ?_ ?_ ?_ ?_ ?_
          · intro hm
            have h2 := hL.mem_ge_two _ hm
            rw [hpHead] at h2
            unfold headerIdx at h2
            omega
          · intro j hjp hjli
            rw [getN_setParent_of_ne _ _ _ _ hjli, getN_setRight_of_ne _ _ _ _ hjp]
          · intro _
            rw [getN_setParent_self, getN_setRight_of_ne _ _ _ _ hlip]
          · intro _
            rw [hpHead, getN_setParent_of_ne _ _ _ _
                (show headerIdx ≠ li by unfold headerIdx; omega), getN_setRight_self]
          · intro _ _ _ _ _ hcon; cases hcon
          · intro _ _ _ _ _ hcon; cases hcon
          · refine SentinelInv.write_ge2 ?_ hli2
            rw [show setRight t (getN t i).parent li = setRight t headerIdx li by rw [hpHead]]
            exact h.sentinel.setRight_header
        · rw [← hplug, plug_inorder, hentry]
          simp [ATree.inorder]
        · rw [plug_inorder]
      · exact (samePayload_setRight _ _ _).trans (samePayload_setParent _ _ _)
      · exact (sameColors_setRight _ _ _).trans_col (sameColors_setParent _ _ _)
      · rfl
      · rfl
    | inL up c2 k2 v2 R2 =>
      obtain ⟨pp, ri2, Fup, Fr2, hup, hp2, hrecP, hR2, hdisj2, hpU, hpR, hFc⟩ := hC.inL_inv
      have hposL := hinl _ _ _ _ _ rfl
      subst hposL
      have hpmem : (getN t i).parent ∈ Fc := by
        rw [hFc]; exact Finset.mem_insert_self _ _
      have hip : i ≠ (getN t i).parent := fun he => hiFc (he ▸ hpmem)
      have hlip : li ≠ (getN t i).parent := fun he => hliFc (he ▸ hpmem)
      refine ⟨setParent (setLeft t (getN t i).parent li) li (getN t i).parent,
        ?_, ?_, ?_, ?_, ?_, ?_, ?_⟩
      · simp only [remove_node_with_one_child]
        rw [if_neg hnil, if_pos (show ¬ isNil (getN t i).left from hl)]
        simp only [pure_bind]
        rw [hpos, ok_bind, hlival]
        rfl
      · rw [getN_setParent_of_ne _ _ _ _ hili, getN_setLeft_of_ne _ _ _ _ hip]
      · refine ⟨(Ctx.inL up c2 k2 v2 R2).plug L,
          (Ctx.inL up c2 k2 v2 R2).leftList ++ L.inorder,
          (Ctx.inL up c2 k2 v2 R2).rightList, ?_, ?_, ?_⟩
        · rw [hFei]
          refine splice_glue hC hL hdisjFcFl hliFc ?_ (Or.inr hli2) ?_ ?_ ?_ ?_ ?_ ?_
          · exact fun hm => Finset.disjoint_left.mp hdisjFcFl hpmem hm
          · intro j hjp hjli
            rw [getN_setParent_of_ne _ _ _ _ hjli, getN_setLeft_of_ne _ _ _ _ hjp]
          · intro _
            rw [getN_setParent_self, getN_setLeft_of_ne _ _ _ _ hlip]
          · intro hcon; cases hcon
          · intro _ _ _ _ _ _
            rw [getN_setParent_of_ne _ _ _ _ (Ne.symm hlip), getN_setLeft_self]
          · intro _ _ _ _ _ hcon; cases hcon
          · exact SentinelInv.write_ge2 (h.sentinel.write_ge2 hp2) hli2
        · rw [← hplug, plug_inorder, hentry]
          simp [ATree.inorder]
        · rw [plug_inorder]
      · exact (samePayload_setLeft _ _ _).trans (samePayload_setParent _ _ _)
      · exact (sameColors_setLeft _ _ _).trans_col (sameColors_setParent _ _ _)
      · rfl
      · rfl
    | inR up c2 k2 v2 L2 =>
      obtain ⟨pp, li2, Fup, Fl2, hup, hp2, hrecP, hL2, hdisj2, hpU, hpL, hFc⟩ := hC.inR_inv
      have hposR := hinr _ _ _ _ _ rfl
      subst hposR
      have hpmem : (getN t i).parent ∈ Fc := by
        rw [hFc]; exact Finset.mem_insert_self _ _
      have hip : i ≠ (getN t i).parent := fun he => hiFc (he ▸ hpmem)
      have hlip : li ≠ (getN t i).parent := fun he => hliFc (he ▸ hpmem)
      refine ⟨setParent (setRight t (getN t i).parent li) li (getN t i).parent,
        ?_, ?_, ?_, ?_, ?_, ?_, ?_⟩
      · simp only [remove_node_with_one_child]
        rw [if_neg hnil, if_pos (show ¬ isNil (getN t i).left from hl)]
        simp only [pure_bind]
        rw [hpos, ok_bind, hlival]
        rfl
      · rw [getN_setParent_of_ne _ _ _ _ hili, getN_setRight_of_ne _ _ _ _ hip]
      · refine ⟨(Ctx.inR up c2 k2 v2 L2).plug L,
          (Ctx.inR up c2 k2 v2 L2).leftList ++ L.inorder,
          (Ctx.inR up c2 k2 v2 L2).rightList, ?_, ?_, ?_⟩
        · rw [hFei]
          refine splice_glue hC hL hdisjFcFl hliFc ?_ (Or.inr hli2) ?_ ?_ ?_ ?_ ?_ ?_
          · exact fun hm => Finset.disjoint_left.mp hdisjFcFl hpmem hm
          · intro j hjp hjli
            rw [getN_setParent_of_ne _ _ _ _ hjli, getN_setRight_of_ne _ _ _ _ hjp]
          · intro _
            rw [getN_setParent_self, getN_setRight_of_ne _ _ _ _ hlip]
          · intro hcon; cases hcon
          · intro _ _ _ _ _ hcon; cases hcon
          · intro _ _ _ _ _ _
            rw [getN_setParent_of_ne _ _ _ _ (Ne.symm hlip), getN_setRight_self]
          · exact SentinelInv.write_ge2 (h.sentinel.write_ge2 hp2) hli2
        · rw [← hplug, plug_inorder, hentry]
          simp [ATree.inorder]
        · rw [plug_inorder]
      · exact (samePayload_setRight _ _ _).trans (samePayload_setParent _ _ _)
      · exact (sameColors_setRight _ _ _).trans_col (sameColors_setParent _ _ _)
      · rfl
      · rfl

/-- Splicing out a node with only a right child (mirror image). -/
theorem remove_node_with_one_child_right_pres {t : RBTree} {T : ATree} {F : Finset Nat}
    {i : Nat} (h : TreeRep t T F) (hi : i ∈ F)
    (hl : (getN t i).left = nilIdx) (hr : ¬ (getN t i).right = nilIdx) :
    ∃ t', remove_node_with_one_child t i = Except.ok t' ∧
      getN t' i = getN t i ∧
      (∃ T' pre post, TreeRep t' T' (F.erase i) ∧
        T.inorder = pre ++ entryOf t i :: post ∧ T'.inorder = pre ++ post) ∧
      samePayload t t' ∧ sameColors t t' ∧ t'.fresh = t.fresh ∧ t'.len = t.len := by
  obtain ⟨C, S, Fc, Fs, hC, hS, hplug, hF, hdisj, hdepth, c, L, k, v, R, hnode⟩ :=
    h.decompose i hi
  subst hnode
  cases hS with
  | node _ _ _ _ _ _ _ li ri Fl Fr hi2 hrec hL hR hdisjS hiL hiR =>
    have hli : li = nilIdx := by have h0 := hl; rw [hrec] at h0; exact h0
    subst hli
    obtain ⟨hLn, hFl⟩ := hL.eq_nil_of_zero
    subst hLn hFl
    have hrine : ri ≠ nilIdx := by
      intro h0; apply hr; rw [hrec]; exact h0
    obtain ⟨hRne, hriFr, hri2⟩ := hR.nonnil_facts hrine
    have hiFc : i ∉ Fc :=
      fun hm => Finset.disjoint_left.mp hdisj hm (Finset.mem_insert_self _ _)
    have hnil : ¬ isNil i := by unfold isNil nilIdx; omega
    have hentry : entryOf t i = (k, v) := by unfold entryOf; rw [hrec]
    have hrival : (getN t i).right = ri := by rw [hrec]
    have hiri : i ≠ ri := fun he => hiR (he ▸ hriFr)
    have hdisjFcFr : Disjoint Fc Fr := by
      refine Finset.disjoint_left.mpr fun a ha hmem =>
        Finset.disjoint_left.mp hdisj ha
          (Finset.mem_insert_of_mem (Finset.mem_union_right _ hmem))
    have hriFc : ri ∉ Fc := fun hm => Finset.disjoint_left.mp hdisjFcFr hm hriFr
    have hFei : F.erase i = Fc ∪ Fr := by
      have h1 : (Fc ∪ insert i (∅ ∪ Fr)).erase i = Fc ∪ (∅ ∪ Fr) :=
        erase_union_insert hiFc (by simp [hiR])
      rw [← hF, h1]
      simp
    obtain ⟨pos, hpos, htop, hinl, hinr⟩ := ctx_position hC hi2 hiFc
    have hnotl : ¬ ¬ isNil (getN t i).left := fun hcon => hcon hl
    cases C with
    | top =>
      obtain ⟨hpHead, hFc, hroot⟩ := hC.top_inv
      obtain ⟨hposR, _⟩ := htop rfl
      subst hposR
      have hrip : ri ≠ (getN t i).parent := by
        rw [hpHead]; unfold headerIdx; omega
      have hiip : i ≠ (getN t i).parent := by
        rw [hpHead]; unfold headerIdx; omega
      refine ⟨setParent (setRight t (getN t i).parent ri) ri (getN t i).parent,
        ?_, ?_, ?_, ?_, ?_, ?_, ?_⟩
      · simp only [remove_node_with_one_child]
        rw [if_neg hnil, if_neg hnotl, if_pos (show ¬ isNil (getN t i).right from hr)]
        simp only [pure_bind]
        rw [hpos, ok_bind, hrival]
        rfl
      · rw [getN_setParent_of_ne _ _ _ _ hiri, getN_setRight_of_ne _ _ _ _ hiip]
      · refine ⟨Ctx.top.plug R, Ctx.top.leftList,
          R.inorder ++ Ctx.top.rightList, ?_, ?_, ?_⟩
        · rw [hFei]
          refine splice_glue hC hR hdisjFcFr hriFc ?_ (Or.inr hri2) ?_ ?_ ?_ ?_ ?_ ?_
          · intro hm
            have h2 := hR.mem_ge_two _ hm
            rw [hpHead] at h2
            unfold headerIdx at h2
            omega
          · intro j hjp hjri
            rw [getN_setParent_of_ne _ _ _ _ hjri, getN_setRight_of_ne _ _ _ _ hjp]
          · intro _
            rw [getN_setParent_self, getN_setRight_of_ne _ _ _ _ hrip]
          · intro _
            rw [hpHead, getN_setParent_of_ne _ _ _ _
                (show headerIdx ≠ ri by unfold headerIdx; omega), getN_setRight_self]
          · intro _ _ _ _ _ hcon; cases hcon
          · intro _ _ _ _ _ hcon; cases hcon
          · refine SentinelInv.write_ge2 ?_ hri2
            rw [show setRight t (getN t i).parent ri = setRight t headerIdx ri by rw [hpHead]]
            exact h.sentinel.setRight_header
        · rw [← hplug, plug_inorder, hentry]
          simp [ATree.inorder]
        · rw [plug_inorder]
          simp [ATree.inorder]
      · exact (samePayload_setRight _ _ _).trans (samePayload_setParent _ _ _)
      · exact (sameColors_setRight _ _ _).trans_col (sameColors_setParent _ _ _)
      · rfl
      · rfl
    | inL up c2 k2 v2 R2 =>
      obtain ⟨pp, ri2, Fup, Fr2, hup, hp2, hrecP, hR2, hdisj2, hpU, hpR, hFc⟩ := hC.inL_inv
      have hposL := hinl _ _ _ _ _ rfl
      subst hposL
      have hpmem : (getN t i).parent ∈ Fc := by
        rw [hFc]; exact Finset.mem_insert_self _ _
      have hip : i ≠ (getN t i).parent := fun he => hiFc (he ▸ hpmem)
      have hrip : ri ≠ (getN t i).parent := fun he => hriFc (he ▸ hpmem)
      refine ⟨setParent (setLeft t (getN t i).parent ri) ri (getN t i).parent,
        ?_, ?_, ?_, ?_, ?_, ?_, ?_⟩
      · simp only [remove_node_with_one_child]
        rw [if_neg hnil, if_neg hnotl, if_pos (show ¬ isNil (getN t i).right from hr)]
        simp only [pure_bind]
        rw [hpos, ok_bind, hrival]
        rfl
      · rw [getN_setParent_of_ne _ _ _ _ hiri, getN_setLeft_of_ne _ _ _ _ hip]
      · refine ⟨(Ctx.inL up c2 k2 v2 R2).plug R,
          (Ctx.inL up c2 k2 v2 R2).leftList,
          R.inorder ++ (Ctx.inL up c2 k2 v2 R2).rightList, ?_, ?_, ?_⟩
        · rw [hFei]
          refine splice_glue hC hR hdisjFcFr hriFc ?_ (Or.inr hri2) ?_ ?_ ?_ ?_ ?_ ?_
          · exact fun hm => Finset.disjoint_left.mp hdisjFcFr hpmem hm
          · intro j hjp hjri
            rw [getN_setParent_of_ne _ _ _ _ hjri, getN_setLeft_of_ne _ _ _ _ hjp]
          · intro _
            rw [getN_setParent_self, getN_setLeft_of_ne _ _ _ _ hrip]
          · intro hcon; cases hcon
          · intro _ _ _ _ _ _
            rw [getN_setParent_of_ne _ _ _ _ (Ne.symm hrip), getN_setLeft_self]
          · intro _ _ _ _ _ hcon; cases hcon
          · exact SentinelInv.write_ge2 (h.sentinel.write_ge2 hp2) hri2
        · rw [← hplug, plug_inorder, hentry]
          simp [ATree.inorder]
        · rw [plug_inorder]
          simp [ATree.inorder]
      · exact (samePayload_setLeft _ _ _).trans (samePayload_setParent _ _ _)
      · exact (sameColors_setLeft _ _ _).trans_col (sameColors_setParent _ _ _)
      · rfl
      · rfl
    | inR up c2 k2 v2 L2 =>
      obtain ⟨pp, li2, Fup, Fl2, hup, hp2, hrecP, hL2, hdisj2, hpU, hpL, hFc⟩ := hC.inR_inv
      have hposR := hinr _ _ _ _ _ rfl
      subst hposR
      have hpmem : (getN t i).parent ∈ Fc := by
        rw [hFc]; exact Finset.mem_insert_self _ _
      have hip : i ≠ (getN t i).parent := fun he => hiFc (he ▸ hpmem)
      have hrip : ri ≠ (getN t i).parent := fun he => hriFc (he ▸ hpmem)
      refine ⟨setParent (setRight t (getN t i).parent ri) ri (getN t i).parent,
        ?_, ?_, ?_, ?_, ?_, ?_, ?_⟩
      · simp only [remove_node_with_one_child]
        rw [if_neg hnil, if_neg hnotl, if_pos (show ¬ isNil (getN t i).right from hr)]
        simp only [pure_bind]
        rw [hpos, ok_bind, hrival]
        rfl
      · rw [getN_setParent_of_ne _ _ _ _ hiri, getN_setRight_of_ne _ _ _ _ hip]
      · refine ⟨(Ctx.inR up c2 k2 v2 L2).plug R,
          (Ctx.inR up c2 k2 v2 L2).leftList,
          R.inorder ++ (Ctx.inR up c2 k2 v2 L2).rightList, ?_, ?_, ?_⟩
        · rw [hFei]
          refine splice_glue hC hR hdisjFcFr hriFc ?_ (Or.inr hri2) ?_ ?_ ?_ ?_ ?_ ?_
          · exact fun hm => Finset.disjoint_left.mp hdisjFcFr hpmem hm
          · intro j hjp hjri
            rw [getN_setParent_of_ne _ _ _ _ hjri, getN_setRight_of_ne _ _ _ _ hjp]
          · intro _
            rw [getN_setParent_self, getN_setRight_of_ne _ _ _ _ hrip]
          · intro hcon; cases hcon
          · intro _ _ _ _ _ hcon; cases hcon
          · intro _ _ _ _ _ _
            rw [getN_setParent_of_ne _ _ _ _ (Ne.symm hrip), getN_setRight_self]
          · exact SentinelInv.write_ge2 (h.sentinel.write_ge2 hp2) hri2
        · rw [← hplug, plug_inorder, hentry]
          simp [ATree.inorder]
        · rw [plug_inorder]
          simp [ATree.inorder]
      · exact (samePayload_setRight _ _ _).trans (samePayload_setParent _ _ _)
      · exact (sameColors_setRight _ _ _).trans_col (sameColors_setParent _ _ _)
      · rfl
      · rfl

/-- Dispatcher: `remove_node_with_no_or_one_child` on a node with at most one
non-nil child succeeds and splices the node out of the representation. -/
theorem remove_splice_pres {t : RBTree} {T : ATree} {F : Finset Nat} {i : Nat}
    (h : TreeRep t T F) (hi : i ∈ F)
    (hone : (getN t i).left = nilIdx ∨ (getN t i).right = nilIdx) :
    ∃ t', remove_node_with_no_or_one_child t i = Except.ok t' ∧
      getN t' i = getN t i ∧
      (∃ T' pre post, TreeRep t' T' (F.erase i) ∧
        T.inorder = pre ++ entryOf t i :: post ∧ T'.inorder = pre ++ post) ∧
      samePayload t t' ∧ sameColors t t' ∧ t'.fresh = t.fresh ∧ t'.len = t.len := by
  have hi2 : 2 ≤ i := h.root.mem_ge_two i hi
  have hnil : ¬ isNil i := by unfold isNil nilIdx; omega
  by_cases hlc : (getN t i).left = nilIdx
  · by_cases hrc : (getN t i).right = nilIdx
    · obtain ⟨t', hrun, rest⟩ := remove_node_with_no_child_pres h hi hlc hrc
      refine ⟨t', ?_, rest⟩
      simp only [remove_node_with_no_or_one_child]
      rw [if_neg hnil, decide_eq_true (show isNil (getN t i).left from hlc),
        decide_eq_true (show isNil (getN t i).right from hrc)]
      exact hrun
    · obtain ⟨t', hrun, rest⟩ := remove_node_with_one_child_right_pres h hi hlc hrc
      refine ⟨t', ?_, rest⟩
      simp only [remove_node_with_no_or_one_child]
      rw [if_neg hnil, decide_eq_true (show isNil (getN t i).left from hlc),
        decide_eq_false (show ¬ isNil (getN t i).right from hrc)]
      exact hrun
  · have hrc : (getN t i).right = nilIdx := hone.resolve_left hlc
    obtain ⟨t', hrun, rest⟩ := remove_node_with_one_child_left_pres h hi hlc hrc
    refine ⟨t', ?_, rest⟩
    simp only [remove_node_with_no_or_one_child]
    rw [if_neg hnil, decide_eq_false (show ¬ isNil (getN t i).left from hlc),
      decide_eq_true (show isNil (getN t i).right from hrc)]
    exact hrun

/-- `downRight` reaches the rightmost node of a non-empty represented subtree
(which holds the last in-order entry and has no right child), and rewriting
that node's key/value yields a representation of the subtree with its last
entry replaced. -/
theorem update_rightmost {t : RBTree} (k' v' : Int) :
    ∀ {R : ATree} {c : Color} {k v : Int} {L : ATree} {i p fuel : Nat} {F : Finset Nat},
      IsRep t i p (ATree.node c L k v R) F → (ATree.node c L k v R).height < fuel →
      ∃ j init, downRight t i fuel = Except.ok j ∧ j ∈ F ∧
        (getN t j).right = nilIdx ∧
        (ATree.node c L k v R).inorder = init ++ [entryOf t j] ∧
        ∃ S', IsRep (setN t j { getN t j with key := k', value := v' }) i p S' F ∧
          S'.inorder = init ++ [(k', v')] := by
  intro R
  induction R with
  | nil =>
    intro c k v L i p fuel F h hfuel
    cases h with
    | node _ _ _ _ _ _ _ li ri Fl Fr hi2 hrec hL hR hdisj hiL hiR =>
      cases hR
      match fuel, hfuel with
      | fuel+1, _ =>
        refine ⟨i, L.inorder, ?_, Finset.mem_insert_self _ _, ?_, ?_, ?_⟩
        · unfold downRight
          rw [hrec]
          rfl
        · rw [hrec]
        · simp [ATree.inorder, entryOf, hrec]
        · refine ⟨ATree.node c L k' v' ATree.nil, ?_, by simp [ATree.inorder]⟩
          refine IsRep.node i p c L ATree.nil k' v' li nilIdx Fl ∅ hi2 ?_ ?_
            (IsRep.nil _) hdisj hiL hiR
          · rw [getN_setN_self, hrec]
          · refine hL.frame fun j hj => ?_
            exact getN_setN_of_ne _ _ _ _ (fun he => hiL (he ▸ hj))
  | node c2 l2 k2 v2 r2 _ ihr =>
    intro c k v L i p fuel F h hfuel
    cases h with
    | node _ _ _ _ _ _ _ li ri Fl Fr hi2 hrec hL hR hdisj hiL hiR =>
      match fuel, hfuel with
      | fuel+1, hfuel =>
        have hri2 : 2 ≤ ri := hR.mem_ge_two ri hR.root_mem
        have hfr : (ATree.node c2 l2 k2 v2 r2).height < fuel := by
          have : (ATree.node c L k v (ATree.node c2 l2 k2 v2 r2)).height =
              max L.height (ATree.node c2 l2 k2 v2 r2).height + 1 := rfl
          omega
        obtain ⟨j, initR, hrun, hjF, hjr, hord, R', hR', hR'in⟩ := ihr hR hfr
        have hji : j ≠ i := fun he => hiR (he ▸ hjF)
        refine ⟨j, L.inorder ++ (k, v) :: initR, ?_, ?_, hjr, ?_, ?_⟩
        · unfold downRight
          rw [hrec]
          have hne : ¬ isNil ri := by unfold isNil nilIdx; omega
          simp only [if_neg hne]
          exact hrun
        · exact Finset.mem_insert_of_mem (Finset.mem_union_right _ hjF)
        · show L.inorder ++ (k, v) :: (ATree.node c2 l2 k2 v2 r2).inorder = _
          rw [hord]
          simp
        · refine ⟨ATree.node c L k v R', ?_, ?_⟩
          · refine IsRep.node i p c L R' k v li ri Fl Fr hi2 ?_ ?_ hR' hdisj hiL hiR
            · rw [getN_setN_of_ne _ _ _ _ (Ne.symm hji)]
              exact hrec
            · refine hL.frame fun a ha => ?_
              have haj : a ≠ j := fun he =>
                Finset.disjoint_left.mp hdisj (he ▸ ha) hjF
              exact getN_setN_of_ne _ _ _ _ haj
          · show L.inorder ++ (k, v) :: R'.inorder = _
            rw [hR'in]
            simp

/-- At a found key whose node has two non-nil children, one step of the
removal loop swaps the node's payload with its in-order predecessor's
payload (links untouched), splices out the predecessor — which has no right
child — and returns the predecessor's pointer.  The resulting store
represents the old tree with the key's entry deleted. -/
theorem bsRemoveLoop_found_two {t : RBTree} {T : ATree} {F : Finset Nat}
    {C : Ctx} {cur : Nat} {Fc Fs : Finset Nat} {c : Color} {L R : ATree} {key v : Int}
    {auxFuel fuel : Nat}
    (hsent : SentinelInv t)
    (hC : CtxRep t C cur (getN t cur).parent Fc)
    (hS : IsRep t cur (getN t cur).parent (ATree.node c L key v R) Fs)
    (hplug : C.plug (ATree.node c L key v R) = T)
    (hF : Fc ∪ Fs = F) (hdisj : Disjoint Fc Fs)
    (hLne : L ≠ ATree.nil) (hRne : R ≠ ATree.nil)
    (hnd : (T.inorder.map Prod.fst).Nodup)
    (hfa : L.height < auxFuel) :
    ∃ ip t3 T3 pre post,
      bsRemoveLoop t key cur auxFuel (fuel+1) = Except.ok (ip, t3) ∧
      inorder_predecessor t cur auxFuel = Except.ok ip ∧
      ip ∈ F ∧ ip ≠ cur ∧ (getN t ip).right = nilIdx ∧
      remove_node_with_no_or_one_child
        (setN (setN t ip { getN t ip with key := key, value := v })
          cur { getN t cur with key := (getN t ip).key, value := (getN t ip).value }) ip
        = Except.ok t3 ∧
      (getN t3 ip).key = key ∧ (getN t3 ip).value = v ∧
      (getN t3 ip).left = (getN t ip).left ∧ (getN t3 ip).right = (getN t ip).right ∧
      (getN t3 ip).parent = (getN t ip).parent ∧
      TreeRep t3 T3 (F.erase ip) ∧
      T.inorder = pre ++ (key, v) :: post ∧ T3.inorder = pre ++ post ∧
      sameColors t t3 ∧ t3.fresh = t.fresh ∧ t3.len = t.len := by
  cases hS with
  | node _ _ _ _ _ _ _ li ri Fl Fr hi2 hrec hL hR hdisjS hiL hiR =>
    have hlival : (getN t cur).left = li := by rw [hrec]
    have hrival : (getN t cur).right = ri := by rw [hrec]
    have hkeq : (getN t cur).key = key := by rw [hrec]
    have hveq : (getN t cur).value = v := by rw [hrec]
    have hli2 : 2 ≤ li := hL.ne_nil_ptr hLne
    have hri2 : 2 ≤ ri := hR.ne_nil_ptr hRne
    have hnilcur : ¬ isNil cur := by unfold isNil nilIdx; omega
    have htwo : ¬ isNil (getN t cur).left ∧ ¬ isNil (getN t cur).right := by
      constructor
      · unfold isNil; rw [hlival]; unfold nilIdx; omega
      · unfold isNil; rw [hrival]; unfold nilIdx; omega
    cases L with
    | nil => exact absurd rfl hLne
    | node cL L1 kL vL L2 =>
      obtain ⟨ip, init, hdr, hipFl, hipr, hLord, L', hL1, hL1in⟩ :=
        update_rightmost key v hL hfa
      have hip2 : 2 ≤ ip := hL.mem_ge_two _ hipFl
      have hipF : ip ∈ F := by
        rw [← hF]
        exact Finset.mem_union_right _
          (Finset.mem_insert_of_mem (Finset.mem_union_left _ hipFl))
      have hipcur : ip ≠ cur := fun he => hiL (he ▸ hipFl)
      have hipFr : ip ∉ Fr := fun hm => Finset.disjoint_left.mp hdisjS hipFl hm
      have hipFc : ip ∉ Fc := fun hm => Finset.disjoint_left.mp hdisj hm
        (Finset.mem_insert_of_mem (Finset.mem_union_left _ hipFl))
      have hcurFc : cur ∉ Fc := fun hm =>
        Finset.disjoint_left.mp hdisj hm (Finset.mem_insert_self _ _)
      have hpred : inorder_predecessor t cur auxFuel = Except.ok ip := by
        simp only [inorder_predecessor]
        rw [hlival]
        rw [if_neg (show ¬ isNil li by unfold isNil nilIdx; omega)]
        exact hdr
      have hgip2 : getN (setN (setN t ip { getN t ip with key := key, value := v })
            cur { getN t cur with key := (getN t ip).key, value := (getN t ip).value }) ip =
          { getN t ip with key := key, value := v } := by
        rw [getN_setN_of_ne _ _ _ _ hipcur, getN_setN_self]
      have hC1 : CtxRep (setN t ip { getN t ip with key := key, value := v })
          C cur (getN t cur).parent Fc := by
        refine hC.frame_ctx ?_ ?_
        · exact fun j hj => getN_setN_of_ne _ _ _ _ (fun he => hipFc (he ▸ hj))
        · rw [getN_setN_of_ne _ _ _ _ (show headerIdx ≠ ip by unfold headerIdx; omega)]
      have hR1 : IsRep (setN t ip { getN t ip with key := key, value := v })
          ri cur R Fr := by
        refine hR.frame fun j hj => ?_
        exact getN_setN_of_ne _ _ _ _ (fun he => hipFr (he ▸ hj))
      have hC2 : CtxRep (setN (setN t ip { getN t ip with key := key, value := v })
            cur { getN t cur with key := (getN t ip).key, value := (getN t ip).value })
          C cur (getN t cur).parent Fc := by
        refine hC1.frame_ctx ?_ ?_
        · exact fun j hj => getN_setN_of_ne _ _ _ _ (fun he => hcurFc (he ▸ hj))
        · rw [getN_setN_of_ne _ _ _ _ (show headerIdx ≠ cur by unfold headerIdx; omega)]
      have hL2 : IsRep (setN (setN t ip { getN t ip with key := key, value := v })
            cur { getN t cur with key := (getN t ip).key, value := (getN t ip).value })
          li cur L' Fl := by
        refine hL1.frame fun j hj => ?_
        exact getN_setN_of_ne _ _ _ _ (fun he => hiL (he ▸ hj))
      have hR2 : IsRep (setN (setN t ip { getN t ip with key := key, value := v })
            cur { getN t cur with key := (getN t ip).key, value := (getN t ip).value })
          ri cur R Fr := by
        refine hR1.frame fun j hj => ?_
        exact getN_setN_of_ne _ _ _ _ (fun he => hiR (he ▸ hj))
      have hrec2 : getN (setN (setN t ip { getN t ip with key := key, value := v })
            cur { getN t cur with key := (getN t ip).key, value := (getN t ip).value }) cur =
          { key := (getN t ip).key, value := (getN t ip).value, color := c,
            left := li, right := ri, parent := (getN t cur).parent } := by
        rw [getN_setN_self, hrec]
      have hS2 : IsRep (setN (setN t ip { getN t ip with key := key, value := v })
            cur { getN t cur with key := (getN t ip).key, value := (getN t ip).value })
          cur (getN t cur).parent
          (ATree.node c L' (getN t ip).key (getN t ip).value R) (insert cur (Fl ∪ Fr)) :=
        IsRep.node cur _ c L' R (getN t ip).key (getN t ip).value li ri Fl Fr hi2
          hrec2 hL2 hR2 hdisjS hiL hiR
      have hT2 : TreeRep (setN (setN t ip { getN t ip with key := key, value := v })
            cur { getN t cur with key := (getN t ip).key, value := (getN t ip).value })
          ((C.plug (ATree.node c L' (getN t ip).key (getN t ip).value R))) F := by
        refine ⟨(hsent.write_ge2 hip2).write_ge2 hi2, ?_⟩
        have hres := hC2.plug_rep hS2 hdisj
        rw [hF] at hres
        exact hres
      obtain ⟨t3, hsplice, hgip3, ⟨T3, pre', post', hT3, hT2ord, hT3ord⟩,
        hpay3, hcol3, hfr3, hlen3⟩ :=
        remove_splice_pres hT2 hipF (Or.inr (by rw [hgip2]; exact hipr))
      have hentry2 : entryOf (setN (setN t ip { getN t ip with key := key, value := v })
            cur { getN t cur with key := (getN t ip).key, value := (getN t ip).value }) ip =
          (key, v) := by
        unfold entryOf
        rw [hgip2]
      have hT2calc : (C.plug (ATree.node c L' (getN t ip).key (getN t ip).value R)).inorder =
          (C.leftList ++ init) ++ (key, v) ::
            (entryOf t ip :: (R.inorder ++ C.rightList)) := by
        rw [plug_inorder]
        simp only [ATree.inorder]
        rw [hL1in]
        show C.leftList ++ ((init ++ [(key, v)]) ++
          ((getN t ip).key, (getN t ip).value) :: R.inorder) ++ C.rightList = _
        simp [entryOf]
      have hTcalc : T.inorder =
          (C.leftList ++ init) ++ entryOf t ip ::
            ((key, v) :: (R.inorder ++ C.rightList)) := by
        rw [← hplug, plug_inorder]
        show C.leftList ++ ((ATree.node cL L1 kL vL L2).inorder ++
          (key, v) :: R.inorder) ++ C.rightList = _
        rw [hLord]
        simp
      have hnd2 : ((C.plug (ATree.node c L' (getN t ip).key
            (getN t ip).value R)).inorder.map Prod.fst).Nodup := by
        have hperm : List.Perm ((C.plug (ATree.node c L' (getN t ip).key
            (getN t ip).value R)).inorder.map Prod.fst) (T.inorder.map Prod.fst) := by
          rw [hT2calc, hTcalc]
          simp only [List.map_append, List.map_cons]
          exact List.Perm.append_left _ (List.Perm.swap _ _ _)
        exact hperm.nodup_iff.mpr hnd
      rw [hentry2] at hT2ord
      obtain ⟨hpre, _, hpost⟩ := split_unique hnd2 hT2calc hT2ord rfl
      refine ⟨ip, t3, T3, (C.leftList ++ init) ++ [entryOf t ip],
        R.inorder ++ C.rightList, ?_, hpred, hipF, hipcur, hipr, hsplice,
        ?_, ?_, ?_, ?_, ?_, hT3, ?_, ?_, ?_, ?_, ?_⟩
      · simp only [bsRemoveLoop]
        rw [if_neg hnilcur, if_pos hkeq, if_pos htwo, hkeq, hveq]
        refine bind_ok_iff.mpr ⟨ip, hpred, ?_⟩
        show ((pure (ip, setN (setN t ip { getN t ip with key := key, value := v }) cur { getN t cur with key := (getN t ip).key, value := (getN t ip).value }) : Except Fault (Nat × RBTree)) >>= fun y => remove_node_with_no_or_one_child y.2 y.1 >>= fun t5 => pure (y.1, t5)) = Except.ok (ip, t3)
        simp only [pure_bind]
        rw [hsplice, ok_bind]
        rfl
      · rw [hgip3, hgip2]
      · rw [hgip3, hgip2]
      · rw [hgip3, hgip2]
      · rw [hgip3, hgip2]
      · rw [hgip3, hgip2]
      · rw [hTcalc]
        simp
      · rw [hT3ord, ← hpre, ← hpost]
        simp
      · have hcolA : sameColors t (setN t ip { getN t ip with key := key, value := v }) :=
          sameColors_setN rfl
        have hcolB : sameColors (setN t ip { getN t ip with key := key, value := v })
            (setN (setN t ip { getN t ip with key := key, value := v }) cur { getN t cur with key := (getN t ip).key, value := (getN t ip).value }) := by
          refine sameColors_setN ?_
          rw [getN_setN_of_ne _ _ _ _ (Ne.symm hipcur)]
        exact hcolA.trans_col (hcolB.trans_col hcol3)
      · exact hfr3
      · exact hlen3

/-- A non-empty represented subtree's root stores its parent pointer. -/
theorem IsRep.parent_eq {t : RBTree} {i p : Nat} {T : ATree} {F : Finset Nat}
    (h : IsRep t i p T F) (hne : T ≠ ATree.nil) : (getN t i).parent = p := by
  cases h with
  | nil => exact absurd rfl hne
  | node _ _ _ _ _ _ _ _ _ _ _ _ hrec => rw [hrec]

/-- A subtree is no taller than any tree it is plugged into. -/
theorem height_plug_le : ∀ (C : Ctx) (S : ATree), S.height ≤ (C.plug S).height := by
  intro C
  induction C with
  | top => exact fun S => le_rfl
  | inL up c k v R ih =>
    intro S
    refine le_trans ?_ (ih (ATree.node c S k v R))
    show S.height ≤ max S.height R.height + 1
    omega
  | inR up c k v L ih =>
    intro S
    refine le_trans ?_ (ih (ATree.node c L k v S))
    show S.height ≤ max L.height S.height + 1
    omega

/-- Outcome of a successful structural removal of the entry `(key, v)`: the
physically removed node `rm` is a footprint member, still holds the removed
payload, keeps its (stale) links, and the remaining store represents the old
tree minus that one entry, with colors, `fresh` and `len` untouched. -/
def RemovedOk (t t3 : RBTree) (T T3 : ATree) (F : Finset Nat) (rm : Nat)
    (key v : Int) : Prop :=
  rm ∈ F ∧
  (getN t3 rm).key = key ∧ (getN t3 rm).value = v ∧
  (getN t3 rm).left = (getN t rm).left ∧
  (getN t3 rm).right = (getN t rm).right ∧
  (getN t3 rm).parent = (getN t rm).parent ∧
  TreeRep t3 T3 (F.erase rm) ∧
  (∃ pre post, T.inorder = pre ++ (key, v) :: post ∧ T3.inorder = pre ++ post) ∧
  sameColors t t3 ∧ t3.fresh = t.fresh ∧ t3.len = t.len

/-- How the removal loop disposed of the key's node `found`: with at most one
non-nil child the node itself is spliced (`rm = found`); with two children
the in-order predecessor `rm` (which has no right child) receives the
node's payload in a pure payload swap and is spliced out instead. -/
def FoundAt (t t3 : RBTree) (F : Finset Nat) (rm found : Nat) (key v : Int)
    (auxFuel : Nat) : Prop :=
  found ∈ F ∧ (getN t found).key = key ∧ (getN t found).value = v ∧
  ((isNil (getN t found).left ∨ isNil (getN t found).right) → rm = found) ∧
  ((¬ isNil (getN t found).left ∧ ¬ isNil (getN t found).right) →
    inorder_predecessor t found auxFuel = Except.ok rm ∧ rm ≠ found ∧
    (getN t rm).right = nilIdx ∧
    remove_node_with_no_or_one_child
      (setN (setN t rm { getN t rm with key := key, value := v })
        found { getN t found with key := (getN t rm).key, value := (getN t rm).value }) rm
      = Except.ok t3)

/-- Every in-order entry of a represented subtree is stored at some footprint
member. -/
theorem entry_exists {t : RBTree} {key v : Int} :
    ∀ {T : ATree} {i p : Nat} {F : Finset Nat}, IsRep t i p T F →
      (key, v) ∈ T.inorder →
      ∃ j ∈ F, (getN t j).key = key ∧ (getN t j).value = v := by
  intro T
  induction T with
  | nil =>
    intro i p F _ hmem
    simp [ATree.inorder] at hmem
  | node c L k v0 R ihl ihr =>
    intro i p F h hmem
    cases h with
    | node _ _ _ _ _ _ _ li ri Fl Fr hi2 hrec hL hR hdisj hiL hiR =>
      simp only [ATree.inorder, List.mem_append, List.mem_cons] at hmem
      rcases hmem with hm | hm | hm
      · obtain ⟨j, hj, hjk⟩ := ihl hL hm
        exact ⟨j, Finset.mem_insert_of_mem (Finset.mem_union_left _ hj), hjk⟩
      · refine ⟨i, Finset.mem_insert_self _ _, ?_, ?_⟩
        · rw [hrec]
          exact (congrArg Prod.fst hm).symm
        · rw [hrec]
          exact (congrArg Prod.snd hm).symm
      · obtain ⟨j, hj, hjk⟩ := ihr hR hm
        exact ⟨j, Finset.mem_insert_of_mem (Finset.mem_union_right _ hj), hjk⟩

/-- At a found key whose node has at most one non-nil child, one step of the
removal loop splices the node itself out. -/
theorem bsRemoveLoop_found_le1 {t : RBTree} {T : ATree} {F : Finset Nat}
    {C : Ctx} {cur p : Nat} {Fc Fs : Finset Nat} {c : Color} {L R : ATree} {key v : Int}
    {auxFuel fuel : Nat}
    (hsent : SentinelInv t)
    (hC : CtxRep t C cur p Fc)
    (hS : IsRep t cur p (ATree.node c L key v R) Fs)
    (hplug : C.plug (ATree.node c L key v R) = T)
    (hF : Fc ∪ Fs = F) (hdisj : Disjoint Fc Fs)
    (hone : L = ATree.nil ∨ R = ATree.nil) :
    ∃ t3 T3, bsRemoveLoop t key cur auxFuel (fuel+1) = Except.ok (cur, t3) ∧
      RemovedOk t t3 T T3 F cur key v := by
  have hT : TreeRep t T F := by
    refine ⟨hsent, ?_⟩
    have hres := hC.plug_rep hS hdisj
    rw [hplug, hF] at hres
    exact hres
  cases hS with
  | node _ _ _ _ _ _ _ li ri Fl Fr hi2 hrec hL hR hdisjS hiL hiR =>
    have hkeq : (getN t cur).key = key := by rw [hrec]
    have hveq : (getN t cur).value = v := by rw [hrec]
    have hnilcur : ¬ isNil cur := by unfold isNil nilIdx; omega
    have hcurF : cur ∈ F := by
      rw [← hF]
      exact Finset.mem_union_right _ (Finset.mem_insert_self _ _)
    have honeP : (getN t cur).left = nilIdx ∨ (getN t cur).right = nilIdx := by
      rcases hone with h0 | h0
      · subst h0
        cases hL
        left
        rw [hrec]
      · subst h0
        cases hR
        right
        rw [hrec]
    have htwoneg : ¬ (¬ isNil (getN t cur).left ∧ ¬ isNil (getN t cur).right) := by
      rcases honeP with h0 | h0
      · exact fun hcon => hcon.1 h0
      · exact fun hcon => hcon.2 h0
    obtain ⟨t3, hsplice, hgcur3, ⟨T3, pre, post, hT3, hTord, hT3ord⟩,
      hpay3, hcol3, hfr3, hlen3⟩ := remove_splice_pres hT hcurF honeP
    have hentry : entryOf t cur = (key, v) := by unfold entryOf; rw [hrec]
    refine ⟨t3, T3, ?_, hcurF, ?_, ?_, ?_, ?_, ?_, hT3, ⟨pre, post, ?_, hT3ord⟩,
      hcol3, hfr3, hlen3⟩
    · simp only [bsRemoveLoop]
      rw [if_neg hnilcur, if_pos hkeq, if_neg htwoneg]
      simp only [pure_bind]
      rw [hsplice, ok_bind]
      rfl
    · rw [hgcur3, hkeq]
    · rw [hgcur3, hveq]
    · rw [hgcur3]
    · rw [hgcur3]
    · rw [hgcur3]
    · rw [← hentry]
      exact hTord

/-- The removal descent on a represented BST holding the key terminates at
the key's node and structurally removes its entry (directly for at most one
child, via the predecessor payload swap for two children). -/
theorem bsRemoveLoop_present {t : RBTree} {T : ATree} {F : Finset Nat}
    {key v : Int} {auxFuel : Nat}
    (hsent : SentinelInv t) (hnd : (T.inorder.map Prod.fst).Nodup) (hbst : T.BST)
    (haux : T.height < auxFuel) :
    ∀ {S : ATree} {C : Ctx} {cur p : Nat} {Fc Fs : Finset Nat} {fuel : Nat},
      CtxRep t C cur p Fc → IsRep t cur p S Fs →
      C.plug S = T → Fc ∪ Fs = F → Disjoint Fc Fs →
      (key, v) ∈ S.inorder → S.height < fuel →
      ∃ rm t3 T3, bsRemoveLoop t key cur auxFuel fuel = Except.ok (rm, t3) ∧
        RemovedOk t t3 T T3 F rm key v ∧
        ∃ found, FoundAt t t3 F rm found key v auxFuel := by
  intro S
  induction S with
  | nil =>
    intro C cur p Fc Fs fuel _ _ _ _ _ hmem _
    simp [ATree.inorder] at hmem
  | node c L k v0 R ihl ihr =>
    intro C cur p Fc Fs fuel hC hS hplug hF hdisj hmem hfuel
    cases hS with
    | node _ _ _ _ _ _ _ li ri Fl Fr hi2 hrec hL hR hdisjS hiL hiR =>
      match fuel, hfuel with
      | fuel+1, hfuel =>
        have hbstS : (ATree.node c L k v0 R).BST := by
          rw [← hplug] at hbst
          exact bst_of_plug _ _ hbst
        obtain ⟨hbl, hbr, hlk, hrk⟩ := hbstS
        have hnilcur : ¬ isNil cur := by unfold isNil nilIdx; omega
        have hSle : (ATree.node c L k v0 R).height ≤ T.height := by
          rw [← hplug]
          exact height_plug_le C _
        have hcurFc : cur ∉ Fc :=
          fun hm => Finset.disjoint_left.mp hdisj hm (Finset.mem_insert_self _ _)
        have hdisjFcFl : Disjoint Fc Fl := by
          refine Finset.disjoint_left.mpr fun a ha hmem2 =>
            Finset.disjoint_left.mp hdisj ha
              (Finset.mem_insert_of_mem (Finset.mem_union_left _ hmem2))
        have hdisjFcFr : Disjoint Fc Fr := by
          refine Finset.disjoint_left.mpr fun a ha hmem2 =>
            Finset.disjoint_left.mp hdisj ha
              (Finset.mem_insert_of_mem (Finset.mem_union_right _ hmem2))
        by_cases hkc : key = k
        · subst hkc
          have hv : v = v0 := by
            simp only [ATree.inorder, List.mem_append, List.mem_cons] at hmem
            rcases hmem with hm | hm | hm
            · exact absurd (hlk _ hm) (lt_irrefl _)
            · injection hm with _ h2
            · exact absurd (hrk _ hm) (lt_irrefl _)
          subst hv
          have hcurF : cur ∈ F := by
            rw [← hF]
            exact Finset.mem_union_right _ (Finset.mem_insert_self _ _)
          by_cases hLn : L = ATree.nil
          · obtain ⟨t3, T3, hrun, hok⟩ := bsRemoveLoop_found_le1 hsent hC
              (IsRep.node cur p c L R key v li ri Fl Fr hi2 hrec hL hR hdisjS hiL hiR)
              hplug hF hdisj (Or.inl hLn)
            refine ⟨cur, t3, T3, hrun, hok, cur, hcurF, by rw [hrec], by rw [hrec],
              fun _ => rfl, fun hcon => ?_⟩
            exfalso
            apply hcon.1
            subst hLn
            cases hL
            show (getN t cur).left = nilIdx
            rw [hrec]
          · by_cases hRn : R = ATree.nil
            · obtain ⟨t3, T3, hrun, hok⟩ := bsRemoveLoop_found_le1 hsent hC
                (IsRep.node cur p c L R key v li ri Fl Fr hi2 hrec hL hR hdisjS hiL hiR)
                hplug hF hdisj (Or.inr hRn)
              refine ⟨cur, t3, T3, hrun, hok, cur, hcurF, by rw [hrec], by rw [hrec],
                fun _ => rfl, fun hcon => ?_⟩
              exfalso
              apply hcon.2
              subst hRn
              cases hR
              show (getN t cur).right = nilIdx
              rw [hrec]
            · have hpar : (getN t cur).parent = p := by rw [hrec]
              have hC2 : CtxRep t C cur (getN t cur).parent Fc := by
                rw [hpar]; exact hC
              have hS2 : IsRep t cur (getN t cur).parent
                  (ATree.node c L key v R) (insert cur (Fl ∪ Fr)) := by
                rw [hpar]
                exact IsRep.node cur p c L R key v li ri Fl Fr hi2 hrec hL hR
                  hdisjS hiL hiR
              have hfa : L.height < auxFuel := by
                have : (ATree.node c L key v R).height =
                    max L.height R.height + 1 := rfl
                omega
              obtain ⟨ip, t3, T3, pre, post, hrun, hpredr, hipF, hipcur, hipr,
                hspl, hk3, hv3, hl3, hr3, hp3, hT3, hTo, hT3o, hcol, hfr, hlen⟩ :=
                bsRemoveLoop_found_two hsent hC2 hS2 hplug hF hdisj hLn hRn hnd hfa
              refine ⟨ip, t3, T3, hrun, ⟨hipF, hk3, hv3, hl3, hr3, hp3, hT3,
                ⟨pre, post, hTo, hT3o⟩, hcol, hfr, hlen⟩, cur, hcurF,
                by rw [hrec], by rw [hrec], fun hcon => ?_, fun _ =>
                  ⟨hpredr, hipcur, hipr, hspl⟩⟩
              exfalso
              have hli2 : 2 ≤ li := hL.ne_nil_ptr hLn
              have hri2 : 2 ≤ ri := hR.ne_nil_ptr hRn
              rcases hcon with h0 | h0
              · rw [show (getN t cur).left = li from by rw [hrec]] at h0
                unfold isNil nilIdx at h0
                omega
              · rw [show (getN t cur).right = ri from by rw [hrec]] at h0
                unfold isNil nilIdx at h0
                omega
        · have hkne : ¬ (getN t cur).key = key := by
            rw [hrec]
            exact fun hcon => hkc hcon.symm
          by_cases hlt : key < k
          · have hmemL : (key, v) ∈ L.inorder := by
              simp only [ATree.inorder, List.mem_append, List.mem_cons] at hmem
              rcases hmem with hm | hm | hm
              · exact hm
              · exact absurd (show key = k from congrArg Prod.fst hm) hkc
              · exact absurd (hrk _ hm) (by omega)
            have hC' : CtxRep t (Ctx.inL C c k v0 R) li cur (insert cur (Fc ∪ Fr)) :=
              CtxRep.inL C c k v0 R cur p li ri Fc Fr hC hi2 hrec hR hdisjFcFr
                hcurFc hiR
            have hplug' : (Ctx.inL C c k v0 R).plug L = T := hplug
            have hF' : insert cur (Fc ∪ Fr) ∪ Fl = F := by
              rw [← hF]
              ext a
              simp only [Finset.mem_union, Finset.mem_insert]
              tauto
            have hdisj' : Disjoint (insert cur (Fc ∪ Fr)) Fl := by
              refine Finset.disjoint_left.mpr fun a ha hmem2 => ?_
              rcases Finset.mem_insert.mp ha with ha | ha
              · exact hiL (ha ▸ hmem2)
              · rcases Finset.mem_union.mp ha with ha | ha
                · exact Finset.disjoint_left.mp hdisjFcFl ha hmem2
                · exact Finset.disjoint_left.mp hdisjS.symm ha hmem2
            have hfl : L.height < fuel := by
              have : (ATree.node c L k v0 R).height = max L.height R.height + 1 := rfl
              omega
            obtain ⟨rm, t3, T3, hrun, hok, found, hfound⟩ :=
              ihl hC' hL hplug' hF' hdisj' hmemL hfl
            refine ⟨rm, t3, T3, ?_, hok, found, hfound⟩
            simp only [bsRemoveLoop]
            rw [if_neg hnilcur, if_neg hkne,
              if_pos (show key < (getN t cur).key by rw [hrec]; exact hlt)]
            have hlival : (getN t cur).left = li := by rw [hrec]
            rw [hlival]
            exact hrun
          · have hgt : k < key := by
              rcases lt_or_ge k key with h0 | h0
              · exact h0
              · exfalso
                rcases lt_or_eq_of_le h0 with h1 | h1
                · exact hlt h1
                · exact hkc h1
            have hmemR : (key, v) ∈ R.inorder := by
              simp only [ATree.inorder, List.mem_append, List.mem_cons] at hmem
              rcases hmem with hm | hm | hm
              · exact absurd (hlk _ hm) (by omega)
              · exact absurd (show key = k from congrArg Prod.fst hm) hkc
              · exact hm
            have hC' : CtxRep t (Ctx.inR C c k v0 L) ri cur (insert cur (Fc ∪ Fl)) :=
              CtxRep.inR C c k v0 L cur p ri li Fc Fl hC hi2 hrec hL hdisjFcFl
                hcurFc hiL
            have hplug' : (Ctx.inR C c k v0 L).plug R = T := hplug
            have hF' : insert cur (Fc ∪ Fl) ∪ Fr = F := by
              rw [← hF]
              ext a
              simp only [Finset.mem_union, Finset.mem_insert]
              tauto
            have hdisj' : Disjoint (insert cur (Fc ∪ Fl)) Fr := by
              refine Finset.disjoint_left.mpr fun a ha hmem2 => ?_
              rcases Finset.mem_insert.mp ha with ha | ha
              · exact hiR (ha ▸ hmem2)
              · rcases Finset.mem_union.mp ha with ha | ha
                · exact Finset.disjoint_left.mp hdisjFcFr ha hmem2
                · exact Finset.disjoint_left.mp hdisjS ha hmem2
            have hfr : R.height < fuel := by
              have : (ATree.node c L k v0 R).height = max L.height R.height + 1 := rfl
              omega
            obtain ⟨rm, t3, T3, hrun, hok, found, hfound⟩ :=
              ihr hC' hR hplug' hF' hdisj' hmemR hfr
            refine ⟨rm, t3, T3, ?_, hok, found, hfound⟩
            simp only [bsRemoveLoop]
            rw [if_neg hnilcur, if_neg hkne,
              if_neg (show ¬ key < (getN t cur).key by rw [hrec]; show ¬ key < k; omega)]
            have hrival : (getN t cur).right = ri := by rw [hrec]
            rw [hrival]
            exact hrun

/-- Changing only the `len` counter leaves the representation intact. -/
theorem TreeRep.with_len {t : RBTree} {T : ATree} {F : Finset Nat}
    (h : TreeRep t T F) (n : Nat) : TreeRep { t with len := n } T F := by
  refine ⟨⟨h.sentinel.nil_left, h.sentinel.nil_right, h.sentinel.nil_parent,
    h.sentinel.header_left, h.sentinel.header_parent⟩, ?_⟩
  exact h.root.frame fun j _ => rfl

/-- The distinguished element of a duplicate-free split does not occur in
the rest of the list. -/
theorem not_mem_middle {l1 l2 : List Int} {a : Int}
    (h : (l1 ++ a :: l2).Nodup) : a ∉ l1 ++ l2 := by
  rw [List.nodup_append] at h
  obtain ⟨h1, h2, hd⟩ := h
  intro hmem
  rcases List.mem_append.mp hmem with hm | hm
  · exact hd hm (List.mem_cons_self _ _)
  · exact (List.nodup_cons.mp h2).1 hm

/-- Sortedness survives deleting one entry of the list. -/
theorem sorted_drop_middle {l1 l2 : List Int} {a : Int}
    (h : (l1 ++ a :: l2).Sorted (· < ·)) : (l1 ++ l2).Sorted (· < ·) :=
  List.Pairwise.sublist (List.Sublist.append_left (List.sublist_cons_self _ _) _) h

/-- `bs_remove` on a represented BST containing the key: the structural
removal succeeds and yields `RemovedOk`. -/
theorem bs_remove_present {t : RBTree} {T : ATree} {F : Finset Nat} {key v : Int}
    {fuel : Nat} (h : TreeRep t T F) (hbst : T.BST) (hmem : (key, v) ∈ T.inorder)
    (hfuel : T.height < fuel) :
    ∃ rm t3 T3, bs_remove t key fuel = Except.ok (rm, t3) ∧
      RemovedOk t t3 T T3 F rm key v ∧
      ∃ found, FoundAt t t3 F rm found key v fuel := by
  have hnd : (T.inorder.map Prod.fst).Nodup := nodup_of_sorted (bst_sorted_keys hbst)
  obtain ⟨rm, t3, T3, hrun, hok, found, hfound⟩ :=
    bsRemoveLoop_present (t := t) h.sentinel hnd hbst hfuel
    (CtxRep.top _ rfl) h.root rfl (Finset.empty_union F) (Finset.disjoint_empty_left _) hmem hfuel
  exact ⟨rm, t3, T3, hrun, ⟨hok, found, hfound⟩⟩

/-- A successful `RBTree.remove` of a present key returns exactly the stored
value, decrements `len` by one, and leaves a represented BST whose in-order
sequence is the old one with that single entry deleted (so the key is gone). -/
theorem remove_present_pres {t : RBTree} {T : ATree} {F : Finset Nat} {key v : Int}
    {fuel : Nat} (h : TreeRep t T F) (hbst : T.BST) (hmem : (key, v) ∈ T.inorder)
    (hfuel : T.height < fuel) {t' : RBTree} {res : Option Int}
    (hok : RBTree.remove t key fuel = Except.ok (t', res)) :
    res = some v ∧ t'.len = t.len - 1 ∧ t'.fresh = t.fresh ∧
    ∃ T' F', TreeRep t' T' F' ∧ F' ⊆ F ∧ T'.BST ∧
      (∃ pre post, T.inorder = pre ++ (key, v) :: post ∧ T'.inorder = pre ++ post) ∧
      key ∉ T'.keys := by
  obtain ⟨rm, t3, T3, hrun, ⟨hrmF, hk3, hv3, hl3, hr3, hp3, hT3,
    ⟨pre, post, hTo, hT3o⟩, hcol3, hfr3, hlen3⟩, _⟩ :=
    bs_remove_present h hbst hmem hfuel
  have hnd : (T.inorder.map Prod.fst).Nodup := nodup_of_sorted (bst_sorted_keys hbst)
  have hrm2 : 2 ≤ rm := h.root.mem_ge_two rm hrmF
  have hnilrm : ¬ isNil rm := by unfold isNil nilIdx; omega
  have hsorted3 : T3.keys.Sorted (· < ·) := by
    have hs : T.keys.Sorted (· < ·) := bst_sorted_keys hbst
    have hTk : T.keys = pre.map Prod.fst ++ key :: post.map Prod.fst := by
      unfold ATree.keys
      rw [hTo]
      simp
    have h3k : T3.keys = pre.map Prod.fst ++ post.map Prod.fst := by
      unfold ATree.keys
      rw [hT3o]
      simp
    rw [h3k]
    rw [hTk] at hs
    exact sorted_drop_middle hs
  have hkey3 : key ∉ T3.keys := by
    have hTk : T.inorder.map Prod.fst = pre.map Prod.fst ++ key :: post.map Prod.fst := by
      rw [hTo]; simp
    have h3k : T3.keys = pre.map Prod.fst ++ post.map Prod.fst := by
      unfold ATree.keys
      rw [hT3o]
      simp
    rw [h3k]
    rw [hTk] at hnd
    exact not_mem_middle hnd
  have hbst3 : T3.BST := bst_of_sorted_keys hsorted3
  have hdbmem : (if ¬ isNil (getN t3 rm).left then (getN t3 rm).left
      else (getN t3 rm).right) ∈ F.erase rm ∨
      (if ¬ isNil (getN t3 rm).left then (getN t3 rm).left
      else (getN t3 rm).right) = nilIdx := by
    obtain ⟨hle, hre⟩ := h.child_mem_erase hrmF
    by_cases hcl : ¬ isNil (getN t3 rm).left
    · rw [if_pos hcl, hl3]
      exact hle
    · rw [if_neg hcl, hr3]
      exact hre
  have hparmem : (getN t3 rm).parent ∈ F.erase rm ∨ (getN t3 rm).parent = headerIdx := by
    rw [hp3]
    exact h.parent_mem_erase hrmF
  simp only [RBTree.remove] at hok
  rw [hrun, ok_bind] at hok
  have hok2 : (if isNil rm then (Except.ok (t3, none) : Except Fault (RBTree × Option Int))
      else if (getN t3 rm).color = Color.Red then
        Except.ok ({ t3 with len := t3.len - 1 }, some (getN t3 rm).value)
      else
        (remove_fixup t3 (if ¬ isNil (getN t3 rm).left then (getN t3 rm).left
            else (getN t3 rm).right) (getN t3 rm).parent fuel) >>= fun t4 =>
          Except.ok ({ t4 with len := t4.len - 1 }, some (getN t4 rm).value)) =
      Except.ok (t', res) := hok
  rw [if_neg hnilrm] at hok2
  by_cases hred : (getN t3 rm).color = Color.Red
  · rw [if_pos hred] at hok2
    cases hok2
    refine ⟨by rw [hv3], by rw [hlen3], by rw [hfr3], T3, F.erase rm,
      hT3.with_len _, Finset.erase_subset _ _, hbst3, ⟨pre, post, hTo, hT3o⟩, hkey3⟩
  · rw [if_neg hred] at hok2
    obtain ⟨t4, hfx, hok3⟩ := bind_ok_inv hok2
    cases hok3
    obtain ⟨T4, hT4, hio4, hpay4, hfr4, hlen4⟩ :=
      (remove_fixup_pres_all fuel).1 t3 t4 T3 (F.erase rm) _ _ hT3 hdbmem hparmem hfx
    refine ⟨?_, ?_, ?_, T4, F.erase rm, hT4.with_len _, Finset.erase_subset _ _, ?_, ⟨pre, post, hTo, ?_⟩, ?_⟩
    · rw [(hpay4 rm).2, hv3]
    · show t4.len - 1 = t.len - 1
      rw [hlen4, hlen3]
    · show t4.fresh = t.fresh
      rw [hfr4, hfr3]
    · have : T4.keys = T3.keys := by unfold ATree.keys; rw [hio4]
      exact bst_of_sorted_keys (this ▸ hsorted3)
    · rw [hio4, hT3o]
    · have : T4.keys = T3.keys := by unfold ATree.keys; rw [hio4]
      rw [this]
      exact hkey3

/-- Claim C4: on a represented BST containing `(key, v)`, a successful
`remove key` returns `some v` (the previously associated value), decrements
`len` by exactly one, and afterwards `search key` returns `none`: the
resulting store represents the old tree with that single entry deleted. -/
theorem claim_C4 (t : RBTree) (T : ATree) (F : Finset Nat) (key v : Int) (fuel : Nat)
    (h : TreeRep t T F) (hbst : T.BST) (hmem : (key, v) ∈ T.inorder)
    (hfuel : T.height < fuel) (t' : RBTree) (res : Option Int)
    (hok : RBTree.remove t key fuel = Except.ok (t', res)) :
    res = some v ∧ t'.len = t.len - 1 ∧
    ∃ T' F', TreeRep t' T' F' ∧ T'.BST ∧
      (∃ pre post, T.inorder = pre ++ (key, v) :: post ∧ T'.inorder = pre ++ post) ∧
      (∀ fuel2, T'.height < fuel2 → RBTree.search t' key fuel2 = Except.ok none) := by
  obtain ⟨hres, hlen, hfr, T', F', hT', _, hbst', hlists, hkey⟩ :=
    remove_present_pres h hbst hmem hfuel hok
  refine ⟨hres, hlen, T', F', hT', hbst', hlists, ?_⟩
  intro fuel2 hf2
  show searchLoop t' key (getN t' headerIdx).right fuel2 = Except.ok none
  rw [searchLoop_rep hT'.root hf2, (findEntry_eq_none_iff hbst' key).mpr hkey]

/-- Witness for claim C4 on the one-entry tree: removing key 10 returns its
value 7, empties the tree, and a following search misses. -/
theorem claim_C4_witness :
    ∃ t' res,
      RBTree.remove demoTree 10 5 = Except.ok (t', res) ∧
      (res = some (7 : Int) ∧ t'.len = demoTree.len - 1 ∧
        ∃ T' F', TreeRep t' T' F' ∧ T'.BST ∧
          (∃ pre post, (ATree.node Color.Black ATree.nil 10 7 ATree.nil).inorder =
            pre ++ ((10 : Int), (7 : Int)) :: post ∧ T'.inorder = pre ++ post) ∧
          (∀ fuel2, T'.height < fuel2 →
            RBTree.search t' 10 fuel2 = Except.ok none)) := by
  obtain ⟨t', res, hrun⟩ :
      ∃ t' res, RBTree.remove demoTree 10 5 = Except.ok (t', res) := ⟨_, _, rfl⟩
  refine ⟨t', res, hrun, claim_C4 demoTree _ {2} 10 7 5 demoTree_rep ?_ ?_ (by decide)
    t' res hrun⟩
  · exact ⟨trivial, trivial, fun e he => by simp [ATree.inorder] at he,
      fun e he => by simp [ATree.inorder] at he⟩
  · simp [ATree.inorder]

/-- Deleting one entry from a BST-ordered in-order sequence leaves a
BST-ordered tree. -/
theorem bst_of_removed {T T3 : ATree} {key v : Int} {pre post : List (Int × Int)}
    (hbst : T.BST) (hTo : T.inorder = pre ++ (key, v) :: post)
    (hT3o : T3.inorder = pre ++ post) : T3.BST := by
  have hs : T.keys.Sorted (· < ·) := bst_sorted_keys hbst
  have hTk : T.keys = pre.map Prod.fst ++ key :: post.map Prod.fst := by
    unfold ATree.keys
    rw [hTo]
    simp
  have h3k : T3.keys = pre.map Prod.fst ++ post.map Prod.fst := by
    unfold ATree.keys
    rw [hT3o]
    simp
  refine bst_of_sorted_keys ?_
  rw [h3k]
  rw [hTk] at hs
  exact sorted_drop_middle hs

/-- Claim C7: when the key's node has two non-nil children, the structural
removal locates the node, swaps only its key/value payload with its in-order
predecessor (two stores touching nothing but the two key/value fields: see
the explicit swap store below), and splices out the predecessor — a node
with no right child, hence at most one child; the result still represents a
BST-ordered tree, namely the old one minus the removed entry. -/
theorem claim_C7 (t : RBTree) (T : ATree) (F : Finset Nat) (key v : Int) (fuel : Nat)
    (h : TreeRep t T F) (hbst : T.BST) (hmem : (key, v) ∈ T.inorder)
    (hfuel : T.height < fuel)
    (htwo : ∀ j ∈ F, (getN t j).key = key →
      ¬ isNil (getN t j).left ∧ ¬ isNil (getN t j).right) :
    ∃ cur ip t3 T3,
      cur ∈ F ∧ (getN t cur).key = key ∧ (getN t cur).value = v ∧
      ¬ isNil (getN t cur).left ∧ ¬ isNil (getN t cur).right ∧
      bs_remove t key fuel = Except.ok (ip, t3) ∧
      inorder_predecessor t cur fuel = Except.ok ip ∧ ip ≠ cur ∧
      (getN t ip).right = nilIdx ∧
      remove_node_with_no_or_one_child
        (setN (setN t ip { getN t ip with key := key, value := v })
          cur { getN t cur with key := (getN t ip).key, value := (getN t ip).value }) ip
        = Except.ok t3 ∧
      TreeRep t3 T3 (F.erase ip) ∧ T3.BST ∧
      (∃ pre post, T.inorder = pre ++ (key, v) :: post ∧ T3.inorder = pre ++ post) := by
  obtain ⟨rm, t3, T3, hrun, hok, found, hfF, hfk, hfv, _, hftwo⟩ :=
    bs_remove_present h hbst hmem hfuel
  have hcxz := htwo found hfF hfk
  obtain ⟨hpred, hneq, hrnil, hspl⟩ := hftwo hcxz
  obtain ⟨hrmF, hk3, hv3, hl3, hr3, hp3, hT3, ⟨pre, post, hTo, hT3o⟩, hcol, hfr, hlen⟩ := hok
  exact ⟨found, rm, t3, T3, hfF, hfk, hfv, hcxz.1, hcxz.2, hrun, hpred, hneq, hrnil,
    hspl, hT3, bst_of_removed hbst hTo hT3o, ⟨pre, post, hTo, hT3o⟩⟩

/-- A three-entry tree (Black 5 at the root, Red 3 and Red 10 as children)
laid out at indices 2, 3, 4. -/
def demoTree3 : RBTree :=
  { store := fun j =>
      if j = headerIdx then { defaultNode with right := 2 }
      else if j = 2 then
        { key := 5, value := 50, color := Color.Black, left := 3, right := 4, parent := 1 }
      else if j = 3 then
        { key := 3, value := 30, color := Color.Red, left := 0, right := 0, parent := 2 }
      else if j = 4 then
        { key := 10, value := 100, color := Color.Red, left := 0, right := 0, parent := 2 }
      else defaultNode,
    fresh := 5, len := 3 }

theorem demoTree3_rep :
    TreeRep demoTree3
      (ATree.node Color.Black (ATree.node Color.Red ATree.nil 3 30 ATree.nil) 5 50
        (ATree.node Color.Red ATree.nil 10 100 ATree.nil))
      {2, 3, 4} := by
  have hset : (insert 2 ((insert 3 (∅ ∪ ∅) : Finset Nat) ∪ insert 4 (∅ ∪ ∅)) :
      Finset Nat) = {2, 3, 4} := by
    ext a
    simp
  refine ⟨⟨rfl, rfl, rfl, rfl, rfl⟩, ?_⟩
  rw [← hset]
  refine IsRep.node 2 headerIdx Color.Black _ _ 5 50 3 4 _ _ (by omega) rfl ?_ ?_
    (by simp) (by simp) (by simp)
  · exact IsRep.node 3 2 Color.Red ATree.nil ATree.nil 3 30 nilIdx nilIdx ∅ ∅
      (by omega) rfl (IsRep.nil 3) (IsRep.nil 3) (by simp) (by simp) (by simp)
  · exact IsRep.node 4 2 Color.Red ATree.nil ATree.nil 10 100 nilIdx nilIdx ∅ ∅
      (by omega) rfl (IsRep.nil 4) (IsRep.nil 4) (by simp) (by simp) (by simp)

/-- Witness for claim C7 on the three-entry tree: removing the root key 5
swaps payloads with the predecessor (key 3) and splices that leaf. -/
theorem claim_C7_witness :
    ∃ cur ip t3 T3,
      cur ∈ ({2, 3, 4} : Finset Nat) ∧ (getN demoTree3 cur).key = 5 ∧
      (getN demoTree3 cur).value = 50 ∧
      ¬ isNil (getN demoTree3 cur).left ∧ ¬ isNil (getN demoTree3 cur).right ∧
      bs_remove demoTree3 5 9 = Except.ok (ip, t3) ∧
      inorder_predecessor demoTree3 cur 9 = Except.ok ip ∧ ip ≠ cur ∧
      (getN demoTree3 ip).right = nilIdx ∧
      remove_node_with_no_or_one_child
        (setN (setN demoTree3 ip { getN demoTree3 ip with key := 5, value := 50 })
          cur { getN demoTree3 cur with key := (getN demoTree3 ip).key, value := (getN demoTree3 ip).value }) ip
        = Except.ok t3 ∧
      TreeRep t3 T3 (({2, 3, 4} : Finset Nat).erase ip) ∧ T3.BST ∧
      (∃ pre post,
        (ATree.node Color.Black (ATree.node Color.Red ATree.nil 3 30 ATree.nil) 5 50
          (ATree.node Color.Red ATree.nil 10 100 ATree.nil)).inorder =
            pre ++ ((5 : Int), (50 : Int)) :: post ∧ T3.inorder = pre ++ post) := by
  refine claim_C7 demoTree3 _ {2, 3, 4} 5 50 9 demoTree3_rep ?_ ?_ (by decide) ?_
  · exact ⟨⟨trivial, trivial, fun e he => by simp [ATree.inorder] at he,
      fun e he => by simp [ATree.inorder] at he⟩,
      ⟨trivial, trivial, fun e he => by simp [ATree.inorder] at he,
      fun e he => by simp [ATree.inorder] at he⟩,
      fun e he => by simp [ATree.inorder] at he; simp [he],
      fun e he => by simp [ATree.inorder] at he; simp [he]⟩
  · simp [ATree.inorder]
  · decide

/-- A rotation about the header always faults: either the header lacks the
relevant child, or the parent-position lookup at the nil sentinel fails. -/
theorem rotate_right_header {t : RBTree} (h : SentinelInv t) :
    rotate_right t headerIdx =
      Except.error (Fault.abort "node without left child cannot rotate right") := by
  unfold rotate_right
  rw [show (getN t headerIdx).left = nilIdx from h.header_left]
  rfl

theorem rotate_left_header {t : RBTree} (h : SentinelInv t) {t' : RBTree} :
    rotate_left t headerIdx ≠ Except.ok t' := by
  intro hok
  unfold rotate_left at hok
  by_cases hr : isNil (getN t headerIdx).right
  · rw [if_pos hr] at hok
    cases hok
  · rw [if_neg hr] at hok
    rw [show (getN t headerIdx).parent = nilIdx from h.header_parent] at hok
    have hpos : get_parent_node_position t nilIdx headerIdx =
        Except.error (Fault.abort "parent does not point to the child") := by
      unfold get_parent_node_position
      rw [if_neg (show ¬ isHeader nilIdx by unfold isHeader nilIdx headerIdx; omega)]
      rw [if_neg (show ¬ (getN t nilIdx).left = headerIdx by
        rw [h.nil_left]; unfold nilIdx headerIdx; omega)]
      rw [if_neg (show ¬ (getN t nilIdx).right = headerIdx by
        rw [h.nil_right]; unfold nilIdx headerIdx; omega)]
    rw [hpos] at hok
    cases hok

/-- Structural preservation of a successful `insert_fixup_straight_line`:
one rotation about the grandparent plus two recolorings (the grandparent
slot being neither nil nor the header, or the rotation faults). -/
theorem insert_fixup_straight_line_pres {t t' : RBTree} {T : ATree} {F : Finset Nat}
    {rc rp bg : Nat} {position : NodePosition}
    (h : TreeRep t T F) (hrp : rp ∈ F ∨ rp = nilIdx)
    (hbg : bg ∈ F ∨ bg = nilIdx ∨ bg = headerIdx)
    (hok : insert_fixup_straight_line t rc rp bg position = Except.ok t') :
    StructPres t t' T F := by
  unfold insert_fixup_straight_line at hok
  split at hok
  · cases hok
  · split at hok
    · cases hok
    · split at hok
      · cases hok
      · have tail : ∀ t2 : RBTree, bg ∈ F → StructPres t t2 T F →
            t' = setColor (setColor t2 bg Color.Red) rp Color.Black →
            StructPres t t' T F := by
          intro t2 hbgF sp1 ht'
          subst ht'
          obtain ⟨T2, r2, io2, pay2, f2, l2⟩ := sp1
          refine StructPres.trans' r2 io2 pay2 f2 l2 ?_
          obtain ⟨T3, r3, io3, pay3, f3, l3⟩ := setColor_sp r2 (Or.inl hbgF) Color.Red
          refine StructPres.trans' r3 io3 pay3 f3 l3 ?_
          obtain ⟨T4, r4, io4, pay4, f4, l4⟩ := setColor_sp r3 hrp Color.Black
          exact ⟨T4, r4, io4, pay4, f4, l4⟩
        cases position with
        | Left =>
          simp only [bind_ok_iff] at hok
          obtain ⟨t2, hrot, hok⟩ := hok
          have hbgF : bg ∈ F := by
            rcases hbg with hm | h0 | h1
            · exact hm
            · exfalso
              subst h0
              rw [rotate_right_nil h.sentinel] at hrot
              cases hrot
            · exfalso
              subst h1
              rw [rotate_right_header h.sentinel] at hrot
              cases hrot
          refine tail t2 hbgF (rotate_right_sp h hbgF hrot) ?_
          cases hok
          rfl
        | Right =>
          simp only [bind_ok_iff] at hok
          obtain ⟨t2, hrot, hok⟩ := hok
          have hbgF : bg ∈ F := by
            rcases hbg with hm | h0 | h1
            · exact hm
            · exfalso
              subst h0
              rw [rotate_left_nil h.sentinel] at hrot
              cases hrot
            · exfalso
              subst h1
              exact rotate_left_header h.sentinel hrot
          refine tail t2 hbgF (rotate_left_sp h hbgF hrot) ?_
          cases hok
          rfl

/-- A successful uncle lookup returns nil, or a footprint member (with the
grandparent then also a member). -/
theorem uncle_ok_facts {t : RBTree} {T : ATree} {F : Finset Nat} {rn u : Nat}
    (h : TreeRep t T F) (hrn : rn ∈ F)
    (hok : uncle t rn = Except.ok u) :
    u = nilIdx ∨ (u ∈ F ∧ (getN t (getN t rn).parent).parent ∈ F) := by
  simp only [uncle] at hok
  split at hok
  · cases hok
    exact Or.inl rfl
  · rename_i hcond
    have hparF : (getN t rn).parent ∈ F := by
      rcases h.parent_mem hrn with hm | hh
      · exact hm
      · exact absurd (Or.inr (show isHeader (getN t rn).parent from hh)) hcond
    simp only [bind_ok_iff] at hok
    obtain ⟨pos, hpos, hok⟩ := hok
    rcases get_parent_node_position_ok hpos with ⟨hgH, hposR⟩ | ⟨hgne, _⟩
    · subst hposR
      cases hok
      refine Or.inl ?_
      rw [hgH]
      exact h.sentinel.header_left
    · have hgpF : (getN t (getN t rn).parent).parent ∈ F := by
        rcases h.parent_mem hparF with hm | hh
        · exact hm
        · exact absurd hh hgne
      rcases (h.child_mem hgpF) with ⟨hlc, hrc⟩
      cases pos with
      | Left =>
        cases hok
        rcases hrc with hm | h0
        · exact Or.inr ⟨hm, hgpF⟩
        · exact Or.inl h0
      | Right =>
        cases hok
        rcases hlc with hm | h0
        · exact Or.inr ⟨hm, hgpF⟩
        · exact Or.inl h0

/-- Structural preservation of a successful `insert_fixup`: every path only
rotates at footprint members (rotations at nil or the header fault) and
recolors members or nil. -/
theorem insert_fixup_pres : ∀ (fuel : Nat) (t t' : RBTree) (T : ATree)
    (F : Finset Nat) (rn : Nat),
    TreeRep t T F → (rn ∈ F ∨ rn = nilIdx) →
    insert_fixup t rn fuel = Except.ok t' → StructPres t t' T F := by
  intro fuel
  induction fuel with
  | zero =>
    intro t t' T F rn _ _ hok
    simp only [insert_fixup] at hok
    cases hok
  | succ f ih =>
    intro t t' T F rn h hrn hok
    simp only [insert_fixup] at hok
    split at hok
    · cases hok
      exact setColor_sp h hrn Color.Black
    · rename_i hph
      split at hok
      · cases hok
        exact ⟨T, h, rfl, samePayload.refl t, rfl, rfl⟩
      · rename_i hpcol
        split at hok
        · cases hok
        · rename_i hgp
          have hrnF : rn ∈ F := by
            rcases hrn with hm | h0
            · exact hm
            · exfalso
              apply hgp
              subst h0
              show isNil (grandparent t nilIdx)
              unfold grandparent
              rw [h.sentinel.nil_parent, h.sentinel.nil_parent]
              exact rfl
          have hparF : (getN t rn).parent ∈ F := by
            rcases h.parent_mem hrnF with hm | hh
            · exact hm
            · exact absurd (show isHeader (getN t rn).parent from hh) hph
          have hbg : grandparent t rn ∈ F ∨ grandparent t rn = nilIdx ∨
              grandparent t rn = headerIdx := by
            have hx : (getN t ((getN t rn).parent)).parent ∈ F ∨
                (getN t ((getN t rn).parent)).parent = headerIdx := h.parent_mem hparF
            rcases hx with hm | hh
            · exact Or.inl hm
            · exact Or.inr (Or.inr hh)
          simp only [bind_ok_iff] at hok
          obtain ⟨u, hu, hok⟩ := hok
          have hufacts := uncle_ok_facts h hrnF hu
          split at hok
          · simp only [bind_ok_iff] at hok
            obtain ⟨gpos, hgpos, npos, hnpos, hok⟩ := hok
            split at hok
            · exact insert_fixup_straight_line_pres h (Or.inl hparF) hbg hok
            · exact insert_fixup_straight_line_pres h (Or.inl hparF) hbg hok
            · simp only [bind_ok_iff] at hok
              obtain ⟨t2, hrot, hok⟩ := hok
              obtain ⟨T2, r2, io2, pay2, f2, l2⟩ := rotate_left_sp h hparF hrot
              refine StructPres.trans' r2 io2 pay2 f2 l2 ?_
              exact insert_fixup_straight_line_pres r2 (Or.inl hrnF) hbg hok
            · simp only [bind_ok_iff] at hok
              obtain ⟨t2, hrot, hok⟩ := hok
              obtain ⟨T2, r2, io2, pay2, f2, l2⟩ := rotate_right_sp h hparF hrot
              refine StructPres.trans' r2 io2 pay2 f2 l2 ?_
              exact insert_fixup_straight_line_pres r2 (Or.inl hrnF) hbg hok
          · split at hok
            · cases hok
            · rename_i hune
              have hufacts2 : u ∈ F ∧ (getN t (getN t rn).parent).parent ∈ F := by
                rcases hufacts with h0 | hm
                · exact absurd h0 hune
                · exact hm
              obtain ⟨huF, hgpF⟩ := hufacts2
              obtain ⟨T2, r2, io2, pay2, f2, l2⟩ :=
                setColor_sp h (Or.inl hparF) Color.Black
              refine StructPres.trans' r2 io2 pay2 f2 l2 ?_
              obtain ⟨T3, r3, io3, pay3, f3, l3⟩ :=
                setColor_sp r2 (Or.inl huF) Color.Black
              refine StructPres.trans' r3 io3 pay3 f3 l3 ?_
              obtain ⟨T4, r4, io4, pay4, f4, l4⟩ :=
                setColor_sp r3 (Or.inl (show grandparent t rn ∈ F from hgpF)) Color.Red
              refine StructPres.trans' r4 io4 pay4 f4 l4 ?_
              exact ih _ t' T4 F (grandparent t rn) r4
                (Or.inl (show grandparent t rn ∈ F from hgpF)) hok

/-- `new_node` expressed as a store write on a fresh-bumped tree. -/
theorem new_node_fst (t : RBTree) (key value : Int) :
    (new_node t key value).1 = setN { t with fresh := t.fresh + 1 } t.fresh
      { key := key, value := value, color := Color.Red, left := nilIdx, right := nilIdx, parent := nilIdx } := rfl

/-- Bumping the allocation counter does not change any stored node. -/
theorem getN_fresh_bump (t : RBTree) (X j : Nat) :
    getN { t with fresh := X } j = getN t j := rfl

/-- Bumping the allocation counter keeps the sentinel links. -/
theorem SentinelInv.fresh_bump {t : RBTree} (h : SentinelInv t) (X : Nat) :
    SentinelInv { t with fresh := X } :=
  ⟨h.nil_left, h.nil_right, h.nil_parent, h.header_left, h.header_parent⟩

/-- Consistency of the `parent` / `node_position` bookkeeping of the insert
descent with the surrounding context: the hole sits in the slot named by the
position (initially the header's right slot). -/
def slotOK : Ctx → NodePosition → Prop
  | Ctx.top, NodePosition.Right => True
  | Ctx.inL _ _ _ _ _, NodePosition.Left => True
  | Ctx.inR _ _ _ _ _, NodePosition.Right => True
  | _, _ => False

set_option maxHeartbeats 1600000 in
/-- Conditional characterization of the insert descent: on an existing key
the value is replaced in place (same shape, same footprint); otherwise a new
Red leaf is linked at the hole that ended the descent, the represented
in-order list gaining `(key, value)` exactly between the entries smaller and
larger than `key`. -/
theorem bsInsertLoop_pres {t : RBTree} {T : ATree} {key value : Int}
    (hsent : SentinelInv t) (hbst : T.BST) :
    ∀ {S : ATree} {C : Ctx} {cur parent : Nat} {pos : NodePosition}
      {Fc Fs F : Finset Nat} {fuel : Nat},
      CtxRep t C cur parent Fc → IsRep t cur parent S Fs →
      C.plug S = T → Fc ∪ Fs = F → Disjoint Fc Fs →
      slotOK C pos →
      (∀ e ∈ C.leftList, e.1 < key) → (∀ e ∈ C.rightList, key < e.1) →
      (∀ j ∈ F, j < t.fresh) → 2 ≤ t.fresh →
      S.height < fuel →
      ∃ res t2, bsInsertLoop t key value parent cur pos fuel = Except.ok (res, t2) ∧
        t2.len = t.len ∧
        ((∃ oldv pre post, res = InsertResult.Old oldv ∧ t2.fresh = t.fresh ∧
            T.inorder = pre ++ (key, oldv) :: post ∧
            ∃ T2, TreeRep t2 T2 F ∧ T2.inorder = pre ++ (key, value) :: post) ∨
         (res = InsertResult.New t.fresh ∧ t2.fresh = t.fresh + 1 ∧
            ∃ pre post, T.inorder = pre ++ post ∧
              (∀ e ∈ pre, e.1 < key) ∧ (∀ e ∈ post, key < e.1) ∧
              ∃ T2, TreeRep t2 T2 (insert t.fresh F) ∧
                T2.inorder = pre ++ (key, value) :: post)) := by
  intro S
  induction S with
  | nil =>
    intro C cur parent pos Fc Fs F fuel hC hS hplug hF hdisj hslot hlt hgt hfresh hfresh2 hfuel
    cases hS
    match fuel, hfuel with
    | fuel+1, _ =>
      have hFcsub : Fc ⊆ F := by rw [← hF]; exact Finset.subset_union_left
      have hfreshF : t.fresh ∉ F := fun hm => absurd (hfresh _ hm) (lt_irrefl _)
      have hs1 : SentinelInv (new_node t key value).1 := by
        rw [new_node_fst]
        exact (hsent.fresh_bump _).write_ge2 hfresh2
      have hg1 : ∀ j, j ≠ t.fresh → getN (new_node t key value).1 j = getN t j := by
        intro j hj
        rw [new_node_fst, getN_setN_of_ne _ _ _ _ hj, getN_fresh_bump]
      have hg1f : getN (new_node t key value).1 t.fresh =
          { key := key, value := value, color := Color.Red, left := nilIdx, right := nilIdx, parent := nilIdx } := by
        rw [new_node_fst, getN_setN_self]
      cases hC with
      | top _ hroot =>
        cases pos with
        | Left => exact hslot.elim
        | Right =>
          have hh1 : headerIdx ≠ t.fresh := by unfold headerIdx; omega
          refine ⟨InsertResult.New t.fresh,
            setRight (setParent (new_node t key value).1 t.fresh headerIdx) headerIdx t.fresh,
            rfl, rfl, Or.inr ⟨rfl, rfl, Ctx.top.leftList, Ctx.top.rightList, ?_, hlt, hgt, ?_⟩⟩
          · rw [← hplug, plug_inorder]
            simp [ATree.inorder]
          · have hgA : ∀ j, j ≠ t.fresh →
                getN (setParent (new_node t key value).1 t.fresh headerIdx) j = getN t j := by
              intro j hj
              rw [getN_setParent_of_ne _ _ _ _ hj]
              exact hg1 j hj
            have hg2f : getN (setRight (setParent (new_node t key value).1 t.fresh headerIdx) headerIdx t.fresh) t.fresh =
                { key := key, value := value, color := Color.Red, left := nilIdx, right := nilIdx, parent := headerIdx } := by
              rw [getN_setRight_of_ne _ _ _ _ (Ne.symm hh1), getN_setParent_self, hg1f]
            have hC2 : CtxRep (setRight (setParent (new_node t key value).1 t.fresh headerIdx) headerIdx t.fresh)
                Ctx.top t.fresh headerIdx ∅ := by
              refine CtxRep.top t.fresh ?_
              rw [getN_setRight_self]
            have hleaf : IsRep (setRight (setParent (new_node t key value).1 t.fresh headerIdx) headerIdx t.fresh)
                t.fresh headerIdx (ATree.node Color.Red ATree.nil key value ATree.nil)
                (insert t.fresh (∅ ∪ ∅)) := by
              refine IsRep.node t.fresh headerIdx Color.Red ATree.nil ATree.nil key value
                nilIdx nilIdx ∅ ∅ hfresh2 hg2f (IsRep.nil _) (IsRep.nil _) ?_
                (Finset.not_mem_empty _) (Finset.not_mem_empty _)
              simp
            have hroot2 := hC2.plug_rep hleaf (by simp)
            have hFset : (∅ : Finset Nat) ∪ insert t.fresh (∅ ∪ ∅) = insert t.fresh F := by
              rw [← hF]
              ext a
              simp
            rw [hFset] at hroot2
            refine ⟨Ctx.top.plug (ATree.node Color.Red ATree.nil key value ATree.nil),
              ⟨?_, hroot2⟩, ?_⟩
            · exact (hs1.write_ge2 hfresh2).setRight_header
            · simp [Ctx.plug, ATree.inorder, Ctx.leftList, Ctx.rightList]
      | inL up c k v R _ pp _ ri Fup Fr hup hi2 hrec hR hdisjUF hiU hiR =>
        cases pos with
        | Right => exact hslot.elim
        | Left =>
          have hiF : parent ∈ F := hFcsub (Finset.mem_insert_self _ _)
          have hine : parent ≠ t.fresh := by have := hfresh parent hiF; omega
          have hh1 : headerIdx ≠ t.fresh := by unfold headerIdx; omega
          have hh2 : headerIdx ≠ parent := by unfold headerIdx; omega
          refine ⟨InsertResult.New t.fresh,
            setLeft (setParent (new_node t key value).1 t.fresh parent) parent t.fresh,
            rfl, rfl, Or.inr ⟨rfl, rfl, (Ctx.inL up c k v R).leftList,
              (Ctx.inL up c k v R).rightList, ?_, hlt, hgt, ?_⟩⟩
          · rw [← hplug, plug_inorder]
            simp [ATree.inorder]
          · have hgA : ∀ j, j ≠ t.fresh →
                getN (setParent (new_node t key value).1 t.fresh parent) j = getN t j := by
              intro j hj
              rw [getN_setParent_of_ne _ _ _ _ hj]
              exact hg1 j hj
            have hgt2 : ∀ j, j ≠ t.fresh → j ≠ parent →
                getN (setLeft (setParent (new_node t key value).1 t.fresh parent) parent t.fresh) j = getN t j := by
              intro j hj hji
              rw [getN_setLeft_of_ne _ _ _ _ hji]
              exact hgA j hj
            have hg2i : getN (setLeft (setParent (new_node t key value).1 t.fresh parent) parent t.fresh) parent =
                { getN t parent with left := t.fresh } := by
              rw [getN_setLeft_self, hgA parent hine]
            have hg2f : getN (setLeft (setParent (new_node t key value).1 t.fresh parent) parent t.fresh) t.fresh =
                { key := key, value := value, color := Color.Red, left := nilIdx, right := nilIdx, parent := parent } := by
              rw [getN_setLeft_of_ne _ _ _ _ (Ne.symm hine), getN_setParent_self, hg1f]
            have hC0 : CtxRep t (Ctx.inL up c k v R) nilIdx parent (insert parent (Fup ∪ Fr)) :=
              CtxRep.inL up c k v R parent pp nilIdx ri Fup Fr hup hi2 hrec hR hdisjUF hiU hiR
            have hC2 : CtxRep (setLeft (setParent (new_node t key value).1 t.fresh parent) parent t.fresh)
                (Ctx.inL up c k v R) t.fresh parent (insert parent (Fup ∪ Fr)) := by
              refine hC0.retarget t.fresh ?_ (fun h => nomatch h)
                (fun _ _ _ _ _ _ => hg2i) (fun _ _ _ _ _ h => nomatch h) ?_
              · intro j hj hji
                exact hgt2 j (by have := hfresh j (hFcsub hj); omega) hji
              · intro _
                rw [hgt2 headerIdx hh1 hh2]
            have hleaf : IsRep (setLeft (setParent (new_node t key value).1 t.fresh parent) parent t.fresh)
                t.fresh parent (ATree.node Color.Red ATree.nil key value ATree.nil)
                (insert t.fresh (∅ ∪ ∅)) := by
              refine IsRep.node t.fresh parent Color.Red ATree.nil ATree.nil key value
                nilIdx nilIdx ∅ ∅ hfresh2 hg2f (IsRep.nil _) (IsRep.nil _) ?_
                (Finset.not_mem_empty _) (Finset.not_mem_empty _)
              simp
            have hdisj2 : Disjoint (insert parent (Fup ∪ Fr)) (insert t.fresh (∅ ∪ ∅)) := by
              refine Finset.disjoint_left.mpr fun a ha hmem => ?_
              simp only [Finset.union_empty, Finset.mem_insert, Finset.not_mem_empty,
                or_false] at hmem
              rw [hmem] at ha
              exact hfreshF (hFcsub ha)
            have hroot2 := hC2.plug_rep hleaf hdisj2
            have hFset : insert parent (Fup ∪ Fr) ∪ insert t.fresh (∅ ∪ ∅) = insert t.fresh F := by
              rw [← hF]
              ext a
              simp only [Finset.mem_union, Finset.mem_insert, Finset.union_empty,
                Finset.not_mem_empty, or_false]
              tauto
            rw [hFset] at hroot2
            refine ⟨(Ctx.inL up c k v R).plug (ATree.node Color.Red ATree.nil key value ATree.nil),
              ⟨?_, hroot2⟩, ?_⟩
            · exact (hs1.write_ge2 hfresh2).write_ge2 hi2
            · rw [plug_inorder]
              simp [ATree.inorder]
      | inR up c k v L _ pp _ li Fup Fl hup hi2 hrec hL hdisjUF hiU hiL =>
        cases pos with
        | Left => exact hslot.elim
        | Right =>
          have hiF : parent ∈ F := hFcsub (Finset.mem_insert_self _ _)
          have hine : parent ≠ t.fresh := by have := hfresh parent hiF; omega
          have hh1 : headerIdx ≠ t.fresh := by unfold headerIdx; omega
          have hh2 : headerIdx ≠ parent := by unfold headerIdx; omega
          refine ⟨InsertResult.New t.fresh,
            setRight (setParent (new_node t key value).1 t.fresh parent) parent t.fresh,
            rfl, rfl, Or.inr ⟨rfl, rfl, (Ctx.inR up c k v L).leftList,
              (Ctx.inR up c k v L).rightList, ?_, hlt, hgt, ?_⟩⟩
          · rw [← hplug, plug_inorder]
            simp [ATree.inorder]
          · have hgA : ∀ j, j ≠ t.fresh →
                getN (setParent (new_node t key value).1 t.fresh parent) j = getN t j := by
              intro j hj
              rw [getN_setParent_of_ne _ _ _ _ hj]
              exact hg1 j hj
            have hgt2 : ∀ j, j ≠ t.fresh → j ≠ parent →
                getN (setRight (setParent (new_node t key value).1 t.fresh parent) parent t.fresh) j = getN t j := by
              intro j hj hji
              rw [getN_setRight_of_ne _ _ _ _ hji]
              exact hgA j hj
            have hg2i : getN (setRight (setParent (new_node t key value).1 t.fresh parent) parent t.fresh) parent =
                { getN t parent with right := t.fresh } := by
              rw [getN_setRight_self, hgA parent hine]
            have hg2f : getN (setRight (setParent (new_node t key value).1 t.fresh parent) parent t.fresh) t.fresh =
                { key := key, value := value, color := Color.Red, left := nilIdx, right := nilIdx, parent := parent } := by
              rw [getN_setRight_of_ne _ _ _ _ (Ne.symm hine), getN_setParent_self, hg1f]
            have hC0 : CtxRep t (Ctx.inR up c k v L) nilIdx parent (insert parent (Fup ∪ Fl)) :=
              CtxRep.inR up c k v L parent pp nilIdx li Fup Fl hup hi2 hrec hL hdisjUF hiU hiL
            have hC2 : CtxRep (setRight (setParent (new_node t key value).1 t.fresh parent) parent t.fresh)
                (Ctx.inR up c k v L) t.fresh parent (insert parent (Fup ∪ Fl)) := by
              refine hC0.retarget t.fresh ?_ (fun h => nomatch h)
                (fun _ _ _ _ _ h => nomatch h) (fun _ _ _ _ _ _ => hg2i) ?_
              · intro j hj hji
                exact hgt2 j (by have := hfresh j (hFcsub hj); omega) hji
              · intro _
                rw [hgt2 headerIdx hh1 hh2]
            have hleaf : IsRep (setRight (setParent (new_node t key value).1 t.fresh parent) parent t.fresh)
                t.fresh parent (ATree.node Color.Red ATree.nil key value ATree.nil)
                (insert t.fresh (∅ ∪ ∅)) := by
              refine IsRep.node t.fresh parent Color.Red ATree.nil ATree.nil key value
                nilIdx nilIdx ∅ ∅ hfresh2 hg2f (IsRep.nil _) (IsRep.nil _) ?_
                (Finset.not_mem_empty _) (Finset.not_mem_empty _)
              simp
            have hdisj2 : Disjoint (insert parent (Fup ∪ Fl)) (insert t.fresh (∅ ∪ ∅)) := by
              refine Finset.disjoint_left.mpr fun a ha hmem => ?_
              simp only [Finset.union_empty, Finset.mem_insert, Finset.not_mem_empty,
                or_false] at hmem
              rw [hmem] at ha
              exact hfreshF (hFcsub ha)
            have hroot2 := hC2.plug_rep hleaf hdisj2
            have hFset : insert parent (Fup ∪ Fl) ∪ insert t.fresh (∅ ∪ ∅) = insert t.fresh F := by
              rw [← hF]
              ext a
              simp only [Finset.mem_union, Finset.mem_insert, Finset.union_empty,
                Finset.not_mem_empty, or_false]
              tauto
            rw [hFset] at hroot2
            refine ⟨(Ctx.inR up c k v L).plug (ATree.node Color.Red ATree.nil key value ATree.nil),
              ⟨?_, hroot2⟩, ?_⟩
            · exact (hs1.write_ge2 hfresh2).write_ge2 hi2
            · rw [plug_inorder]
              simp [ATree.inorder]
  | node c L k v0 R ihl ihr =>
    intro C cur parent pos Fc Fs F fuel hC hS hplug hF hdisj hslot hlt hgt hfresh hfresh2 hfuel
    cases hS with
    | node _ _ _ _ _ _ _ li ri Fl Fr hi2 hrec hL hR hdisjS hiL hiR =>
      match fuel, hfuel with
      | fuel+1, hfuel =>
        have hbstS : (ATree.node c L k v0 R).BST := by
          rw [← hplug] at hbst
          exact bst_of_plug _ _ hbst
        obtain ⟨hbl, hbr, hlk, hrk⟩ := hbstS
        have hnilcur : ¬ isNil cur := by unfold isNil nilIdx; omega
        have hcurFc : cur ∉ Fc :=
          fun hm => Finset.disjoint_left.mp hdisj hm (Finset.mem_insert_self _ _)
        have hdisjFcFl : Disjoint Fc Fl := by
          refine Finset.disjoint_left.mpr fun a ha hmem2 =>
            Finset.disjoint_left.mp hdisj ha
              (Finset.mem_insert_of_mem (Finset.mem_union_left _ hmem2))
        have hdisjFcFr : Disjoint Fc Fr := by
          refine Finset.disjoint_left.mpr fun a ha hmem2 =>
            Finset.disjoint_left.mp hdisj ha
              (Finset.mem_insert_of_mem (Finset.mem_union_right _ hmem2))
        have hhne : headerIdx ≠ cur := by unfold headerIdx; omega
        by_cases hkc : key = k
        · subst hkc
          refine ⟨InsertResult.Old (getN t cur).value,
            setN t cur { getN t cur with value := value }, ?_, rfl, Or.inl
              ⟨(getN t cur).value, C.leftList ++ L.inorder, R.inorder ++ C.rightList,
                rfl, rfl, ?_, ?_⟩⟩
          · simp only [bsInsertLoop]
            rw [if_neg hnilcur, if_pos (show key = (getN t cur).key by rw [hrec])]
          · rw [← hplug, plug_inorder, hrec]
            simp [ATree.inorder]
          · have hagree : ∀ j, j ≠ cur →
                getN (setN t cur { getN t cur with value := value }) j = getN t j :=
              fun j hj => getN_setN_of_ne _ _ _ _ hj
            have hLrep : IsRep (setN t cur { getN t cur with value := value }) li cur L Fl :=
              hL.frame fun j hj => hagree j (fun he => hiL (he ▸ hj))
            have hRrep : IsRep (setN t cur { getN t cur with value := value }) ri cur R Fr :=
              hR.frame fun j hj => hagree j (fun he => hiR (he ▸ hj))
            have hnode : IsRep (setN t cur { getN t cur with value := value }) cur parent
                (ATree.node c L key value R) (insert cur (Fl ∪ Fr)) := by
              refine IsRep.node cur parent c L R key value li ri Fl Fr hi2 ?_ hLrep hRrep
                hdisjS hiL hiR
              rw [getN_setN_self, hrec]
            have hC2 : CtxRep (setN t cur { getN t cur with value := value }) C cur parent Fc := by
              refine hC.frame_ctx (fun j hj => hagree j (fun he => hcurFc (he ▸ hj))) ?_
              rw [hagree headerIdx hhne]
            have hroot2 := hC2.plug_rep hnode hdisj
            rw [hF] at hroot2
            refine ⟨C.plug (ATree.node c L key value R), ⟨hsent.write_ge2 hi2, hroot2⟩, ?_⟩
            rw [plug_inorder]
            simp [ATree.inorder]
        · have hkne : ¬ key = (getN t cur).key := by
            rw [hrec]
            exact hkc
          by_cases hklt : key < k
          · have hC' : CtxRep t (Ctx.inL C c k v0 R) li cur (insert cur (Fc ∪ Fr)) :=
              CtxRep.inL C c k v0 R cur parent li ri Fc Fr hC hi2 hrec hR hdisjFcFr
                hcurFc hiR
            have hplug' : (Ctx.inL C c k v0 R).plug L = T := hplug
            have hF' : insert cur (Fc ∪ Fr) ∪ Fl = F := by
              rw [← hF]
              ext a
              simp only [Finset.mem_union, Finset.mem_insert]
              tauto
            have hdisj' : Disjoint (insert cur (Fc ∪ Fr)) Fl := by
              refine Finset.disjoint_left.mpr fun a ha hmem2 => ?_
              rcases Finset.mem_insert.mp ha with ha | ha
              · exact hiL (ha ▸ hmem2)
              · rcases Finset.mem_union.mp ha with ha | ha
                · exact Finset.disjoint_left.mp hdisjFcFl ha hmem2
                · exact Finset.disjoint_left.mp hdisjS.symm ha hmem2
            have hslot' : slotOK (Ctx.inL C c k v0 R) NodePosition.Left := trivial
            have hlt' : ∀ e ∈ (Ctx.inL C c k v0 R).leftList, e.1 < key := hlt
            have hgt' : ∀ e ∈ (Ctx.inL C c k v0 R).rightList, key < e.1 := by
              intro e he
              simp only [Ctx.rightList, List.mem_append, List.mem_cons] at he
              rcases he with (he | he) | he
              · rw [he]
                exact hklt
              · have := hrk e he
                omega
              · exact hgt e he
            have hfl : L.height < fuel := by
              have : (ATree.node c L k v0 R).height = max L.height R.height + 1 := rfl
              omega
            obtain ⟨res, t2, hrun, hlen, hconc⟩ :=
              ihl hC' hL hplug' hF' hdisj' hslot' hlt' hgt' hfresh hfresh2 hfl
            refine ⟨res, t2, ?_, hlen, hconc⟩
            simp only [bsInsertLoop]
            rw [if_neg hnilcur, if_neg hkne,
              if_pos (show key < (getN t cur).key by rw [hrec]; exact hklt)]
            rw [show (getN t cur).left = li from by rw [hrec]]
            exact hrun
          · have hkgt : k < key := by
              rcases lt_or_ge k key with h0 | h0
              · exact h0
              · exfalso
                rcases lt_or_eq_of_le h0 with h1 | h1
                · exact hklt h1
                · exact hkc h1
            have hC' : CtxRep t (Ctx.inR C c k v0 L) ri cur (insert cur (Fc ∪ Fl)) :=
              CtxRep.inR C c k v0 L cur parent ri li Fc Fl hC hi2 hrec hL hdisjFcFl
                hcurFc hiL
            have hplug' : (Ctx.inR C c k v0 L).plug R = T := hplug
            have hF' : insert cur (Fc ∪ Fl) ∪ Fr = F := by
              rw [← hF]
              ext a
              simp only [Finset.mem_union, Finset.mem_insert]
              tauto
            have hdisj' : Disjoint (insert cur (Fc ∪ Fl)) Fr := by
              refine Finset.disjoint_left.mpr fun a ha hmem2 => ?_
              rcases Finset.mem_insert.mp ha with ha | ha
              · exact hiR (ha ▸ hmem2)
              · rcases Finset.mem_union.mp ha with ha | ha
                · exact Finset.disjoint_left.mp hdisjFcFr ha hmem2
                · exact Finset.disjoint_left.mp hdisjS ha hmem2
            have hslot' : slotOK (Ctx.inR C c k v0 L) NodePosition.Right := trivial
            have hlt' : ∀ e ∈ (Ctx.inR C c k v0 L).leftList, e.1 < key := by
              intro e he
              simp only [Ctx.leftList, List.mem_append, List.mem_cons,
                List.not_mem_nil, or_false] at he
              rcases he with he | he | he
              · exact hlt e he
              · have := hlk e he
                omega
              · rw [he]
                exact hkgt
            have hgt' : ∀ e ∈ (Ctx.inR C c k v0 L).rightList, key < e.1 := hgt
            have hfr : R.height < fuel := by
              have : (ATree.node c L k v0 R).height = max L.height R.height + 1 := rfl
              omega
            obtain ⟨res, t2, hrun, hlen, hconc⟩ :=
              ihr hC' hR hplug' hF' hdisj' hslot' hlt' hgt' hfresh hfresh2 hfr
            refine ⟨res, t2, ?_, hlen, hconc⟩
            simp only [bsInsertLoop]
            rw [if_neg hnilcur, if_neg hkne,
              if_neg (show ¬ key < (getN t cur).key by rw [hrec]; show ¬ key < k; omega)]
            rw [show (getN t cur).right = ri from by rw [hrec]]
            exact hrun

/-! ### Fuel monotonicity: a run that succeeds still succeeds, with the same
result, when given more fuel.  Fuel is an artifact of the embedding (the Rust
loops are unbounded), so successful results are fuel-independent. -/

theorem downRight_mono (t : RBTree) :
    ∀ (f : Nat) {cur f' x : Nat}, downRight t cur f = Except.ok x → f ≤ f' →
      downRight t cur f' = Except.ok x := by
  intro f
  induction f with
  | zero =>
    intro cur f' x h _
    simp [downRight] at h
  | succ f ih =>
    intro cur f' x h hle
    match f', hle with
    | f'+1, hle =>
      simp only [downRight] at h ⊢
      by_cases hc : isNil (getN t cur).right
      · rw [if_pos hc] at h ⊢
        exact h
      · rw [if_neg hc] at h ⊢
        exact ih h (Nat.le_of_succ_le_succ hle)

theorem downLeft_mono (t : RBTree) :
    ∀ (f : Nat) {cur f' x : Nat}, downLeft t cur f = Except.ok x → f ≤ f' →
      downLeft t cur f' = Except.ok x := by
  intro f
  induction f with
  | zero =>
    intro cur f' x h _
    simp [downLeft] at h
  | succ f ih =>
    intro cur f' x h hle
    match f', hle with
    | f'+1, hle =>
      simp only [downLeft] at h ⊢
      by_cases hc : isNil (getN t cur).left
      · rw [if_pos hc] at h ⊢
        exact h
      · rw [if_neg hc] at h ⊢
        exact ih h (Nat.le_of_succ_le_succ hle)

theorem upFromLeft_mono (t : RBTree) :
    ∀ (f : Nat) {x p f' y : Nat}, upFromLeft t x p f = Except.ok y → f ≤ f' →
      upFromLeft t x p f' = Except.ok y := by
  intro f
  induction f with
  | zero =>
    intro x p f' y h _
    simp [upFromLeft] at h
  | succ f ih =>
    intro x p f' y h hle
    match f', hle with
    | f'+1, hle =>
      simp only [upFromLeft] at h ⊢
      by_cases hc : ¬ isHeader p ∧ x = (getN t p).left
      · rw [if_pos hc] at h ⊢
        exact ih h (Nat.le_of_succ_le_succ hle)
      · rw [if_neg hc] at h ⊢
        exact h

theorem upFromRight_mono (t : RBTree) :
    ∀ (f : Nat) {x p f' y : Nat}, upFromRight t x p f = Except.ok y → f ≤ f' →
      upFromRight t x p f' = Except.ok y := by
  intro f
  induction f with
  | zero =>
    intro x p f' y h _
    simp [upFromRight] at h
  | succ f ih =>
    intro x p f' y h hle
    match f', hle with
    | f'+1, hle =>
      simp only [upFromRight] at h ⊢
      by_cases hc : ¬ isHeader p ∧ x = (getN t p).right
      · rw [if_pos hc] at h ⊢
        exact ih h (Nat.le_of_succ_le_succ hle)
      · rw [if_neg hc] at h ⊢
        exact h

theorem inorder_predecessor_mono {t : RBTree} {node f f' x : Nat}
    (h : inorder_predecessor t node f = Except.ok x) (hle : f ≤ f') :
    inorder_predecessor t node f' = Except.ok x := by
  simp only [inorder_predecessor] at h ⊢
  by_cases hc : isNil (getN t node).left
  · rw [if_pos hc] at h ⊢
    exact upFromLeft_mono t _ h hle
  · rw [if_neg hc] at h ⊢
    exact downRight_mono t _ h hle

theorem inorder_successor_mono {t : RBTree} {node f f' x : Nat}
    (h : inorder_successor t node f = Except.ok x) (hle : f ≤ f') :
    inorder_successor t node f' = Except.ok x := by
  simp only [inorder_successor] at h ⊢
  by_cases hc : isNil (getN t node).right
  · rw [if_pos hc] at h ⊢
    exact upFromRight_mono t _ h hle
  · rw [if_neg hc] at h ⊢
    exact downLeft_mono t _ h hle

theorem bsInsertLoop_mono (t : RBTree) (key value : Int) :
    ∀ (f : Nat) {parent cur : Nat} {pos : NodePosition} {f' : Nat}
      {x : InsertResult × RBTree},
      bsInsertLoop t key value parent cur pos f = Except.ok x → f ≤ f' →
      bsInsertLoop t key value parent cur pos f' = Except.ok x := by
  intro f
  induction f with
  | zero =>
    intro parent cur pos f' x h _
    simp [bsInsertLoop] at h
  | succ f ih =>
    intro parent cur pos f' x h hle
    match f', hle with
    | f'+1, hle =>
      simp only [bsInsertLoop] at h ⊢
      by_cases hc : isNil cur
      · rw [if_pos hc] at h ⊢
        exact h
      · rw [if_neg hc] at h ⊢
        by_cases hk : key = (getN t cur).key
        · rw [if_pos hk] at h ⊢
          exact h
        · rw [if_neg hk] at h ⊢
          by_cases hlt : key < (getN t cur).key
          · rw [if_pos hlt] at h ⊢
            exact ih h (Nat.le_of_succ_le_succ hle)
          · rw [if_neg hlt] at h ⊢
            exact ih h (Nat.le_of_succ_le_succ hle)

theorem bs_insert_mono {t : RBTree} {key value : Int} {f f' : Nat}
    {x : InsertResult × RBTree}
    (h : bs_insert t key value f = Except.ok x) (hle : f ≤ f') :
    bs_insert t key value f' = Except.ok x :=
  bsInsertLoop_mono t key value f h hle

theorem iterList_mono (t : RBTree) :
    ∀ (f : Nat) {ptr aux aux' f' : Nat} {l : List (Int × Int)},
      iterList t ptr aux f = Except.ok l → aux ≤ aux' → f ≤ f' →
      iterList t ptr aux' f' = Except.ok l := by
  intro f
  induction f with
  | zero =>
    intro ptr aux aux' f' l h _ _
    simp [iterList] at h
  | succ f ih =>
    intro ptr aux aux' f' l h hauxle hle
    match f', hle with
    | f'+1, hle =>
      simp only [iterList] at h ⊢
      by_cases hc : isNil ptr
      · rw [if_pos hc] at h ⊢
        exact h
      · rw [if_neg hc] at h ⊢
        simp only [bind_ok_iff] at h ⊢
        obtain ⟨nxt, hnxt, rest, hrest, h⟩ := h
        exact ⟨nxt, inorder_successor_mono hnxt hauxle, rest,
          ih hrest hauxle (Nat.le_of_succ_le_succ hle), h⟩

theorem iterEntries_mono {t : RBTree} {f f' : Nat} {l : List (Int × Int)}
    (h : RBTree.iterEntries t f = Except.ok l) (hle : f ≤ f') :
    RBTree.iterEntries t f' = Except.ok l := by
  simp only [RBTree.iterEntries, bind_ok_iff] at h ⊢
  obtain ⟨first, hfirst, h⟩ := h
  exact ⟨first, inorder_successor_mono hfirst hle, iterList_mono t f h hle hle⟩

theorem bsRemoveLoop_mono (t : RBTree) (key : Int) :
    ∀ (f : Nat) {cur aux aux' f' : Nat} {x : Nat × RBTree},
      bsRemoveLoop t key cur aux f = Except.ok x → aux ≤ aux' → f ≤ f' →
      bsRemoveLoop t key cur aux' f' = Except.ok x := by
  intro f
  induction f with
  | zero =>
    intro cur aux aux' f' x h _ _
    simp [bsRemoveLoop] at h
  | succ f ih =>
    intro cur aux aux' f' x h hauxle hle
    match f', hle with
    | f'+1, hle =>
      simp only [bsRemoveLoop] at h ⊢
      by_cases hc : isNil cur
      · rw [if_pos hc] at h ⊢
        exact h
      · rw [if_neg hc] at h ⊢
        by_cases hk : (getN t cur).key = key
        · rw [if_pos hk] at h ⊢
          by_cases htwo : ¬ isNil (getN t cur).left ∧ ¬ isNil (getN t cur).right
          · rw [if_pos htwo] at h ⊢
            rcases bind_ok_inv h with ⟨ip, hip, htail⟩
            exact bind_ok_iff.mpr ⟨ip, inorder_predecessor_mono hip hauxle, htail⟩
          · rw [if_neg htwo] at h ⊢
            exact h
        · rw [if_neg hk] at h ⊢
          by_cases hlt : key < (getN t cur).key
          · rw [if_pos hlt] at h ⊢
            exact ih h hauxle (Nat.le_of_succ_le_succ hle)
          · rw [if_neg hlt] at h ⊢
            exact ih h hauxle (Nat.le_of_succ_le_succ hle)

theorem bs_remove_mono {t : RBTree} {key : Int} {f f' : Nat} {x : Nat × RBTree}
    (h : bs_remove t key f = Except.ok x) (hle : f ≤ f') :
    bs_remove t key f' = Except.ok x :=
  bsRemoveLoop_mono t key f h hle hle

theorem remove_fixup_mono_all : ∀ f : Nat,
    (∀ {t : RBTree} {db par f' : Nat} {x : RBTree},
      remove_fixup t db par f = Except.ok x → f ≤ f' →
      remove_fixup t db par f' = Except.ok x) ∧
    (∀ {t : RBTree} {db par f' : Nat} {x : RBTree},
      remove_fixup_black_sibling t db par f = Except.ok x → f ≤ f' →
      remove_fixup_black_sibling t db par f' = Except.ok x) := by
  intro f
  induction f with
  | zero =>
    constructor
    · intro t db par f' x h _
      simp only [remove_fixup] at h
      cases h
    · intro t db par f' x h _
      simp only [remove_fixup_black_sibling] at h
      cases h
  | succ f ih =>
    obtain ⟨ihA, ihB⟩ := ih
    constructor
    · intro t db par f' x h hle
      match f', hle with
      | f'+1, hle =>
        have hle' := Nat.le_of_succ_le_succ hle
        simp only [remove_fixup] at h ⊢
        split at h
        · rename_i hterm
          rw [if_pos hterm]
          exact h
        · rename_i hterm
          rw [if_neg hterm]
          rcases bind_ok_inv h with ⟨sib, hsib, h⟩
          refine bind_ok_iff.mpr ⟨sib, hsib, ?_⟩
          split at h
          · cases h
          · rename_i hs0
            rw [if_neg hs0]
            split at h
            · exact ihB h hle'
            · rcases bind_ok_inv h with ⟨pos, hpos, h⟩
              refine bind_ok_iff.mpr ⟨pos, hpos, ?_⟩
              cases pos with
              | Left =>
                rcases bind_ok_inv h with ⟨t2, hrot, h⟩
                refine bind_ok_iff.mpr ⟨t2, hrot, ?_⟩
                rcases bind_ok_inv h with ⟨ns, hns, h⟩
                refine bind_ok_iff.mpr ⟨ns, hns, ?_⟩
                split at h
                · cases h
                · rename_i hblk
                  rw [if_neg hblk]
                  exact ihB h hle'
              | Right =>
                rcases bind_ok_inv h with ⟨t2, hrot, h⟩
                refine bind_ok_iff.mpr ⟨t2, hrot, ?_⟩
                rcases bind_ok_inv h with ⟨ns, hns, h⟩
                refine bind_ok_iff.mpr ⟨ns, hns, ?_⟩
                split at h
                · cases h
                · rename_i hblk
                  rw [if_neg hblk]
                  exact ihB h hle'
    · intro t db par f' x h hle
      match f', hle with
      | f'+1, hle =>
        have hle' := Nat.le_of_succ_le_succ hle
        simp only [remove_fixup_black_sibling] at h ⊢
        rcases bind_ok_inv h with ⟨sib, hsib, h⟩
        refine bind_ok_iff.mpr ⟨sib, hsib, ?_⟩
        rcases bind_ok_inv h with ⟨pos, hpos, h⟩
        refine bind_ok_iff.mpr ⟨pos, hpos, ?_⟩
        cases pos with
        | Left =>
          simp only [pure_bind] at h ⊢
          split at h
          · exact ihA h hle'
          · exact h
          · exact h
        | Right =>
          simp only [pure_bind] at h ⊢
          split at h
          · exact ihA h hle'
          · exact h
          · exact h

theorem remove_mono {t : RBTree} {key : Int} {f f' : Nat} {x : RBTree × Option Int}
    (h : RBTree.remove t key f = Except.ok x) (hle : f ≤ f') :
    RBTree.remove t key f' = Except.ok x := by
  simp only [RBTree.remove] at h ⊢
  rcases bind_ok_inv h with ⟨a, hbs, h⟩
  obtain ⟨rm, t1⟩ := a
  refine bind_ok_iff.mpr ⟨(rm, t1), bs_remove_mono hbs hle, ?_⟩
  have h' : (if isNil rm then (pure (t1, none) : Except Fault (RBTree × Option Int))
      else if (getN t1 rm).color = Color.Red then
        pure ({ t1 with len := t1.len - 1 }, some (getN t1 rm).value)
      else
        remove_fixup t1
            (if ¬ isNil (getN t1 rm).left then (getN t1 rm).left else (getN t1 rm).right)
            (getN t1 rm).parent f >>= fun t2 =>
          pure ({ t2 with len := t2.len - 1 }, some (getN t2 rm).value)) =
      Except.ok x := h
  show (if isNil rm then (pure (t1, none) : Except Fault (RBTree × Option Int))
      else if (getN t1 rm).color = Color.Red then
        pure ({ t1 with len := t1.len - 1 }, some (getN t1 rm).value)
      else
        remove_fixup t1
            (if ¬ isNil (getN t1 rm).left then (getN t1 rm).left else (getN t1 rm).right)
            (getN t1 rm).parent f' >>= fun t2 =>
          pure ({ t2 with len := t2.len - 1 }, some (getN t2 rm).value)) =
      Except.ok x
  by_cases h0 : isNil rm
  · rw [if_pos h0] at h' ⊢
    exact h'
  · rw [if_neg h0] at h' ⊢
    by_cases h1 : (getN t1 rm).color = Color.Red
    · rw [if_pos h1] at h' ⊢
      exact h'
    · rw [if_neg h1] at h' ⊢
      rcases bind_ok_inv h' with ⟨t2, hfx, htail⟩
      exact bind_ok_iff.mpr ⟨t2, (remove_fixup_mono_all f).1 hfx hle, htail⟩

/-- Inserting an element strictly between two sorted halves keeps the list
sorted. -/
theorem sorted_insert_middle {l1 l2 : List Int} {a : Int}
    (h : (l1 ++ l2).Sorted (· < ·))
    (h1 : ∀ x ∈ l1, x < a) (h2 : ∀ x ∈ l2, a < x) :
    (l1 ++ a :: l2).Sorted (· < ·) := by
  rw [List.Sorted, List.pairwise_append] at h ⊢
  obtain ⟨hp1, hp2, hcross⟩ := h
  refine ⟨hp1, List.pairwise_cons.mpr ⟨h2, hp2⟩, ?_⟩
  intro x hx y hy
  rcases List.mem_cons.mp hy with hy | hy
  · rw [hy]
    exact h1 x hx
  · exact hcross x hx y hy

/-- A successful `RBTree.insert` on a well-formed store leaves a well-formed
store: some BST-ordered tree is represented afterwards, and the allocation
counter still bounds the footprint. -/
theorem insert_pres {t : RBTree} {T : ATree} {F : Finset Nat} {key value : Int}
    {fuel : Nat} (h : TreeRep t T F) (hbst : T.BST)
    (hfresh : ∀ j ∈ F, j < t.fresh) (hfresh2 : 2 ≤ t.fresh)
    {t' : RBTree} {res : Option Int}
    (hok : RBTree.insert t key value fuel = Except.ok (t', res)) :
    ∃ T' F', TreeRep t' T' F' ∧ T'.BST ∧ (∀ j ∈ F', j < t'.fresh) ∧ 2 ≤ t'.fresh := by
  obtain ⟨res2, t2, hrun, hlen, hconc⟩ :=
    bsInsertLoop_pres h.sentinel hbst
      (CtxRep.top _ rfl) h.root rfl (Finset.empty_union F)
      (Finset.disjoint_empty_left F)
      (show slotOK Ctx.top NodePosition.Right from trivial)
      (fun e he => absurd he (List.not_mem_nil e))
      (fun e he => absurd he (List.not_mem_nil e))
      hfresh hfresh2 (Nat.lt_succ_self T.height)
  simp only [RBTree.insert] at hok
  rcases bind_ok_inv hok with ⟨a, hbs, hok⟩
  obtain ⟨ir, t1⟩ := a
  have hrun0 : bs_insert t key value (T.height + 1) = Except.ok (res2, t2) := hrun
  have hbs' : bs_insert t key value (max fuel (T.height + 1)) = Except.ok (ir, t1) :=
    bs_insert_mono hbs (le_max_left _ _)
  have hrun' : bs_insert t key value (max fuel (T.height + 1)) = Except.ok (res2, t2) :=
    bs_insert_mono hrun0 (le_max_right _ _)
  have heq := hbs'.symm.trans hrun'
  injection heq with heq
  injection heq with hi ht
  subst hi
  subst ht
  rcases hconc with ⟨oldv, pre, post, hres, hfr, hTo, T2, hrep2, hT2o⟩ |
    ⟨hres, hfr, pre, post, hTo, hpre, hpost, T2, hrep2, hT2o⟩
  · subst hres
    cases hok
    refine ⟨T2, F, hrep2, ?_, ?_, ?_⟩
    · refine bst_of_sorted_keys ?_
      have hkeys : T2.keys = T.keys := by
        unfold ATree.keys
        rw [hT2o, hTo]
        simp
      rw [hkeys]
      exact bst_sorted_keys hbst
    · rw [hfr]
      exact hfresh
    · rw [hfr]
      exact hfresh2
  · subst hres
    rcases bind_ok_inv hok with ⟨t3, hfx, hok⟩
    cases hok
    have hmemN : t.fresh ∈ insert t.fresh F := Finset.mem_insert_self _ _
    have hbst2 : T2.BST := by
      refine bst_of_sorted_keys ?_
      have hkeys : T2.keys = pre.map Prod.fst ++ key :: post.map Prod.fst := by
        unfold ATree.keys
        rw [hT2o]
        simp
      rw [hkeys]
      refine sorted_insert_middle ?_ ?_ ?_
      · have hkeys0 : T.keys = pre.map Prod.fst ++ post.map Prod.fst := by
          unfold ATree.keys
          rw [hTo]
          simp
        rw [← hkeys0]
        exact bst_sorted_keys hbst
      · intro x hx
        obtain ⟨e, he, hek⟩ := List.mem_map.mp hx
        rw [← hek]
        exact hpre e he
      · intro x hx
        obtain ⟨e, he, hek⟩ := List.mem_map.mp hx
        rw [← hek]
        exact hpost e he
    obtain ⟨T3, hrep3, hio3, _, hfr3, _⟩ :=
      insert_fixup_pres fuel t1 t3 T2 (insert t.fresh F) t.fresh hrep2
        (Or.inl hmemN) hfx
    refine ⟨T3, insert t.fresh F, hrep3.with_len _, ?_, ?_, ?_⟩
    · refine bst_of_sorted_keys ?_
      have hkeys : T3.keys = T2.keys := by
        unfold ATree.keys
        rw [hio3]
      rw [hkeys]
      exact bst_sorted_keys hbst2
    · intro j hj
      show j < t3.fresh
      rw [hfr3, hfr]
      rcases Finset.mem_insert.mp hj with hj | hj
      · omega
      · have := hfresh j hj
        omega
    · show 2 ≤ t3.fresh
      rw [hfr3, hfr]
      omega

/-- A successful `RBTree.remove` on a well-formed store leaves a well-formed
store (whether or not the key was present). -/
theorem remove_pres {t : RBTree} {T : ATree} {F : Finset Nat} {key : Int}
    {fuel : Nat} (h : TreeRep t T F) (hbst : T.BST)
    (hfresh : ∀ j ∈ F, j < t.fresh) (hfresh2 : 2 ≤ t.fresh)
    {t' : RBTree} {res : Option Int}
    (hok : RBTree.remove t key fuel = Except.ok (t', res)) :
    ∃ T' F', TreeRep t' T' F' ∧ T'.BST ∧ (∀ j ∈ F', j < t'.fresh) ∧ 2 ≤ t'.fresh := by
  have hok' : RBTree.remove t key (max fuel (T.height + 1)) = Except.ok (t', res) :=
    remove_mono hok (le_max_left _ _)
  have hfuelb : T.height < max fuel (T.height + 1) :=
    lt_of_lt_of_le (Nat.lt_succ_self _) (le_max_right _ _)
  by_cases hmem : key ∈ T.keys
  · obtain ⟨e, he, hek⟩ := mem_keys_iff.mp hmem
    obtain ⟨k0, v0⟩ := e
    have hek' : k0 = key := hek
    subst hek'
    obtain ⟨_, _, hfr, T', F', hrep', hsub, hbst', _, _⟩ :=
      remove_present_pres h hbst he hfuelb hok'
    refine ⟨T', F', hrep', hbst', ?_, ?_⟩
    · intro j hj
      rw [hfr]
      exact hfresh j (hsub hj)
    · rw [hfr]
      exact hfresh2
  · have hnone : findEntry key T = none := (findEntry_eq_none_iff hbst key).mpr hmem
    have hsl : searchLoop t key (getN t headerIdx).right (max fuel (T.height + 1)) =
        Except.ok none := by
      have hx : searchLoop t key (getN t headerIdx).right (max fuel (T.height + 1)) =
          Except.ok (findEntry key T) := searchLoop_rep h.root hfuelb
      rw [hnone] at hx
      exact hx
    have hbs : bs_remove t key (max fuel (T.height + 1)) = Except.ok (nilIdx, t) :=
      searchLoop_none_bsRemoveLoop t key _ _ _ hsl
    simp only [RBTree.remove] at hok'
    rcases bind_ok_inv hok' with ⟨a, hbs2, hok'⟩
    have heq := hbs2.symm.trans hbs
    injection heq with heq
    rw [heq] at hok'
    have hok2 : Except.ok (t, none) = Except.ok (t', res) := hok'
    injection hok2 with hok2
    injection hok2 with h3 h4
    rw [← h3]
    exact ⟨T, F, h, hbst, hfresh, hfresh2⟩

/-- The well-formedness preserved by every operation: some BST-ordered tree is
represented, and every footprint index is below the allocation counter. -/
def GoodTree (t : RBTree) : Prop :=
  ∃ T F, TreeRep t T F ∧ T.BST ∧ (∀ j ∈ F, j < t.fresh) ∧ 2 ≤ t.fresh

/-- Trees reachable from `RBTree::new` by arbitrary sequences of successful
`insert` and `remove` operations. -/
inductive Reached : RBTree → Prop where
  | new : Reached RBTree.new
  | insert {t t' : RBTree} {key value : Int} {fuel : Nat} {res : Option Int} :
      Reached t → RBTree.insert t key value fuel = Except.ok (t', res) → Reached t'
  | remove {t t' : RBTree} {key : Int} {fuel : Nat} {res : Option Int} :
      Reached t → RBTree.remove t key fuel = Except.ok (t', res) → Reached t'

theorem goodTree_new : GoodTree RBTree.new := by
  refine ⟨ATree.nil, ∅, ⟨⟨rfl, rfl, rfl, rfl, rfl⟩, ?_⟩, trivial, ?_, ?_⟩
  · exact IsRep.nil _
  · intro j hj
    exact absurd hj (Finset.not_mem_empty j)
  · exact le_refl 2

/-- Every reachable tree is well-formed. -/
theorem reached_good {t : RBTree} (h : Reached t) : GoodTree t := by
  induction h with
  | new => exact goodTree_new
  | insert _ hok ih =>
    obtain ⟨T, F, hrep, hbst, hfresh, hfresh2⟩ := ih
    exact insert_pres hrep hbst hfresh hfresh2 hok
  | remove _ hok ih =>
    obtain ⟨T, F, hrep, hbst, hfresh, hfresh2⟩ := ih
    exact remove_pres hrep hbst hfresh hfresh2 hok

/-- Correctness of the successor-walking loop: starting from the node holding
the first entry of the remaining in-order suffix, the iterator yields exactly
that suffix. -/
theorem iterList_walk {t : RBTree} {T : ATree} {F : Finset Nat}
    (h : TreeRep t T F) (hbst : T.BST) :
    ∀ (post : List (Int × Int)) {j : Nat} {init : List (Int × Int)}
      {auxFuel fuel : Nat},
      j ∈ F → T.inorder = init ++ entryOf t j :: post →
      T.height < auxFuel → post.length + 1 < fuel →
      iterList t j auxFuel fuel = Except.ok (entryOf t j :: post) := by
  have hnd : (T.inorder.map Prod.fst).Nodup := nodup_of_sorted (bst_sorted_keys hbst)
  intro post
  induction post with
  | nil =>
    intro j init auxFuel fuel hjF hsplit haux hfuel
    obtain ⟨C, S, Fc, Fs, hC, hS, hplug, hF, hdisj, hbound, c, L, k, v, R, hnode⟩ :=
      h.decompose j hjF
    subst hnode
    cases hS with
    | node _ _ _ _ _ _ _ li ri Fl Fr hi2 hrec hL hR hdisjS hiL hiR =>
      have hS2 : IsRep t j (getN t j).parent (ATree.node c L k v R)
          (insert j (Fl ∪ Fr)) :=
        IsRep.node j _ c L R k v li ri Fl Fr hi2 hrec hL hR hdisjS hiL hiR
      have hentry : entryOf t j = (k, v) := by
        unfold entryOf
        rw [hrec]
      have hTo : T.inorder =
          (C.leftList ++ L.inorder) ++ entryOf t j :: (R.inorder ++ C.rightList) := by
        rw [← hplug, plug_inorder, hentry]
        simp [ATree.inorder]
      obtain ⟨_, _, hpost⟩ := split_unique hnd hsplit hTo rfl
      obtain ⟨j', hsucc, hcase⟩ :=
        inorder_successor_rep hC hS2 hdisj
          (show (ATree.node c L k v R).height + C.depth < auxFuel by omega)
      rcases hcase with ⟨hempty, hj'⟩ | ⟨rest, hr, _⟩
      · subst hj'
        have hjnil : ¬ isNil j := by unfold isNil nilIdx; omega
        obtain ⟨f0, rfl⟩ : ∃ f0, fuel = f0 + 1 := ⟨fuel - 1, by omega⟩
        obtain ⟨f1, rfl⟩ : ∃ f1, f0 = f1 + 1 := ⟨f0 - 1, by omega⟩
        simp only [iterList]
        rw [if_neg hjnil, hsucc]
        simp only [ok_bind]
        rw [if_pos (show isNil nilIdx from rfl)]
        simp only [ok_bind]
        rfl
      · exfalso
        rw [← hpost] at hr
        cases hr
  | cons e post' ih =>
    intro j init auxFuel fuel hjF hsplit haux hfuel
    obtain ⟨C, S, Fc, Fs, hC, hS, hplug, hF, hdisj, hbound, c, L, k, v, R, hnode⟩ :=
      h.decompose j hjF
    subst hnode
    cases hS with
    | node _ _ _ _ _ _ _ li ri Fl Fr hi2 hrec hL hR hdisjS hiL hiR =>
      have hS2 : IsRep t j (getN t j).parent (ATree.node c L k v R)
          (insert j (Fl ∪ Fr)) :=
        IsRep.node j _ c L R k v li ri Fl Fr hi2 hrec hL hR hdisjS hiL hiR
      have hentry : entryOf t j = (k, v) := by
        unfold entryOf
        rw [hrec]
      have hTo : T.inorder =
          (C.leftList ++ L.inorder) ++ entryOf t j :: (R.inorder ++ C.rightList) := by
        rw [← hplug, plug_inorder, hentry]
        simp [ATree.inorder]
      obtain ⟨_, _, hpost⟩ := split_unique hnd hsplit hTo rfl
      obtain ⟨j', hsucc, hcase⟩ :=
        inorder_successor_rep hC hS2 hdisj
          (show (ATree.node c L k v R).height + C.depth < auxFuel by omega)
      rcases hcase with ⟨hempty, _⟩ | ⟨rest, hr, hj'F⟩
      · exfalso
        rw [← hpost] at hempty
        cases hempty
      · rw [← hpost] at hr
        injection hr with he hrest
        have hj'F2 : j' ∈ F := by
          rw [← hF]
          exact hj'F
        have hjnil : ¬ isNil j := by unfold isNil nilIdx; omega
        obtain ⟨f0, rfl⟩ : ∃ f0, fuel = f0 + 1 := ⟨fuel - 1, by omega⟩
        have hsplit' : T.inorder =
            (init ++ [entryOf t j]) ++ entryOf t j' :: post' := by
          rw [hsplit, he, hrest]
          simp
        have hrec2 := ih hj'F2 hsplit' haux
          (show post'.length + 1 < f0 by
            have : (e :: post').length = post'.length + 1 := rfl
            omega)
        simp only [iterList]
        rw [if_neg hjnil, hsucc]
        simp only [ok_bind]
        rw [hrec2]
        simp only [ok_bind]
        rw [he, hrest]
        rfl

/-- Complete correctness of in-order iteration over a represented tree: with
enough fuel the iterator returns exactly the represented in-order entry
sequence. -/
theorem iterEntries_correct {t : RBTree} {T : ATree} {F : Finset Nat}
    (h : TreeRep t T F) (hbst : T.BST) {fuel : Nat}
    (hf1 : T.height < fuel) (hf2 : T.inorder.length < fuel) :
    RBTree.iterEntries t fuel = Except.ok T.inorder := by
  cases T with
  | nil =>
    have hroot : (getN t headerIdx).right = nilIdx := by
      have hinv : ∀ {i p : Nat} {F0 : Finset Nat},
          IsRep t i p ATree.nil F0 → i = nilIdx := by
        intro i p F0 hh
        cases hh
        rfl
      exact hinv h.root
    obtain ⟨f0, rfl⟩ : ∃ f0, fuel = f0 + 1 := ⟨fuel - 1, by omega⟩
    have hfirst : iterFirst t (f0+1) = Except.ok nilIdx := by
      unfold iterFirst
      simp only [inorder_successor]
      rw [if_pos (show isNil (getN t headerIdx).right from hroot),
        h.sentinel.header_parent]
      simp only [upFromRight]
      rw [if_neg, if_neg]
      · show ¬ isHeader nilIdx
        unfold isHeader headerIdx nilIdx
        omega
      · intro hcon
        have hc2 := hcon.2
        rw [h.sentinel.nil_right] at hc2
        unfold headerIdx nilIdx at hc2
        omega
    simp only [RBTree.iterEntries]
    rw [hfirst]
    simp only [ok_bind]
    simp only [iterList]
    rw [if_pos (show isNil nilIdx from rfl)]
    rfl
  | node c L k v R =>
    have hroot := h.root
    have hr2 : 2 ≤ (getN t headerIdx).right :=
      hroot.ne_nil_ptr (by intro hcon; cases hcon)
    obtain ⟨j, rest, hdl, hjF, _, hTo⟩ := downLeft_rep hroot hf1
    have hfirst : iterFirst t fuel = Except.ok j := by
      unfold iterFirst
      simp only [inorder_successor]
      rw [if_neg (show ¬ isNil (getN t headerIdx).right by unfold isNil nilIdx; omega)]
      exact hdl
    have hTo' : (ATree.node c L k v R).inorder = [] ++ entryOf t j :: rest := by
      rw [hTo]
      rfl
    have hwalk := iterList_walk h hbst rest hjF hTo' hf1
      (show rest.length + 1 < fuel by
        have hlen : (ATree.node c L k v R).inorder.length = rest.length + 1 := by
          rw [hTo, List.length_cons]
        omega)
    simp only [RBTree.iterEntries]
    rw [hfirst]
    simp only [ok_bind]
    rw [hwalk, hTo]

/-- C5: at every point in the tree's life — that is, on any tree reachable
from `RBTree::new` by an arbitrary sequence of successful `insert` and
`remove` operations — in-order iteration (produced by repeated
successor-walking starting from the leftmost node, as `iter`/`iter_mut`/
`into_iter` do) yields the stored keys in strictly ascending order. -/
theorem claim_C5 {t : RBTree} (hreach : Reached t) {fuel : Nat}
    {l : List (Int × Int)}
    (hrun : RBTree.iterEntries t fuel = Except.ok l) :
    (l.map Prod.fst).Sorted (· < ·) := by
  obtain ⟨T, F, hrep, hbst, _, _⟩ := reached_good hreach
  have hbig : RBTree.iterEntries t
      (max fuel (max (T.height + 1) (T.inorder.length + 1))) = Except.ok l :=
    iterEntries_mono hrun (le_max_left _ _)
  have hh : T.height < max fuel (max (T.height + 1) (T.inorder.length + 1)) :=
    lt_of_lt_of_le (lt_of_lt_of_le (Nat.lt_succ_self _) (le_max_left _ _))
      (le_max_right _ _)
  have hl : T.inorder.length < max fuel (max (T.height + 1) (T.inorder.length + 1)) :=
    lt_of_lt_of_le (lt_of_lt_of_le (Nat.lt_succ_self _) (le_max_right _ _))
      (le_max_right _ _)
  have hchar := iterEntries_correct hrep hbst hh hl
  have heq := hbig.symm.trans hchar
  injection heq with heq
  rw [heq]
  exact bst_sorted_keys hbst

/-- Witness for C5: inserting key 5 into a fresh tree reaches a one-node
tree, whose iteration succeeds and yields the strictly ascending key list
`[5]`. -/
theorem claim_C5_witness :
    ∃ t1 res, RBTree.insert RBTree.new 5 50 2 = Except.ok (t1, res) ∧
      ∃ l, RBTree.iterEntries t1 4 = Except.ok l ∧
        (l.map Prod.fst).Sorted (· < ·) := by
  obtain ⟨t1, res, hins, l, hit⟩ :
      ∃ t1 res, RBTree.insert RBTree.new 5 50 2 = Except.ok (t1, res) ∧
        ∃ l, RBTree.iterEntries t1 4 = Except.ok l :=
    ⟨_, _, rfl, _, rfl⟩
  exact ⟨t1, res, hins, l, hit, claim_C5 (Reached.insert Reached.new hins) hit⟩

/-! ### The red-black color layer -/

/-- Color of a subtree's root; the nil sentinel counts as Black. -/
def ATree.rootColor : ATree → Color
  | ATree.nil => Color.Black
  | ATree.node c _ _ _ _ => c

/-- Black height: number of Black nodes on any root-to-nil path, counting the
nil sentinel as one (as `validate_subtree` does). -/
def ATree.bh : ATree → Nat
  | ATree.nil => 1
  | ATree.node c l _ _ _ => l.bh + (if c = Color.Black then 1 else 0)

/-- The two local red-black invariants: equal black height of siblings and no
Red node with a Red child. -/
def ATree.RB : ATree → Prop
  | ATree.nil => True
  | ATree.node c l _ _ r =>
      l.RB ∧ r.RB ∧ l.bh = r.bh ∧
      (c = Color.Red → l.rootColor = Color.Black ∧ r.rootColor = Color.Black)

/-- The nil sentinel is colored Black (true initially, and every recoloring of
the sentinel in the fixups paints it Black again). -/
def nilBlack (t : RBTree) : Prop := (getN t nilIdx).color = Color.Black

/-- The stored color of a represented subtree's root pointer is the algebraic
root color (the nil sentinel being Black). -/
theorem IsRep.stored_color {t : RBTree} {i p : Nat} {T : ATree} {F : Finset Nat}
    (h : IsRep t i p T F) (hnb : nilBlack t) :
    (getN t i).color = T.rootColor := by
  cases h with
  | nil => exact hnb
  | node i p c L R k v li ri Fl Fr hi2 hrec hL hR hdisj hiL hiR =>
    rw [hrec]
    rfl

/-- `validate_subtree` accepts every represented subtree satisfying the local
red-black invariants, and reports its black height. -/
theorem validate_subtree_rep {t : RBTree} (hnb : nilBlack t) :
    ∀ {T : ATree} {i p fuel : Nat} {F : Finset Nat},
      IsRep t i p T F → T.RB → T.height < fuel →
      validate_subtree t i fuel = Except.ok (Except.ok T.bh) := by
  intro T
  induction T with
  | nil =>
    intro i p fuel F h _ hfuel
    cases h
    match fuel, hfuel with
    | fuel+1, _ =>
      simp only [validate_subtree]
      rw [if_pos (show isNil nilIdx from rfl)]
      rfl
  | node c L k v R ihl ihr =>
    intro i p fuel F h hrb hfuel
    cases h with
    | node _ _ _ _ _ _ _ li ri Fl Fr hi2 hrec hL hR hdisjS hiL hiR =>
      match fuel, hfuel with
      | fuel+1, hfuel =>
        obtain ⟨hrbL, hrbR, hbh, hred⟩ := hrb
        have hnil : ¬ isNil i := by unfold isNil nilIdx; omega
        have hcolL : (getN t (getN t i).left).color = L.rootColor := by
          rw [show (getN t i).left = li from by rw [hrec]]
          exact hL.stored_color hnb
        have hcolR : (getN t (getN t i).right).color = R.rootColor := by
          rw [show (getN t i).right = ri from by rw [hrec]]
          exact hR.stored_color hnb
        have hcolI : (getN t i).color = c := by rw [hrec]
        have hg1 : ¬ ((getN t i).color = Color.Red ∧
            (getN t (getN t i).left).color = Color.Red) := by
          intro hcon
          rw [hcolI] at hcon
          rw [hcolL] at hcon
          rw [(hred hcon.1).1] at hcon
          cases hcon.2
        have hg2 : ¬ ((getN t i).color = Color.Red ∧
            (getN t (getN t i).right).color = Color.Red) := by
          intro hcon
          rw [hcolI] at hcon
          rw [hcolR] at hcon
          rw [(hred hcon.1).2] at hcon
          cases hcon.2
        have hL' : validate_subtree t (getN t i).left fuel =
            Except.ok (Except.ok L.bh) := by
          rw [show (getN t i).left = li from by rw [hrec]]
          exact ihl hL hrbL (by
            have : (ATree.node c L k v R).height = max L.height R.height + 1 := rfl
            omega)
        have hR' : validate_subtree t (getN t i).right fuel =
            Except.ok (Except.ok R.bh) := by
          rw [show (getN t i).right = ri from by rw [hrec]]
          exact ihr hR hrbR (by
            have : (ATree.node c L k v R).height = max L.height R.height + 1 := rfl
            omega)
        simp only [validate_subtree]
        rw [if_neg hnil, if_neg hg1, if_neg hg2, hL']
        simp only [ok_bind]
        rw [hR']
        simp only [ok_bind]
        rw [if_neg (show ¬ L.bh ≠ R.bh from fun hcon => hcon hbh)]
        show Except.ok (Except.ok (L.bh + if (getN t i).color = Color.Black then 1 else 0)) = _
        rw [hcolI]
        rfl

/-- Bound discipline of the bound-tightening BST validator. -/
def ATree.Bnd : ATree → Option Int → Option Int → Prop
  | ATree.nil, _, _ => True
  | ATree.node _ l k _ r, lo, hi =>
      (∀ m ∈ lo, m < k) ∧ (∀ m ∈ hi, k < m) ∧ l.Bnd lo (some k) ∧ r.Bnd (some k) hi

/-- A BST whose entries all lie inside the given bounds satisfies the bound
discipline. -/
theorem bnd_of_bst : ∀ {T : ATree} {lo hi : Option Int}, T.BST →
    (∀ e ∈ T.inorder, (∀ m ∈ lo, m < e.1) ∧ (∀ m ∈ hi, e.1 < m)) →
    T.Bnd lo hi := by
  intro T
  induction T with
  | nil =>
    intro lo hi _ _
    trivial
  | node c l k v r ihl ihr =>
    intro lo hi hbst hmem
    obtain ⟨hbl, hbr, hlk, hrk⟩ := hbst
    have hkmem : ((k, v) : Int × Int) ∈ (ATree.node c l k v r).inorder := by
      simp [ATree.inorder]
    obtain ⟨hlo, hhi⟩ := hmem _ hkmem
    refine ⟨hlo, hhi, ihl hbl ?_, ihr hbr ?_⟩
    · intro e he
      have hemem : e ∈ (ATree.node c l k v r).inorder := by
        simp only [ATree.inorder, List.mem_append, List.mem_cons]
        exact Or.inl he
      refine ⟨(hmem e hemem).1, ?_⟩
      intro m hm
      have hkm : k = m := Option.mem_some_iff.mp hm
      rw [← hkm]
      exact hlk e he
    · intro e he
      have hemem : e ∈ (ATree.node c l k v r).inorder := by
        simp only [ATree.inorder, List.mem_append, List.mem_cons]
        exact Or.inr (Or.inr he)
      refine ⟨?_, (hmem e hemem).2⟩
      intro m hm
      have hkm : k = m := Option.mem_some_iff.mp hm
      rw [← hkm]
      exact hrk e he

/-- The bound-tightening BST validator accepts every represented tree obeying
the bound discipline. -/
theorem validate_bst_recursive_rep {t : RBTree} :
    ∀ {T : ATree} {i p fuel : Nat} {F : Finset Nat} {lo hi : Option Int},
      IsRep t i p T F → T.Bnd lo hi → T.height < fuel →
      validate_bst_recursive t i lo hi fuel = Except.ok (Except.ok ()) := by
  intro T
  induction T with
  | nil =>
    intro i p fuel F lo hi h _ hfuel
    cases h
    match fuel, hfuel with
    | fuel+1, _ =>
      simp only [validate_bst_recursive]
      rw [if_pos (show isNil nilIdx from rfl)]
  | node c L k v R ihl ihr =>
    intro i p fuel F lo hi h hbnd hfuel
    cases h with
    | node _ _ _ _ _ _ _ li ri Fl Fr hi2 hrec hL hR hdisjS hiL hiR =>
      match fuel, hfuel with
      | fuel+1, hfuel =>
        obtain ⟨hlo, hhi, hbL, hbR⟩ := hbnd
        have hnil : ¬ isNil i := by unfold isNil nilIdx; omega
        have hkey : (getN t i).key = k := by rw [hrec]
        have hg1 : lo.any (fun m => decide ((getN t i).key ≤ m)) = false := by
          cases lo with
          | none => rfl
          | some m =>
            have hmk : m < k := hlo m (Option.mem_some_iff.mpr rfl)
            show decide ((getN t i).key ≤ m) = false
            rw [hkey]
            simp
            omega
        have hg2 : hi.any (fun m => decide ((getN t i).key ≥ m)) = false := by
          cases hi with
          | none => rfl
          | some m =>
            have hmk : k < m := hhi m (Option.mem_some_iff.mpr rfl)
            show decide ((getN t i).key ≥ m) = false
            rw [hkey]
            simp
            omega
        have hhL : validate_bst_recursive t (getN t i).left lo
            (some (getN t i).key) fuel = Except.ok (Except.ok ()) := by
          rw [show (getN t i).left = li from by rw [hrec], hkey]
          exact ihl hL hbL (by
            have : (ATree.node c L k v R).height = max L.height R.height + 1 := rfl
            omega)
        have hhR : validate_bst_recursive t (getN t i).right
            (some (getN t i).key) hi fuel = Except.ok (Except.ok ()) := by
          rw [show (getN t i).right = ri from by rw [hrec], hkey]
          exact ihr hR hbR (by
            have : (ATree.node c L k v R).height = max L.height R.height + 1 := rfl
            omega)
        simp only [validate_bst_recursive]
        rw [if_neg hnil,
          if_neg (show ¬ lo.any (fun m => decide ((getN t i).key ≤ m)) = true from by
            rw [hg1]; exact Bool.false_ne_true),
          if_neg (show ¬ hi.any (fun m => decide ((getN t i).key ≥ m)) = true from by
            rw [hg2]; exact Bool.false_ne_true),
          hhL]
        simp only [ok_bind]
        exact hhR

/-- A non-nil represented subtree's stored parent pointer is its
representation parent, and its pointer is a real node. -/
theorem IsRep.nil_or_parent {t : RBTree} {j i : Nat} {S : ATree} {Fj : Finset Nat}
    (h : IsRep t j i S Fj) : j = nilIdx ∨ (2 ≤ j ∧ (getN t j).parent = i) := by
  cases h with
  | nil => exact Or.inl rfl
  | node i p c L R k v li ri Fl Fr hi2 hrec hL hR hdisj hiL hiR =>
    refine Or.inr ⟨hi2, ?_⟩
    rw [hrec]

/-- The parent-child link validator accepts every represented subtree. -/
theorem validate_pcc_rep {t : RBTree} :
    ∀ {T : ATree} {i p fuel : Nat} {F : Finset Nat},
      IsRep t i p T F → T.height < fuel →
      validate_parent_child_consistency t i fuel = Except.ok (Except.ok ()) := by
  intro T
  induction T with
  | nil =>
    intro i p fuel F h hfuel
    cases h
    match fuel, hfuel with
    | fuel+1, _ =>
      simp only [validate_parent_child_consistency]
      rw [if_pos (show isNil nilIdx from rfl)]
  | node c L k v R ihl ihr =>
    intro i p fuel F h hfuel
    cases h with
    | node _ _ _ _ _ _ _ li ri Fl Fr hi2 hrec hL hR hdisjS hiL hiR =>
      match fuel, hfuel with
      | fuel+1, hfuel =>
        have hnil : ¬ isNil i := by unfold isNil nilIdx; omega
        have hfl : L.height < fuel := by
          have : (ATree.node c L k v R).height = max L.height R.height + 1 := rfl
          omega
        have hfr : R.height < fuel := by
          have : (ATree.node c L k v R).height = max L.height R.height + 1 := rfl
          omega
        have hright : (if ¬ isNil (getN t i).right then
            (if (getN t (getN t i).right).parent ≠ i then
              (pure (Except.error
                "Parent-child inconsistency: right child doesn't point back to parent") :
                Except Fault (Except String Unit))
             else validate_parent_child_consistency t (getN t i).right fuel)
            else pure (Except.ok ())) = Except.ok (Except.ok ()) := by
          rcases hR.nil_or_parent with h0 | ⟨hj2, hpar⟩
          · rw [if_neg (show ¬ ¬ isNil (getN t i).right from by
              rw [show (getN t i).right = ri from by rw [hrec], h0]
              intro hcon
              exact hcon rfl)]
            rfl
          · rw [if_pos (show ¬ isNil (getN t i).right from by
              rw [show (getN t i).right = ri from by rw [hrec]]
              unfold isNil nilIdx
              omega)]
            rw [if_neg (show ¬ (getN t (getN t i).right).parent ≠ i from by
              rw [show (getN t i).right = ri from by rw [hrec], hpar]
              intro hcon
              exact hcon rfl)]
            rw [show (getN t i).right = ri from by rw [hrec]]
            exact ihr hR hfr
        simp only [validate_parent_child_consistency]
        rw [if_neg hnil]
        rcases hL.nil_or_parent with h0 | ⟨hj2, hpar⟩
        · rw [if_neg (show ¬ ¬ isNil (getN t i).left from by
            rw [show (getN t i).left = li from by rw [hrec], h0]
            intro hcon
            exact hcon rfl)]
          exact hright
        · rw [if_pos (show ¬ isNil (getN t i).left from by
            rw [show (getN t i).left = li from by rw [hrec]]
            unfold isNil nilIdx
            omega)]
          rw [if_neg (show ¬ (getN t (getN t i).left).parent ≠ i from by
            rw [show (getN t i).left = li from by rw [hrec], hpar]
            intro hcon
            exact hcon rfl)]
          rw [show (getN t i).left = li from by rw [hrec], ihl hL hfl]
          exact hright

/-- The DFS cycle detector never reports a cycle on a represented subtree:
node addresses are distinct, so no node is revisited.  The returned visited
list is the old one extended by exactly the subtree's footprint. -/
theorem detect_cycle_rep {t : RBTree} :
    ∀ {T : ATree} {i p fuel : Nat} {F : Finset Nat} {visited rec_stack : List Nat},
      IsRep t i p T F → (∀ x ∈ visited, x ∉ F) → rec_stack ⊆ visited →
      T.height < fuel →
      ∃ vis', detect_cycle_util t i visited rec_stack fuel =
          Except.ok (Except.ok vis') ∧
        ∀ x, x ∈ vis' ↔ x ∈ F ∨ x ∈ visited := by
  intro T
  induction T with
  | nil =>
    intro i p fuel F visited rec_stack h _ _ hfuel
    cases h
    match fuel, hfuel with
    | fuel+1, _ =>
      refine ⟨visited, ?_, ?_⟩
      · simp only [detect_cycle_util]
        rw [if_pos (show isNil nilIdx from rfl)]
      · intro x
        simp
  | node c L k v R ihl ihr =>
    intro i p fuel F visited rec_stack h hvis hsub hfuel
    cases h with
    | node _ _ _ _ _ _ _ li ri Fl Fr hi2 hrec hL hR hdisjS hiL hiR =>
      match fuel, hfuel with
      | fuel+1, hfuel =>
        have hnil : ¬ isNil i := by unfold isNil nilIdx; omega
        have hiF : i ∈ insert i (Fl ∪ Fr) := Finset.mem_insert_self _ _
        have hivis : i ∉ visited := fun hc => hvis i hc hiF
        have hirs : i ∉ rec_stack := fun hc => hivis (hsub hc)
        have hfl : L.height < fuel := by
          have : (ATree.node c L k v R).height = max L.height R.height + 1 := rfl
          omega
        have hfr : R.height < fuel := by
          have : (ATree.node c L k v R).height = max L.height R.height + 1 := rfl
          omega
        have hvisL : ∀ x ∈ i :: visited, x ∉ Fl := by
          intro x hx hxF
          rcases List.mem_cons.mp hx with hx | hx
          · exact hiL (hx ▸ hxF)
          · exact hvis x hx (Finset.mem_insert_of_mem (Finset.mem_union_left _ hxF))
        have hsubL : (i :: rec_stack) ⊆ (i :: visited) :=
          List.cons_subset_cons i hsub
        obtain ⟨vis1, hrun1, hiff1⟩ := ihl hL hvisL hsubL hfl
        have hvisR : ∀ x ∈ vis1, x ∉ Fr := by
          intro x hx hxF
          rcases (hiff1 x).mp hx with hx | hx
          · exact Finset.disjoint_left.mp hdisjS hx hxF
          · rcases List.mem_cons.mp hx with hx | hx
            · exact hiR (hx ▸ hxF)
            · exact hvis x hx (Finset.mem_insert_of_mem (Finset.mem_union_right _ hxF))
        have hsubR : (i :: rec_stack) ⊆ vis1 := by
          intro x hx
          exact (hiff1 x).mpr (Or.inr (hsubL hx))
        obtain ⟨vis2, hrun2, hiff2⟩ := ihr hR hvisR hsubR hfr
        refine ⟨vis2, ?_, ?_⟩
        · simp only [detect_cycle_util]
          rw [if_neg hnil, if_neg hirs, if_neg hivis]
          rw [show (getN t i).left = li from by rw [hrec], hrun1]
          simp only [ok_bind]
          rw [show (getN t i).right = ri from by rw [hrec]]
          exact hrun2
        · intro x
          rw [hiff2 x]
          constructor
          · intro hx
            rcases hx with hx | hx
            · exact Or.inl (Finset.mem_insert_of_mem (Finset.mem_union_right _ hx))
            · rcases (hiff1 x).mp hx with hx | hx
              · exact Or.inl (Finset.mem_insert_of_mem (Finset.mem_union_left _ hx))
              · rcases List.mem_cons.mp hx with hx | hx
                · exact Or.inl (hx ▸ Finset.mem_insert_self _ _)
                · exact Or.inr hx
          · intro hx
            rcases hx with hx | hx
            · rcases Finset.mem_insert.mp hx with hx | hx
              · exact Or.inr ((hiff1 x).mpr (Or.inr (List.mem_cons.mpr (Or.inl hx))))
              · rcases Finset.mem_union.mp hx with hx | hx
                · exact Or.inr ((hiff1 x).mpr (Or.inl hx))
                · exact Or.inl hx
            · exact Or.inr ((hiff1 x).mpr (Or.inr (List.mem_cons.mpr (Or.inr hx))))

/-- The composite BST validator accepts every represented BST store. -/
theorem validate_bst_ok {t : RBTree} {T : ATree} {F : Finset Nat} {fuel : Nat}
    (h : TreeRep t T F) (hbst : T.BST) (hfuel : T.height < fuel) :
    validate_bst t fuel = Except.ok (Except.ok ()) := by
  have hroot := h.root
  by_cases h0 : isNil (getN t headerIdx).right
  · have hTnil : T = ATree.nil := by
      have hz : (getN t headerIdx).right = nilIdx := h0
      rw [hz] at hroot
      exact hroot.eq_nil_of_zero.1
    have hstruct : validate_structure t fuel = Except.ok (Except.ok ()) := by
      simp only [validate_structure]
      rw [if_pos h0]
    simp only [validate_bst]
    rw [hstruct]
    simp only [ok_bind]
    rw [if_neg (show ¬ ¬ isNil (getN t headerIdx).right from fun hc => hc h0)]
    simp only [pure_bind]
    simp only [validate_no_cycles]
    rw [if_pos h0]
  · have hr2 : 2 ≤ (getN t headerIdx).right := by
      rcases hroot.nil_or_parent with hz | ⟨hr2, _⟩
      · exact absurd hz h0
      · exact hr2
    have hpar : (getN t (getN t headerIdx).right).parent = headerIdx := by
      rcases hroot.nil_or_parent with hz | ⟨_, hp⟩
      · exact absurd hz h0
      · exact hp
    have hstruct : validate_structure t fuel = Except.ok (Except.ok ()) := by
      simp only [validate_structure]
      rw [if_neg h0, if_neg (show ¬ (getN t (getN t headerIdx).right).parent ≠ headerIdx
        from fun hc => hc hpar)]
      exact validate_pcc_rep hroot hfuel
    have hbnd : T.Bnd none none := by
      refine bnd_of_bst hbst ?_
      intro e _
      exact ⟨fun m hm => absurd hm (by simp), fun m hm => absurd hm (by simp)⟩
    have hcyc : validate_no_cycles t fuel = Except.ok (Except.ok ()) := by
      simp only [validate_no_cycles]
      rw [if_neg h0]
      obtain ⟨vis', hrun, _⟩ := detect_cycle_rep hroot
        (fun x hx => absurd hx (List.not_mem_nil x)) (List.nil_subset _) hfuel
      rw [hrun]
      rfl
    simp only [validate_bst]
    rw [hstruct]
    simp only [ok_bind]
    rw [if_pos (show ¬ isNil (getN t headerIdx).right from h0)]
    rw [validate_bst_recursive_rep hroot hbnd hfuel]
    simp only [ok_bind]
    exact hcyc

/-- The complete validator accepts every represented, BST-ordered store whose
coloring satisfies the red-black invariants with a Black root. -/
theorem validate_ok {t : RBTree} {T : ATree} {F : Finset Nat} {fuel : Nat}
    (h : TreeRep t T F) (hbst : T.BST) (hrb : T.RB)
    (hroot : T.rootColor = Color.Black) (hnb : nilBlack t)
    (hfuel : T.height < fuel) :
    RBTree.validate t fuel = Except.ok (Except.ok ()) := by
  simp only [RBTree.validate]
  rw [validate_bst_ok h hbst hfuel]
  simp only [ok_bind]
  by_cases h0 : isNil (getN t headerIdx).right
  · rw [if_pos h0]
    rfl
  · rw [if_neg h0]
    have hcol : (getN t (getN t headerIdx).right).color = Color.Black := by
      rw [h.root.stored_color hnb]
      exact hroot
    rw [if_neg (show ¬ (getN t (getN t headerIdx).right).color = Color.Red from by
      rw [hcol]
      intro hc
      cases hc)]
    rw [validate_subtree_rep hnb h.root hrb hfuel]
    simp only [ok_bind]
    rfl

theorem color_cases (c : Color) : c = Color.Red ∨ c = Color.Black := by
  cases c
  · exact Or.inl rfl
  · exact Or.inr rfl

/-- Color of the node immediately surrounding a context's hole (Black for the
empty context: the root has no real parent). -/
def Ctx.pcol : Ctx → Color
  | Ctx.top => Color.Black
  | Ctx.inL _ c _ _ _ => c
  | Ctx.inR _ c _ _ _ => c

/-- Root color of the tree obtained by plugging a subtree with the given root
color. -/
def Ctx.outColor : Ctx → Color → Color
  | Ctx.top, c0 => c0
  | Ctx.inL up c _ _ _, _ => up.outColor c
  | Ctx.inR up c _ _ _, _ => up.outColor c

theorem plug_rootColor : ∀ (C : Ctx) (S : ATree),
    (C.plug S).rootColor = C.outColor S.rootColor := by
  intro C
  induction C with
  | top => intro S; rfl
  | inL up c k v R ih => intro S; exact ih _
  | inR up c k v L ih => intro S; exact ih _

/-- Red-black consistency of a context whose hole expects black height `n`:
every sibling subtree is red-black with the matching black height, no Red
ancestor has a Red parent or a Red sibling-side child. -/
def Ctx.RBC : Ctx → Nat → Prop
  | Ctx.top, _ => True
  | Ctx.inL up c _ _ R, n =>
      R.RB ∧ R.bh = n ∧ up.RBC (n + (if c = Color.Black then 1 else 0)) ∧
      (c = Color.Red → R.rootColor = Color.Black ∧ up.pcol = Color.Black)
  | Ctx.inR up c _ _ L, n =>
      L.RB ∧ L.bh = n ∧ up.RBC (n + (if c = Color.Black then 1 else 0)) ∧
      (c = Color.Red → L.rootColor = Color.Black ∧ up.pcol = Color.Black)

/-- Plugging a red-black subtree of the expected black height into a
red-black-consistent context yields a tree satisfying the local red-black
invariants. -/
theorem rb_plug : ∀ {C : Ctx} {S : ATree} {n : Nat},
    Ctx.RBC C n → S.RB → S.bh = n →
    (C.pcol = Color.Red → S.rootColor = Color.Black) →
    (C.plug S).RB := by
  intro C
  induction C with
  | top =>
    intro S n _ hS _ _
    exact hS
  | inL up c k v R ih =>
    intro S n hC hS hbh hseam
    obtain ⟨hRrb, hRbh, hup, hred⟩ := hC
    refine ih hup ⟨hS, hRrb, by rw [hbh, hRbh], ?_⟩ (by rw [ATree.bh, hbh]) ?_
    · intro hc
      exact ⟨hseam hc, (hred hc).1⟩
    · intro hc
      rcases color_cases c with hcr | hcb
      · exact absurd (hred hcr).2 (by rw [hc]; intro hcon; cases hcon)
      · exact hcb
  | inR up c k v L ih =>
    intro S n hC hS hbh hseam
    obtain ⟨hLrb, hLbh, hup, hred⟩ := hC
    refine ih hup ⟨hLrb, hS, by rw [hbh, hLbh], ?_⟩ (by rw [ATree.bh, hLbh]) ?_
    · intro hc
      exact ⟨(hred hc).1, hseam hc⟩
    · intro hc
      rcases color_cases c with hcr | hcb
      · exact absurd (hred hcr).2 (by rw [hc]; intro hcon; cases hcon)
      · exact hcb

/-- Conversely, a red-black plugged tree decomposes into a red-black subtree
and a red-black-consistent context. -/
theorem rb_unplug : ∀ {C : Ctx} {S : ATree}, (C.plug S).RB →
    Ctx.RBC C S.bh ∧ S.RB ∧ (C.pcol = Color.Red → S.rootColor = Color.Black) := by
  intro C
  induction C with
  | top =>
    intro S h
    exact ⟨trivial, h, fun hc => by cases hc⟩
  | inL up c k v R ih =>
    intro S h
    obtain ⟨hup, hnode, hpc⟩ := ih h
    obtain ⟨hS, hR, hbh, hred⟩ := hnode
    refine ⟨⟨hR, hbh.symm, ?_, ?_⟩, hS, ?_⟩
    · show Ctx.RBC up (S.bh + _)
      have : (ATree.node c S k v R).bh = S.bh + (if c = Color.Black then 1 else 0) := rfl
      rw [← this]
      exact hup
    · intro hc
      refine ⟨(hred hc).2, ?_⟩
      rcases color_cases up.pcol with hcr | hcb
      · exact absurd (hpc hcr) (by rw [hc]; intro hcon; cases hcon)
      · exact hcb
    · intro hc
      exact (hred hc).1
  | inR up c k v L ih =>
    intro S h
    obtain ⟨hup, hnode, hpc⟩ := ih h
    obtain ⟨hL, hS, hbh, hred⟩ := hnode
    refine ⟨⟨hL, hbh, ?_, ?_⟩, hS, ?_⟩
    · show Ctx.RBC up (S.bh + _)
      have hb2 : (ATree.node c L k v S).bh = L.bh + (if c = Color.Black then 1 else 0) := rfl
      rw [show S.bh + (if c = Color.Black then 1 else 0) =
        (ATree.node c L k v S).bh from by rw [hb2, hbh]]
      exact hup
    · intro hc
      refine ⟨(hred hc).1, ?_⟩
      rcases color_cases up.pcol with hcr | hcb
      · exact absurd (hpc hcr) (by rw [hc]; intro hcon; cases hcon)
      · exact hcb
    · intro hc
      exact (hred hc).2

/-- A context whose hole's parent is the header is the empty context. -/
theorem CtxRep.header_top {t : RBTree} {C : Ctx} {hi : Nat} {Fc : Finset Nat}
    (h : CtxRep t C hi headerIdx Fc) : C = Ctx.top := by
  cases h with
  | top => rfl
  | inL up c k v R i pp hi ri Fup Fr hup hi2 =>
    exfalso
    unfold headerIdx at hi2
    omega
  | inR up c k v L i pp hi li Fup Fl hup hi2 =>
    exfalso
    unfold headerIdx at hi2
    omega

/-- The stored color of the hole's parent node is the context's parent
color. -/
theorem CtxRep.stored_pcol {t : RBTree} {C : Ctx} {hi p : Nat} {Fc : Finset Nat}
    (h : CtxRep t C hi p Fc) (hne : C ≠ Ctx.top) : (getN t p).color = C.pcol := by
  cases h with
  | top => exact absurd rfl hne
  | inL up c k v R i pp hi ri Fup Fr hup hi2 hrec =>
    rw [hrec]
    rfl
  | inR up c k v L i pp hi li Fup Fl hup hi2 hrec =>
    rw [hrec]
    rfl

/-- For a nonempty context the root color of a plugged tree does not depend
on the plugged subtree. -/
theorem Ctx.outColor_ne_top : ∀ {C : Ctx}, C ≠ Ctx.top →
    ∀ x y : Color, C.outColor x = C.outColor y := by
  intro C
  cases C with
  | top => intro h; exact absurd rfl h
  | inL up c k v R => intro _ x y; rfl
  | inR up c k v L => intro _ x y; rfl

/-- Recoloring a node, context version: both the context and the recolored
subtree remain represented. -/
theorem setColor_ctx {t : RBTree} {C : Ctx} {i p : Nat} {Fc Fs : Finset Nat}
    {c : Color} {L R : ATree} {k v : Int}
    (hC : CtxRep t C i p Fc)
    (hS : IsRep t i p (ATree.node c L k v R) Fs)
    (hdisj : Disjoint Fc Fs) (hsent : SentinelInv t) (c0 : Color) :
    CtxRep (setColor t i c0) C i p Fc ∧
    IsRep (setColor t i c0) i p (ATree.node c0 L k v R) Fs ∧
    SentinelInv (setColor t i c0) := by
  cases hS with
  | node _ _ _ _ _ _ _ li ri Fl Fr hi2 hrec hL hR hdisjS hiL hiR =>
    have hiFc : i ∉ Fc :=
      fun hm => Finset.disjoint_left.mp hdisj hm (Finset.mem_insert_self _ _)
    have h1i : (1 : Nat) ≠ i := by omega
    refine ⟨?_, ?_, ?_⟩
    · refine hC.frame_ctx (fun j hj => getN_setColor_of_ne _ _ _ _ (fun he => hiFc (he ▸ hj))) ?_
      show (getN (setColor t i c0) 1).right = (getN t 1).right
      rw [getN_setColor_of_ne _ _ _ _ h1i]
    · refine IsRep.node i _ c0 L R k v li ri Fl Fr hi2 ?_ ?_ ?_ hdisjS hiL hiR
      · rw [getN_setColor_self, hrec]
      · exact hL.frame fun j hj => getN_setColor_of_ne _ _ _ _ (fun he => hiL (he ▸ hj))
      · exact hR.frame fun j hj => getN_setColor_of_ne _ _ _ _ (fun he => hiR (he ▸ hj))
    · exact hsent.write_ge2 hi2

/-- Writing at a live node keeps the nil sentinel Black. -/
theorem nilBlack.write_ge2_nb {t : RBTree} {j : Nat} {n : RBNode}
    (h : nilBlack t) (hj : 2 ≤ j) : nilBlack (setN t j n) := by
  show (getN (setN t j n) nilIdx).color = Color.Black
  rw [getN_setN_of_ne _ _ _ _ (show nilIdx ≠ j from by unfold nilIdx; omega)]
  exact h

/-- Stores with equal colorings agree on nil-blackness. -/
theorem nilBlack.of_sameColors {t t' : RBTree}
    (h : nilBlack t) (hc : sameColors t t') : nilBlack t' := by
  show (getN t' nilIdx).color = Color.Black
  rw [hc nilIdx]
  exact h

/-- Blackening the root of a locally red-black tree keeps it locally
red-black. -/
theorem rb_blacken {c : Color} {L R : ATree} {k v : Int}
    (h : (ATree.node c L k v R).RB) : (ATree.node Color.Black L k v R).RB := by
  obtain ⟨hL, hR, hbh, _⟩ := h
  exact ⟨hL, hR, hbh, fun hc => by cases hc⟩

/-! ### The rotation fault branches are never reached by the fixups -/

/-- The result is one of the two missing-child rotation faults: the abort of
`rotate_left` on a node with no right child, or the abort of `rotate_right`
on a node with no left child. -/
def rotFault {α : Type} (e : Except Fault α) : Prop :=
  e = Except.error (Fault.abort "node without right child cannot rotate left") ∨
  e = Except.error (Fault.abort "node without left child cannot rotate right")

theorem rotFault_ok {α : Type} {a : α} : ¬ rotFault (Except.ok a) := by
  rintro (h | h) <;> cases h

theorem rotFault_fuel {α : Type} :
    ¬ rotFault (Except.error Fault.fuel : Except Fault α) := by
  rintro (h | h) <;> (injection h with h1; cases h1)

/-- Any abort with a message other than the two rotation-fault messages is
not a rotation fault. -/
theorem rotFault_abort {α : Type} {m : String}
    (h1 : m ≠ "node without right child cannot rotate left")
    (h2 : m ≠ "node without left child cannot rotate right") :
    ¬ rotFault (Except.error (Fault.abort m) : Except Fault α) := by
  rintro (h | h)
  · injection h with h3
    injection h3 with h4
    exact h1 h4
  · injection h with h3
    injection h3 with h4
    exact h2 h4

/-- Whether an error is a rotation fault does not depend on the result
type. -/
theorem rotFault_error {α : Type} {e : Fault} :
    rotFault (Except.error e : Except Fault α) ↔
      (e = Fault.abort "node without right child cannot rotate left" ∨
        e = Fault.abort "node without left child cannot rotate right") := by
  unfold rotFault
  constructor
  · rintro (h | h)
    · exact Or.inl (by injection h)
    · exact Or.inr (by injection h)
  · rintro (h | h)
    · exact Or.inl (by rw [h])
    · exact Or.inr (by rw [h])

/-- A bind is rotation-fault-free when its head is and every successful head
value leads to a rotation-fault-free continuation. -/
theorem rotFault_bind {α β : Type} {x : Except Fault α} {f : α → Except Fault β}
    (hx : ¬ rotFault x) (hf : ∀ a, x = Except.ok a → ¬ rotFault (f a)) :
    ¬ rotFault (x >>= f) := by
  cases x with
  | error e =>
    have he : (Except.error e : Except Fault α) >>= f = Except.error e := rfl
    rw [he]
    intro h
    exact hx (rotFault_error.mpr (rotFault_error.mp h))
  | ok a =>
    have he : (Except.ok a : Except Fault α) >>= f = f a := rfl
    rw [he]
    exact hf a rfl

theorem get_parent_node_position_nrf (t : RBTree) (p x : Nat) :
    ¬ rotFault (get_parent_node_position t p x) := by
  simp only [get_parent_node_position]
  split
  · exact rotFault_ok
  · split
    · exact rotFault_ok
    · split
      · exact rotFault_ok
      · exact rotFault_abort (by decide) (by decide)

theorem get_node_position_nrf (t : RBTree) (x : Nat) :
    ¬ rotFault (get_node_position t x) := by
  simp only [get_node_position]
  split
  · exact rotFault_abort (by decide) (by decide)
  · exact get_parent_node_position_nrf t _ x

theorem sibling_of_nil_nrf (t : RBTree) (p x : Nat) :
    ¬ rotFault (sibling_of_nil t p x) := by
  simp only [sibling_of_nil]
  split
  · exact rotFault_ok
  · refine rotFault_bind (get_parent_node_position_nrf t p x) fun pos _ => ?_
    cases pos <;> exact rotFault_ok

theorem uncle_nrf (t : RBTree) (x : Nat) : ¬ rotFault (uncle t x) := by
  simp only [uncle]
  split
  · exact rotFault_ok
  · refine rotFault_bind (get_parent_node_position_nrf t _ _) fun pos _ => ?_
    cases pos <;> exact rotFault_ok

/-- `rotate_left` at a node with a right child never produces a rotation
fault (its only other failure is the position lookup's distinct abort). -/
theorem rotate_left_nrf {t : RBTree} {i : Nat} (h : ¬ isNil (getN t i).right) :
    ¬ rotFault (rotate_left t i) := by
  simp only [rotate_left]
  rw [if_neg h]
  refine rotFault_bind (get_parent_node_position_nrf t _ _) fun pos _ => ?_
  cases pos <;> exact rotFault_ok

/-- `rotate_right` at a node with a left child never produces a rotation
fault. -/
theorem rotate_right_nrf {t : RBTree} {i : Nat} (h : ¬ isNil (getN t i).left) :
    ¬ rotFault (rotate_right t i) := by
  simp only [rotate_right]
  rw [if_neg h]
  refine rotFault_bind (get_parent_node_position_nrf t _ _) fun pos _ => ?_
  cases pos <;> exact rotFault_ok

/-- `insert_fixup_straight_line` never produces a rotation fault when the
grandparent has the child required by the requested rotation. -/
theorem insert_fixup_straight_line_nrf {t : RBTree} {rc rp bg : Nat}
    {pos : NodePosition}
    (hl : pos = NodePosition.Left → ¬ isNil (getN t bg).left)
    (hr : pos = NodePosition.Right → ¬ isNil (getN t bg).right) :
    ¬ rotFault (insert_fixup_straight_line t rc rp bg pos) := by
  simp only [insert_fixup_straight_line]
  split
  · exact rotFault_abort (by decide) (by decide)
  · split
    · exact rotFault_abort (by decide) (by decide)
    · split
      · exact rotFault_abort (by decide) (by decide)
      · cases pos with
        | Left =>
          exact rotFault_bind (rotate_right_nrf (hl rfl)) fun y _ => rotFault_ok
        | Right =>
          exact rotFault_bind (rotate_left_nrf (hr rfl)) fun y _ => rotFault_ok

/-- `remove_fixup_far_red_nephew` never produces a rotation fault once the
(non-header) parent has the non-nil sibling among its children: the rotation
is toward the side the position lookup reports, where the sibling sits. -/
theorem remove_fixup_far_red_nephew_nrf (t : RBTree) {par sib : Nat}
    (db far : Nat) (hph : ¬ isHeader par) (hs0 : ¬ isNil sib) :
    ¬ rotFault (remove_fixup_far_red_nephew t par sib db far) := by
  simp only [remove_fixup_far_red_nephew]
  refine rotFault_bind (get_parent_node_position_nrf t par sib) fun pos hpos => ?_
  rcases get_parent_node_position_ok hpos with ⟨hhd, _⟩ | ⟨_, ⟨hpl, hll⟩ | ⟨hpr, hlr⟩⟩
  · exact absurd hhd hph
  · subst hpl
    exact rotFault_bind (rotate_right_nrf (by rw [hll]; exact hs0))
      fun y _ => rotFault_ok
  · subst hpr
    exact rotFault_bind (rotate_left_nrf (by rw [hlr]; exact hs0))
      fun y _ => rotFault_ok

/-- Inversion of a node representation. -/
theorem IsRep.node_inv {t : RBTree} {i p : Nat} {c : Color} {L R : ATree}
    {k v : Int} {F : Finset Nat}
    (h : IsRep t i p (ATree.node c L k v R) F) :
    ∃ li ri Fl Fr, 2 ≤ i ∧
      getN t i =
        { key := k, value := v, color := c, left := li, right := ri, parent := p } ∧
      IsRep t li i L Fl ∧ IsRep t ri i R Fr ∧ Disjoint Fl Fr ∧
      i ∉ Fl ∧ i ∉ Fr ∧ F = insert i (Fl ∪ Fr) := by
  cases h with
  | node _ _ _ _ _ _ _ li ri Fl Fr hi2 hrec hL hR hdisj hiL hiR =>
    exact ⟨li, ri, Fl, Fr, hi2, hrec, hL, hR, hdisj, hiL, hiR, rfl⟩

/-- A footprint member whose stored parent link is the header is the tree's
root, the header's right child. -/
theorem TreeRep.root_of_parent_header {t : RBTree} {T : ATree} {F : Finset Nat}
    (h : TreeRep t T F) {j : Nat} (hj : j ∈ F)
    (hp : (getN t j).parent = headerIdx) : (getN t headerIdx).right = j := by
  obtain ⟨C, S, Fc, Fs, hC, hS, hplug, hF, hdisj, hdep, c, L, k, v, R, hnode⟩ :=
    h.decompose j hj
  rw [hp] at hC
  have htop := hC.header_top
  subst htop
  exact hC.top_inv.2.2

set_option maxHeartbeats 1600000 in
/-- `insert_fixup` on a represented tree never returns a rotation fault:
every rotation it performs is at a node whose required child is a live
node of the tree. -/
theorem insert_fixup_nrf : ∀ (fuel : Nat) (t : RBTree) (T : ATree)
    (F : Finset Nat) (rn : Nat),
    TreeRep t T F → (rn ∈ F ∨ rn = nilIdx) →
    ¬ rotFault (insert_fixup t rn fuel) := by
  intro fuel
  induction fuel with
  | zero =>
    intro t T F rn _ _
    simp only [insert_fixup]
    exact rotFault_fuel
  | succ f ih =>
    intro t T F rn h hrn
    simp only [insert_fixup]
    split
    · exact rotFault_ok
    · rename_i hph
      split
      · exact rotFault_ok
      · split
        · exact rotFault_abort (by decide) (by decide)
        · rename_i hgp
          have hrnF : rn ∈ F := by
            rcases hrn with hm | h0
            · exact hm
            · exfalso
              apply hgp
              subst h0
              show isNil (grandparent t nilIdx)
              unfold grandparent
              rw [h.sentinel.nil_parent, h.sentinel.nil_parent]
              exact rfl
          have hrn2 : 2 ≤ rn := h.root.mem_ge_two rn hrnF
          have hparF : (getN t rn).parent ∈ F := by
            rcases h.parent_mem hrnF with hm | hh
            · exact hm
            · exact absurd (show isHeader (getN t rn).parent from hh) hph
          have hpar2 : 2 ≤ (getN t rn).parent := h.root.mem_ge_two _ hparF
          refine rotFault_bind (uncle_nrf t rn) fun u hu => ?_
          split
          · -- Black uncle: one or two rotations along the reported positions
            refine rotFault_bind (get_node_position_nrf t _) fun gpos hgpos => ?_
            refine rotFault_bind (get_node_position_nrf t rn) fun npos hnpos => ?_
            simp only [get_node_position] at hgpos hnpos
            rw [if_neg (show ¬ isNil (getN t rn).parent from by
              unfold isNil nilIdx; omega)] at hgpos
            rw [if_neg (show ¬ isNil rn from by unfold isNil nilIdx; omega)] at hnpos
            cases gpos <;> cases npos
            · -- Left, Left: rotate right at the grandparent, whose left child
              -- is the (live) parent
              refine insert_fixup_straight_line_nrf (fun _ => ?_)
                (fun hcon => nomatch hcon)
              rcases get_parent_node_position_ok hgpos with
                ⟨_, hcon⟩ | ⟨_, ⟨_, hll⟩ | ⟨hcon, _⟩⟩
              · cases hcon
              · show ¬ isNil (getN t ((getN t ((getN t rn).parent)).parent)).left
                rw [hll]
                unfold isNil nilIdx
                omega
              · cases hcon
            · -- Left, Right: pre-rotation at the parent, then the grandparent's
              -- left slot holds the risen node
              have hll : (getN t ((getN t ((getN t rn).parent)).parent)).left =
                  (getN t rn).parent := by
                rcases get_parent_node_position_ok hgpos with
                  ⟨_, hcon⟩ | ⟨_, ⟨_, hx⟩ | ⟨hcon, _⟩⟩
                · cases hcon
                · exact hx
                · cases hcon
              have hlr : (getN t ((getN t rn).parent)).right = rn := by
                rcases get_parent_node_position_ok hnpos with
                  ⟨hhd, _⟩ | ⟨_, ⟨hcon, _⟩ | ⟨_, hx⟩⟩
                · exact absurd (show isHeader ((getN t rn).parent) from hhd) hph
                · cases hcon
                · exact hx
              refine rotFault_bind (rotate_left_nrf (show
                ¬ isNil (getN t ((getN t rn).parent)).right from by
                  rw [hlr]; unfold isNil nilIdx; omega)) fun t2 h2 => ?_
              obtain ⟨C, Sp, Fc, Fs, hC, hSp, hplug, hF, hdisjCS, hdep,
                cp, L0, k0, v0, R0, hnode⟩ := h.decompose _ hparF
              subst hnode
              obtain ⟨li, ri, Fl, Fr, hp2b, hrecp, hL0, hR0, hdisj0, hniL, hniR, hFs⟩ :=
                hSp.node_inv
              have hri : ri = rn := by
                have hx : (getN t ((getN t rn).parent)).right = ri := by rw [hrecp]
                rw [← hx]
                exact hlr
              cases R0 with
              | nil =>
                exfalso
                cases hR0
                unfold nilIdx at hri
                omega
              | node c2 B0 k2 v2 D0 =>
                obtain ⟨t5, r, hrun, hC', hS', hpay, hcol, hsent', hfree, hlen,
                  hre, hpinr, hpini⟩ := rotate_left_ctx hC hSp hdisjCS h.sentinel
                rw [h2] at hrun
                injection hrun with ht5
                subst ht5
                have hrrn : r = rn := by
                  rw [hre, hrecp]
                  exact hri
                cases C with
                | top =>
                  exfalso
                  obtain ⟨hgpH, _, _⟩ := hC.top_inv
                  rw [hgpH, h.sentinel.header_left] at hll
                  unfold nilIdx at hll
                  omega
                | inL up c3 k3 v3 R3 =>
                  obtain ⟨pp2, ri2, Fup2, Fr2, hup2, hgp2b, hrecg, _⟩ := hC'.inL_inv
                  refine insert_fixup_straight_line_nrf (fun _ => ?_)
                    (fun hcon => nomatch hcon)
                  show ¬ isNil (getN t2 ((getN t ((getN t rn).parent)).parent)).left
                  rw [hrecg]
                  show ¬ isNil r
                  unfold isNil nilIdx
                  omega
                | inR up c3 k3 v3 L3 =>
                  exfalso
                  obtain ⟨pp3, li3, Fup3, Fl3, hup3, hgp3b, hrecg0, hL3, hdisj3,
                    hnU, hnL, hFc⟩ := hC.inR_inv
                  have hli3 : li3 = (getN t rn).parent := by
                    rw [hrecg0] at hll
                    exact hll
                  rcases hL3.ptr_zero_or_mem with h0 | hm
                  · omega
                  · have hliFc : li3 ∈ Fc := by
                      rw [hFc]
                      exact Finset.mem_insert_of_mem (Finset.mem_union_right _ hm)
                    rw [hli3] at hliFc
                    exact Finset.disjoint_left.mp hdisjCS hliFc hSp.root_mem
            · -- Right, Left: mirror of Left, Right
              have hlr : (getN t ((getN t ((getN t rn).parent)).parent)).right =
                    (getN t rn).parent ∨
                  (getN t ((getN t rn).parent)).parent = headerIdx := by
                rcases get_parent_node_position_ok hgpos with
                  ⟨hhd, _⟩ | ⟨_, ⟨hcon, _⟩ | ⟨_, hx⟩⟩
                · exact Or.inr hhd
                · cases hcon
                · exact Or.inl hx
              have hllp : (getN t ((getN t rn).parent)).left = rn := by
                rcases get_parent_node_position_ok hnpos with
                  ⟨hhd, _⟩ | ⟨_, ⟨_, hx⟩ | ⟨hcon, _⟩⟩
                · exact absurd (show isHeader ((getN t rn).parent) from hhd) hph
                · exact hx
                · cases hcon
              refine rotFault_bind (rotate_right_nrf (show
                ¬ isNil (getN t ((getN t rn).parent)).left from by
                  rw [hllp]; unfold isNil nilIdx; omega)) fun t2 h2 => ?_
              obtain ⟨C, Sp, Fc, Fs, hC, hSp, hplug, hF, hdisjCS, hdep,
                cp, L0, k0, v0, R0, hnode⟩ := h.decompose _ hparF
              subst hnode
              obtain ⟨li, ri, Fl, Fr, hp2b, hrecp, hL0, hR0, hdisj0, hniL, hniR, hFs⟩ :=
                hSp.node_inv
              have hli : li = rn := by
                have hx : (getN t ((getN t rn).parent)).left = li := by rw [hrecp]
                rw [← hx]
                exact hllp
              cases L0 with
              | nil =>
                exfalso
                cases hL0
                unfold nilIdx at hli
                omega
              | node c2 B0 k2 v2 D0 =>
                obtain ⟨t5, l, hrun, hC', hS', hpay, hcol, hsent', hfree, hlen,
                  hre, hpinr, hpini⟩ := rotate_right_ctx hC hSp hdisjCS h.sentinel
                rw [h2] at hrun
                injection hrun with ht5
                subst ht5
                have hlrn : l = rn := by
                  rw [hre, hrecp]
                  exact hli
                cases C with
                | top =>
                  obtain ⟨hgpH, _, _⟩ := hC.top_inv
                  obtain ⟨_, _, hroot2⟩ := hC'.top_inv
                  refine insert_fixup_straight_line_nrf
                    (fun hcon => nomatch hcon) (fun _ => ?_)
                  show ¬ isNil (getN t2 ((getN t ((getN t rn).parent)).parent)).right
                  rw [hgpH, hroot2]
                  show ¬ isNil l
                  unfold isNil nilIdx
                  omega
                | inL up c3 k3 v3 R3 =>
                  exfalso
                  obtain ⟨pp3, ri3, Fup3, Fr3, hup3, hgp3b, hrecg0, hR3, hdisj3,
                    hnU, hnR, hFc⟩ := hC.inL_inv
                  rcases hlr with hx | hhd
                  · have hri3 : ri3 = (getN t rn).parent := by
                      rw [hrecg0] at hx
                      exact hx
                    rcases hR3.ptr_zero_or_mem with h0 | hm
                    · omega
                    · have hriFc : ri3 ∈ Fc := by
                        rw [hFc]
                        exact Finset.mem_insert_of_mem (Finset.mem_union_right _ hm)
                      rw [hri3] at hriFc
                      exact Finset.disjoint_left.mp hdisjCS hriFc hSp.root_mem
                  · rw [hhd] at hgp3b
                    unfold headerIdx at hgp3b
                    omega
                | inR up c3 k3 v3 L3 =>
                  obtain ⟨pp2, li2, Fup2, Fl2, hup2, hgp2b, hrecg, _⟩ := hC'.inR_inv
                  refine insert_fixup_straight_line_nrf
                    (fun hcon => nomatch hcon) (fun _ => ?_)
                  show ¬ isNil (getN t2 ((getN t ((getN t rn).parent)).parent)).right
                  rw [hrecg]
                  show ¬ isNil l
                  unfold isNil nilIdx
                  omega
            · -- Right, Right: rotate left at the grandparent, whose right
              -- slot holds the (live) parent, also when it is the header
              refine insert_fixup_straight_line_nrf (fun hcon => nomatch hcon)
                (fun _ => ?_)
              show ¬ isNil (getN t ((getN t ((getN t rn).parent)).parent)).right
              rcases get_parent_node_position_ok hgpos with
                ⟨hhd, _⟩ | ⟨_, ⟨hcon, _⟩ | ⟨_, hx⟩⟩
              · rw [hhd, h.root_of_parent_header hparF hhd]
                unfold isNil nilIdx
                omega
              · cases hcon
              · rw [hx]
                unfold isNil nilIdx
                omega
          · -- Red uncle: recolor and recurse at the grandparent
            split
            · exact rotFault_abort (by decide) (by decide)
            · rename_i hune
              have hufacts : u ∈ F ∧ (getN t (getN t rn).parent).parent ∈ F := by
                rcases uncle_ok_facts h hrnF hu with h0 | hm
                · exact absurd h0 hune
                · exact hm
              obtain ⟨huF, hgpF⟩ := hufacts
              obtain ⟨T2, r2, io2, pay2, f2, l2⟩ :=
                setColor_sp h (Or.inl hparF) Color.Black
              obtain ⟨T3, r3, io3, pay3, f3, l3⟩ :=
                setColor_sp r2 (Or.inl huF) Color.Black
              obtain ⟨T4, r4, io4, pay4, f4, l4⟩ :=
                setColor_sp r3 (Or.inl (show grandparent t rn ∈ F from hgpF))
                  Color.Red
              exact ih _ T4 F (grandparent t rn) r4
                (Or.inl (show grandparent t rn ∈ F from hgpF))

/-- Local red-black validity of a subtree except that the root's no-red-red
clause is waived: the removal fixup's double-black subtree may briefly carry
a Red root over a Red child, which the terminal blackening repairs. -/
def ATree.RBx : ATree → Prop
  | ATree.nil => True
  | ATree.node _ l _ _ r => l.RB ∧ r.RB ∧ l.bh = r.bh

/-- The sibling subtree recorded in a context's innermost frame (nil for the
empty context). -/
def Ctx.sibT : Ctx → ATree
  | Ctx.top => ATree.nil
  | Ctx.inL _ _ _ _ R => R
  | Ctx.inR _ _ _ _ L => L

theorem ATree.bh_pos : ∀ T : ATree, 1 ≤ T.bh := by
  intro T
  induction T with
  | nil => exact le_refl 1
  | node c l k v r ihl ihr =>
    simp only [ATree.bh]
    split <;> omega

theorem rb_of_rbx_black {S : ATree} (h : S.RBx)
    (hc : S.rootColor = Color.Black) : S.RB := by
  cases S with
  | nil => trivial
  | node c l k v r =>
    simp only [ATree.rootColor] at hc
    obtain ⟨hl, hr, hbh⟩ := h
    refine ⟨hl, hr, hbh, fun hred => ?_⟩
    rw [hc] at hred
    cases hred

theorem rb_rbx {S : ATree} (h : S.RB) : S.RBx := by
  cases S with
  | nil => trivial
  | node c l k v r => exact ⟨h.1, h.2.1, h.2.2.1⟩

/-- Writing a node's own color back is the identity. -/
theorem RBNode.recolor_self {n : RBNode} {c : Color} (h : n.color = c) :
    { n with color := c } = n := by
  cases n with
  | mk key value color left right parent =>
    cases h
    rfl

theorem inL_ne_top {up : Ctx} {c : Color} {k v : Int} {R : ATree} :
    Ctx.inL up c k v R ≠ Ctx.top := fun hcon => nomatch hcon

theorem inR_ne_top {up : Ctx} {c : Color} {k v : Int} {L : ATree} :
    Ctx.inR up c k v L ≠ Ctx.top := fun hcon => nomatch hcon

/-- In a context enforcing black height `n` at the hole, the innermost
sibling subtree is red-black with black height `n`. -/
theorem rbc_sibT : ∀ {C : Ctx} {n : Nat}, C ≠ Ctx.top → C.RBC n →
    C.sibT.RB ∧ C.sibT.bh = n := by
  intro C n hne h
  cases C with
  | top => exact absurd rfl hne
  | inL up c k v R => exact ⟨h.1, h.2.1⟩
  | inR up c k v L => exact ⟨h.1, h.2.1⟩

/-- `sibling_of_nil` at a represented non-top hole with a non-empty recorded
sibling subtree returns that subtree's live root pointer. -/
theorem sibling_of_nil_rep {t : RBTree} {C : Ctx} {db par : Nat}
    {Fc Fs : Finset Nat} {S : ATree}
    (hC : CtxRep t C db par Fc) (hS : IsRep t db par S Fs)
    (hdisj : Disjoint Fc Fs) (hne : C ≠ Ctx.top) (hnn : C.sibT ≠ ATree.nil) :
    ∃ sr Fr, sibling_of_nil t par db = Except.ok sr ∧
      IsRep t sr par C.sibT Fr ∧ Fr ⊆ Fc ∧ 2 ≤ sr := by
  have hdb0 : db = 0 ∨ db ∈ Fs := hS.ptr_zero_or_mem
  cases hC with
  | top => exact absurd rfl hne
  | inL up c k v R i pp hi ri Fup Fr hup hi2 hrec hR hdisjUR hiU hiR =>
    have hri2 : 2 ≤ ri := hR.ne_nil_ptr hnn
    have hnh : ¬ isHeader par := by unfold isHeader headerIdx; omega
    have hpos : get_parent_node_position t par db = Except.ok NodePosition.Left := by
      unfold get_parent_node_position
      rw [if_neg hnh, hrec]
      show (if db = db then _ else _) = _
      rw [if_pos rfl]
    refine ⟨ri, Fr, ?_, hR, ?_, hri2⟩
    · unfold sibling_of_nil
      rw [if_neg hnh, hpos, ok_bind]
      show Except.ok (getN t par).right = _
      rw [hrec]
    · intro j hj
      exact Finset.mem_insert_of_mem (Finset.mem_union_right _ hj)
  | inR up c k v L i pp hi li Fup Fl hup hi2 hrec hL hdisjUL hiU hiL =>
    have hli2 : 2 ≤ li := hL.ne_nil_ptr hnn
    have hliF : li ∈ Fl := by
      cases hL with
      | nil => exact absurd rfl hnn
      | node => exact Finset.mem_insert_self _ _
    have hnh : ¬ isHeader par := by unfold isHeader headerIdx; omega
    have hlidb : ¬ li = db := by
      rcases hdb0 with h0 | hm
      · omega
      · intro he
        refine Finset.disjoint_left.mp hdisj ?_ hm
        rw [← he]
        exact Finset.mem_insert_of_mem (Finset.mem_union_right _ hliF)
    have hpos : get_parent_node_position t par db = Except.ok NodePosition.Right := by
      unfold get_parent_node_position
      rw [if_neg hnh, hrec]
      show (if li = db then _ else if db = db then _ else _) = _
      rw [if_neg hlidb, if_pos rfl]
    refine ⟨li, Fl, ?_, hL, ?_, hli2⟩
    · unfold sibling_of_nil
      rw [if_neg hnh, hpos, ok_bind]
      show Except.ok (getN t par).left = _
      rw [hrec]
    · intro j hj
      exact Finset.mem_insert_of_mem (Finset.mem_union_right _ hj)

/-- Precondition of `remove_fixup`, the classical deletion-fixup invariant:
the store represents a context around the double-black hole, the context is
red-black-consistent at black height one above the hole subtree (the hole is
one black short), the hole subtree is red-black except possibly at its root,
and the nil sentinel is Black. -/
def DelPre (t : RBTree) (db par : Nat) : Prop :=
  ∃ C S Fc Fs, SentinelInv t ∧ nilBlack t ∧
    CtxRep t C db par Fc ∧ IsRep t db par S Fs ∧ Disjoint Fc Fs ∧
    C.RBC (S.bh + 1) ∧ S.RBx

/-- Precondition of `remove_fixup_black_sibling` at its call sites: the
deletion invariant at a non-root hole whose subtree root and recorded
sibling root are Black. -/
def DelPreBS (t : RBTree) (db par : Nat) : Prop :=
  ∃ C S Fc Fs, SentinelInv t ∧ nilBlack t ∧
    CtxRep t C db par Fc ∧ IsRep t db par S Fs ∧ Disjoint Fc Fs ∧
    C.RBC (S.bh + 1) ∧ S.RBx ∧ C ≠ Ctx.top ∧
    S.rootColor = Color.Black ∧ C.sibT.rootColor = Color.Black

/-- Black sibling with two Black nephews, hole on the left: recoloring the
sibling Red pushes the double black to the parent, re-establishing the
deletion invariant one level up. -/
theorem bb_step_inL {t : RBTree} {up : Ctx} {cp : Color} {kp vp ks vs : Int}
    {S RL RR : ATree} {db par pp ri rl rr : Nat}
    {Fup Fs Frl Frr : Finset Nat}
    (hsent : SentinelInv t) (hnb : nilBlack t)
    (hup : CtxRep t up par pp Fup) (hpar2 : 2 ≤ par)
    (hrec : getN t par =
      { key := kp, value := vp, color := cp, left := db, right := ri, parent := pp })
    (hS : IsRep t db par S Fs) (hSrb : S.RB)
    (hri2 : 2 ≤ ri)
    (hrecR : getN t ri =
      { key := ks, value := vs, color := Color.Black, left := rl, right := rr,
        parent := par })
    (hRL : IsRep t rl ri RL Frl) (hRR : IsRep t rr ri RR Frr)
    (hdisjRLRR : Disjoint Frl Frr) (hriRL : ri ∉ Frl) (hriRR : ri ∉ Frr)
    (hupRBC : up.RBC (S.bh + 1 + (if cp = Color.Black then 1 else 0)))
    (hRLrb : RL.RB) (hRRrb : RR.RB) (hRLbh : RL.bh = S.bh) (hbhe : RL.bh = RR.bh)
    (hRLroot : RL.rootColor = Color.Black) (hRRroot : RR.rootColor = Color.Black)
    (hUFs : Disjoint Fup Fs) (hUFrl : Disjoint Fup Frl) (hUFrr : Disjoint Fup Frr)
    (hFsFrl : Disjoint Fs Frl) (hFsFrr : Disjoint Fs Frr)
    (hparU : par ∉ Fup) (hparFs : par ∉ Fs) (hparRL : par ∉ Frl)
    (hparRR : par ∉ Frr)
    (hriU : ri ∉ Fup) (hriFs : ri ∉ Fs) (hparri : par ≠ ri) :
    DelPre (setColor t ri Color.Red) par pp := by
  have hagree : ∀ j : Nat, j ≠ ri → getN (setColor t ri Color.Red) j = getN t j :=
    fun j hj => getN_setColor_of_ne _ _ _ _ hj
  have hsent' : SentinelInv (setColor t ri Color.Red) := hsent.write_ge2 hri2
  have hnb' : nilBlack (setColor t ri Color.Red) := hnb.write_ge2_nb hri2
  have hup' : CtxRep (setColor t ri Color.Red) up par pp Fup := by
    refine hup.frame_ctx (fun j hj => hagree j (fun he => hriU (he ▸ hj))) ?_
    show (getN (setColor t ri Color.Red) 1).right = (getN t 1).right
    rw [hagree 1 (by omega)]
  have hrecR' : getN (setColor t ri Color.Red) ri =
      { key := ks, value := vs, color := Color.Red, left := rl, right := rr,
        parent := par } := by
    rw [getN_setColor_self, hrecR]
  have hRL' : IsRep (setColor t ri Color.Red) rl ri RL Frl :=
    hRL.frame fun j hj => hagree j (fun he => hriRL (he ▸ hj))
  have hRR' : IsRep (setColor t ri Color.Red) rr ri RR Frr :=
    hRR.frame fun j hj => hagree j (fun he => hriRR (he ▸ hj))
  have hSib' : IsRep (setColor t ri Color.Red) ri par
      (ATree.node Color.Red RL ks vs RR) (insert ri (Frl ∪ Frr)) :=
    IsRep.node ri par Color.Red RL RR ks vs rl rr Frl Frr hri2 hrecR' hRL' hRR'
      hdisjRLRR hriRL hriRR
  have hS' : IsRep (setColor t ri Color.Red) db par S Fs :=
    hS.frame fun j hj => hagree j (fun he => hriFs (he ▸ hj))
  have hrec' : getN (setColor t ri Color.Red) par =
      { key := kp, value := vp, color := cp, left := db, right := ri,
        parent := pp } := by
    rw [hagree par hparri]
    exact hrec
  have hdisjA : Disjoint Fs (insert ri (Frl ∪ Frr)) := by
    refine Finset.disjoint_left.mpr fun a ha hm => ?_
    rcases Finset.mem_insert.mp hm with he | hm2
    · exact hriFs (he ▸ ha)
    · rcases Finset.mem_union.mp hm2 with hm3 | hm3
      · exact Finset.disjoint_left.mp hFsFrl ha hm3
      · exact Finset.disjoint_left.mp hFsFrr ha hm3
  have hparB : par ∉ insert ri (Frl ∪ Frr) := by
    intro hm
    rcases Finset.mem_insert.mp hm with he | hm2
    · exact hparri he
    · rcases Finset.mem_union.mp hm2 with hm3 | hm3
      · exact hparRL hm3
      · exact hparRR hm3
  have hSpar' : IsRep (setColor t ri Color.Red) par pp
      (ATree.node cp S kp vp (ATree.node Color.Red RL ks vs RR))
      (insert par (Fs ∪ insert ri (Frl ∪ Frr))) :=
    IsRep.node par pp cp S _ kp vp db ri Fs _ hpar2 hrec' hS' hSib' hdisjA
      hparFs hparB
  have hdisjBig : Disjoint Fup (insert par (Fs ∪ insert ri (Frl ∪ Frr))) := by
    refine Finset.disjoint_left.mpr fun a ha hm => ?_
    rcases Finset.mem_insert.mp hm with he | hm2
    · exact hparU (he ▸ ha)
    · rcases Finset.mem_union.mp hm2 with hm3 | hm3
      · exact Finset.disjoint_left.mp hUFs ha hm3
      · rcases Finset.mem_insert.mp hm3 with he | hm4
        · exact hriU (he ▸ ha)
        · rcases Finset.mem_union.mp hm4 with hm5 | hm5
          · exact Finset.disjoint_left.mp hUFrl ha hm5
          · exact Finset.disjoint_left.mp hUFrr ha hm5
  have hbheq : (ATree.node cp S kp vp (ATree.node Color.Red RL ks vs RR)).bh =
      S.bh + (if cp = Color.Black then 1 else 0) := rfl
  have hRBC' : up.RBC
      ((ATree.node cp S kp vp (ATree.node Color.Red RL ks vs RR)).bh + 1) := by
    rw [hbheq, show S.bh + (if cp = Color.Black then 1 else 0) + 1 =
      S.bh + 1 + (if cp = Color.Black then 1 else 0) from by omega]
    exact hupRBC
  have hRBx' : (ATree.node cp S kp vp (ATree.node Color.Red RL ks vs RR)).RBx := by
    refine ⟨hSrb, ⟨hRLrb, hRRrb, hbhe, fun _ => ⟨hRLroot, hRRroot⟩⟩, ?_⟩
    show S.bh = (ATree.node Color.Red RL ks vs RR).bh
    have hx : (ATree.node Color.Red RL ks vs RR).bh = RL.bh + 0 := rfl
    omega
  exact ⟨up, _, Fup, _, hsent', hnb', hup', hSpar', hdisjBig, hRBC', hRBx'⟩

/-- Black sibling with two Black nephews, hole on the right: mirror of
`bb_step_inL`. -/
theorem bb_step_inR {t : RBTree} {up : Ctx} {cp : Color} {kp vp ks vs : Int}
    {S LL LR : ATree} {db par pp li ll lr : Nat}
    {Fup Fs Fll Flr : Finset Nat}
    (hsent : SentinelInv t) (hnb : nilBlack t)
    (hup : CtxRep t up par pp Fup) (hpar2 : 2 ≤ par)
    (hrec : getN t par =
      { key := kp, value := vp, color := cp, left := li, right := db, parent := pp })
    (hS : IsRep t db par S Fs) (hSrb : S.RB)
    (hli2 : 2 ≤ li)
    (hrecL : getN t li =
      { key := ks, value := vs, color := Color.Black, left := ll, right := lr,
        parent := par })
    (hLL : IsRep t ll li LL Fll) (hLR : IsRep t lr li LR Flr)
    (hdisjLLR : Disjoint Fll Flr) (hliLL : li ∉ Fll) (hliLR : li ∉ Flr)
    (hupRBC : up.RBC (S.bh + 1 + (if cp = Color.Black then 1 else 0)))
    (hLLrb : LL.RB) (hLRrb : LR.RB) (hLLbh : LL.bh = S.bh) (hbhe : LL.bh = LR.bh)
    (hLLroot : LL.rootColor = Color.Black) (hLRroot : LR.rootColor = Color.Black)
    (hUFs : Disjoint Fup Fs) (hUFll : Disjoint Fup Fll) (hUFlr : Disjoint Fup Flr)
    (hFsFll : Disjoint Fs Fll) (hFsFlr : Disjoint Fs Flr)
    (hparU : par ∉ Fup) (hparFs : par ∉ Fs) (hparLL : par ∉ Fll)
    (hparLR : par ∉ Flr)
    (hliU : li ∉ Fup) (hliFs : li ∉ Fs) (hparli : par ≠ li) :
    DelPre (setColor t li Color.Red) par pp := by
  have hagree : ∀ j : Nat, j ≠ li → getN (setColor t li Color.Red) j = getN t j :=
    fun j hj => getN_setColor_of_ne _ _ _ _ hj
  have hsent' : SentinelInv (setColor t li Color.Red) := hsent.write_ge2 hli2
  have hnb' : nilBlack (setColor t li Color.Red) := hnb.write_ge2_nb hli2
  have hup' : CtxRep (setColor t li Color.Red) up par pp Fup := by
    refine hup.frame_ctx (fun j hj => hagree j (fun he => hliU (he ▸ hj))) ?_
    show (getN (setColor t li Color.Red) 1).right = (getN t 1).right
    rw [hagree 1 (by omega)]
  have hrecL' : getN (setColor t li Color.Red) li =
      { key := ks, value := vs, color := Color.Red, left := ll, right := lr,
        parent := par } := by
    rw [getN_setColor_self, hrecL]
  have hLL' : IsRep (setColor t li Color.Red) ll li LL Fll :=
    hLL.frame fun j hj => hagree j (fun he => hliLL (he ▸ hj))
  have hLR' : IsRep (setColor t li Color.Red) lr li LR Flr :=
    hLR.frame fun j hj => hagree j (fun he => hliLR (he ▸ hj))
  have hSib' : IsRep (setColor t li Color.Red) li par
      (ATree.node Color.Red LL ks vs LR) (insert li (Fll ∪ Flr)) :=
    IsRep.node li par Color.Red LL LR ks vs ll lr Fll Flr hli2 hrecL' hLL' hLR'
      hdisjLLR hliLL hliLR
  have hS' : IsRep (setColor t li Color.Red) db par S Fs :=
    hS.frame fun j hj => hagree j (fun he => hliFs (he ▸ hj))
  have hrec' : getN (setColor t li Color.Red) par =
      { key := kp, value := vp, color := cp, left := li, right := db,
        parent := pp } := by
    rw [hagree par hparli]
    exact hrec
  have hdisjA : Disjoint (insert li (Fll ∪ Flr)) Fs := by
    refine Finset.disjoint_left.mpr fun a ha hm => ?_
    rcases Finset.mem_insert.mp ha with he | hm2
    · exact hliFs (he ▸ hm)
    · rcases Finset.mem_union.mp hm2 with hm3 | hm3
      · exact Finset.disjoint_left.mp hFsFll hm hm3
      · exact Finset.disjoint_left.mp hFsFlr hm hm3
  have hparB : par ∉ insert li (Fll ∪ Flr) := by
    intro hm
    rcases Finset.mem_insert.mp hm with he | hm2
    · exact hparli he
    · rcases Finset.mem_union.mp hm2 with hm3 | hm3
      · exact hparLL hm3
      · exact hparLR hm3
  have hSpar' : IsRep (setColor t li Color.Red) par pp
      (ATree.node cp (ATree.node Color.Red LL ks vs LR) kp vp S)
      (insert par (insert li (Fll ∪ Flr) ∪ Fs)) :=
    IsRep.node par pp cp _ S kp vp li db _ Fs hpar2 hrec' hSib' hS' hdisjA
      hparB hparFs
  have hdisjBig : Disjoint Fup (insert par (insert li (Fll ∪ Flr) ∪ Fs)) := by
    refine Finset.disjoint_left.mpr fun a ha hm => ?_
    rcases Finset.mem_insert.mp hm with he | hm2
    · exact hparU (he ▸ ha)
    · rcases Finset.mem_union.mp hm2 with hm3 | hm3
      · rcases Finset.mem_insert.mp hm3 with he | hm4
        · exact hliU (he ▸ ha)
        · rcases Finset.mem_union.mp hm4 with hm5 | hm5
          · exact Finset.disjoint_left.mp hUFll ha hm5
          · exact Finset.disjoint_left.mp hUFlr ha hm5
      · exact Finset.disjoint_left.mp hUFs ha hm3
  have hbheq : (ATree.node cp (ATree.node Color.Red LL ks vs LR) kp vp S).bh =
      LL.bh + (if cp = Color.Black then 1 else 0) := rfl
  have hRBC' : up.RBC
      ((ATree.node cp (ATree.node Color.Red LL ks vs LR) kp vp S).bh + 1) := by
    rw [hbheq, show LL.bh + (if cp = Color.Black then 1 else 0) + 1 =
      S.bh + 1 + (if cp = Color.Black then 1 else 0) from by omega]
    exact hupRBC
  have hRBx' : (ATree.node cp (ATree.node Color.Red LL ks vs LR) kp vp S).RBx := by
    refine ⟨⟨hLLrb, hLRrb, hbhe, fun _ => ⟨hLLroot, hLRroot⟩⟩, hSrb, ?_⟩
    show (ATree.node Color.Red LL ks vs LR).bh = S.bh
    have hx : (ATree.node Color.Red LL ks vs LR).bh = LL.bh + 0 := rfl
    omega
  exact ⟨up, _, Fup, _, hsent', hnb', hup', hSpar', hdisjBig, hRBC', hRBx'⟩

set_option maxHeartbeats 1600000 in
/-- Red sibling, hole on the left: rotating the parent left and swapping the
colors re-establishes the black-sibling precondition at the unchanged
hole, one level deeper. -/
theorem red_sib_inL {t : RBTree} {up : Ctx} {kp vp ks vs : Int}
    {S RL RR : ATree} {db par pp ri rl rr : Nat}
    {Fup Fs Frl Frr : Finset Nat}
    (hsent : SentinelInv t) (hnb : nilBlack t)
    (hup : CtxRep t up par pp Fup) (hpar2 : 2 ≤ par)
    (hrec : getN t par =
      { key := kp, value := vp, color := Color.Black, left := db, right := ri,
        parent := pp })
    (hS : IsRep t db par S Fs) (hSroot : S.rootColor = Color.Black)
    (hRBx : S.RBx)
    (hri2 : 2 ≤ ri)
    (hrecR : getN t ri =
      { key := ks, value := vs, color := Color.Red, left := rl, right := rr,
        parent := par })
    (hRL : IsRep t rl ri RL Frl) (hRR : IsRep t rr ri RR Frr)
    (hdisjRLRR : Disjoint Frl Frr) (hriRL : ri ∉ Frl) (hriRR : ri ∉ Frr)
    (hupRBC : up.RBC (S.bh + 1 + 1))
    (hRLrb : RL.RB) (hRRrb : RR.RB) (hRLbh : RL.bh = S.bh + 1)
    (hbhe : RL.bh = RR.bh)
    (hRLroot : RL.rootColor = Color.Black) (hRRroot : RR.rootColor = Color.Black)
    (hUFs : Disjoint Fup Fs) (hUFrl : Disjoint Fup Frl) (hUFrr : Disjoint Fup Frr)
    (hFsFrl : Disjoint Fs Frl) (hFsFrr : Disjoint Fs Frr)
    (hparU : par ∉ Fup) (hparFs : par ∉ Fs) (hparRL : par ∉ Frl)
    (hparRR : par ∉ Frr)
    (hriU : ri ∉ Fup) (hriFs : ri ∉ Fs) (hparri : par ≠ ri) :
    ∀ t2 : RBTree, rotate_left t par = Except.ok t2 →
      DelPreBS (setColor (setColor t2 ri Color.Black) par Color.Red) db par := by
  have hSib : IsRep t ri par (ATree.node Color.Red RL ks vs RR)
      (insert ri (Frl ∪ Frr)) :=
    IsRep.node ri par Color.Red RL RR ks vs rl rr Frl Frr hri2 hrecR hRL hRR
      hdisjRLRR hriRL hriRR
  have hdisjA : Disjoint Fs (insert ri (Frl ∪ Frr)) := by
    refine Finset.disjoint_left.mpr fun a ha hm => ?_
    rcases Finset.mem_insert.mp hm with he | hm2
    · exact hriFs (he ▸ ha)
    · rcases Finset.mem_union.mp hm2 with hm3 | hm3
      · exact Finset.disjoint_left.mp hFsFrl ha hm3
      · exact Finset.disjoint_left.mp hFsFrr ha hm3
  have hparB : par ∉ insert ri (Frl ∪ Frr) := by
    intro hm
    rcases Finset.mem_insert.mp hm with he | hm2
    · exact hparri he
    · rcases Finset.mem_union.mp hm2 with hm3 | hm3
      · exact hparRL hm3
      · exact hparRR hm3
  have hSpar : IsRep t par pp
      (ATree.node Color.Black S kp vp (ATree.node Color.Red RL ks vs RR))
      (insert par (Fs ∪ insert ri (Frl ∪ Frr))) :=
    IsRep.node par pp Color.Black S _ kp vp db ri Fs _ hpar2 hrec hS hSib hdisjA
      hparFs hparB
  have hdisjBig : Disjoint Fup (insert par (Fs ∪ insert ri (Frl ∪ Frr))) := by
    refine Finset.disjoint_left.mpr fun a ha hm => ?_
    rcases Finset.mem_insert.mp hm with he | hm2
    · exact hparU (he ▸ ha)
    · rcases Finset.mem_union.mp hm2 with hm3 | hm3
      · exact Finset.disjoint_left.mp hUFs ha hm3
      · rcases Finset.mem_insert.mp hm3 with he | hm4
        · exact hriU (he ▸ ha)
        · rcases Finset.mem_union.mp hm4 with hm5 | hm5
          · exact Finset.disjoint_left.mp hUFrl ha hm5
          · exact Finset.disjoint_left.mp hUFrr ha hm5
  obtain ⟨t5, r, hrun, hC2, hS2, hpay2, hcol2, hsent2, hfree2, hlen2, hre2,
    hpin1, hpin2⟩ := rotate_left_ctx hup hSpar hdisjBig hsent
  intro t2 h2
  rw [h2] at hrun
  injection hrun with ht5
  subst ht5
  have hrri : r = ri := by rw [hre2, hrec]
  rw [hrri] at hC2 hS2 hpin1
  have hnb2 : nilBlack t2 := hnb.of_sameColors hcol2
  obtain ⟨hCa, hSa, hsenta⟩ := setColor_ctx hC2 hS2 hdisjBig hsent2 Color.Black
  obtain ⟨l5, r5, F5l, F5r, hri2b, hrecSa, hInner, hSR, hdisj5, hn5l, hn5r, hFeq5⟩ :=
    hSa.node_inv
  have hl5 : l5 = par := by
    have hx : (getN (setColor t2 ri Color.Black) ri).left = par := by
      rw [getN_setColor_self]
      exact hpin1
    rw [hrecSa] at hx
    exact hx
  rw [hl5] at hrecSa hInner
  have hsubF5r : F5r ⊆ insert par (Fs ∪ insert ri (Frl ∪ Frr)) := by
    intro j hj
    rw [hFeq5]
    exact Finset.mem_insert_of_mem (Finset.mem_union_right _ hj)
  have hsubF5l : F5l ⊆ insert par (Fs ∪ insert ri (Frl ∪ Frr)) := by
    intro j hj
    rw [hFeq5]
    exact Finset.mem_insert_of_mem (Finset.mem_union_left _ hj)
  have hUF5r : Disjoint Fup F5r :=
    Finset.disjoint_left.mpr fun a ha hm =>
      Finset.disjoint_left.mp hdisjBig ha (hsubF5r hm)
  have hCpar : CtxRep (setColor t2 ri Color.Black)
      (Ctx.inL up Color.Black ks vs RR) par ri (insert ri (Fup ∪ F5r)) :=
    CtxRep.inL up Color.Black ks vs RR ri pp par r5 Fup F5r hCa hri2 hrecSa hSR
      hUF5r hriU hn5r
  have hparF5l : par ∈ F5l := hInner.root_mem
  have hdisjI : Disjoint (insert ri (Fup ∪ F5r)) F5l := by
    refine Finset.disjoint_left.mpr fun a ha hm => ?_
    rcases Finset.mem_insert.mp ha with he | hm2
    · exact hn5l (he ▸ hm)
    · rcases Finset.mem_union.mp hm2 with hm3 | hm3
      · exact Finset.disjoint_left.mp hdisjBig hm3 (hsubF5l hm)
      · exact Finset.disjoint_left.mp hdisj5 hm hm3
  obtain ⟨hCfin, hSfin, hsent3⟩ := setColor_ctx hCpar hInner hdisjI hsenta Color.Red
  have hnb3 : nilBlack (setColor (setColor t2 ri Color.Black) par Color.Red) :=
    (hnb2.write_ge2_nb hri2).write_ge2_nb hpar2
  obtain ⟨l6, r6, F6l, F6r, hpar2c, hrecFin, hS6, hRL6, hdisj6, hn6l, hn6r, hFeq6⟩ :=
    hSfin.node_inv
  have hl6 : l6 = db := by
    have hx : (getN (setColor (setColor t2 ri Color.Black) par Color.Red) par).left
        = db := by
      rw [getN_setColor_self]
      show (getN (setColor t2 ri Color.Black) par).left = db
      rw [getN_setColor_of_ne _ _ _ _ hparri]
      rw [hpin2, hrec]
    rw [hrecFin] at hx
    exact hx
  rw [hl6] at hrecFin hS6
  have hsubF6l : F6l ⊆ F5l := by
    intro j hj
    rw [hFeq6]
    exact Finset.mem_insert_of_mem (Finset.mem_union_left _ hj)
  have hsubF6r : F6r ⊆ F5l := by
    intro j hj
    rw [hFeq6]
    exact Finset.mem_insert_of_mem (Finset.mem_union_right _ hj)
  have hdisjY : Disjoint (insert ri (Fup ∪ F5r)) F6r :=
    Finset.disjoint_left.mpr fun a ha hm =>
      Finset.disjoint_left.mp hdisjI ha (hsubF6r hm)
  have hparY : par ∉ insert ri (Fup ∪ F5r) := by
    intro hm
    rcases Finset.mem_insert.mp hm with he | hm2
    · exact hparri he
    · rcases Finset.mem_union.mp hm2 with hm3 | hm3
      · exact hparU hm3
      · exact Finset.disjoint_left.mp hdisj5 hparF5l hm3
  have hCdb : CtxRep (setColor (setColor t2 ri Color.Black) par Color.Red)
      (Ctx.inL (Ctx.inL up Color.Black ks vs RR) Color.Red kp vp RL) db par
      (insert par (insert ri (Fup ∪ F5r) ∪ F6r)) :=
    CtxRep.inL (Ctx.inL up Color.Black ks vs RR) Color.Red kp vp RL par ri db r6
      (insert ri (Fup ∪ F5r)) F6r hCfin hpar2 hrecFin hRL6 hdisjY hparY hn6r
  have hdisjFin : Disjoint (insert par (insert ri (Fup ∪ F5r) ∪ F6r)) F6l := by
    refine Finset.disjoint_left.mpr fun a ha hm => ?_
    rcases Finset.mem_insert.mp ha with he | hm2
    · exact hn6l (he ▸ hm)
    · rcases Finset.mem_union.mp hm2 with hm3 | hm3
      · exact Finset.disjoint_left.mp hdisjI hm3 (hsubF6l hm)
      · exact Finset.disjoint_left.mp hdisj6 hm hm3
  have hRRbh : RR.bh = S.bh + 1 := by omega
  have hRBCnew :
      (Ctx.inL (Ctx.inL up Color.Black ks vs RR) Color.Red kp vp RL).RBC
        (S.bh + 1) := by
    refine ⟨hRLrb, hRLbh, ?_, fun _ => ⟨hRLroot, rfl⟩⟩
    exact ⟨hRRrb, hRRbh, hupRBC, fun hcon => nomatch hcon⟩
  exact ⟨Ctx.inL (Ctx.inL up Color.Black ks vs RR) Color.Red kp vp RL, S,
    insert par (insert ri (Fup ∪ F5r) ∪ F6r), F6l,
    hsent3, hnb3, hCdb, hS6, hdisjFin, hRBCnew, hRBx,
    inL_ne_top, hSroot, hRLroot⟩

set_option maxHeartbeats 1600000 in
/-- Red sibling, hole on the right: mirror of `red_sib_inL`. -/
theorem red_sib_inR {t : RBTree} {up : Ctx} {kp vp ks vs : Int}
    {S LL LR : ATree} {db par pp li ll lr : Nat}
    {Fup Fs Fll Flr : Finset Nat}
    (hsent : SentinelInv t) (hnb : nilBlack t)
    (hup : CtxRep t up par pp Fup) (hpar2 : 2 ≤ par)
    (hrec : getN t par =
      { key := kp, value := vp, color := Color.Black, left := li, right := db,
        parent := pp })
    (hS : IsRep t db par S Fs) (hSroot : S.rootColor = Color.Black)
    (hRBx : S.RBx)
    (hli2 : 2 ≤ li)
    (hrecL : getN t li =
      { key := ks, value := vs, color := Color.Red, left := ll, right := lr,
        parent := par })
    (hLL : IsRep t ll li LL Fll) (hLR : IsRep t lr li LR Flr)
    (hdisjLLR : Disjoint Fll Flr) (hliLL : li ∉ Fll) (hliLR : li ∉ Flr)
    (hupRBC : up.RBC (S.bh + 1 + 1))
    (hLLrb : LL.RB) (hLRrb : LR.RB) (hLLbh : LL.bh = S.bh + 1)
    (hbhe : LL.bh = LR.bh)
    (hLLroot : LL.rootColor = Color.Black) (hLRroot : LR.rootColor = Color.Black)
    (hUFs : Disjoint Fup Fs) (hUFll : Disjoint Fup Fll) (hUFlr : Disjoint Fup Flr)
    (hFsFll : Disjoint Fs Fll) (hFsFlr : Disjoint Fs Flr)
    (hparU : par ∉ Fup) (hparFs : par ∉ Fs) (hparLL : par ∉ Fll)
    (hparLR : par ∉ Flr)
    (hliU : li ∉ Fup) (hliFs : li ∉ Fs) (hparli : par ≠ li) :
    ∀ t2 : RBTree, rotate_right t par = Except.ok t2 →
      DelPreBS (setColor (setColor t2 li Color.Black) par Color.Red) db par := by
  have hSib : IsRep t li par (ATree.node Color.Red LL ks vs LR)
      (insert li (Fll ∪ Flr)) :=
    IsRep.node li par Color.Red LL LR ks vs ll lr Fll Flr hli2 hrecL hLL hLR
      hdisjLLR hliLL hliLR
  have hdisjA : Disjoint (insert li (Fll ∪ Flr)) Fs := by
    refine Finset.disjoint_left.mpr fun a ha hm => ?_
    rcases Finset.mem_insert.mp ha with he | hm2
    · exact hliFs (he ▸ hm)
    · rcases Finset.mem_union.mp hm2 with hm3 | hm3
      · exact Finset.disjoint_left.mp hFsFll hm hm3
      · exact Finset.disjoint_left.mp hFsFlr hm hm3
  have hparB : par ∉ insert li (Fll ∪ Flr) := by
    intro hm
    rcases Finset.mem_insert.mp hm with he | hm2
    · exact hparli he
    · rcases Finset.mem_union.mp hm2 with hm3 | hm3
      · exact hparLL hm3
      · exact hparLR hm3
  have hSpar : IsRep t par pp
      (ATree.node Color.Black (ATree.node Color.Red LL ks vs LR) kp vp S)
      (insert par (insert li (Fll ∪ Flr) ∪ Fs)) :=
    IsRep.node par pp Color.Black _ S kp vp li db _ Fs hpar2 hrec hSib hS hdisjA
      hparB hparFs
  have hdisjBig : Disjoint Fup (insert par (insert li (Fll ∪ Flr) ∪ Fs)) := by
    refine Finset.disjoint_left.mpr fun a ha hm => ?_
    rcases Finset.mem_insert.mp hm with he | hm2
    · exact hparU (he ▸ ha)
    · rcases Finset.mem_union.mp hm2 with hm3 | hm3
      · rcases Finset.mem_insert.mp hm3 with he | hm4
        · exact hliU (he ▸ ha)
        · rcases Finset.mem_union.mp hm4 with hm5 | hm5
          · exact Finset.disjoint_left.mp hUFll ha hm5
          · exact Finset.disjoint_left.mp hUFlr ha hm5
      · exact Finset.disjoint_left.mp hUFs ha hm3
  obtain ⟨t5, l, hrun, hC2, hS2, hpay2, hcol2, hsent2, hfree2, hlen2, hre2,
    hpin1, hpin2⟩ := rotate_right_ctx hup hSpar hdisjBig hsent
  intro t2 h2
  rw [h2] at hrun
  injection hrun with ht5
  subst ht5
  have hlli : l = li := by rw [hre2, hrec]
  rw [hlli] at hC2 hS2 hpin1
  have hnb2 : nilBlack t2 := hnb.of_sameColors hcol2
  obtain ⟨hCa, hSa, hsenta⟩ := setColor_ctx hC2 hS2 hdisjBig hsent2 Color.Black
  obtain ⟨l5, r5, F5l, F5r, hli2b, hrecSa, hLL5, hInner, hdisj5, hn5l, hn5r, hFeq5⟩ :=
    hSa.node_inv
  have hr5 : r5 = par := by
    have hx : (getN (setColor t2 li Color.Black) li).right = par := by
      rw [getN_setColor_self]
      exact hpin1
    rw [hrecSa] at hx
    exact hx
  rw [hr5] at hrecSa hInner
  have hsubF5r : F5r ⊆ insert par (insert li (Fll ∪ Flr) ∪ Fs) := by
    intro j hj
    rw [hFeq5]
    exact Finset.mem_insert_of_mem (Finset.mem_union_right _ hj)
  have hsubF5l : F5l ⊆ insert par (insert li (Fll ∪ Flr) ∪ Fs) := by
    intro j hj
    rw [hFeq5]
    exact Finset.mem_insert_of_mem (Finset.mem_union_left _ hj)
  have hUF5l : Disjoint Fup F5l :=
    Finset.disjoint_left.mpr fun a ha hm =>
      Finset.disjoint_left.mp hdisjBig ha (hsubF5l hm)
  have hCpar : CtxRep (setColor t2 li Color.Black)
      (Ctx.inR up Color.Black ks vs LL) par li (insert li (Fup ∪ F5l)) :=
    CtxRep.inR up Color.Black ks vs LL li pp par l5 Fup F5l hCa hli2 hrecSa hLL5
      hUF5l hliU hn5l
  have hparF5r : par ∈ F5r := hInner.root_mem
  have hdisjI : Disjoint (insert li (Fup ∪ F5l)) F5r := by
    refine Finset.disjoint_left.mpr fun a ha hm => ?_
    rcases Finset.mem_insert.mp ha with he | hm2
    · exact hn5r (he ▸ hm)
    · rcases Finset.mem_union.mp hm2 with hm3 | hm3
      · exact Finset.disjoint_left.mp hdisjBig hm3 (hsubF5r hm)
      · exact Finset.disjoint_left.mp hdisj5 hm3 hm
  obtain ⟨hCfin, hSfin, hsent3⟩ := setColor_ctx hCpar hInner hdisjI hsenta Color.Red
  have hnb3 : nilBlack (setColor (setColor t2 li Color.Black) par Color.Red) :=
    (hnb2.write_ge2_nb hli2).write_ge2_nb hpar2
  obtain ⟨l6, r6, F6l, F6r, hpar2c, hrecFin, hLR6, hS6, hdisj6, hn6l, hn6r, hFeq6⟩ :=
    hSfin.node_inv
  have hr6 : r6 = db := by
    have hx : (getN (setColor (setColor t2 li Color.Black) par Color.Red) par).right
        = db := by
      rw [getN_setColor_self]
      show (getN (setColor t2 li Color.Black) par).right = db
      rw [getN_setColor_of_ne _ _ _ _ hparli]
      rw [hpin2, hrec]
    rw [hrecFin] at hx
    exact hx
  rw [hr6] at hrecFin hS6
  have hsubF6l : F6l ⊆ F5r := by
    intro j hj
    rw [hFeq6]
    exact Finset.mem_insert_of_mem (Finset.mem_union_left _ hj)
  have hsubF6r : F6r ⊆ F5r := by
    intro j hj
    rw [hFeq6]
    exact Finset.mem_insert_of_mem (Finset.mem_union_right _ hj)
  have hdisjY : Disjoint (insert li (Fup ∪ F5l)) F6l :=
    Finset.disjoint_left.mpr fun a ha hm =>
      Finset.disjoint_left.mp hdisjI ha (hsubF6l hm)
  have hparY : par ∉ insert li (Fup ∪ F5l) := by
    intro hm
    rcases Finset.mem_insert.mp hm with he | hm2
    · exact hparli he
    · rcases Finset.mem_union.mp hm2 with hm3 | hm3
      · exact hparU hm3
      · exact Finset.disjoint_left.mp hdisj5 hm3 hparF5r
  have hCdb : CtxRep (setColor (setColor t2 li Color.Black) par Color.Red)
      (Ctx.inR (Ctx.inR up Color.Black ks vs LL) Color.Red kp vp LR) db par
      (insert par (insert li (Fup ∪ F5l) ∪ F6l)) :=
    CtxRep.inR (Ctx.inR up Color.Black ks vs LL) Color.Red kp vp LR par li db l6
      (insert li (Fup ∪ F5l)) F6l hCfin hpar2 hrecFin hLR6 hdisjY hparY hn6l
  have hdisjFin : Disjoint (insert par (insert li (Fup ∪ F5l) ∪ F6l)) F6r := by
    refine Finset.disjoint_left.mpr fun a ha hm => ?_
    rcases Finset.mem_insert.mp ha with he | hm2
    · exact hn6r (he ▸ hm)
    · rcases Finset.mem_union.mp hm2 with hm3 | hm3
      · exact Finset.disjoint_left.mp hdisjI hm3 (hsubF6r hm)
      · exact Finset.disjoint_left.mp hdisj6 hm3 hm
  have hLRbh : LR.bh = S.bh + 1 := by omega
  have hRBCnew :
      (Ctx.inR (Ctx.inR up Color.Black ks vs LL) Color.Red kp vp LR).RBC
        (S.bh + 1) := by
    refine ⟨hLRrb, hLRbh, ?_, fun _ => ⟨hLRroot, rfl⟩⟩
    exact ⟨hLLrb, hLLbh, hupRBC, fun hcon => nomatch hcon⟩
  exact ⟨Ctx.inR (Ctx.inR up Color.Black ks vs LL) Color.Red kp vp LR, S,
    insert par (insert li (Fup ∪ F5l) ∪ F6l), F6r,
    hsent3, hnb3, hCdb, hS6, hdisjFin, hRBCnew, hRBx,
    inR_ne_top, hSroot, hLRroot⟩

set_option maxHeartbeats 3200000 in
/-- Neither `remove_fixup` nor `remove_fixup_black_sibling` ever returns a
rotation fault under the deletion-fixup preconditions: every rotation either
is guarded by the code's own nil check, or happens at a node whose required
child is forced live by the red-black bookkeeping. -/
theorem remove_fixup_nrf_all : ∀ fuel : Nat,
    (∀ (t : RBTree) (db par : Nat), DelPre t db par →
      ¬ rotFault (remove_fixup t db par fuel)) ∧
    (∀ (t : RBTree) (db par : Nat), DelPreBS t db par →
      ¬ rotFault (remove_fixup_black_sibling t db par fuel)) := by
  intro fuel
  induction fuel with
  | zero =>
    constructor
    · intro t db par _
      simp only [remove_fixup]
      exact rotFault_fuel
    · intro t db par _
      simp only [remove_fixup_black_sibling]
      exact rotFault_fuel
  | succ f ih =>
    obtain ⟨ihA, ihB⟩ := ih
    constructor
    · -- `remove_fixup`
      intro t db par hpre
      obtain ⟨C, S, Fc, Fs, hsent, hnb, hC, hS, hdisj, hRBC, hRBx⟩ := hpre
      simp only [remove_fixup]
      split
      · exact rotFault_ok
      · rename_i hterm
        have hph : ¬ isHeader par := fun hx => hterm (Or.inl hx)
        have hdbcol : ¬ (getN t db).color = Color.Red := fun hx => hterm (Or.inr hx)
        have hSroot : S.rootColor = Color.Black := by
          rcases color_cases S.rootColor with hc | hc
          · exact absurd ((hS.stored_color hnb).trans hc) hdbcol
          · exact hc
        have hCtop : C ≠ Ctx.top := by
          intro hcon
          subst hcon
          exact hph (show isHeader par from hC.top_inv.1)
        obtain ⟨hsibRB, hsibBH⟩ := rbc_sibT hCtop hRBC
        have hsibne : C.sibT ≠ ATree.nil := by
          intro hcon
          rw [hcon] at hsibBH
          have h1 : (1 : Nat) = S.bh + 1 := hsibBH
          have h2 := ATree.bh_pos S
          omega
        obtain ⟨sr, Frs, hscomp, hsrRep, hsrSub, hsr2⟩ :=
          sibling_of_nil_rep hC hS hdisj hCtop hsibne
        refine rotFault_bind (sibling_of_nil_nrf t par db) fun sib hsib => ?_
        rw [hscomp] at hsib
        injection hsib with hsibeq
        subst hsibeq
        split
        · exact rotFault_abort (by decide) (by decide)
        · rename_i hs0
          split
          · -- Black sibling
            rename_i hsibB
            refine ihB t db par ⟨C, S, Fc, Fs, hsent, hnb, hC, hS, hdisj, hRBC,
              hRBx, hCtop, hSroot, ?_⟩
            exact (hsrRep.stored_color hnb).symm.trans hsibB
          · -- Red sibling: rotate at the parent and reduce
            rename_i hsibRed
            have hsibTred : C.sibT.rootColor = Color.Red :=
              (hsrRep.stored_color hnb).symm.trans hsibRed
            have hdb0 : db = 0 ∨ db ∈ Fs := hS.ptr_zero_or_mem
            cases C with
            | top => exact absurd rfl hCtop
            | inL up cp kp vp R =>
              obtain ⟨pp, ri, Fup, Frr0, hup, hpar2, hrec, hRfull, hdisjUR, hiU,
                hiR2, hFc⟩ := hC.inL_inv
              obtain ⟨hRrb, hRbh, hupRBC, hredc⟩ := hRBC
              have hRnil : R ≠ ATree.nil := hsibne
              cases R with
              | nil => exact absurd rfl hRnil
              | node cr RL ks vs RR =>
                have hcr : cr = Color.Red := hsibTred
                subst hcr
                have hcp : cp = Color.Black := by
                  rcases color_cases cp with hcpR | hcpB
                  · have hx : Color.Red = Color.Black := (hredc hcpR).1
                    cases hx
                  · exact hcpB
                subst hcp
                obtain ⟨rl, rr, Frl, Frr2, hri2, hrecR, hRL, hRR, hdisjRLRR, hriRL,
                  hriRR, hFrr0⟩ := hRfull.node_inv
                obtain ⟨hRLrb, hRRrb, hbhe, hredR⟩ := hRrb
                have hRLbh : RL.bh = S.bh + 1 := by
                  have hx : RL.bh + 0 = S.bh + 1 := hRbh
                  omega
                have hupRBC2 : up.RBC (S.bh + 1 + 1) := by
                  have hx := hupRBC
                  rw [if_pos rfl] at hx
                  exact hx
                have hpos0 : get_parent_node_position t par db =
                    Except.ok NodePosition.Left := by
                  unfold get_parent_node_position
                  rw [if_neg hph, hrec]
                  show (if db = db then _ else _) = _
                  rw [if_pos rfl]
                have hcomp2 : sibling_of_nil t par db = Except.ok ri := by
                  unfold sibling_of_nil
                  rw [if_neg hph, hpos0, ok_bind]
                  show Except.ok (getN t par).right = _
                  rw [hrec]
                have hsr : sr = ri := by
                  rw [hcomp2] at hscomp
                  injection hscomp with hx
                  exact hx.symm
                rw [← hsr] at hrec hrecR hRL hRR hriRL hriRR hFrr0
                have hsubU : Fup ⊆ Fc := by
                  intro j hj
                  rw [hFc]
                  exact Finset.mem_insert_of_mem (Finset.mem_union_left _ hj)
                have hsubR : Frr0 ⊆ Fc := by
                  intro j hj
                  rw [hFc]
                  exact Finset.mem_insert_of_mem (Finset.mem_union_right _ hj)
                have hparFc : par ∈ Fc := by
                  rw [hFc]
                  exact Finset.mem_insert_self _ _
                have hparFs : par ∉ Fs := fun hm =>
                  Finset.disjoint_left.mp hdisj hparFc hm
                have hsrFrr0 : sr ∈ Frr0 := by
                  rw [hFrr0]
                  exact Finset.mem_insert_self _ _
                have hsubRL : Frl ⊆ Frr0 := by
                  intro j hj
                  rw [hFrr0]
                  exact Finset.mem_insert_of_mem (Finset.mem_union_left _ hj)
                have hsubRR : Frr2 ⊆ Frr0 := by
                  intro j hj
                  rw [hFrr0]
                  exact Finset.mem_insert_of_mem (Finset.mem_union_right _ hj)
                have hUFs : Disjoint Fup Fs :=
                  Finset.disjoint_left.mpr fun a ha hm =>
                    Finset.disjoint_left.mp hdisj (hsubU ha) hm
                have hUFrl : Disjoint Fup Frl :=
                  Finset.disjoint_left.mpr fun a ha hm =>
                    Finset.disjoint_left.mp hdisjUR ha (hsubRL hm)
                have hUFrr : Disjoint Fup Frr2 :=
                  Finset.disjoint_left.mpr fun a ha hm =>
                    Finset.disjoint_left.mp hdisjUR ha (hsubRR hm)
                have hFsFrl : Disjoint Fs Frl :=
                  Finset.disjoint_left.mpr fun a ha hm =>
                    Finset.disjoint_left.mp hdisj (hsubR (hsubRL hm)) ha
                have hFsFrr : Disjoint Fs Frr2 :=
                  Finset.disjoint_left.mpr fun a ha hm =>
                    Finset.disjoint_left.mp hdisj (hsubR (hsubRR hm)) ha
                have hparRL : par ∉ Frl := fun hm => hiR2 (hsubRL hm)
                have hparRR : par ∉ Frr2 := fun hm => hiR2 (hsubRR hm)
                have hsrU : sr ∉ Fup := fun hm =>
                  Finset.disjoint_left.mp hdisjUR hm hsrFrr0
                have hsrFs : sr ∉ Fs := fun hm =>
                  Finset.disjoint_left.mp hdisj (hsubR hsrFrr0) hm
                have hparsr : par ≠ sr := fun he => hiR2 (he ▸ hsrFrr0)
                have hposval : get_parent_node_position t par sr =
                    Except.ok NodePosition.Right := by
                  unfold get_parent_node_position
                  rw [if_neg hph, hrec]
                  have hdbsr : ¬ db = sr := by
                    rcases hdb0 with h0 | hm
                    · omega
                    · intro he
                      exact hsrFs (he ▸ hm)
                  show (if db = sr then _ else if sr = sr then _ else _) = _
                  rw [if_neg hdbsr, if_pos rfl]
                refine rotFault_bind (get_parent_node_position_nrf t par sr)
                  fun pos hpos => ?_
                rw [hposval] at hpos
                injection hpos with hposeq
                subst hposeq
                refine rotFault_bind (rotate_left_nrf (show
                  ¬ isNil (getN t par).right from by
                    rw [hrec]
                    show ¬ isNil sr
                    unfold isNil nilIdx
                    omega)) fun t2 h2 => ?_
                refine rotFault_bind (sibling_of_nil_nrf _ _ _) fun ns hns => ?_
                split
                · exact rotFault_abort (by decide) (by decide)
                · exact ihB _ db par (red_sib_inL hsent hnb hup hpar2 hrec hS
                    hSroot hRBx hsr2 hrecR hRL hRR hdisjRLRR hriRL hriRR hupRBC2
                    hRLrb hRRrb hRLbh hbhe (hredR rfl).1 (hredR rfl).2
                    hUFs hUFrl hUFrr hFsFrl hFsFrr hiU hparFs hparRL hparRR
                    hsrU hsrFs hparsr t2 h2)
            | inR up cp kp vp L =>
              obtain ⟨pp, li, Fup, Fl0, hup, hpar2, hrec, hLfull, hdisjUL, hiU,
                hiL2, hFc⟩ := hC.inR_inv
              obtain ⟨hLrb, hLbh, hupRBC, hredc⟩ := hRBC
              have hLnil : L ≠ ATree.nil := hsibne
              cases L with
              | nil => exact absurd rfl hLnil
              | node cl LL ks vs LR =>
                have hcl : cl = Color.Red := hsibTred
                subst hcl
                have hcp : cp = Color.Black := by
                  rcases color_cases cp with hcpR | hcpB
                  · have hx : Color.Red = Color.Black := (hredc hcpR).1
                    cases hx
                  · exact hcpB
                subst hcp
                obtain ⟨ll, lr, Fll, Flr, hli2, hrecL, hLL, hLR, hdisjLLR, hliLL,
                  hliLR, hFl0⟩ := hLfull.node_inv
                obtain ⟨hLLrb, hLRrb, hbhe, hredL⟩ := hLrb
                have hLLbh : LL.bh = S.bh + 1 := by
                  have hx : LL.bh + 0 = S.bh + 1 := hLbh
                  omega
                have hupRBC2 : up.RBC (S.bh + 1 + 1) := by
                  have hx := hupRBC
                  rw [if_pos rfl] at hx
                  exact hx
                have hliFl0 : li ∈ Fl0 := by
                  rw [hFl0]
                  exact Finset.mem_insert_self _ _
                have hsubL : Fl0 ⊆ Fc := by
                  intro j hj
                  rw [hFc]
                  exact Finset.mem_insert_of_mem (Finset.mem_union_right _ hj)
                have hlidb : ¬ li = db := by
                  rcases hdb0 with h0 | hm
                  · omega
                  · intro he
                    exact Finset.disjoint_left.mp hdisj (hsubL hliFl0) (he ▸ hm)
                have hpos0 : get_parent_node_position t par db =
                    Except.ok NodePosition.Right := by
                  unfold get_parent_node_position
                  rw [if_neg hph, hrec]
                  show (if li = db then _ else if db = db then _ else _) = _
                  rw [if_neg hlidb, if_pos rfl]
                have hcomp2 : sibling_of_nil t par db = Except.ok li := by
                  unfold sibling_of_nil
                  rw [if_neg hph, hpos0, ok_bind]
                  show Except.ok (getN t par).left = _
                  rw [hrec]
                have hsr : sr = li := by
                  rw [hcomp2] at hscomp
                  injection hscomp with hx
                  exact hx.symm
                rw [← hsr] at hrec hrecL hLL hLR hliLL hliLR hFl0
                have hsubU : Fup ⊆ Fc := by
                  intro j hj
                  rw [hFc]
                  exact Finset.mem_insert_of_mem (Finset.mem_union_left _ hj)
                have hparFc : par ∈ Fc := by
                  rw [hFc]
                  exact Finset.mem_insert_self _ _
                have hparFs : par ∉ Fs := fun hm =>
                  Finset.disjoint_left.mp hdisj hparFc hm
                have hsrFl0 : sr ∈ Fl0 := by
                  rw [hFl0]
                  exact Finset.mem_insert_self _ _
                have hsubLL : Fll ⊆ Fl0 := by
                  intro j hj
                  rw [hFl0]
                  exact Finset.mem_insert_of_mem (Finset.mem_union_left _ hj)
                have hsubLR : Flr ⊆ Fl0 := by
                  intro j hj
                  rw [hFl0]
                  exact Finset.mem_insert_of_mem (Finset.mem_union_right _ hj)
                have hUFs : Disjoint Fup Fs :=
                  Finset.disjoint_left.mpr fun a ha hm =>
                    Finset.disjoint_left.mp hdisj (hsubU ha) hm
                have hUFll : Disjoint Fup Fll :=
                  Finset.disjoint_left.mpr fun a ha hm =>
                    Finset.disjoint_left.mp hdisjUL ha (hsubLL hm)
                have hUFlr : Disjoint Fup Flr :=
                  Finset.disjoint_left.mpr fun a ha hm =>
                    Finset.disjoint_left.mp hdisjUL ha (hsubLR hm)
                have hFsFll : Disjoint Fs Fll :=
                  Finset.disjoint_left.mpr fun a ha hm =>
                    Finset.disjoint_left.mp hdisj (hsubL (hsubLL hm)) ha
                have hFsFlr : Disjoint Fs Flr :=
                  Finset.disjoint_left.mpr fun a ha hm =>
                    Finset.disjoint_left.mp hdisj (hsubL (hsubLR hm)) ha
                have hparLL : par ∉ Fll := fun hm => hiL2 (hsubLL hm)
                have hparLR : par ∉ Flr := fun hm => hiL2 (hsubLR hm)
                have hsrU : sr ∉ Fup := fun hm =>
                  Finset.disjoint_left.mp hdisjUL hm hsrFl0
                have hsrFs : sr ∉ Fs := fun hm =>
                  Finset.disjoint_left.mp hdisj (hsubL hsrFl0) hm
                have hparsr : par ≠ sr := fun he => hiL2 (he ▸ hsrFl0)
                have hposval : get_parent_node_position t par sr =
                    Except.ok NodePosition.Left := by
                  unfold get_parent_node_position
                  rw [if_neg hph, hrec]
                  show (if sr = sr then _ else _) = _
                  rw [if_pos rfl]
                refine rotFault_bind (get_parent_node_position_nrf t par sr)
                  fun pos hpos => ?_
                rw [hposval] at hpos
                injection hpos with hposeq
                subst hposeq
                refine rotFault_bind (rotate_right_nrf (show
                  ¬ isNil (getN t par).left from by
                    rw [hrec]
                    show ¬ isNil sr
                    unfold isNil nilIdx
                    omega)) fun t2 h2 => ?_
                refine rotFault_bind (sibling_of_nil_nrf _ _ _) fun ns hns => ?_
                split
                · exact rotFault_abort (by decide) (by decide)
                · exact ihB _ db par (red_sib_inR hsent hnb hup hpar2 hrec hS
                    hSroot hRBx hsr2 hrecL hLL hLR hdisjLLR hliLL hliLR hupRBC2
                    hLLrb hLRrb hLLbh hbhe (hredL rfl).1 (hredL rfl).2
                    hUFs hUFll hUFlr hFsFll hFsFlr hiU hparFs hparLL hparLR
                    hsrU hsrFs hparsr t2 h2)
    · -- `remove_fixup_black_sibling`
      intro t db par hpre
      obtain ⟨C, S, Fc, Fs, hsent, hnb, hC, hS, hdisj, hRBC, hRBx, hCtop, hSroot,
        hsibTB⟩ := hpre
      simp only [remove_fixup_black_sibling]
      have hdb0 : db = 0 ∨ db ∈ Fs := hS.ptr_zero_or_mem
      cases C with
      | top => exact absurd rfl hCtop
      | inL up cp kp vp R =>
        obtain ⟨pp, ri, Fup, Frr0, hup, hpar2, hrec, hRfull, hdisjUR, hiU, hiR2,
          hFc⟩ := hC.inL_inv
        obtain ⟨hRrb, hRbh, hupRBC, hredc⟩ := hRBC
        have hph : ¬ isHeader par := by unfold isHeader headerIdx; omega
        have hRnil : R ≠ ATree.nil := by
          intro hcon
          rw [hcon] at hRbh
          have h1 : (1 : Nat) = S.bh + 1 := hRbh
          have h2 := ATree.bh_pos S
          omega
        cases R with
        | nil => exact absurd rfl hRnil
        | node cb RL ks vs RR =>
          have hcb : cb = Color.Black := hsibTB
          subst hcb
          obtain ⟨rl, rr, Frl, Frr2, hri2, hrecR, hRL, hRR, hdisjRLRR, hriRL,
            hriRR, hFrr0⟩ := hRfull.node_inv
          obtain ⟨hRLrb, hRRrb, hbhe, _⟩ := hRrb
          have hRLbh : RL.bh = S.bh := by
            have hx : RL.bh + 1 = S.bh + 1 := hRbh
            omega
          have hpos0 : get_parent_node_position t par db =
              Except.ok NodePosition.Left := by
            unfold get_parent_node_position
            rw [if_neg hph, hrec]
            show (if db = db then _ else _) = _
            rw [if_pos rfl]
          have hcomp2 : sibling_of_nil t par db = Except.ok ri := by
            unfold sibling_of_nil
            rw [if_neg hph, hpos0, ok_bind]
            show Except.ok (getN t par).right = _
            rw [hrec]
          have hsubU : Fup ⊆ Fc := by
            intro j hj
            rw [hFc]
            exact Finset.mem_insert_of_mem (Finset.mem_union_left _ hj)
          have hsubR : Frr0 ⊆ Fc := by
            intro j hj
            rw [hFc]
            exact Finset.mem_insert_of_mem (Finset.mem_union_right _ hj)
          have hparFc : par ∈ Fc := by
            rw [hFc]
            exact Finset.mem_insert_self _ _
          have hparFs : par ∉ Fs := fun hm =>
            Finset.disjoint_left.mp hdisj hparFc hm
          have hriFrr0 : ri ∈ Frr0 := by
            rw [hFrr0]
            exact Finset.mem_insert_self _ _
          have hsubRL : Frl ⊆ Frr0 := by
            intro j hj
            rw [hFrr0]
            exact Finset.mem_insert_of_mem (Finset.mem_union_left _ hj)
          have hsubRR : Frr2 ⊆ Frr0 := by
            intro j hj
            rw [hFrr0]
            exact Finset.mem_insert_of_mem (Finset.mem_union_right _ hj)
          have hUFs : Disjoint Fup Fs :=
            Finset.disjoint_left.mpr fun a ha hm =>
              Finset.disjoint_left.mp hdisj (hsubU ha) hm
          have hUFrl : Disjoint Fup Frl :=
            Finset.disjoint_left.mpr fun a ha hm =>
              Finset.disjoint_left.mp hdisjUR ha (hsubRL hm)
          have hUFrr : Disjoint Fup Frr2 :=
            Finset.disjoint_left.mpr fun a ha hm =>
              Finset.disjoint_left.mp hdisjUR ha (hsubRR hm)
          have hFsFrl : Disjoint Fs Frl :=
            Finset.disjoint_left.mpr fun a ha hm =>
              Finset.disjoint_left.mp hdisj (hsubR (hsubRL hm)) ha
          have hFsFrr : Disjoint Fs Frr2 :=
            Finset.disjoint_left.mpr fun a ha hm =>
              Finset.disjoint_left.mp hdisj (hsubR (hsubRR hm)) ha
          have hparRL : par ∉ Frl := fun hm => hiR2 (hsubRL hm)
          have hparRR : par ∉ Frr2 := fun hm => hiR2 (hsubRR hm)
          have hriU : ri ∉ Fup := fun hm =>
            Finset.disjoint_left.mp hdisjUR hm hriFrr0
          have hriFs : ri ∉ Fs := fun hm =>
            Finset.disjoint_left.mp hdisj (hsubR hriFrr0) hm
          have hparri : par ≠ ri := fun he => hiR2 (he ▸ hriFrr0)
          refine rotFault_bind (sibling_of_nil_nrf t par db) fun sib hsib => ?_
          rw [hcomp2] at hsib
          injection hsib with hsibeq
          subst hsibeq
          refine rotFault_bind (get_parent_node_position_nrf t par db)
            fun pos hpos => ?_
          rw [hpos0] at hpos
          injection hpos with hposeq
          subst hposeq
          refine rotFault_bind rotFault_ok fun fn hfn => ?_
          have hfn' : Except.ok ((getN t ri).right, (getN t ri).left) =
              Except.ok fn := hfn
          injection hfn' with hfneq
          have hfn1 : fn.1 = rr := by
            rw [← hfneq]
            show (getN t ri).right = rr
            rw [hrecR]
          have hfn2 : fn.2 = rl := by
            rw [← hfneq]
            show (getN t ri).left = rl
            rw [hrecR]
          rw [hfn1, hfn2]
          split
          · -- two Black nephews: push the double black to the parent
            rename_i heqF heqN
            have hdbri : db ≠ ri := by
              rcases hdb0 with h0 | hm
              · omega
              · intro he
                exact Finset.disjoint_left.mp hdisj
                  (show db ∈ Fc from by rw [he]; exact hsubR hriFrr0) hm
            have hdbB : (getN (setColor t ri Color.Red) db).color =
                Color.Black := by
              rw [getN_setColor_of_ne _ _ _ _ hdbri]
              exact (hS.stored_color hnb).trans hSroot
            have ht3 : setColor (setColor t ri Color.Red) db Color.Black =
                setColor t ri Color.Red := by
              show setN (setColor t ri Color.Red) db
                { getN (setColor t ri Color.Red) db with color := Color.Black } =
                setColor t ri Color.Red
              exact setN_eq_self (RBNode.recolor_self hdbB).symm
            rw [ht3]
            have hppeq : (getN (setColor t ri Color.Red) par).parent = pp := by
              rw [getN_setColor_of_ne _ _ _ _ hparri, hrec]
            rw [hppeq]
            exact ihA _ par pp (bb_step_inL hsent hnb hup hpar2 hrec hS
              (rb_of_rbx_black hRBx hSroot) hri2 hrecR hRL hRR hdisjRLRR hriRL
              hriRR hupRBC hRLrb hRRrb hRLbh hbhe
              ((hRL.stored_color hnb).symm.trans heqN)
              ((hRR.stored_color hnb).symm.trans heqF)
              hUFs hUFrl hUFrr hFsFrl hFsFrr hiU hparFs hparRL hparRR hriU hriFs
              hparri)
          · -- Red far nephew
            exact remove_fixup_far_red_nephew_nrf t db rr hph
              (show ¬ isNil ri from by unfold isNil nilIdx; omega)
          · -- Red near nephew: rotate it above the sibling first
            rename_i heqF heqN
            have hrl0 : ¬ isNil rl := by
              intro h0
              unfold isNil nilIdx at h0
              rw [h0] at heqN
              have hx : (getN t 0).color = Color.Black := hnb
              rw [hx] at heqN
              cases heqN
            refine rotFault_bind (get_parent_node_position_nrf t ri rl)
              fun pos2 hpos2 => ?_
            rcases get_parent_node_position_ok hpos2 with
              ⟨hhd, _⟩ | ⟨_, ⟨hpl, hll⟩ | ⟨hpr, hlr⟩⟩
            · exfalso
              unfold headerIdx at hhd
              omega
            · subst hpl
              refine rotFault_bind (rotate_right_nrf (by rw [hll]; exact hrl0))
                fun t4 h4 => ?_
              exact remove_fixup_far_red_nephew_nrf _ db ri hph hrl0
            · subst hpr
              refine rotFault_bind (rotate_left_nrf (by rw [hlr]; exact hrl0))
                fun t4 h4 => ?_
              exact remove_fixup_far_red_nephew_nrf _ db ri hph hrl0
      | inR up cp kp vp L =>
        obtain ⟨pp, li, Fup, Fl0, hup, hpar2, hrec, hLfull, hdisjUL, hiU, hiL2,
          hFc⟩ := hC.inR_inv
        obtain ⟨hLrb, hLbh, hupRBC, hredc⟩ := hRBC
        have hph : ¬ isHeader par := by unfold isHeader headerIdx; omega
        have hLnil : L ≠ ATree.nil := by
          intro hcon
          rw [hcon] at hLbh
          have h1 : (1 : Nat) = S.bh + 1 := hLbh
          have h2 := ATree.bh_pos S
          omega
        cases L with
        | nil => exact absurd rfl hLnil
        | node cb LL ks vs LR =>
          have hcb : cb = Color.Black := hsibTB
          subst hcb
          obtain ⟨ll, lr, Fll, Flr, hli2, hrecL, hLL, hLR, hdisjLLR, hliLL,
            hliLR, hFl0⟩ := hLfull.node_inv
          obtain ⟨hLLrb, hLRrb, hbhe, _⟩ := hLrb
          have hLLbh : LL.bh = S.bh := by
            have hx : LL.bh + 1 = S.bh + 1 := hLbh
            omega
          have hliFl0 : li ∈ Fl0 := by
            rw [hFl0]
            exact Finset.mem_insert_self _ _
          have hsubL : Fl0 ⊆ Fc := by
            intro j hj
            rw [hFc]
            exact Finset.mem_insert_of_mem (Finset.mem_union_right _ hj)
          have hlidb : ¬ li = db := by
            rcases hdb0 with h0 | hm
            · omega
            · intro he
              exact Finset.disjoint_left.mp hdisj (hsubL hliFl0) (he ▸ hm)
          have hpos0 : get_parent_node_position t par db =
              Except.ok NodePosition.Right := by
            unfold get_parent_node_position
            rw [if_neg hph, hrec]
            show (if li = db then _ else if db = db then _ else _) = _
            rw [if_neg hlidb, if_pos rfl]
          have hcomp2 : sibling_of_nil t par db = Except.ok li := by
            unfold sibling_of_nil
            rw [if_neg hph, hpos0, ok_bind]
            show Except.ok (getN t par).left = _
            rw [hrec]
          have hsubU : Fup ⊆ Fc := by
            intro j hj
            rw [hFc]
            exact Finset.mem_insert_of_mem (Finset.mem_union_left _ hj)
          have hparFc : par ∈ Fc := by
            rw [hFc]
            exact Finset.mem_insert_self _ _
          have hparFs : par ∉ Fs := fun hm =>
            Finset.disjoint_left.mp hdisj hparFc hm
          have hsubLL : Fll ⊆ Fl0 := by
            intro j hj
            rw [hFl0]
            exact Finset.mem_insert_of_mem (Finset.mem_union_left _ hj)
          have hsubLR : Flr ⊆ Fl0 := by
            intro j hj
            rw [hFl0]
            exact Finset.mem_insert_of_mem (Finset.mem_union_right _ hj)
          have hUFs : Disjoint Fup Fs :=
            Finset.disjoint_left.mpr fun a ha hm =>
              Finset.disjoint_left.mp hdisj (hsubU ha) hm
          have hUFll : Disjoint Fup Fll :=
            Finset.disjoint_left.mpr fun a ha hm =>
              Finset.disjoint_left.mp hdisjUL ha (hsubLL hm)
          have hUFlr : Disjoint Fup Flr :=
            Finset.disjoint_left.mpr fun a ha hm =>
              Finset.disjoint_left.mp hdisjUL ha (hsubLR hm)
          have hFsFll : Disjoint Fs Fll :=
            Finset.disjoint_left.mpr fun a ha hm =>
              Finset.disjoint_left.mp hdisj (hsubL (hsubLL hm)) ha
          have hFsFlr : Disjoint Fs Flr :=
            Finset.disjoint_left.mpr fun a ha hm =>
              Finset.disjoint_left.mp hdisj (hsubL (hsubLR hm)) ha
          have hparLL : par ∉ Fll := fun hm => hiL2 (hsubLL hm)
          have hparLR : par ∉ Flr := fun hm => hiL2 (hsubLR hm)
          have hliU : li ∉ Fup := fun hm =>
            Finset.disjoint_left.mp hdisjUL hm hliFl0
          have hliFs : li ∉ Fs := fun hm =>
            Finset.disjoint_left.mp hdisj (hsubL hliFl0) hm
          have hparli : par ≠ li := fun he => hiL2 (he ▸ hliFl0)
          refine rotFault_bind (sibling_of_nil_nrf t par db) fun sib hsib => ?_
          rw [hcomp2] at hsib
          injection hsib with hsibeq
          subst hsibeq
          refine rotFault_bind (get_parent_node_position_nrf t par db)
            fun pos hpos => ?_
          rw [hpos0] at hpos
          injection hpos with hposeq
          subst hposeq
          refine rotFault_bind rotFault_ok fun fn hfn => ?_
          have hfn' : Except.ok ((getN t li).left, (getN t li).right) =
              Except.ok fn := hfn
          injection hfn' with hfneq
          have hfn1 : fn.1 = ll := by
            rw [← hfneq]
            show (getN t li).left = ll
            rw [hrecL]
          have hfn2 : fn.2 = lr := by
            rw [← hfneq]
            show (getN t li).right = lr
            rw [hrecL]
          rw [hfn1, hfn2]
          split
          · -- two Black nephews
            rename_i heqF heqN
            have hdbli : db ≠ li := fun he => hlidb he.symm
            have hdbB : (getN (setColor t li Color.Red) db).color =
                Color.Black := by
              rw [getN_setColor_of_ne _ _ _ _ hdbli]
              exact (hS.stored_color hnb).trans hSroot
            have ht3 : setColor (setColor t li Color.Red) db Color.Black =
                setColor t li Color.Red := by
              show setN (setColor t li Color.Red) db
                { getN (setColor t li Color.Red) db with color := Color.Black } =
                setColor t li Color.Red
              exact setN_eq_self (RBNode.recolor_self hdbB).symm
            rw [ht3]
            have hppeq : (getN (setColor t li Color.Red) par).parent = pp := by
              rw [getN_setColor_of_ne _ _ _ _ hparli, hrec]
            rw [hppeq]
            exact ihA _ par pp (bb_step_inR hsent hnb hup hpar2 hrec hS
              (rb_of_rbx_black hRBx hSroot) hli2 hrecL hLL hLR hdisjLLR hliLL
              hliLR hupRBC hLLrb hLRrb hLLbh hbhe
              ((hLL.stored_color hnb).symm.trans heqF)
              ((hLR.stored_color hnb).symm.trans heqN)
              hUFs hUFll hUFlr hFsFll hFsFlr hiU hparFs hparLL hparLR hliU hliFs
              hparli)
          · -- Red far nephew
            exact remove_fixup_far_red_nephew_nrf t db ll hph
              (show ¬ isNil li from by unfold isNil nilIdx; omega)
          · -- Red near nephew
            rename_i heqF heqN
            have hlr0 : ¬ isNil lr := by
              intro h0
              unfold isNil nilIdx at h0
              rw [h0] at heqN
              have hx : (getN t 0).color = Color.Black := hnb
              rw [hx] at heqN
              cases heqN
            refine rotFault_bind (get_parent_node_position_nrf t li lr)
              fun pos2 hpos2 => ?_
            rcases get_parent_node_position_ok hpos2 with
              ⟨hhd, _⟩ | ⟨_, ⟨hpl, hll2⟩ | ⟨hpr, hlr2⟩⟩
            · exfalso
              unfold headerIdx at hhd
              omega
            · subst hpl
              refine rotFault_bind (rotate_right_nrf (by rw [hll2]; exact hlr0))
                fun t4 h4 => ?_
              exact remove_fixup_far_red_nephew_nrf _ db li hph hlr0
            · subst hpr
              refine rotFault_bind (rotate_left_nrf (by rw [hlr2]; exact hlr0))
                fun t4 h4 => ?_
              exact remove_fixup_far_red_nephew_nrf _ db li hph hlr0

/-- Claim C8: `rotate_left` on a node whose right child is the nil sentinel,
and `rotate_right` on a node whose left child is the nil sentinel, abort with
the corresponding programming-error panic instead of returning a tree.
Moreover, under the preconditions maintained by the fixups, these fault
branches are never reached: on a represented tree `insert_fixup` never
returns either rotation abort, and under the classical deletion-fixup
invariant (`DelPre`) neither does `remove_fixup`, at any fuel. -/
theorem claim_C8 (t : RBTree) (n m : Nat)
    (hn : (getN t n).right = nilIdx) (hm : (getN t m).left = nilIdx) :
    rotate_left t n =
        Except.error (Fault.abort "node without right child cannot rotate left") ∧
      rotate_right t m =
        Except.error (Fault.abort "node without left child cannot rotate right") ∧
      (∀ (t1 : RBTree) (T : ATree) (F : Finset Nat) (rn fuel : Nat),
        TreeRep t1 T F → (rn ∈ F ∨ rn = nilIdx) →
        ¬ rotFault (insert_fixup t1 rn fuel)) ∧
      (∀ (t1 : RBTree) (db par fuel : Nat),
        DelPre t1 db par → ¬ rotFault (remove_fixup t1 db par fuel)) := by
  refine ⟨?_, ?_, ?_, ?_⟩
  · unfold rotate_left
    rw [hn]
    rfl
  · unfold rotate_right
    rw [hm]
    rfl
  · intro t1 T F rn fuel h hrn
    exact insert_fixup_nrf fuel t1 T F rn h hrn
  · intro t1 db par fuel h
    exact (remove_fixup_nrf_all fuel).1 t1 db par h

/-- Witness for claim C8 at the freshly constructed empty tree: the nil
sentinel has nil children on both sides, so both rotations abort on it; the
never-reached conjuncts are closed and carried over as stated. -/
theorem claim_C8_witness :
    rotate_left RBTree.new nilIdx =
        Except.error (Fault.abort "node without right child cannot rotate left") ∧
      rotate_right RBTree.new nilIdx =
        Except.error (Fault.abort "node without left child cannot rotate right") ∧
      (∀ (t1 : RBTree) (T : ATree) (F : Finset Nat) (rn fuel : Nat),
        TreeRep t1 T F → (rn ∈ F ∨ rn = nilIdx) →
        ¬ rotFault (insert_fixup t1 rn fuel)) ∧
      (∀ (t1 : RBTree) (db par fuel : Nat),
        DelPre t1 db par → ¬ rotFault (remove_fixup t1 db par fuel)) :=
  claim_C8 RBTree.new nilIdx nilIdx rfl rfl

end RBT
